import Mathlib

/-!
A verification development for the tcs-engine finite-automaton library.

The JavaScript source represents an automaton as a mutable object graph:
`State` objects with `name`/`start`/`final` fields (plus a `marked` flag used
by graph traversals), `Edge` objects holding references to their source and
sink states and a one-character `symbol` (generalized automata additionally
attach a regular-expression label `re` to each edge), and an `Automaton`
owning a `states` set, a `stateNameMap` from names to states, an `edges` set
and a derived `deltaMap` index.

The shallow embedding below gives every state a numeric identity (`id`,
allocation order), mirroring JavaScript object identity; `states` and
`edges` are lists in insertion order (JavaScript `Set` iteration order);
`stateNameMap` is an association list with JavaScript `Map` semantics
(`set` overwrites in place or appends, `delete` removes, insertion order);
the `deltaMap` index is recomputed from the edge list, which the source
keeps consistent with it on every mutation.  Names and words are `List Char`.
Calls that would crash in JavaScript (looking up a state that does not
exist, adding an edge with a symbol outside the alphabet) are modelled as
no-ops here; every theorem carries hypotheses keeping all calls inside the
crash-free domain, except where the crash itself is the subject, in which
case the function returns `Except`.
-/

namespace TCS

abbrev Name := List Char

/-- `regexp.js`: a regular-expression tree with variants Empty, Word,
Star, Sum, Concat.  The cached `equivalentAutomaton` of each node is
derived data not needed by the claims settled here and is not modelled. -/
inductive RE where
  | emptyRE : RE
  | wordRE (w : List Char) : RE
  | starRE (r : RE) : RE
  | sumRE (r1 r2 : RE) : RE
  | concatRE (r1 r2 : RE) : RE
deriving DecidableEq, Repr

/-- `new RegularExpression(w)` for a string argument: the word `'E'`
denotes the epsilon word (stored as the empty word). -/
def RE.mk (w : List Char) : RE :=
  if w = ['E'] then .wordRE [] else .wordRE w

/-- `RegularExpression.prototype.star`. -/
def RE.star (r : RE) : RE := .starRE r

/-- `RegularExpression.prototype.sum`. -/
def RE.sum (r1 r2 : RE) : RE := .sumRE r1 r2

/-- `RegularExpression.prototype.concat`: concatenation with an epsilon
word returns the other operand unchanged. -/
def RE.concat (r1 r2 : RE) : RE :=
  if r1 = .wordRE [] then r2
  else if r2 = .wordRE [] then r1
  else .concatRE r1 r2

/-- `state.js`: a state record.  `id` models JavaScript object identity
(allocation order).  The constructor rewrites the empty name to `empty`.
`marked` is the traversal flag set by `Graph.dfs` and the DFS renumbering;
a freshly constructed state has no `marked` property, i.e. it is falsy. -/
structure StateR where
  id : Nat
  name : Name
  start : Bool
  final : Bool
  marked : Bool
deriving DecidableEq, Repr

/-- `edge.js`: an edge holds its source and sink (here by state id) and a
symbol.  A generalized automaton additionally stores a regex label in the
dynamic property `re`; plain automata leave it absent (`none`). -/
structure EdgeR where
  src : Nat
  dst : Nat
  sym : Char
  re : Option RE
deriving DecidableEq, Repr

/-- The literal name `empty` substituted by the `State` constructor. -/
def emptyName : Name := ['e', 'm', 'p', 't', 'y']

/-- JavaScript `Map.get` on an association list. -/
def mapGet (m : List (Name × Nat)) (k : Name) : Option Nat :=
  match m.find? (fun p => p.1 == k) with
  | some p => some p.2
  | none => none

/-- JavaScript `Map.set`: overwrite an existing key in place, otherwise
append a new entry. -/
def mapSet (m : List (Name × Nat)) (k : Name) (v : Nat) : List (Name × Nat) :=
  if m.any (fun p => p.1 == k) then
    m.map (fun p => if p.1 == k then (k, v) else p)
  else
    m ++ [(k, v)]

/-- JavaScript `Map.delete`: remove the entry with the given key. -/
def mapDelete (m : List (Name × Nat)) (k : Name) : List (Name × Nat) :=
  m.filter (fun p => !(p.1 == k))

/-- `automaton.js`: the automaton record.  `deltaMap`, `edgesOut` and
`edgesIn` are indexes the source keeps consistent with `edges` on every
mutation; they are recomputed from `edges` here. -/
structure Automaton where
  name : Name
  alphabet : List Char
  states : List StateR
  nameMap : List (Name × Nat)
  edges : List EdgeR
  nextId : Nat
deriving DecidableEq, Repr

/-- `new Automaton(name, symbols)`. -/
def mkAutomaton (nm : Name) (symbols : List Char) : Automaton :=
  ⟨nm, symbols, [], [], [], 0⟩

namespace Automaton

/-- `getStateByName`: look the name up in `stateNameMap`. -/
def getStateByName (a : Automaton) (nm : Name) : Option Nat :=
  mapGet a.nameMap nm

/-- Fetch the state record with a given id. -/
def getSt (a : Automaton) (id : Nat) : Option StateR :=
  a.states.find? (fun s => s.id == id)

/-- The longest key length in the name map, used to bound the fuel of the
`forceNew` uniquification loop. -/
def maxKeyLen (a : Automaton) : Nat :=
  a.nameMap.foldr (fun p m => max p.1.length m) 0

/-- The `forceNew` loop of `addState`: append `x` to the name until it is
not taken.  The loop terminates because name lengths in the map are
bounded; the fuel `maxKeyLen a + 1` is proved sufficient below. -/
def freshNameAux (a : Automaton) : Nat → Name → Name
  | 0, nm => nm
  | fuel + 1, nm =>
    match mapGet a.nameMap nm with
    | some _ => freshNameAux a fuel (nm ++ ['x'])
    | none => nm

def freshName (a : Automaton) (nm : Name) : Name :=
  freshNameAux a (a.maxKeyLen + 1) nm

/-- `addState(name, start, final, tag, forceNew)`.  Faithful detail: the
`State` constructor rewrites an empty name to `empty`, but `addState`
inserts the map entry under the original (possibly empty) argument name. -/
def addState (a : Automaton) (nm : Name) (start final forceNew : Bool) :
    Nat × Automaton :=
  let nm := if forceNew then freshName a nm else nm
  match mapGet a.nameMap nm with
  | some id => (id, a)
  | none =>
    let sname := if nm.isEmpty then emptyName else nm
    let s : StateR := ⟨a.nextId, sname, start, final, false⟩
    (a.nextId,
      { a with
        states := a.states ++ [s]
        nameMap := mapSet a.nameMap nm a.nextId
        nextId := a.nextId + 1 })

/-- `getEdge(from, to, symbol)` as a Boolean test: scan the out-edges of
`from` for a matching sink and symbol. -/
def hasEdge (a : Automaton) (fromId toId : Nat) (sym : Char) : Bool :=
  a.edges.any (fun e => e.src == fromId && e.sym == sym && e.dst == toId)

/-- `addEdge(from, to, symbol)`: dedupe against an existing edge,
otherwise create it (updating the indexes).  A symbol outside the alphabet
crashes in the source (`deltaMap.get(symbol)` is undefined); outside that
domain this model returns the automaton unchanged. -/
def addEdge (a : Automaton) (fromId toId : Nat) (sym : Char) : Automaton :=
  if sym ∈ a.alphabet then
    if a.hasEdge fromId toId sym then a
    else { a with edges := a.edges ++ [⟨fromId, toId, sym, none⟩] }
  else a

/-- `deleteEdge` for the edge with the given endpoints and symbol
(`deleteEdgeFts` resolves exactly this triple). -/
def deleteEdge (a : Automaton) (fromId toId : Nat) (sym : Char) : Automaton :=
  { a with
    edges := a.edges.filter (fun e => !(e.src == fromId && e.sym == sym && e.dst == toId)) }

/-- `deleteState(s)`: delete all incident edges, then remove the state and
its map entry (keyed by the state's current name). -/
def deleteState (a : Automaton) (id : Nat) : Automaton :=
  match a.getSt id with
  | none => a
  | some s =>
    { a with
      edges := a.edges.filter (fun e => !(e.src == id || e.dst == id))
      nameMap := mapDelete a.nameMap s.name
      states := a.states.filter (fun t => !(t.id == id)) }

/-- `renameState(s, newName)`: delete the map entry of the old name, set
the state's name, insert the new entry.  As the source comments note, this
can overwrite an existing entry. -/
def renameState (a : Automaton) (id : Nat) (newName : Name) : Automaton :=
  match a.getSt id with
  | none => a
  | some s =>
    { a with
      nameMap := mapSet (mapDelete a.nameMap s.name) newName id
      states := a.states.map (fun t => if t.id == id then { t with name := newName } else t) }

/-- `delta(state, symbol)`: the image of one state under one symbol.  The
source consults `deltaMap`, whose keys are exactly the alphabet symbols,
and collects sinks into a set (deduplicated, insertion order). -/
def delta (a : Automaton) (id : Nat) (sym : Char) : List Nat :=
  if sym ∈ a.alphabet then
    ((a.edges.filter (fun e => e.src == id && e.sym == sym)).map (fun e => e.dst)).foldl
      (fun acc x => if x ∈ acc then acc else acc ++ [x]) []
  else []

/-- Add an element to a (list-represented) set, JavaScript `Set.add`. -/
def addUnique (l : List Nat) (x : Nat) : List Nat :=
  if x ∈ l then l else l ++ [x]

/-- One word symbol of `deltaStar`: the union of `delta` over the current
frontier, built in iteration order. -/
def stepSet (a : Automaton) (cur : List Nat) (sym : Char) : List Nat :=
  cur.foldl (fun acc fromId => (a.delta fromId sym).foldl addUnique acc) []

/-- `deltaStar(currentStates, word)`: iterate `delta` over the word,
returning the empty set immediately once the frontier is empty. -/
def deltaStar (a : Automaton) (cur : List Nat) : List Char → List Nat
  | [] => cur
  | c :: rest =>
    let next := a.stepSet cur c
    if next.isEmpty then [] else a.deltaStar next rest

/-- `getStartStates` (as ids, in state-set iteration order). -/
def startIds (a : Automaton) : List Nat :=
  (a.states.filter (fun s => s.start)).map (fun s => s.id)

/-- `getFinalStates` (as ids). -/
def finalIds (a : Automaton) : List Nat :=
  (a.states.filter (fun s => s.final)).map (fun s => s.id)

/-- Is the state with this id final? -/
def isFinalId (a : Automaton) (id : Nat) : Bool :=
  match a.getSt id with
  | some s => s.final
  | none => false

/-- `isEmpty`: no states. -/
def isEmpty (a : Automaton) : Bool := a.states.isEmpty

/-- `accepts(word)`: false on an empty automaton, otherwise true iff some
state reached from the start states by the word is final. -/
def accepts (a : Automaton) (w : List Char) : Bool :=
  if a.isEmpty then false
  else (a.deltaStar a.startIds w).any (fun id => a.isFinalId id)

/-- `isDeterministic`: exactly one start state, and for every (state,
symbol) at most one successor in the delta index. -/
def isDeterministic (a : Automaton) : Bool :=
  a.startIds.length == 1 &&
    a.alphabet.all (fun c => a.states.all (fun s => (a.delta s.id c).length ≤ 1))

end Automaton

/-- Well-formedness of an automaton as maintained by the source's
constructions on valid inputs: distinct state identities, distinct names,
a name map binding exactly the state names to their states, edges between
existing states labelled by alphabet symbols, and a fresh id allocator.
All fields are decidable so concrete instances can be checked by
evaluation. -/
structure WF (a : Automaton) : Prop where
  ids_nodup : (a.states.map StateR.id).Nodup
  names_nodup : (a.states.map StateR.name).Nodup
  keys_nodup : (a.nameMap.map Prod.fst).Nodup
  map_sound : ∀ p ∈ a.nameMap, ∃ s ∈ a.states, s.name = p.1 ∧ s.id = p.2
  map_complete : ∀ s ∈ a.states, (s.name, s.id) ∈ a.nameMap
  edges_valid : ∀ e ∈ a.edges, e.sym ∈ a.alphabet ∧
    e.src ∈ a.states.map StateR.id ∧ e.dst ∈ a.states.map StateR.id
  ids_lt : ∀ s ∈ a.states, s.id < a.nextId

/-- All traversal marks are clear, as on any automaton whose states were
freshly created by `addState` (a new `State` has no `marked` property). -/
def Clean (a : Automaton) : Prop := ∀ s ∈ a.states, s.marked = false

/-- In a list of pairs with distinct keys, `find?` by key recovers any
member. -/
theorem find?_key_of_mem {m : List (Name × Nat)} {p : Name × Nat}
    (hk : (m.map Prod.fst).Nodup) (hm : p ∈ m) :
    m.find? (fun q => q.1 == p.1) = some p := by
  induction m with
  | nil => cases hm
  | cons q m ih =>
    simp only [List.map_cons, List.nodup_cons] at hk
    rcases List.mem_cons.mp hm with h | h
    · subst h
      simp [List.find?]
    · have hne : ¬(q.1 == p.1) = true := by
        intro hE
        exact hk.1 (by
          have : q.1 = p.1 := by simpa using hE
          rw [this]
          exact List.mem_map_of_mem Prod.fst h)
      simp only [List.find?, hne]
      exact ih hk.2 h

/-- In a list of states with distinct ids, `find?` by id recovers any
member. -/
theorem find?_id_of_mem {l : List StateR} {s : StateR}
    (hk : (l.map StateR.id).Nodup) (hm : s ∈ l) :
    l.find? (fun t => t.id == s.id) = some s := by
  induction l with
  | nil => cases hm
  | cons q l ih =>
    simp only [List.map_cons, List.nodup_cons] at hk
    rcases List.mem_cons.mp hm with h | h
    · subst h
      simp [List.find?]
    · have hne : ¬(q.id == s.id) = true := by
        intro hE
        exact hk.1 (by
          have : q.id = s.id := by simpa using hE
          rw [this]
          exact List.mem_map_of_mem StateR.id h)
      simp only [List.find?, hne]
      exact ih hk.2 h

namespace Automaton

/-- For a well-formed automaton, `getSt` recovers exactly the members of
the state list. -/
theorem getSt_of_mem {a : Automaton} (wf : WF a) {s : StateR}
    (hm : s ∈ a.states) : a.getSt s.id = some s :=
  find?_id_of_mem wf.ids_nodup hm

/-- For a well-formed automaton, name lookup succeeds exactly on the
states' names and returns the corresponding id. -/
theorem getStateByName_eq_some {a : Automaton} (wf : WF a) {nm : Name} {id : Nat} :
    a.getStateByName nm = some id ↔ ∃ s ∈ a.states, s.name = nm ∧ s.id = id := by
  constructor
  · intro h
    unfold getStateByName mapGet at h
    rcases hf : a.nameMap.find? (fun p => p.1 == nm) with _ | p
    · rw [hf] at h; cases h
    · rw [hf] at h
      have hp : p ∈ a.nameMap := List.mem_of_find?_eq_some hf
      have hkey : (fun q : Name × Nat => q.1 == nm) p = true := by
        have aux : ∀ (f : Name × Nat → Bool) (l : List (Name × Nat)) (q : Name × Nat),
            l.find? f = some q → f q = true := fun _ _ _ h => List.find?_some h
        exact aux _ _ _ hf
      have hkey' : p.1 = nm := by simpa using hkey
      rcases wf.map_sound p hp with ⟨s, hs, hn, hi⟩
      refine ⟨s, hs, by rw [hn, hkey'], ?_⟩
      cases h
      exact hi
  · rintro ⟨s, hs, hn, hi⟩
    have hmem : (s.name, s.id) ∈ a.nameMap := wf.map_complete s hs
    unfold getStateByName mapGet
    have := find?_key_of_mem wf.keys_nodup hmem
    rw [hn] at this
    rw [this]
    simpa using hi

/-- For a well-formed automaton, name lookup fails exactly when no state
carries the name. -/
theorem getStateByName_eq_none {a : Automaton} (wf : WF a) {nm : Name} :
    a.getStateByName nm = none ↔ ∀ s ∈ a.states, s.name ≠ nm := by
  constructor
  · intro h s hs hn
    have : a.getStateByName nm = some s.id :=
      (getStateByName_eq_some wf).mpr ⟨s, hs, hn, rfl⟩
    rw [h] at this; cases this
  · intro h
    rcases hcase : a.getStateByName nm with _ | id
    · rfl
    · rcases (getStateByName_eq_some wf).mp hcase with ⟨s, hs, hn, _⟩
      exact absurd hn (h s hs)

end Automaton

/-- C10, amended: when the name is bound in `stateNameMap` and `forceNew`
is false, `addState` returns the already-bound state and leaves the
automaton completely unchanged, ignoring the `start` and `final`
arguments. -/
theorem addState_existing_frame (a : Automaton) (nm : Name) (st fi : Bool) (id : Nat)
    (h : a.getStateByName nm = some id) :
    a.addState nm st fi false = (id, a) := by
  unfold Automaton.addState
  simp only [if_neg (by simp : ¬False), Bool.false_eq_true, if_false]
  unfold Automaton.getStateByName at h
  rw [h]

/-- C10, counterexample to the claim as stated: `addState('')` creates a
state whose `name` field is `empty` while the map entry is keyed by the
empty string; a later `addState('empty', …)` therefore does not find the
existing state of that name and mutates the automaton by adding a second
state named `empty`. -/
theorem addState_existing_frame_cex :
    (∃ s ∈ (((mkAutomaton ['A'] ['a', 'b']).addState [] false false false).2).states,
        s.name = emptyName) ∧
      ((((mkAutomaton ['A'] ['a', 'b']).addState [] false false false).2).addState
            emptyName false false false).2.states.length = 2 ∧
      (((mkAutomaton ['A'] ['a', 'b']).addState [] false false false).2).states.length = 1 := by
  decide

/-- Witness for the amended C10 theorem at a concrete automaton. -/
theorem addState_existing_frame_witness :
    (((mkAutomaton ['A'] ['a', 'b']).addState ['q'] true false false).2).addState
        ['q'] false true false =
      (0, ((mkAutomaton ['A'] ['a', 'b']).addState ['q'] true false false).2) :=
  addState_existing_frame _ ['q'] false true 0 (by decide)

/-! ### Auxiliary lemmas about the name map and fresh names -/

/-- Every key of a name map is at most as long as the key-length bound. -/
theorem length_le_foldr_max {m : List (Name × Nat)} {p : Name × Nat} (hp : p ∈ m) :
    p.1.length ≤ m.foldr (fun q r => max q.1.length r) 0 := by
  induction m with
  | nil => cases hp
  | cons q m ih =>
    rcases List.mem_cons.mp hp with h | h
    · subst h
      exact le_max_left _ _
    · exact le_trans (ih h) (le_max_right _ _)

/-- A successful `mapGet` exhibits a bound key. -/
theorem mapGet_some_mem {m : List (Name × Nat)} {k : Name} {v : Nat}
    (h : mapGet m k = some v) : (k, v) ∈ m := by
  unfold mapGet at h
  rcases hf : m.find? (fun p => p.1 == k) with _ | p
  · rw [hf] at h; cases h
  · rw [hf] at h
    have hp : p ∈ m := List.mem_of_find?_eq_some hf
    have hkey : (fun q : Name × Nat => q.1 == k) p = true := by
      have aux : ∀ (f : Name × Nat → Bool) (l : List (Name × Nat)) (q : Name × Nat),
          l.find? f = some q → f q = true := fun _ _ _ h => List.find?_some h
      exact aux _ _ _ hf
    have hkey' : p.1 = k := by simpa using hkey
    cases h
    have : p = (k, p.2) := by
      rw [← hkey']
    rw [← this]
    exact hp

/-- A bound key makes `mapGet` succeed. -/
theorem mapGet_ne_none_of_mem {m : List (Name × Nat)} {k : Name} {v : Nat}
    (h : (k, v) ∈ m) : mapGet m k ≠ none := by
  intro hnone
  unfold mapGet at hnone
  rcases hf : m.find? (fun p => p.1 == k) with _ | p
  · have := List.find?_eq_none.mp hf (k, v) h
    simp at this
  · rw [hf] at hnone; cases hnone

/-- The uniquification loop returns an unbound name as long as the fuel
exceeds the length headroom of the keys. -/
theorem freshNameAux_not_taken (a : Automaton) :
    ∀ (fuel : Nat) (nm : Name), a.maxKeyLen < nm.length + fuel →
      mapGet a.nameMap (a.freshNameAux fuel nm) = none := by
  intro fuel
  induction fuel with
  | zero =>
    intro nm h
    simp only [Nat.add_zero] at h
    unfold Automaton.freshNameAux
    rcases hg : mapGet a.nameMap nm with _ | v
    · rfl
    · exfalso
      have hb : nm.length ≤ a.maxKeyLen := by
        simpa [Automaton.maxKeyLen] using length_le_foldr_max (mapGet_some_mem hg)
      omega
  | succ fuel ih =>
    intro nm h
    unfold Automaton.freshNameAux
    rcases hg : mapGet a.nameMap nm with _ | v
    · exact hg
    · exact ih (nm ++ ['x']) (by simp only [List.length_append]; simp; omega)

/-- `freshName` returns an unbound name. -/
theorem freshName_not_taken (a : Automaton) (nm : Name) :
    mapGet a.nameMap (a.freshName nm) = none :=
  freshNameAux_not_taken a (a.maxKeyLen + 1) nm (by omega)

/-- `freshName` never returns the empty name when given a non-empty one. -/
theorem freshName_ne_nil (a : Automaton) (nm : Name) (h : nm ≠ []) :
    a.freshName nm ≠ [] := by
  unfold Automaton.freshName
  generalize a.maxKeyLen + 1 = fuel
  induction fuel generalizing nm with
  | zero => exact h
  | succ fuel ih =>
    unfold Automaton.freshNameAux
    rcases hg : mapGet a.nameMap nm with _ | v
    · exact h
    · exact ih (nm ++ ['x']) (by simp)

/-- When the key is unbound, `mapSet` appends. -/
theorem mapSet_of_not_mem {m : List (Name × Nat)} {k : Name} (v : Nat)
    (h : mapGet m k = none) : mapSet m k v = m ++ [(k, v)] := by
  unfold mapSet
  have : m.any (fun p => p.1 == k) = false := by
    rcases hA : m.any (fun p => p.1 == k) with _ | _
    · rfl
    · exfalso
      rcases List.any_eq_true.mp hA with ⟨p, hp, hk⟩
      have hk' : p.1 = k := by simpa using hk
      exact mapGet_ne_none_of_mem (show (k, p.2) ∈ m by rw [← hk']; exact hp) h
  rw [this]
  simp

/-! ### The mutating operations of claim C6 -/

/-- One mutating call of the public automaton interface, with states and
edges referred to by name (as a caller would, resolving through
`getState`). -/
inductive Op where
  | addStateOp (nm : Name) (start final forceNew : Bool) : Op
  | addEdgeOp (fromNm toNm : Name) (sym : Char) : Op
  | renameStateOp (nm newName : Name) : Op
  | deleteEdgeOp (fromNm toNm : Name) (sym : Char) : Op
  | deleteStateOp (nm : Name) : Op
deriving DecidableEq, Repr

/-- Apply one operation; `none` models the calls on which the source
crashes (resolving a missing state, an edge symbol outside the alphabet —
`deltaMap.get(symbol)` is undefined — or deleting a missing edge). -/
def applyOp (a : Automaton) : Op → Option Automaton
  | .addStateOp nm st fi fn => some (a.addState nm st fi fn).2
  | .addEdgeOp f t s =>
    match a.getStateByName f, a.getStateByName t with
    | some fi, some ti => if s ∈ a.alphabet then some (a.addEdge fi ti s) else none
    | _, _ => none
  | .renameStateOp nm newNm =>
    match a.getStateByName nm with
    | some id => some (a.renameState id newNm)
    | none => none
  | .deleteEdgeOp f t s =>
    match a.getStateByName f, a.getStateByName t with
    | some fi, some ti =>
      if a.hasEdge fi ti s then some (a.deleteEdge fi ti s) else none
    | _, _ => none
  | .deleteStateOp nm =>
    match a.getStateByName nm with
    | some id => some (a.deleteState id)
    | none => none

/-- Apply a sequence of operations. -/
def applyOps (a : Automaton) : List Op → Option Automaton
  | [] => some a
  | op :: rest =>
    match applyOp a op with
    | some a' => applyOps a' rest
    | none => none

/-- The side conditions of the amended C6: `addState` is not called with
an empty name, and `renameState` never renames onto the name of a
different existing state. -/
def opOk (a : Automaton) : Op → Bool
  | .addStateOp nm _ _ _ => !nm.isEmpty
  | .renameStateOp nm newNm =>
    a.states.all (fun s => s.name ≠ newNm || a.getStateByName nm == some s.id)
  | _ => true

/-- The side conditions of the amended C6, along a whole sequence. -/
def seqOk (a : Automaton) : List Op → Bool
  | [] => true
  | op :: rest =>
    opOk a op &&
      match applyOp a op with
      | some a' => seqOk a' rest
      | none => true

/-! ### Well-formedness preservation of the mutating operations -/

/-- `addState` on an unbound (effective) name appends a fresh state and a
map entry under the original name. -/
theorem addState_new {a : Automaton} {nm : Name} {st fi fn : Bool}
    (h : mapGet a.nameMap (if fn then a.freshName nm else nm) = none) :
    a.addState nm st fi fn =
      (a.nextId,
        { a with
          states := a.states ++
            [⟨a.nextId,
              if (if fn then a.freshName nm else nm).isEmpty then emptyName
              else (if fn then a.freshName nm else nm), st, fi, false⟩]
          nameMap := a.nameMap ++ [((if fn then a.freshName nm else nm), a.nextId)]
          nextId := a.nextId + 1 }) := by
  unfold Automaton.addState
  rcases fn with _ | _
  · simp only [Bool.false_eq_true, if_false] at h ⊢
    rw [h, mapSet_of_not_mem _ h]
  · simp only [if_pos rfl] at h ⊢
    rw [h, mapSet_of_not_mem _ h]

/-- `addState` on a bound (effective) name returns the bound id and the
unchanged automaton. -/
theorem addState_old {a : Automaton} {nm : Name} {st fi fn : Bool} {id : Nat}
    (h : mapGet a.nameMap (if fn then a.freshName nm else nm) = some id) :
    a.addState nm st fi fn = (id, a) := by
  unfold Automaton.addState
  rcases fn with _ | _
  · simp only [Bool.false_eq_true, if_false] at h ⊢
    rw [h]
  · simp only [if_pos rfl] at h ⊢
    rw [h]

/-- In a well-formed automaton no state carries an unbound name. -/
theorem no_state_of_mapGet_none {a : Automaton} (wf : WF a) {nm : Name}
    (h : mapGet a.nameMap nm = none) : ∀ s ∈ a.states, s.name ≠ nm := by
  intro s hs he
  exact mapGet_ne_none_of_mem (he ▸ wf.map_complete s hs) h

/-- `addState` preserves well-formedness provided the name argument is
non-empty. -/
theorem addState_WF {a : Automaton} (wf : WF a) {nm : Name} (hnm : nm ≠ [])
    (st fi fn : Bool) : WF (a.addState nm st fi fn).2 := by
  set nmx := if fn then a.freshName nm else nm with hnmxdef
  have hnmx : nmx ≠ [] := by
    rcases fn with _ | _
    · simpa [hnmxdef] using hnm
    · simpa [hnmxdef] using freshName_ne_nil a nm hnm
  rcases hg : mapGet a.nameMap nmx with _ | id
  · -- a new state is created
    rw [addState_new (hnmxdef ▸ hg)]
    have hEmpty : nmx.isEmpty = false := by
      rcases nmx with _ | _
      · exact absurd rfl hnmx
      · rfl
    have hfresh : ∀ s ∈ a.states, s.name ≠ nmx := no_state_of_mapGet_none wf hg
    have hkeyfresh : ∀ p ∈ a.nameMap, p.1 ≠ nmx := by
      intro p hp he
      exact mapGet_ne_none_of_mem (he ▸ (show (p.1, p.2) ∈ a.nameMap from hp)) hg
    constructor
    · rw [List.map_append]
      refine ((List.nodup_append).mpr ⟨wf.ids_nodup, List.nodup_singleton _, ?_⟩)
      intro x hx hy
      simp only [← hnmxdef, hEmpty, Bool.false_eq_true, if_false, List.map_cons,
        List.map_nil, List.mem_singleton] at hy
      rcases List.mem_map.mp hx with ⟨s, hs, hid⟩
      have := wf.ids_lt s hs
      omega
    · rw [List.map_append]
      refine ((List.nodup_append).mpr ⟨wf.names_nodup, List.nodup_singleton _, ?_⟩)
      intro x hx hy
      simp only [← hnmxdef, hEmpty, Bool.false_eq_true, if_false, List.map_cons,
        List.map_nil, List.mem_singleton] at hy
      rcases List.mem_map.mp hx with ⟨s, hs, hn⟩
      exact hfresh s hs (by rw [hn, hy])
    · rw [List.map_append]
      refine ((List.nodup_append).mpr ⟨wf.keys_nodup, List.nodup_singleton _, ?_⟩)
      intro x hx hy
      simp only [← hnmxdef, List.map_cons, List.map_nil, List.mem_singleton] at hy
      rcases List.mem_map.mp hx with ⟨p, hp, hk⟩
      exact hkeyfresh p hp (by rw [hk, hy])
    · intro p hp
      rcases List.mem_append.mp hp with h | h
      · rcases wf.map_sound p h with ⟨s, hs, h1, h2⟩
        exact ⟨s, List.mem_append_left _ hs, h1, h2⟩
      · simp only [← hnmxdef, List.mem_singleton] at h
        subst h
        refine ⟨_, List.mem_append_right _ (List.mem_singleton.mpr rfl), ?_, rfl⟩
        simp [hEmpty]
    · intro s hs
      rcases List.mem_append.mp hs with h | h
      · exact List.mem_append_left _ (wf.map_complete s h)
      · simp only [List.mem_singleton] at h
        subst h
        simp only [← hnmxdef, hEmpty, Bool.false_eq_true, if_false]
        exact List.mem_append_right _ (by simp)
    · intro e he
      rcases wf.edges_valid e he with ⟨h1, h2, h3⟩
      refine ⟨h1, ?_, ?_⟩ <;> rw [List.map_append] <;>
        [exact List.mem_append_left _ h2; exact List.mem_append_left _ h3]
    · intro s hs
      rcases List.mem_append.mp hs with h | h
      · show s.id < a.nextId + 1
        have := wf.ids_lt s h
        omega
      · simp only [List.mem_singleton] at h
        subst h
        show a.nextId < a.nextId + 1
        omega
  · rw [addState_old (hnmxdef ▸ hg)]
    exact wf

/-- `addEdge` preserves well-formedness when the endpoints exist. -/
theorem addEdge_WF {a : Automaton} (wf : WF a) {fromId toId : Nat}
    (hf : fromId ∈ a.states.map StateR.id) (ht : toId ∈ a.states.map StateR.id)
    (sym : Char) : WF (a.addEdge fromId toId sym) := by
  unfold Automaton.addEdge
  by_cases hsym : sym ∈ a.alphabet
  · simp only [if_pos hsym]
    by_cases hhe : a.hasEdge fromId toId sym = true
    · simpa [hhe] using wf
    · simp only [hhe, if_false]
      refine ⟨wf.ids_nodup, wf.names_nodup, wf.keys_nodup, wf.map_sound,
        wf.map_complete, ?_, wf.ids_lt⟩
      intro e he
      rcases List.mem_append.mp he with h | h
      · exact wf.edges_valid e h
      · simp only [List.mem_singleton] at h
        subst h
        exact ⟨hsym, hf, ht⟩
  · simp only [if_neg hsym]
    exact wf

/-- `deleteEdge` preserves well-formedness. -/
theorem deleteEdge_WF {a : Automaton} (wf : WF a) (fromId toId : Nat) (sym : Char) :
    WF (a.deleteEdge fromId toId sym) := by
  refine ⟨wf.ids_nodup, wf.names_nodup, wf.keys_nodup, wf.map_sound,
    wf.map_complete, ?_, wf.ids_lt⟩
  intro e he
  exact wf.edges_valid e (List.mem_of_mem_filter he)

/-- Distinct ids make distinct states identical only when equal. -/
theorem state_inj_of_ids {a : Automaton} (wf : WF a) {s t : StateR}
    (hs : s ∈ a.states) (ht : t ∈ a.states) (h : s.id = t.id) : s = t := by
  have := List.inj_on_of_nodup_map wf.ids_nodup
  exact this hs ht h

/-- Distinct names make distinct states identical only when equal. -/
theorem state_inj_of_names {a : Automaton} (wf : WF a) {s t : StateR}
    (hs : s ∈ a.states) (ht : t ∈ a.states) (h : s.name = t.name) : s = t := by
  have := List.inj_on_of_nodup_map wf.names_nodup
  exact this hs ht h

/-- `deleteState` preserves well-formedness. -/
theorem deleteState_WF {a : Automaton} (wf : WF a) (id : Nat) :
    WF (a.deleteState id) := by
  unfold Automaton.deleteState
  rcases hget : a.getSt id with _ | s
  · exact wf
  · have hs : s ∈ a.states := by
      have := List.mem_of_find?_eq_some hget
      exact this
    have hsid : s.id = id := by
      have : (fun t : StateR => t.id == id) s = true := by
        have aux : ∀ (f : StateR → Bool) (l : List StateR) (q : StateR),
            l.find? f = some q → f q = true := fun _ _ _ h => List.find?_some h
        exact aux _ _ _ hget
      simpa using this
    constructor
    · exact List.Nodup.sublist ((List.filter_sublist _).map StateR.id) wf.ids_nodup
    · exact List.Nodup.sublist ((List.filter_sublist _).map StateR.name) wf.names_nodup
    · exact List.Nodup.sublist ((List.filter_sublist _).map Prod.fst) wf.keys_nodup
    · intro p hp
      have hpm : p ∈ a.nameMap := List.mem_of_mem_filter hp
      have hpk : ¬(p.1 == s.name) = true := by
        have := List.of_mem_filter hp
        simpa using this
      rcases wf.map_sound p hpm with ⟨t, htm, h1, h2⟩
      refine ⟨t, ?_, h1, h2⟩
      refine List.mem_filter.mpr ⟨htm, ?_⟩
      simp only [Bool.not_eq_true']
      have htid : t.id ≠ id := by
        intro he
        have : t = s := state_inj_of_ids wf htm hs (by rw [he, hsid])
        subst this
        exact hpk (by simp [h1])
      simpa using htid
    · intro t htm
      have ht : t ∈ a.states := List.mem_of_mem_filter htm
      have htid : ¬(t.id == id) = true := by
        have := List.of_mem_filter htm
        simpa using this
      refine List.mem_filter.mpr ⟨wf.map_complete t ht, ?_⟩
      have htn : t.name ≠ s.name := by
        intro he
        have : t = s := state_inj_of_names wf ht hs he
        subst this
        exact htid (by simpa using hsid)
      simpa using htn
    · intro e he
      have hem : e ∈ a.edges := List.mem_of_mem_filter he
      have hnid : ¬(e.src == id || e.dst == id) = true := by
        have := List.of_mem_filter he
        simpa using this
      simp only [Bool.or_eq_true, beq_iff_eq, not_or] at hnid
      rcases wf.edges_valid e hem with ⟨h1, h2, h3⟩
      refine ⟨h1, ?_, ?_⟩
      · rcases List.mem_map.mp h2 with ⟨t, ht, hti⟩
        refine List.mem_map.mpr ⟨t, List.mem_filter.mpr ⟨ht, ?_⟩, hti⟩
        simp only [Bool.not_eq_true']
        simpa using (by rw [hti]; exact hnid.1 : t.id ≠ id)
      · rcases List.mem_map.mp h3 with ⟨t, ht, hti⟩
        refine List.mem_map.mpr ⟨t, List.mem_filter.mpr ⟨ht, ?_⟩, hti⟩
        simp only [Bool.not_eq_true']
        simpa using (by rw [hti]; exact hnid.2 : t.id ≠ id)
    · intro t htm
      exact wf.ids_lt t (List.mem_of_mem_filter htm)

/-- `renameState` preserves well-formedness provided the new name is not
the name of a different state. -/
theorem renameState_WF {a : Automaton} (wf : WF a) {id : Nat} {newNm : Name}
    (hfresh : ∀ t ∈ a.states, t.name = newNm → t.id = id) :
    WF (a.renameState id newNm) := by
  unfold Automaton.renameState
  rcases hget : a.getSt id with _ | s
  · exact wf
  · have hs : s ∈ a.states := List.mem_of_find?_eq_some hget
    have hsid : s.id = id := by
      have : (fun t : StateR => t.id == id) s = true := by
        have aux : ∀ (f : StateR → Bool) (l : List StateR) (q : StateR),
            l.find? f = some q → f q = true := fun _ _ _ h => List.find?_some h
        exact aux _ _ _ hget
      simpa using this
    have hstnodup : a.states.Nodup := wf.ids_nodup.of_map
    have hinj_id : ∀ x ∈ a.states, ∀ y ∈ a.states, x.id = y.id → x = y :=
      fun x hx y hy h => state_inj_of_ids wf hx hy h
    have hinj_nm : ∀ x ∈ a.states, ∀ y ∈ a.states, x.name = y.name → x = y :=
      fun x hx y hy h => state_inj_of_names wf hx hy h
    -- the new map is the old one minus the renamed state's entry, plus the
    -- new binding at the end
    have hdelget : mapGet (mapDelete a.nameMap s.name) newNm = none := by
      rcases hcase : mapGet (mapDelete a.nameMap s.name) newNm with _ | v
      · rfl
      · exfalso
        have hmem := mapGet_some_mem hcase
        have hmem2 : (newNm, v) ∈ a.nameMap := List.mem_of_mem_filter hmem
        have hkey : ¬((newNm, v).1 == s.name) = true := by
          have := List.of_mem_filter hmem
          simpa using this
        rcases wf.map_sound _ hmem2 with ⟨t, ht, h1, h2⟩
        have : t.id = id := hfresh t ht h1
        have : t = s := state_inj_of_ids wf ht hs (by rw [this, hsid])
        subst this
        exact hkey (by simp [h1])
    show WF
      { a with
        nameMap := mapSet (mapDelete a.nameMap s.name) newNm id
        states := a.states.map (fun t => if t.id == id then { t with name := newNm } else t) }
    rw [mapSet_of_not_mem _ hdelget]
    constructor
    · have : (a.states.map (fun t => if t.id == id then { t with name := newNm } else t)).map
          StateR.id = a.states.map StateR.id := by
        rw [List.map_map]
        refine List.map_congr_left ?_
        intro t _
        by_cases ht : t.id = id <;> simp [ht]
      rw [this]
      exact wf.ids_nodup
    · rw [List.map_map]
      have heq : (StateR.name ∘ fun t => if t.id == id then { t with name := newNm } else t) =
          fun t => if t.id == id then newNm else t.name := by
        funext t
        by_cases ht : t.id = id <;> simp [ht]
      rw [heq]
      rw [List.nodup_map_iff_inj_on hstnodup]
      intro x hx y hy hxy
      rcases hxid : (x.id == id) with _ | _ <;> rcases hyid : (y.id == id) with _ | _ <;>
        rw [hxid, hyid] at hxy <;> simp only [if_pos rfl, Bool.false_eq_true, if_false] at hxy
      · exact hinj_nm x hx y hy hxy
      · exfalso
        have : x.id = id := hfresh x hx hxy
        simp [this] at hxid
      · exfalso
        have : y.id = id := hfresh y hy hxy.symm
        simp [this] at hyid
      · have hx' : x.id = id := by simpa using hxid
        have hy' : y.id = id := by simpa using hyid
        exact hinj_id x hx y hy (by rw [hx', hy'])
    · rw [List.map_append]
      refine (List.nodup_append).mpr ⟨?_, List.nodup_singleton _, ?_⟩
      · exact List.Nodup.sublist ((List.filter_sublist _).map Prod.fst) wf.keys_nodup
      · intro x hx hy
        simp only [List.map_cons, List.map_nil, List.mem_singleton] at hy
        subst hy
        rcases List.mem_map.mp hx with ⟨p, hp, hk⟩
        exact mapGet_ne_none_of_mem (show (x, p.2) ∈ mapDelete a.nameMap s.name from hk ▸ hp)
          hdelget
    · intro p hp
      rcases List.mem_append.mp hp with h | h
      · have hpm : p ∈ a.nameMap := List.mem_of_mem_filter h
        have hpk : ¬(p.1 == s.name) = true := by
          have := List.of_mem_filter h
          simpa using this
        rcases wf.map_sound p hpm with ⟨t, ht, h1, h2⟩
        have htid : t.id ≠ id := by
          intro he
          have : t = s := state_inj_of_ids wf ht hs (by rw [he, hsid])
          subst this
          exact hpk (by simp [h1])
        refine ⟨t, ?_, h1, h2⟩
        refine List.mem_map.mpr ⟨t, ht, ?_⟩
        have hb : (t.id == id) = false := by simpa using htid
        simp [hb]
      · simp only [List.mem_singleton] at h
        subst h
        refine ⟨{ s with name := newNm }, ?_, rfl, by simpa using hsid⟩
        refine List.mem_map.mpr ⟨s, hs, ?_⟩
        have hb : (s.id == id) = true := by simpa using hsid
        simp [hb]
    · intro t htm
      rcases List.mem_map.mp htm with ⟨u, hu, hut⟩
      by_cases huid : u.id = id
      · refine List.mem_append_right _ ?_
        rw [← hut]
        simp [huid]
      · refine List.mem_append_left _ ?_
        refine List.mem_filter.mpr ⟨?_, ?_⟩
        · rw [← hut]
          simp only [beq_iff_eq, huid, if_false]
          exact wf.map_complete u hu
        · have hun : u.name ≠ s.name := by
            intro he
            have he2 : u = s := state_inj_of_names wf hu hs he
            rw [he2] at huid
            exact huid hsid
          rw [← hut]
          simp only [beq_iff_eq, huid, if_false]
          simpa using hun
    · intro e he
      rcases wf.edges_valid e he with ⟨h1, h2, h3⟩
      have hids : (a.states.map (fun t => if t.id == id then { t with name := newNm } else t)).map
          StateR.id = a.states.map StateR.id := by
        rw [List.map_map]
        refine List.map_congr_left ?_
        intro t _
        by_cases ht : t.id = id <;> simp [ht]
      rw [hids]
      exact ⟨h1, h2, h3⟩
    · intro t htm
      rcases List.mem_map.mp htm with ⟨u, hu, hut⟩
      have : t.id = u.id := by
        by_cases huid : u.id = id
        · rw [← hut]
          simp [huid]
        · rw [← hut]
          simp [huid]
      rw [this]
      exact wf.ids_lt u hu

/-- A freshly constructed automaton is well-formed. -/
theorem WF_mkAutomaton (nm : Name) (syms : List Char) : WF (mkAutomaton nm syms) := by
  constructor <;> simp [mkAutomaton]

/-- One valid, side-condition-respecting operation preserves
well-formedness. -/
theorem applyOp_WF {a a' : Automaton} (wf : WF a) {op : Op} (hok : opOk a op = true)
    (h : applyOp a op = some a') : WF a' := by
  cases op with
  | addStateOp nm st fi fn =>
    simp only [applyOp, Option.some.injEq] at h
    subst h
    have hnm : nm ≠ [] := by
      simp only [opOk, Bool.not_eq_true'] at hok
      intro he
      subst he
      simp at hok
    exact addState_WF wf hnm st fi fn
  | addEdgeOp f t s =>
    simp only [applyOp] at h
    rcases hf : a.getStateByName f with _ | fi <;> rw [hf] at h
    · cases h
    · rcases ht : a.getStateByName t with _ | ti <;> rw [ht] at h
      · cases h
      · have h2 : (if s ∈ a.alphabet then some (a.addEdge fi ti s) else none) = some a' := h
        by_cases hsym : s ∈ a.alphabet
        · rw [if_pos hsym] at h2
          rcases (Automaton.getStateByName_eq_some wf).mp hf with ⟨sf, hsf, _, hif⟩
          rcases (Automaton.getStateByName_eq_some wf).mp ht with ⟨st', hst, _, hit⟩
          cases h2
          exact addEdge_WF wf (List.mem_map.mpr ⟨sf, hsf, hif⟩)
            (List.mem_map.mpr ⟨st', hst, hit⟩) s
        · rw [if_neg hsym] at h2
          cases h2
  | renameStateOp nm newNm =>
    simp only [applyOp] at h
    rcases hg : a.getStateByName nm with _ | id <;> rw [hg] at h
    · cases h
    · cases h
      refine renameState_WF wf ?_
      intro u hu hname
      simp only [opOk, List.all_eq_true] at hok
      have := hok u hu
      simp only [Bool.or_eq_true, decide_eq_true_eq, beq_iff_eq] at this
      rcases this with h1 | h1
      · exact absurd hname h1
      · rw [hg] at h1
        exact (Option.some.injEq _ _ ▸ h1).symm ▸ rfl
  | deleteEdgeOp f t s =>
    simp only [applyOp] at h
    rcases hf : a.getStateByName f with _ | fi <;> rw [hf] at h
    · cases h
    · rcases ht : a.getStateByName t with _ | ti <;> rw [ht] at h
      · cases h
      · have h2 : (if a.hasEdge fi ti s = true then some (a.deleteEdge fi ti s) else none) =
            some a' := h
        by_cases hhe : a.hasEdge fi ti s = true
        · rw [if_pos hhe] at h2
          cases h2
          exact deleteEdge_WF wf fi ti s
        · rw [if_neg hhe] at h2
          cases h2
  | deleteStateOp nm =>
    simp only [applyOp] at h
    rcases hg : a.getStateByName nm with _ | id <;> rw [hg] at h
    · cases h
    · cases h
      exact deleteState_WF wf id

/-- A whole valid, side-condition-respecting sequence of operations
preserves well-formedness. -/
theorem applyOps_WF {a : Automaton} (wf : WF a) :
    ∀ (ops : List Op) (a' : Automaton), seqOk a ops = true →
      applyOps a ops = some a' → WF a' := by
  intro ops
  induction ops generalizing a with
  | nil =>
    intro a' _ h
    simp only [applyOps, Option.some.injEq] at h
    subst h
    exact wf
  | cons op rest ih =>
    intro a' hok happ
    simp only [applyOps] at happ
    simp only [seqOk, Bool.and_eq_true] at hok
    rcases hop : applyOp a op with _ | a1 <;> rw [hop] at happ
    · cases happ
    · have wf1 : WF a1 := applyOp_WF wf hok.1 hop
      have hok1 : seqOk a1 rest = true := by
        have := hok.2
        rw [hop] at this
        exact this
      exact ih wf1 a' hok1 happ

/-- The C6 invariant as an executable check: `stateNameMap[s.name] = s`
for every state, and names within the automaton are pairwise distinct. -/
def nameInvariant (a : Automaton) : Bool :=
  a.states.all (fun s => a.getStateByName s.name == some s.id) &&
    decide (a.states.map StateR.name).Nodup

/-- The result of a sequence of operations (the input automaton when the
sequence crashes). -/
def seqResult (a : Automaton) (ops : List Op) : Automaton :=
  match applyOps a ops with
  | some a' => a'
  | none => a

/-- C6, amended: after any crash-free sequence of `addState`, `addEdge`,
`renameState`, `deleteEdge` and `deleteState` in which `addState` is never
called with an empty name and `renameState` never renames onto the name of
a different existing state, the automaton maps every state's name to that
state in `stateNameMap` and state names are pairwise distinct. -/
theorem mutation_invariant (a0 : Automaton) (wf : WF a0) (ops : List Op) (a' : Automaton)
    (hok : seqOk a0 ops = true) (happ : applyOps a0 ops = some a') :
    nameInvariant a' = true := by
  have wf' := applyOps_WF wf ops a' hok happ
  unfold nameInvariant
  refine (Bool.and_eq_true _ _).mpr ⟨?_, by simpa using wf'.names_nodup⟩
  rw [List.all_eq_true]
  intro s hs
  have := (Automaton.getStateByName_eq_some wf').mpr ⟨s, hs, rfl, rfl⟩
  simp [this]

/-- C6, counterexample to the claim as stated: the single operation
`addState('')` (empty name rewritten to the literal `empty`) already
violates the invariant, because the map entry is keyed by the empty
string while the state's name is `empty`. -/
theorem mutation_invariant_cex :
    (applyOps (mkAutomaton ['A'] ['a', 'b']) [Op.addStateOp [] false false false]).isSome =
        true ∧
      nameInvariant
          (seqResult (mkAutomaton ['A'] ['a', 'b']) [Op.addStateOp [] false false false]) =
        false := by
  decide

/-! ### Base62 encoding (`util.js`) and DFS renaming -/

/-- One Base62 digit: `0-9`, then `A-Z`, then `a-z`. -/
def base62Digit (r : Nat) : Char :=
  if r < 10 then Char.ofNat ('0'.toNat + r)
  else if r < 36 then Char.ofNat ('A'.toNat + r - 10)
  else Char.ofNat ('a'.toNat + r - 36)

/-- The digit loop of `toBase62`: repeatedly divide by 62, prepending
remainder digits (nothing for zero).  Structural in a fuel argument so
that the kernel can evaluate it; `n` itself is enough fuel. -/
def toBase62CoreAux : Nat → Nat → List Char
  | 0, _ => []
  | fuel + 1, n =>
    if n = 0 then [] else toBase62CoreAux fuel (n / 62) ++ [base62Digit (n % 62)]

def toBase62Core (n : Nat) : List Char := toBase62CoreAux n n

/-- `toBase62(number, totalDigits)`: Base62 digits, left-padded with `0`
to at least `totalDigits` characters. -/
def toBase62 (n totalDigits : Nat) : List Char :=
  let r := toBase62Core n
  List.replicate (totalDigits - r.length) '0' ++ r

/-- Floor of the base-62 logarithm, structural in a fuel argument (equal
to `Nat.log 62`, proved below). -/
def log62Aux : Nat → Nat → Nat
  | 0, _ => 0
  | fuel + 1, n => if n < 62 then 0 else log62Aux fuel (n / 62) + 1

def log62 (n : Nat) : Nat := log62Aux n n

/-- The per-state digit width `Math.floor(Math.log(n)/Math.log(62)) + 1`,
read over the exact real logarithm: `floor(log62 n) + 1`. -/
def log62Digits (n : Nat) : Nat := log62 n + 1

/-- Ceiling of the base-62 logarithm (the formula named by the
specification's width claim), structural in a fuel argument; agrees with
`Nat.clog 62` as proved below. -/
def clog62Aux : Nat → Nat → Nat
  | 0, _ => 0
  | fuel + 1, n => if n ≤ 1 then 0 else clog62Aux fuel ((n + 61) / 62) + 1

def ceilLog62 (n : Nat) : Nat := clog62Aux n n

/-- `fromBase62(str)`: no validation; characters outside `0-9A-Z` fall
into the lowercase branch, which can produce values that are negative,
hence the result is an integer. -/
def fromBase62 (s : List Char) : Int :=
  s.foldl
    (fun acc c =>
      acc * 62 +
        (if '0' ≤ c ∧ c ≤ '9' then (c.toNat : Int) - ('0'.toNat : Int)
         else if 'A' ≤ c ∧ c ≤ 'Z' then (c.toNat : Int) - ('A'.toNat : Int) + 10
         else (c.toNat : Int) - ('a'.toNat : Int) + 36))
    0

/-- Stable insertion of an element into a sorted list: ties keep the
existing element first, as JavaScript's stable `Array.sort`. -/
def insSorted (lt : α → α → Bool) (x : α) : List α → List α
  | [] => [x]
  | y :: ys => if lt y x then y :: insSorted lt x ys else x :: y :: ys

/-- Stable sort (insertion sort), the behaviour of `Array.sort` with a
comparator on the respective key. -/
def stableSortBy (lt : α → α → Bool) : List α → List α
  | [] => []
  | x :: xs => insSorted lt x (stableSortBy lt xs)

/-- JavaScript string comparison (`<` on strings, code-unit
lexicographic), used by `State.compareByName`. -/
def ltName : Name → Name → Bool
  | [], [] => false
  | [], _ :: _ => true
  | _ :: _, [] => false
  | c :: cs, d :: ds => if c < d then true else if d < c then false else ltName cs ds

namespace Automaton

/-- Set the `marked` flag of one state. -/
def setMarked (a : Automaton) (id : Nat) (b : Bool) : Automaton :=
  { a with states := a.states.map (fun t => if t.id == id then { t with marked := b } else t) }

/-- `[...a.states].forEach(s => s.marked = false)`. -/
def clearMarks (a : Automaton) : Automaton :=
  { a with states := a.states.map (fun t => { t with marked := false }) }

/-- The `marked` flag of a state (false when the id is unknown, like the
falsy absent property). -/
def markedOf (a : Automaton) (id : Nat) : Bool :=
  match a.getSt id with
  | some s => s.marked
  | none => false

/-- The out-edges of a state sorted by symbol (`Edge.compareBySymbol`,
stable). -/
def sortedEdgesOut (a : Automaton) (id : Nat) : List EdgeR :=
  stableSortBy (fun e1 e2 => decide (e1.sym < e2.sym)) (a.edges.filter (fun e => e.src == id))

/-- The recursive `dfs` of `renameStatesDFS`: mark the state, rename it to
the Base62 encoding of the running counter, then recurse into unmarked
sinks in ascending symbol order.  The fuel bounds the recursion depth;
`states.length` is sufficient because every call marks a previously
unmarked state. -/
def dfsRename (td : Nat) : Nat → Automaton × Nat → Nat → Automaton × Nat
  | 0, st, _ => st
  | fuel + 1, (a, count), sid =>
    let a := a.setMarked sid true
    let a := a.renameState sid (toBase62 count td)
    let count := count + 1
    (a.sortedEdgesOut sid).foldl
      (fun st e => if st.1.markedOf e.dst then st else dfsRename td fuel st e.dst)
      (a, count)

end Automaton

/-- The error kinds thrown by the functions settled here. -/
inductive Err where
  | noStartStates : Err
  | wrongPartsCount : Err
  | emptyPart : Err
  | wrongSignatureLength : Err
  | missingState : Err
deriving DecidableEq, Repr

namespace Automaton

/-- `renameStatesDFS()`: clear all marks, then DFS from the first start
state, renaming the n-th visited state to the n-th fixed-width Base62
string.  Throws when a non-empty automaton has no start states (the marks
are still cleared first, faithfully to the source order). -/
def renameStatesDFS (a : Automaton) : Except Err Automaton :=
  if a.states.isEmpty then .ok a
  else
    let td := log62Digits a.states.length
    let a := a.clearMarks
    match a.startIds with
    | [] => .error .noStartStates
    | s0 :: _ => .ok (dfsRename td a.states.length (a, 0) s0).1

/-- The renamed automaton, or the input when renaming throws. -/
def renameResult (a : Automaton) : Automaton :=
  match a.renameStatesDFS with
  | .ok a' => a'
  | .error _ => a

/-- The `successor` computed by `signatureDFS` for one state and symbol:
`-` when no out-edge carries the symbol, otherwise the sink name of the
last matching out-edge. -/
def succName (a : Automaton) (sid : Nat) (sym : Char) : Name :=
  (a.edges.filter (fun e => e.src == sid && e.sym == sym)).foldl
    (fun acc e =>
      match a.getSt e.dst with
      | some t => t.name
      | none => acc)
    ['-']

/-- The string `T|F|Σ` built by `signatureDFS` over the states sorted by
(renamed) name: per state and symbol the successor name (or `-`), then the
finality bitstring, then the alphabet. -/
def sigString (a' : Automaton) : List Char :=
  let sorted := stableSortBy (fun s t : StateR => ltName s.name t.name) a'.states
  let finalStr := sorted.map (fun s => if s.final then '1' else '0')
  let trans := sorted.foldl
    (fun acc s => a'.alphabet.foldl (fun acc2 sym => acc2 ++ a'.succName s.id sym) acc)
    []
  trans ++ ['|'] ++ finalStr ++ ['|'] ++ a'.alphabet

/-- `signatureDFS()`: rename in DFS order (in place — the renamed
automaton is part of the result), then return `undefined` (`none`) unless
the automaton is deterministic; otherwise the signature string. -/
def signatureDFS (a : Automaton) : Except Err (Option (List Char) × Automaton) :=
  match a.renameStatesDFS with
  | .error e => .error e
  | .ok a' =>
    if !a'.isDeterministic then .ok (none, a')
    else .ok (some (sigString a'), a')

end Automaton

/-! ### Width of the Base62 names assigned by DFS renaming (C5) -/

/-- `log62` is `Nat.log 62`. -/
theorem log62Aux_eq : ∀ (fuel n : Nat), n ≤ fuel → log62Aux fuel n = Nat.log 62 n := by
  intro fuel
  induction fuel with
  | zero =>
    intro n hn
    have : n = 0 := by omega
    subst this
    simp [log62Aux]
  | succ fuel ih =>
    intro n hn
    unfold log62Aux
    by_cases h : n < 62
    · rw [if_pos h]
      rw [Nat.log_eq_zero_iff.mpr (Or.inl h)]
    · rw [if_neg h]
      have hge : 62 ≤ n := by omega
      have hq : n / 62 ≤ fuel := by
        have := Nat.div_lt_self (show 0 < n by omega) (show 1 < 62 by omega)
        omega
      rw [ih _ hq]
      have := Nat.log_div_base 62 n
      have hpos : 0 < Nat.log 62 n := Nat.log_pos (by omega) hge
      omega

theorem log62_eq (n : Nat) : log62 n = Nat.log 62 n := log62Aux_eq n n (le_refl n)

/-- `ceilLog62` is `Nat.clog 62`. -/
theorem clog62Aux_eq : ∀ (fuel n : Nat), n ≤ fuel → clog62Aux fuel n = Nat.clog 62 n := by
  intro fuel
  induction fuel with
  | zero =>
    intro n hn
    have : n = 0 := by omega
    subst this
    simp [clog62Aux]
  | succ fuel ih =>
    intro n hn
    unfold clog62Aux
    by_cases h : n ≤ 1
    · rw [if_pos h, Nat.clog_of_right_le_one h]
    · rw [if_neg h]
      have h2 : 2 ≤ n := by omega
      have hq : (n + 61) / 62 ≤ fuel := by
        have : (n + 61) / 62 < n := by
          rw [Nat.div_lt_iff_lt_mul (by omega : 0 < 62)]
          omega
        omega
      rw [ih _ hq]
      rw [Nat.clog_of_two_le (by omega) h2]
      congr 1

theorem ceilLog62_eq (n : Nat) : ceilLog62 n = Nat.clog 62 n := clog62Aux_eq n n (le_refl n)

/-- The digit loop produces exactly `Nat.log 62 n + 1` digits for a
positive number and none for zero. -/
theorem toBase62CoreAux_length :
    ∀ (fuel n : Nat), n ≤ fuel →
      (toBase62CoreAux fuel n).length = if n = 0 then 0 else Nat.log 62 n + 1 := by
  intro fuel
  induction fuel with
  | zero =>
    intro n hn
    have : n = 0 := by omega
    subst this
    simp [toBase62CoreAux]
  | succ fuel ih =>
    intro n hn
    unfold toBase62CoreAux
    by_cases hz : n = 0
    · simp [hz]
    · rw [if_neg hz, if_neg hz]
      simp only [List.length_append, List.length_cons, List.length_nil]
      have hq : n / 62 ≤ fuel := by
        have := Nat.div_lt_self (show 0 < n by omega) (show 1 < 62 by omega)
        omega
      rw [ih _ hq]
      by_cases hqz : n / 62 = 0
      · have hsmall : n < 62 := by
          rcases Nat.lt_or_ge n 62 with h | h
          · exact h
          · exfalso
            have h2 := Nat.one_le_div_iff (by omega : 0 < 62) |>.mpr h
            omega
        have hlog : Nat.log 62 n = 0 := Nat.log_eq_zero_iff.mpr (Or.inl hsmall)
        simp [hqz, hlog]
      · have hge : 62 ≤ n := by
          rcases Nat.lt_or_ge n 62 with h | h
          · exfalso
            exact hqz (Nat.div_eq_of_lt h)
          · exact h
        simp only [if_neg hqz]
        have := Nat.log_div_base 62 n
        have hpos : 0 < Nat.log 62 n := Nat.log_pos (by omega) hge
        omega

theorem toBase62Core_length (n : Nat) :
    (toBase62Core n).length = if n = 0 then 0 else Nat.log 62 n + 1 :=
  toBase62CoreAux_length n n (le_refl n)

/-- `toBase62` produces exactly `totalDigits` characters whenever the
number fits in that many digits. -/
theorem toBase62_length {n td : Nat} (h : n < 62 ^ td) :
    (toBase62 n td).length = td := by
  unfold toBase62
  simp only [List.length_append, List.length_replicate]
  have hlen : (toBase62Core n).length ≤ td := by
    rw [toBase62Core_length]
    by_cases hz : n = 0
    · simp [hz]
    · simp only [if_neg hz]
      have : Nat.log 62 n < td := Nat.log_lt_of_lt_pow hz h
      omega
  omega

/-- Membership in a stable insertion. -/
theorem mem_insSorted {lt : α → α → Bool} {x y : α} {l : List α} :
    y ∈ insSorted lt x l ↔ y = x ∨ y ∈ l := by
  induction l with
  | nil => simp [insSorted]
  | cons z l ih =>
    unfold insSorted
    by_cases h : lt z x = true
    · simp only [if_pos h, List.mem_cons, ih]
      try tauto
    · simp only [if_neg h, List.mem_cons]
      try tauto

/-- Membership is preserved by the stable sort. -/
theorem mem_stableSortBy {lt : α → α → Bool} {y : α} {l : List α} :
    y ∈ stableSortBy lt l ↔ y ∈ l := by
  induction l with
  | nil => simp [stableSortBy]
  | cons z l ih =>
    unfold stableSortBy
    rw [mem_insSorted, ih, List.mem_cons]

/-- Every state of `clearMarks` is unmarked. -/
theorem clearMarks_unmarked {a : Automaton} {s : StateR}
    (hs : s ∈ a.clearMarks.states) : s.marked = false := by
  unfold Automaton.clearMarks at hs
  rcases List.mem_map.mp hs with ⟨t, _, ht⟩
  rw [← ht]

/-- Marking and renaming one state (identified by id, present, distinct
ids) rewrites the state list pointwise. -/
theorem mark_rename_states (a : Automaton) (hnodup : (a.states.map StateR.id).Nodup)
    {t0 : StateR} (ht0 : t0 ∈ a.states) {sid : Nat} (hsid : t0.id = sid) (nb : Name) :
    ((a.setMarked sid true).renameState sid nb).states =
      a.states.map (fun t => if t.id == sid then { t with marked := true, name := nb } else t) := by
  unfold Automaton.setMarked Automaton.renameState
  have hmem1 : ({ t0 with marked := true } : StateR) ∈
      (a.states.map (fun t => if t.id == sid then { t with marked := true } else t)) := by
    refine List.mem_map.mpr ⟨t0, ht0, ?_⟩
    simp [hsid]
  have hids1 : ((a.states.map (fun t => if t.id == sid then { t with marked := true } else t)).map
      StateR.id) = a.states.map StateR.id := by
    rw [List.map_map]
    refine List.map_congr_left ?_
    intro t _
    by_cases h : t.id = sid <;> simp [h]
  have hget : ({ a with states := (a.states.map
        (fun t => if t.id == sid then { t with marked := true } else t)) } : Automaton).getSt sid =
      some { t0 with marked := true } := by
    unfold Automaton.getSt
    have := find?_id_of_mem (by rw [hids1]; exact hnodup) hmem1
    simpa [hsid] using this
  rw [hget]
  simp only [List.map_map]
  refine List.map_congr_left ?_
  intro t _
  by_cases h : t.id = sid <;> simp [h]

/-- Marking (and renaming) a present unmarked state increases the marked
count by exactly one. -/
theorem countMarked_update (l : List StateR) (hnodup : (l.map StateR.id).Nodup)
    {t0 : StateR} (ht0 : t0 ∈ l) (hm : t0.marked = false) {sid : Nat} (hsid : t0.id = sid)
    (nb : Name) :
    ((l.map (fun t => if t.id == sid then { t with marked := true, name := nb } else t)).filter
        (fun s => s.marked)).length =
      (l.filter (fun s => s.marked)).length + 1 := by
  induction l with
  | nil => cases ht0
  | cons u l ih =>
    simp only [List.map_cons, List.nodup_cons] at hnodup
    rcases List.mem_cons.mp ht0 with h | h
    · subst h
      have hu : (t0.id == sid) = true := by simpa using hsid
      have htail : l.map (fun t => if t.id == sid then { t with marked := true, name := nb }
          else t) = l := by
        have h1 : ∀ t ∈ l,
            (fun t => if t.id == sid then { t with marked := true, name := nb } else t) t =
              id t := by
          intro t htl
          have hne : t.id ≠ sid := by
            intro he
            apply hnodup.1
            rw [hsid, ← he]
            exact List.mem_map_of_mem StateR.id htl
          simp [hne]
        rw [List.map_congr_left h1, List.map_id]
      simp only [List.map_cons, hu, if_pos rfl, htail]
      rw [List.filter_cons, List.filter_cons]
      simp [hm]
    · have hune : u.id ≠ sid := by
        intro he
        apply hnodup.1
        rw [he, ← hsid]
        exact List.mem_map_of_mem StateR.id h
      have hu : (u.id == sid) = false := by simpa using hune
      simp only [List.map_cons, hu, Bool.false_eq_true, if_false]
      rw [List.filter_cons, List.filter_cons]
      by_cases hum : u.marked = true
      · rw [if_pos hum, if_pos hum]
        simp only [List.length_cons]
        rw [ih hnodup.2 h]
      · rw [if_neg hum, if_neg hum]
        exact ih hnodup.2 h

/-- The loop invariant of the DFS renaming: ids and edges unchanged, the
counter equals the number of marked states, and every marked state's name
has the fixed width. -/
def DfsInv (td : Nat) (ids0 : List Nat) (edges0 : List EdgeR) (st : Automaton × Nat) : Prop :=
  st.1.states.map StateR.id = ids0 ∧
  st.1.edges = edges0 ∧
  st.2 = (st.1.states.filter (fun s => s.marked)).length ∧
  ∀ s ∈ st.1.states, s.marked = true → s.name.length = td

/-- `renameState` leaves the edge list untouched. -/
theorem renameState_edges (a : Automaton) (id : Nat) (nm : Name) :
    (a.renameState id nm).edges = a.edges := by
  unfold Automaton.renameState
  rcases a.getSt id with _ | s <;> rfl

/-- The DFS renaming loop preserves `DfsInv`, never decreases the counter,
and strictly increases it when the fuel is positive. -/
theorem dfsRename_inv (td : Nat) (ids0 : List Nat) (edges0 : List EdgeR)
    (hnodup : ids0.Nodup) (hbound : ids0.length ≤ 62 ^ td)
    (hedges : ∀ e ∈ edges0, e.dst ∈ ids0) :
    ∀ (fuel : Nat) (st : Automaton × Nat) (sid : Nat),
      DfsInv td ids0 edges0 st → sid ∈ ids0 → st.1.markedOf sid = false →
      DfsInv td ids0 edges0 (Automaton.dfsRename td fuel st sid) ∧
        st.2 ≤ (Automaton.dfsRename td fuel st sid).2 ∧
        (0 < fuel → st.2 < (Automaton.dfsRename td fuel st sid).2) := by
  intro fuel
  induction fuel with
  | zero =>
    intro st sid hinv _ _
    exact ⟨hinv, le_refl _, fun h => absurd h (by omega)⟩
  | succ fuel ih =>
    rintro ⟨a, count⟩ sid hinv hsid hunm
    obtain ⟨hids, hedg, hcount, hnames⟩ := hinv
    dsimp only at hids hedg hcount hnames hunm
    -- the state with this id
    have hsmem : sid ∈ a.states.map StateR.id := by rw [hids]; exact hsid
    rcases List.mem_map.mp hsmem with ⟨t0, ht0, ht0id⟩
    have hstnodup : (a.states.map StateR.id).Nodup := by rw [hids]; exact hnodup
    have hget : a.getSt sid = some t0 := by
      have := find?_id_of_mem hstnodup ht0
      rw [ht0id] at this
      exact this
    have ht0unm : t0.marked = false := by
      unfold Automaton.markedOf at hunm
      rw [hget] at hunm
      exact hunm
    -- the automaton after marking and renaming the state
    set nb := toBase62 count td with hnb
    set A2 := (a.setMarked sid true).renameState sid nb with hA2
    have hA2states : A2.states =
        a.states.map (fun t => if t.id == sid then { t with marked := true, name := nb }
          else t) :=
      mark_rename_states a hstnodup ht0 ht0id nb
    have hA2edges : A2.edges = a.edges := by
      rw [hA2, renameState_edges]
      rfl
    have hcountlt : count < ids0.length := by
      rw [hcount]
      have : (a.states.filter (fun s => s.marked)).length < a.states.length := by
        rw [List.length_filter_lt_length_iff_exists]
        exact ⟨t0, ht0, by simp [ht0unm]⟩
      calc (a.states.filter (fun s => s.marked)).length < a.states.length := this
        _ = ids0.length := by rw [← hids, List.length_map]
    have hnblen : nb.length = td := toBase62_length (by omega)
    have hA2inv : DfsInv td ids0 edges0 (A2, count + 1) := by
      refine ⟨?_, ?_, ?_, ?_⟩
      · rw [hA2states, List.map_map]
        rw [← hids]
        refine List.map_congr_left ?_
        intro t _
        by_cases h : t.id = sid <;> simp [h]
      · rw [hA2edges, hedg]
      · show count + 1 = _
        rw [hA2states, countMarked_update a.states hstnodup ht0 ht0unm ht0id nb, ← hcount]
      · intro s hsmem2 hsm
        rw [hA2states] at hsmem2
        rcases List.mem_map.mp hsmem2 with ⟨u, hu, hus⟩
        by_cases h : u.id = sid
        · rw [← hus]
          simp [h, hnblen]
        · have hb : (u.id == sid) = false := by simpa using h
          rw [hb] at hus
          simp only [Bool.false_eq_true, if_false] at hus
          rw [← hus] at hsm ⊢
          exact hnames u hu hsm
    -- the fold over the sorted out-edges
    have hfold : ∀ (l : List EdgeR), (∀ e ∈ l, e.dst ∈ ids0) →
        ∀ (st' : Automaton × Nat), DfsInv td ids0 edges0 st' →
          DfsInv td ids0 edges0
              (l.foldl (fun st e => if st.1.markedOf e.dst then st
                else Automaton.dfsRename td fuel st e.dst) st') ∧
            st'.2 ≤ (l.foldl (fun st e => if st.1.markedOf e.dst then st
                else Automaton.dfsRename td fuel st e.dst) st').2 := by
      intro l
      induction l with
      | nil => exact fun _ st' hinv' => ⟨hinv', le_refl _⟩
      | cons e l ihl =>
        intro hl st' hinv'
        simp only [List.foldl_cons]
        by_cases hm : st'.1.markedOf e.dst = true
        · rw [if_pos hm]
          exact ihl (fun e' he' => hl e' (List.mem_cons_of_mem _ he')) st' hinv'
        · rw [if_neg hm]
          have hm' : st'.1.markedOf e.dst = false := by
            rcases hx : st'.1.markedOf e.dst with _ | _
            · rfl
            · exact absurd hx hm
          have hrec := ih st' e.dst hinv' (hl e (List.mem_cons_self _ _)) hm'
          have := ihl (fun e' he' => hl e' (List.mem_cons_of_mem _ he'))
            (Automaton.dfsRename td fuel st' e.dst) hrec.1
          exact ⟨this.1, le_trans hrec.2.1 this.2⟩
    have hdsts : ∀ e ∈ A2.sortedEdgesOut sid, e.dst ∈ ids0 := by
      intro e he
      unfold Automaton.sortedEdgesOut at he
      have := mem_stableSortBy.mp he
      have hmem := List.mem_of_mem_filter this
      rw [hA2edges, hedg] at hmem
      exact hedges e hmem
    have hmain := hfold (A2.sortedEdgesOut sid) hdsts (A2, count + 1) hA2inv
    have hunfold : Automaton.dfsRename td (fuel + 1) (a, count) sid =
        (A2.sortedEdgesOut sid).foldl
          (fun st e => if st.1.markedOf e.dst then st
            else Automaton.dfsRename td fuel st e.dst)
          (A2, count + 1) := rfl
    refine ⟨?_, ?_, ?_⟩
    · rw [hunfold]
      exact hmain.1
    · rw [hunfold]
      have := hmain.2
      show count ≤ _
      omega
    · intro _
      rw [hunfold]
      have := hmain.2
      show count < _
      omega

/-- Ids are untouched by `clearMarks`. -/
theorem clearMarks_ids (a : Automaton) :
    a.clearMarks.states.map StateR.id = a.states.map StateR.id := by
  unfold Automaton.clearMarks
  rw [List.map_map]
  rfl

/-- Start ids are ids of states. -/
theorem startIds_subset {a : Automaton} {id : Nat} (h : id ∈ a.startIds) :
    id ∈ a.states.map StateR.id := by
  unfold Automaton.startIds at h
  rcases List.mem_map.mp h with ⟨t, ht, hid⟩
  exact List.mem_map.mpr ⟨t, List.mem_of_mem_filter ht, hid⟩

/-- C5, amended: the fixed per-state width of the Base62 names assigned by
DFS renaming is `floor(log62 |states|) + 1` (`Nat.log 62 n + 1`), not
`ceil(log62 |states|) + 1`: every state visited (marked) by the DFS is
renamed to a name of exactly that length, and at least one state is
visited. -/
theorem renameStatesDFS_width (a : Automaton) (wf : WF a) (h1 : a.states ≠ [])
    (a' : Automaton) (hr : a.renameStatesDFS = .ok a') :
    (∀ s ∈ a'.states, s.marked = true →
        s.name.length = Nat.log 62 a.states.length + 1) ∧
      ∃ s ∈ a'.states, s.marked = true := by
  unfold Automaton.renameStatesDFS at hr
  have hne : a.states.isEmpty = false := by
    rcases hcase : a.states.isEmpty with _ | _
    · rfl
    · exact absurd (List.isEmpty_iff.mp hcase) h1
  rw [hne] at hr
  simp only [Bool.false_eq_true, if_false] at hr
  rcases hstart : a.clearMarks.startIds with _ | ⟨s0, rest⟩ <;> rw [hstart] at hr
  · cases hr
  · have ha' : a' = (Automaton.dfsRename (log62Digits a.states.length) a.clearMarks.states.length
        (a.clearMarks, 0) s0).1 := by
      cases hr
      rfl
    have hlen : a.clearMarks.states.length = a.states.length := by
      unfold Automaton.clearMarks
      simp
    have hcids : a.clearMarks.states.map StateR.id = a.states.map StateR.id := clearMarks_ids a
    have hinv0 : DfsInv (log62Digits a.states.length) (a.states.map StateR.id) a.edges
        (a.clearMarks, 0) := by
      refine ⟨hcids, rfl, ?_, ?_⟩
      · show 0 = _
        have : a.clearMarks.states.filter (fun s => s.marked) = [] := by
          rw [List.filter_eq_nil_iff]
          intro s hs
          simp [clearMarks_unmarked hs]
        rw [this]
        rfl
      · intro s hs hm
        rw [clearMarks_unmarked hs] at hm
        cases hm
    have hbound : (a.states.map StateR.id).length ≤ 62 ^ log62Digits a.states.length := by
      rw [List.length_map]
      unfold log62Digits
      rw [log62_eq]
      exact le_of_lt (Nat.lt_pow_succ_log_self (by omega) _)
    have hedges : ∀ e ∈ a.edges, e.dst ∈ a.states.map StateR.id :=
      fun e he => (wf.edges_valid e he).2.2
    have hs0 : s0 ∈ a.states.map StateR.id := by
      rw [← hcids]
      exact startIds_subset (by rw [hstart]; exact List.mem_cons_self _ _)
    have hunm : a.clearMarks.markedOf s0 = false := by
      unfold Automaton.markedOf
      rcases hg : a.clearMarks.getSt s0 with _ | t
      · rfl
      · exact clearMarks_unmarked (List.mem_of_find?_eq_some hg)
    have hmain := dfsRename_inv (log62Digits a.states.length) (a.states.map StateR.id) a.edges
      wf.ids_nodup hbound hedges a.clearMarks.states.length (a.clearMarks, 0) s0 hinv0 hs0 hunm
    obtain ⟨⟨hids', _, hcount', hnames'⟩, _, hpos⟩ := hmain
    have hfuelpos : 0 < a.clearMarks.states.length := by
      rw [hlen]
      exact List.length_pos.mpr h1
    have hposc := hpos hfuelpos
    constructor
    · intro s hs hm
      have h2 := hnames' s (ha' ▸ hs) hm
      rw [h2]
      unfold log62Digits
      rw [log62_eq]
    · have : 0 < ((Automaton.dfsRename (log62Digits a.states.length)
          a.clearMarks.states.length (a.clearMarks, 0) s0).1.states.filter
            (fun s => s.marked)).length := by
        rw [← hcount']
        exact hposc
      rcases List.length_pos.mp this with _
      rcases hex : (Automaton.dfsRename (log62Digits a.states.length)
          a.clearMarks.states.length (a.clearMarks, 0) s0).1.states.filter
            (fun s => s.marked) with _ | ⟨t, ts⟩
      · rw [hex] at this
        simp at this
      · refine ⟨t, ?_, ?_⟩
        · rw [ha']
          exact List.mem_of_mem_filter (by rw [hex]; exact List.mem_cons_self _ _)
        · have := List.of_mem_filter (p := fun s : StateR => s.marked)
            (show t ∈ _ by rw [hex]; exact List.mem_cons_self _ _)
          simpa using this

/-- A concrete two-state automaton for claim C5. -/
def aC5 : Automaton :=
  (((mkAutomaton ['C'] ['a', 'b']).addState ['p'] true false false).2.addState
      ['q'] false true false).2.addEdge 0 1 'a'

/-- C5, counterexample to the claim as stated: on a two-state automaton
the DFS renaming assigns Base62 names of width 1 (the code uses
`floor(log62 n) + 1`), while `ceil(log62 2) + 1 = 2`. -/
theorem renameStatesDFS_width_cex :
    (aC5.renameStatesDFS).isOk = true ∧
      (∀ s ∈ aC5.renameResult.states, s.marked = true ∧ s.name.length = 1) ∧
      ceilLog62 aC5.states.length + 1 = 2 := by
  decide

/-- Witness for the amended C5 theorem on the concrete two-state
automaton. -/
theorem renameStatesDFS_width_witness :
    (∀ s ∈ aC5.renameResult.states, s.marked = true →
        s.name.length = Nat.log 62 aC5.states.length + 1) ∧
      ∃ s ∈ aC5.renameResult.states, s.marked = true :=
  renameStatesDFS_width aC5
    ⟨by decide, by decide, by decide, by decide, by decide, by decide, by decide⟩
    (by decide) aC5.renameResult (by rfl)

/-! ### Generalized automata (`generalized-automaton.js`) -/

/-- The fixed placeholder symbol of all generalized edges (`SYMBOL`). -/
def gaSYMBOL : Char := 'a'

/-- The boundary state names used by `GeneralizedAutomaton.copyOf`. -/
def startName : Name := ['s', 't', 'a', 'r', 't']

def finalName : Name := ['f', 'i', 'n', 'a', 'l']

namespace Automaton

/-- The name of the state with a given id (edge endpoints are objects in
the source; their `name` field is read here through the id). -/
def nameOfId (a : Automaton) (id : Nat) : Name :=
  match a.getSt id with
  | some s => s.name
  | none => []

/-- `GeneralizedAutomaton.addEdge(from, to, re)`: when an edge between the
endpoints already exists (all generalized edges carry the placeholder
symbol), sum the regex into its label; otherwise create the edge
(`super.addEdge`) and set its label. -/
def gaAddEdge (a : Automaton) (fromId toId : Nat) (re : RE) : Automaton :=
  if a.hasEdge fromId toId gaSYMBOL then
    { a with
      edges := a.edges.map (fun e =>
        if e.src == fromId && e.sym == gaSYMBOL && e.dst == toId then
          { e with re := some (match e.re with
            | some r => r.sum re
            | none => re) }
        else e) }
  else if gaSYMBOL ∈ a.alphabet then
    { a with edges := a.edges ++ [⟨fromId, toId, gaSYMBOL, some re⟩] }
  else a

/-- `addEdge` called with state names (as `copyOf` and the elimination
loop do); resolving a missing name crashes in the source, modelled as a
no-op kept out of every theorem's domain. -/
def gaAddEdgeByName (a : Automaton) (fromNm toNm : Name) (re : RE) : Automaton :=
  match a.getStateByName fromNm, a.getStateByName toNm with
  | some fi, some ti => a.gaAddEdge fi ti re
  | _, _ => a

end Automaton

/-- The name prefix `'generalized '` that `copyOf` puts before the source
automaton's name. -/
def genPrefix : Name := ['g', 'e', 'n', 'e', 'r', 'a', 'l', 'i', 'z', 'e', 'd', ' ']

/-- The per-state body of `copyOf`'s state loop: add a copy of the state
(unflagged, `forceNew`), then the epsilon boundary edges its flags ask
for. -/
def copyStep (startId finalId : Nat) (g : Automaton) (s : StateR) : Automaton :=
  let p := g.addState s.name false false true
  let g2 := if s.start then p.2.gaAddEdge startId p.1 (RE.mk []) else p.2
  if s.final then g2.gaAddEdge p.1 finalId (RE.mk []) else g2

/-- The per-edge body of `copyOf`'s edge loop: resolve both endpoints by
the original states' names. -/
def copyEdgeStep (aut g : Automaton) (e : EdgeR) : Automaton :=
  g.gaAddEdgeByName (aut.nameOfId e.src) (aut.nameOfId e.dst) (RE.mk [e.sym])

/-- `GeneralizedAutomaton.copyOf(aut)`: two boundary states `start` and
`final` (uniquified with `forceNew`), one internal copy per state of
`aut` (also `forceNew`), epsilon edges from `start` to copies of start
states and from copies of final states to `final`, and one generalized
edge per edge of `aut`, resolved by the original states' names. -/
def copyOf (aut : Automaton) : Automaton :=
  let ga := mkAutomaton (genPrefix ++ aut.name) ['a', 'b']
  if aut.isEmpty then ga
  else
    let p1 := ga.addState startName true false true
    let p2 := p1.2.addState finalName false true true
    aut.edges.foldl (copyEdgeStep aut) (aut.states.foldl (copyStep p1.1 p2.1) p2.2)

/-- The two boundary states `copyOf` begins with. -/
def copySeedStates : List StateR :=
  [⟨0, startName, true, false, false⟩, ⟨1, finalName, false, true, false⟩]

def copySeedMap : List (Name × Nat) := [(startName, 0), (finalName, 1)]

/-- The automaton `copyOf` has built right after adding the two boundary
states (their ids are 0 and 1 on the fresh generalized automaton). -/
def copySeed (nm : Name) : Automaton :=
  ⟨nm, ['a', 'b'], copySeedStates, copySeedMap, [], 2⟩

namespace Automaton

/-- The sum of the self-loop labels on the state being removed (`loopRE`,
`undefined` when there is no self-loop). -/
def elimLoopRE (a : Automaton) (rid : Nat) : Option RE :=
  ((a.edges.filter (fun e => e.dst == rid)).filter (fun e => e.src == e.dst)).foldl
    (fun acc e =>
      match acc, e.re with
      | none, r => r
      | some r1, some r2 => some (r1.sum r2)
      | some r1, none => some r1)
    none

/-- The regex of one bridging edge: `R_in · R_out`, or
`R_in · loop* · R_out` when the removed state has self-loops.  The source
computes `loopRE` once before the pair loop; it is a pure value and is
recomputed here. -/
def elimLabel (a : Automaton) (rid : Nat) (eIn eOut : EdgeR) : RE :=
  let rIn := eIn.re.getD RE.emptyRE
  let rOut := eOut.re.getD RE.emptyRE
  match elimLoopRE a rid with
  | none => rIn.concat rOut
  | some lr => (rIn.concat lr.star).concat rOut

/-- The pair loop of one elimination step: for every non-self in-edge and
non-self out-edge of the state being removed, add the bridging edge. -/
def elimFold (a : Automaton) (rid : Nat) : Automaton :=
  (a.edges.filter (fun e => e.dst == rid)).foldl
    (fun acc eIn =>
      if eIn.src == eIn.dst then acc
      else
        (a.edges.filter (fun e => e.src == rid)).foldl
          (fun acc2 eOut =>
            if eOut.src == eOut.dst then acc2
            else acc2.gaAddEdgeByName (a.nameOfId eIn.src) (a.nameOfId eOut.dst)
              (elimLabel a rid eIn eOut))
          acc)
    a

/-- One iteration of the state-elimination loop of `equivalentRE`: add the
bridging edges, then delete the state. -/
def eliminate (a : Automaton) (rid : Nat) : Automaton :=
  (elimFold a rid).deleteState rid

/-- The `while (a.states.size > 2)` loop of `equivalentRE`, fuelled by the
state count (each iteration deletes exactly one state). -/
def equivalentRELoop : Nat → Automaton → Automaton
  | 0, a => a
  | fuel + 1, a =>
    if a.states.length > 2 then
      match a.states.find? (fun s => !s.start && !s.final) with
      | some rs => equivalentRELoop fuel (a.eliminate rs.id)
      | none => a
    else a

/-- `GeneralizedAutomaton.equivalentRE()`. -/
def equivalentRE (a : Automaton) : RE :=
  if a.isEmpty then RE.emptyRE
  else
    let aEnd := equivalentRELoop a.states.length a
    if aEnd.edges.isEmpty then RE.emptyRE
    else
      match aEnd.edges.head? with
      | some e => e.re.getD RE.emptyRE
      | none => RE.emptyRE

end Automaton

/-! ### State elimination invariants (C7) -/

/-- The invariant of a generalized automaton as built by `copyOf` and
maintained by state elimination: well-formed, a unique start boundary
state `sId` and a unique final boundary state `fId`, all other states
unflagged, no edge into `sId` or out of `fId`, at most one generalized
edge per ordered state pair, and all edges on the placeholder symbol. -/
structure GAInv (sId fId : Nat) (a : Automaton) : Prop where
  wf : WF a
  alpha : gaSYMBOL ∈ a.alphabet
  hS : ∃ s ∈ a.states, s.id = sId ∧ s.start = true ∧ s.final = false
  hF : ∃ s ∈ a.states, s.id = fId ∧ s.start = false ∧ s.final = true
  hOthers : ∀ s ∈ a.states, s.id ≠ sId → s.id ≠ fId → s.start = false ∧ s.final = false
  hNoIn : ∀ e ∈ a.edges, e.dst ≠ sId
  hNoOut : ∀ e ∈ a.edges, e.src ≠ fId
  hPairs : (a.edges.map (fun e => (e.src, e.dst))).Nodup
  hSym : ∀ e ∈ a.edges, e.sym = gaSYMBOL

/-- Relabelling edges (keeping endpoints and symbols) preserves
well-formedness. -/
theorem WF_edges_relabel {a : Automaton} (wf : WF a) {f : EdgeR → EdgeR}
    (hf : ∀ e, (f e).src = e.src ∧ (f e).dst = e.dst ∧ (f e).sym = e.sym) :
    WF { a with edges := a.edges.map f } := by
  refine ⟨wf.ids_nodup, wf.names_nodup, wf.keys_nodup, wf.map_sound, wf.map_complete, ?_,
    wf.ids_lt⟩
  intro e he
  rcases List.mem_map.mp he with ⟨e0, he0, hfe⟩
  rcases wf.edges_valid e0 he0 with ⟨h1, h2, h3⟩
  rw [← hfe]
  rw [(hf e0).1, (hf e0).2.1, (hf e0).2.2]
  exact ⟨h1, h2, h3⟩

/-- Looking a state's name back up returns its id (well-formed
automata). -/
theorem lookup_nameOfId {a : Automaton} (wf : WF a) {id : Nat}
    (h : id ∈ a.states.map StateR.id) : a.getStateByName (a.nameOfId id) = some id := by
  rcases List.mem_map.mp h with ⟨t, ht, hid⟩
  have hget : a.getSt id = some t := by
    have := find?_id_of_mem wf.ids_nodup ht
    rw [hid] at this
    exact this
  unfold Automaton.nameOfId
  rw [hget]
  exact (Automaton.getStateByName_eq_some wf).mpr ⟨t, ht, rfl, hid⟩

/-- `gaAddEdge` preserves the elimination invariant when the new edge
respects the boundary (no edge into the start, none out of the final). -/
theorem gaAddEdge_GAInv {sId fId : Nat} {a : Automaton} (inv : GAInv sId fId a)
    {fromId toId : Nat} (hfrom : fromId ∈ a.states.map StateR.id)
    (hto : toId ∈ a.states.map StateR.id) (htoS : toId ≠ sId) (hfromF : fromId ≠ fId)
    (re : RE) : GAInv sId fId (a.gaAddEdge fromId toId re) := by
  unfold Automaton.gaAddEdge
  by_cases hhe : a.hasEdge fromId toId gaSYMBOL = true
  · rw [if_pos hhe]
    set f : EdgeR → EdgeR := fun e =>
      if e.src == fromId && e.sym == gaSYMBOL && e.dst == toId then
        { e with re := some (match e.re with
          | some r => r.sum re
          | none => re) }
      else e with hfdef
    have hf : ∀ e, (f e).src = e.src ∧ (f e).dst = e.dst ∧ (f e).sym = e.sym := by
      intro e
      rw [hfdef]
      by_cases h : (e.src == fromId && e.sym == gaSYMBOL && e.dst == toId) = true
      · simp [h]
      · simp [h]
    have hpairs2 : ((a.edges.map f).map (fun e => (e.src, e.dst))) =
        a.edges.map (fun e => (e.src, e.dst)) := by
      rw [List.map_map]
      refine List.map_congr_left ?_
      intro e _
      show ((f e).src, (f e).dst) = (e.src, e.dst)
      rw [(hf e).1, (hf e).2.1]
    refine ⟨WF_edges_relabel inv.wf hf, inv.alpha, inv.hS, inv.hF, inv.hOthers, ?_, ?_, ?_, ?_⟩
    · intro e he
      rcases List.mem_map.mp he with ⟨e0, he0, hfe⟩
      rw [← hfe, (hf e0).2.1]
      exact inv.hNoIn e0 he0
    · intro e he
      rcases List.mem_map.mp he with ⟨e0, he0, hfe⟩
      rw [← hfe, (hf e0).1]
      exact inv.hNoOut e0 he0
    · show ((a.edges.map f).map (fun e => (e.src, e.dst))).Nodup
      rw [hpairs2]
      exact inv.hPairs
    · intro e he
      rcases List.mem_map.mp he with ⟨e0, he0, hfe⟩
      rw [← hfe, (hf e0).2.2]
      exact inv.hSym e0 he0
  · rw [if_neg hhe, if_pos inv.alpha]
    have hnotpair : (fromId, toId) ∉ a.edges.map (fun e => (e.src, e.dst)) := by
      intro hmem
      rcases List.mem_map.mp hmem with ⟨e0, he0, hpe⟩
      apply hhe
      unfold Automaton.hasEdge
      refine List.any_eq_true.mpr ⟨e0, he0, ?_⟩
      have h1 : e0.src = fromId := by
        have := congrArg Prod.fst hpe
        simpa using this
      have h2 : e0.dst = toId := by
        have := congrArg Prod.snd hpe
        simpa using this
      simp [h1, h2, inv.hSym e0 he0]
    constructor
    · refine ⟨inv.wf.ids_nodup, inv.wf.names_nodup, inv.wf.keys_nodup, inv.wf.map_sound,
        inv.wf.map_complete, ?_, inv.wf.ids_lt⟩
      intro e he
      rcases List.mem_append.mp he with h | h
      · exact inv.wf.edges_valid e h
      · simp only [List.mem_singleton] at h
        subst h
        exact ⟨inv.alpha, hfrom, hto⟩
    · exact inv.alpha
    · exact inv.hS
    · exact inv.hF
    · exact inv.hOthers
    · intro e he
      rcases List.mem_append.mp he with h | h
      · exact inv.hNoIn e h
      · simp only [List.mem_singleton] at h
        subst h
        exact htoS
    · intro e he
      rcases List.mem_append.mp he with h | h
      · exact inv.hNoOut e h
      · simp only [List.mem_singleton] at h
        subst h
        exact hfromF
    · rw [List.map_append]
      refine (List.nodup_append).mpr ⟨inv.hPairs, List.nodup_singleton _, ?_⟩
      intro x hx hy
      simp only [List.map_cons, List.map_nil, List.mem_singleton] at hy
      subst hy
      exact hnotpair hx
    · intro e he
      rcases List.mem_append.mp he with h | h
      · exact inv.hSym e h
      · simp only [List.mem_singleton] at h
        subst h
        rfl

/-- `gaAddEdge` only touches the edge list. -/
theorem gaAddEdge_states (a : Automaton) (fi ti : Nat) (re : RE) :
    (a.gaAddEdge fi ti re).states = a.states := by
  unfold Automaton.gaAddEdge
  by_cases h : a.hasEdge fi ti gaSYMBOL = true
  · rw [if_pos h]
  · rw [if_neg h]
    by_cases h2 : gaSYMBOL ∈ a.alphabet
    · rw [if_pos h2]
    · rw [if_neg h2]

theorem gaAddEdge_nameMap (a : Automaton) (fi ti : Nat) (re : RE) :
    (a.gaAddEdge fi ti re).nameMap = a.nameMap := by
  unfold Automaton.gaAddEdge
  by_cases h : a.hasEdge fi ti gaSYMBOL = true
  · rw [if_pos h]
  · rw [if_neg h]
    by_cases h2 : gaSYMBOL ∈ a.alphabet
    · rw [if_pos h2]
    · rw [if_neg h2]

theorem gaAddEdgeByName_states (a : Automaton) (fn tn : Name) (re : RE) :
    (a.gaAddEdgeByName fn tn re).states = a.states := by
  unfold Automaton.gaAddEdgeByName
  rcases a.getStateByName fn with _ | fi
  · rfl
  · rcases a.getStateByName tn with _ | ti
    · rfl
    · exact gaAddEdge_states _ _ _ _

theorem gaAddEdgeByName_nameMap (a : Automaton) (fn tn : Name) (re : RE) :
    (a.gaAddEdgeByName fn tn re).nameMap = a.nameMap := by
  unfold Automaton.gaAddEdgeByName
  rcases a.getStateByName fn with _ | fi
  · rfl
  · rcases a.getStateByName tn with _ | ti
    · rfl
    · exact gaAddEdge_nameMap _ _ _ _

/-- Removing one present state (distinct ids) shortens the list by
exactly one. -/
theorem filter_out_id_length (l : List StateR) (hnodup : (l.map StateR.id).Nodup)
    {t0 : StateR} (ht0 : t0 ∈ l) :
    (l.filter (fun t => !(t.id == t0.id))).length + 1 = l.length := by
  induction l with
  | nil => cases ht0
  | cons u l ih =>
    simp only [List.map_cons, List.nodup_cons] at hnodup
    rcases List.mem_cons.mp ht0 with h | h
    · subst h
      rw [List.filter_cons]
      have hcond : (!(t0.id == t0.id)) = false := by simp
      rw [hcond]
      simp only [Bool.false_eq_true, if_false]
      have : l.filter (fun t => !(t.id == t0.id)) = l := by
        rw [List.filter_eq_self]
        intro t htl
        have : t.id ≠ t0.id := by
          intro he
          exact hnodup.1 (by rw [← he]; exact List.mem_map_of_mem StateR.id htl)
        simpa using this
      rw [this]
      simp
    · rw [List.filter_cons]
      have hune : u.id ≠ t0.id := by
        intro he
        exact hnodup.1 (by rw [he]; exact List.mem_map_of_mem StateR.id h)
      have hcond : (!(u.id == t0.id)) = true := by simpa using hune
      have hrec := ih hnodup.2 h
      simp [hcond]
      omega

/-- One elimination step preserves the invariant and removes exactly one
state. -/
theorem eliminate_GAInv {sId fId : Nat} {a : Automaton} (inv : GAInv sId fId a)
    {rs : StateR} (hrs : rs ∈ a.states) (hrsS : rs.id ≠ sId) (hrsF : rs.id ≠ fId) :
    GAInv sId fId (a.eliminate rs.id) ∧
      (a.eliminate rs.id).states.length + 1 = a.states.length := by
  -- the bridging fold preserves the invariant and touches only edges
  have hstep : ∀ (eInL eOutL : List EdgeR), (∀ e ∈ eInL, e ∈ a.edges) →
      (∀ e ∈ eOutL, e ∈ a.edges) →
      ∀ (g : Automaton) (rfun : EdgeR → EdgeR → RE),
        GAInv sId fId g → g.states = a.states → g.nameMap = a.nameMap →
        GAInv sId fId (eInL.foldl
            (fun acc eIn =>
              if eIn.src == eIn.dst then acc
              else
                eOutL.foldl
                  (fun acc2 eOut =>
                    if eOut.src == eOut.dst then acc2
                    else acc2.gaAddEdgeByName (a.nameOfId eIn.src) (a.nameOfId eOut.dst)
                      (rfun eIn eOut))
                  acc)
            g) ∧
          (eInL.foldl
            (fun acc eIn =>
              if eIn.src == eIn.dst then acc
              else
                eOutL.foldl
                  (fun acc2 eOut =>
                    if eOut.src == eOut.dst then acc2
                    else acc2.gaAddEdgeByName (a.nameOfId eIn.src) (a.nameOfId eOut.dst)
                      (rfun eIn eOut))
                  acc)
            g).states = a.states ∧
          (eInL.foldl
            (fun acc eIn =>
              if eIn.src == eIn.dst then acc
              else
                eOutL.foldl
                  (fun acc2 eOut =>
                    if eOut.src == eOut.dst then acc2
                    else acc2.gaAddEdgeByName (a.nameOfId eIn.src) (a.nameOfId eOut.dst)
                      (rfun eIn eOut))
                  acc)
            g).nameMap = a.nameMap := by
    intro eInL
    induction eInL with
    | nil => exact fun eOutL _ _ g _ hg hst hm => ⟨by simpa using hg, hst, hm⟩
    | cons eIn eInL ihIn =>
      intro eOutL hInm hOutm g rfun hg hst hm
      simp only [List.foldl_cons]
      by_cases hself : (eIn.src == eIn.dst) = true
      · rw [if_pos hself]
        exact ihIn eOutL (fun e he => hInm e (List.mem_cons_of_mem _ he)) hOutm g rfun hg hst hm
      · rw [if_neg hself]
        have hinner : ∀ (oL : List EdgeR), (∀ e ∈ oL, e ∈ a.edges) →
            ∀ (g2 : Automaton), GAInv sId fId g2 → g2.states = a.states →
              g2.nameMap = a.nameMap →
              GAInv sId fId (oL.foldl
                  (fun acc2 eOut =>
                    if eOut.src == eOut.dst then acc2
                    else acc2.gaAddEdgeByName (a.nameOfId eIn.src) (a.nameOfId eOut.dst)
                      (rfun eIn eOut))
                  g2) ∧
                (oL.foldl
                  (fun acc2 eOut =>
                    if eOut.src == eOut.dst then acc2
                    else acc2.gaAddEdgeByName (a.nameOfId eIn.src) (a.nameOfId eOut.dst)
                      (rfun eIn eOut))
                  g2).states = a.states ∧
                (oL.foldl
                  (fun acc2 eOut =>
                    if eOut.src == eOut.dst then acc2
                    else acc2.gaAddEdgeByName (a.nameOfId eIn.src) (a.nameOfId eOut.dst)
                      (rfun eIn eOut))
                  g2).nameMap = a.nameMap := by
          intro oL
          induction oL with
          | nil => exact fun _ g2 hg2 hst2 hm2 => ⟨hg2, hst2, hm2⟩
          | cons eOut oL ihOut =>
            intro hOutm2 g2 hg2 hst2 hm2
            simp only [List.foldl_cons]
            by_cases hself2 : (eOut.src == eOut.dst) = true
            · rw [if_pos hself2]
              exact ihOut (fun e he => hOutm2 e (List.mem_cons_of_mem _ he)) g2 hg2 hst2 hm2
            · rw [if_neg hself2]
              have heInm : eIn ∈ a.edges := hInm eIn (List.mem_cons_self _ _)
              have heOutm : eOut ∈ a.edges := hOutm2 eOut (List.mem_cons_self _ _)
              have hsrcm : eIn.src ∈ a.states.map StateR.id :=
                (inv.wf.edges_valid eIn heInm).2.1
              have hdstm : eOut.dst ∈ a.states.map StateR.id :=
                (inv.wf.edges_valid eOut heOutm).2.2
              have hlook1 : g2.getStateByName (a.nameOfId eIn.src) = some eIn.src := by
                unfold Automaton.getStateByName
                rw [hm2]
                exact lookup_nameOfId inv.wf hsrcm
              have hlook2 : g2.getStateByName (a.nameOfId eOut.dst) = some eOut.dst := by
                unfold Automaton.getStateByName
                rw [hm2]
                exact lookup_nameOfId inv.wf hdstm
              have hadd : g2.gaAddEdgeByName (a.nameOfId eIn.src) (a.nameOfId eOut.dst)
                  (rfun eIn eOut) = g2.gaAddEdge eIn.src eOut.dst (rfun eIn eOut) := by
                unfold Automaton.gaAddEdgeByName
                rw [hlook1, hlook2]
              rw [hadd]
              refine ihOut (fun e he => hOutm2 e (List.mem_cons_of_mem _ he)) _ ?_ ?_ ?_
              · refine gaAddEdge_GAInv hg2 ?_ ?_ ?_ ?_ _
                · rw [hst2]
                  exact hsrcm
                · rw [hst2]
                  exact hdstm
                · exact inv.hNoIn eOut heOutm
                · exact inv.hNoOut eIn heInm
              · rw [gaAddEdge_states, hst2]
              · rw [gaAddEdge_nameMap, hm2]
        have hres := hinner eOutL hOutm g hg hst hm
        exact ihIn eOutL (fun e he => hInm e (List.mem_cons_of_mem _ he)) hOutm _ rfun
          hres.1 hres.2.1 hres.2.2
  -- apply the fold lemma to the actual elimination
  have hInm : ∀ e ∈ a.edges.filter (fun e => e.dst == rs.id), e ∈ a.edges :=
    fun e he => List.mem_of_mem_filter he
  have hOutm : ∀ e ∈ a.edges.filter (fun e => e.src == rs.id), e ∈ a.edges :=
    fun e he => List.mem_of_mem_filter he
  have hmid : GAInv sId fId (Automaton.elimFold a rs.id) ∧
      (Automaton.elimFold a rs.id).states = a.states ∧
      (Automaton.elimFold a rs.id).nameMap = a.nameMap :=
    hstep (a.edges.filter (fun e => e.dst == rs.id))
      (a.edges.filter (fun e => e.src == rs.id)) hInm hOutm a
      (Automaton.elimLabel a rs.id) inv rfl rfl
  obtain ⟨hmidInv, hmidStates, hmidMap⟩ := hmid
  -- the final deletion of the state
  have hrsMid : rs ∈ (Automaton.elimFold a rs.id).states := by
    rw [hmidStates]
    exact hrs
  have hgetMid : (Automaton.elimFold a rs.id).getSt rs.id = some rs :=
    Automaton.getSt_of_mem hmidInv.wf hrsMid
  have hdel : a.eliminate rs.id =
      { Automaton.elimFold a rs.id with
        edges := (Automaton.elimFold a rs.id).edges.filter
          (fun e => !(e.src == rs.id || e.dst == rs.id))
        nameMap := mapDelete (Automaton.elimFold a rs.id).nameMap rs.name
        states := (Automaton.elimFold a rs.id).states.filter (fun t => !(t.id == rs.id)) } := by
    show (Automaton.elimFold a rs.id).deleteState rs.id = _
    unfold Automaton.deleteState
    rw [hgetMid]
  constructor
  · rw [hdel]
    constructor
    · have := deleteState_WF hmidInv.wf rs.id
      unfold Automaton.deleteState at this
      rw [hgetMid] at this
      exact this
    · exact hmidInv.alpha
    · rcases hmidInv.hS with ⟨sS, hsm, h1, h2, h3⟩
      refine ⟨sS, ?_, h1, h2, h3⟩
      refine List.mem_filter.mpr ⟨hsm, ?_⟩
      have : sS.id ≠ rs.id := by
        rw [h1]
        exact fun he => hrsS he.symm
      simpa using this
    · rcases hmidInv.hF with ⟨sF, hsm, h1, h2, h3⟩
      refine ⟨sF, ?_, h1, h2, h3⟩
      refine List.mem_filter.mpr ⟨hsm, ?_⟩
      have : sF.id ≠ rs.id := by
        rw [h1]
        exact fun he => hrsF he.symm
      simpa using this
    · intro s hsm h1 h2
      exact hmidInv.hOthers s (List.mem_of_mem_filter hsm) h1 h2
    · intro e he
      exact hmidInv.hNoIn e (List.mem_of_mem_filter he)
    · intro e he
      exact hmidInv.hNoOut e (List.mem_of_mem_filter he)
    · show (((Automaton.elimFold a rs.id).edges.filter
          (fun e => !(e.src == rs.id || e.dst == rs.id))).map
            (fun e => (e.src, e.dst))).Nodup
      exact List.Nodup.sublist
        ((List.filter_sublist _).map (fun e : EdgeR => (e.src, e.dst))) hmidInv.hPairs
    · intro e he
      exact hmidInv.hSym e (List.mem_of_mem_filter he)
  · rw [hdel]
    show ((Automaton.elimFold a rs.id).states.filter (fun t => !(t.id == rs.id))).length + 1 =
      a.states.length
    rw [hmidStates]
    have : (a.states.map StateR.id).Nodup := inv.wf.ids_nodup
    exact filter_out_id_length a.states this hrs

/-- With more than two states, the elimination loop finds a removable
(non-boundary) state. -/
theorem find_removable {sId fId : Nat} {a : Automaton} (inv : GAInv sId fId a)
    (h3 : 2 < a.states.length) :
    ∃ rs, a.states.find? (fun s => !s.start && !s.final) = some rs ∧ rs ∈ a.states ∧
      rs.id ≠ sId ∧ rs.id ≠ fId := by
  have hex : ∃ s ∈ a.states, s.id ≠ sId ∧ s.id ≠ fId := by
    by_contra hall
    push_neg at hall
    have hsub : ∀ x ∈ a.states.map StateR.id, x ∈ [sId, fId] := by
      intro x hx
      rcases List.mem_map.mp hx with ⟨s, hs, hid⟩
      subst hid
      simp only [List.mem_cons, List.not_mem_nil, or_false]
      by_cases hse : s.id = sId
      · exact Or.inl hse
      · exact Or.inr (hall s hs hse)
    have hcard : (a.states.map StateR.id).length ≤ 2 := by
      have hN := inv.wf.ids_nodup
      have h1 : (a.states.map StateR.id).toFinset.card = (a.states.map StateR.id).length :=
        List.toFinset_card_of_nodup hN
      have h2 : (a.states.map StateR.id).toFinset ⊆ ([sId, fId] : List Nat).toFinset := by
        intro x hx
        rw [List.mem_toFinset] at hx ⊢
        exact hsub x hx
      have h3b := Finset.card_le_card h2
      have h4 : ([sId, fId] : List Nat).toFinset.card ≤ 2 := by
        by_cases he : sId = fId
        · subst he
          simp
        · rw [List.toFinset_cons, List.toFinset_cons, List.toFinset_nil]
          exact le_trans (Finset.card_insert_le _ _) (by simp)
      omega
    rw [List.length_map] at hcard
    omega
  rcases hex with ⟨s, hs, h1, h2⟩
  have hflags := inv.hOthers s hs h1 h2
  rcases hfind : a.states.find? (fun s => !s.start && !s.final) with _ | rs
  · exfalso
    have := List.find?_eq_none.mp hfind s hs
    rw [hflags.1, hflags.2] at this
    simp at this
  · have hrm : rs ∈ a.states := List.mem_of_find?_eq_some hfind
    have hpred : (!rs.start && !rs.final) = true := by
      have aux : ∀ (f : StateR → Bool) (l : List StateR) (q : StateR),
          l.find? f = some q → f q = true := fun _ _ _ h => List.find?_some h
      exact aux _ _ _ hfind
    simp only [Bool.and_eq_true, Bool.not_eq_true'] at hpred
    refine ⟨rs, hfind, hrm, ?_, ?_⟩
    · intro he
      rcases inv.hS with ⟨sS, hsm, hid, hstart, _⟩
      have : rs = sS := state_inj_of_ids inv.wf hrm hsm (by rw [he, hid])
      rw [this, hstart] at hpred
      exact absurd hpred.1 (by simp)
    · intro he
      rcases inv.hF with ⟨sF, hsm, hid, _, hfinal⟩
      have : rs = sF := state_inj_of_ids inv.wf hrm hsm (by rw [he, hid])
      rw [this, hfinal] at hpred
      exact absurd hpred.2 (by simp)

/-- The elimination loop reaches at most two states within `|states|`
iterations (each iteration strictly decreases the state count), keeping
the invariant. -/
theorem equivalentRELoop_spec {sId fId : Nat} :
    ∀ (fuel : Nat) (a : Automaton), GAInv sId fId a → a.states.length ≤ fuel + 2 →
      GAInv sId fId (Automaton.equivalentRELoop fuel a) ∧
        (Automaton.equivalentRELoop fuel a).states.length ≤ 2 := by
  intro fuel
  induction fuel with
  | zero =>
    intro a inv hle
    exact ⟨inv, by simpa using hle⟩
  | succ fuel ih =>
    intro a inv hle
    unfold Automaton.equivalentRELoop
    by_cases h3 : 2 < a.states.length
    · rw [if_pos (by simpa using h3)]
      rcases find_removable inv h3 with ⟨rs, hfind, hrm, h1, h2⟩
      rw [hfind]
      rcases eliminate_GAInv inv hrm h1 h2 with ⟨inv2, hlen⟩
      exact ih _ inv2 (by omega)
    · rw [if_neg (by simpa using h3)]
      exact ⟨inv, by omega⟩

/-- With at most two states left, at most one generalized edge remains,
and it connects the start boundary state to the final one. -/
theorem GAInv_final_edges {sId fId : Nat} {a : Automaton} (inv : GAInv sId fId a)
    (h2 : a.states.length ≤ 2) :
    a.edges.length ≤ 1 ∧ ∀ e ∈ a.edges, e.src = sId ∧ e.dst = fId := by
  rcases inv.hS with ⟨sS, hsSm, hsSid, hsSstart, hsSfinal⟩
  rcases inv.hF with ⟨sF, hsFm, hsFid, hsFstart, hsFfinal⟩
  have hSF : sS ≠ sF := by
    intro he
    rw [he, hsFstart] at hsSstart
    cases hsSstart
  have hidSF : sId ≠ fId := by
    intro he
    exact hSF (state_inj_of_ids inv.wf hsSm hsFm (by rw [hsSid, hsFid, he]))
  -- every state is one of the two boundary states
  have hallids : ∀ x ∈ a.states.map StateR.id, x = sId ∨ x = fId := by
    intro x hx
    rcases List.mem_map.mp hx with ⟨t, ht, hid⟩
    by_contra hneither
    push_neg at hneither
    have htS : t ≠ sS := by
      intro he
      exact hneither.1 (by rw [← hid, he, hsSid])
    have htF : t ≠ sF := by
      intro he
      exact hneither.2 (by rw [← hid, he, hsFid])
    have hnodup : a.states.Nodup := inv.wf.ids_nodup.of_map
    have hcard : ({sS, sF, t} : Finset StateR).card ≤ a.states.toFinset.card := by
      refine Finset.card_le_card ?_
      intro x hx2
      rw [List.mem_toFinset]
      rcases Finset.mem_insert.mp hx2 with h | h
      · rw [h]; exact hsSm
      · rcases Finset.mem_insert.mp h with h | h
        · rw [h]; exact hsFm
        · rw [Finset.mem_singleton.mp h]; exact ht
    have h3card : ({sS, sF, t} : Finset StateR).card = 3 := by
      rw [Finset.card_insert_of_not_mem (by simp [hSF, htS.symm]),
        Finset.card_insert_of_not_mem (by simp [htF.symm])]
      simp
    rw [List.toFinset_card_of_nodup hnodup] at hcard
    omega
  refine ⟨?_, ?_⟩
  · rcases hedges : a.edges with _ | ⟨e1, rest⟩
    · simp
    · rcases rest with _ | ⟨e2, rest2⟩
      · simp
      · exfalso
        have hpair : ∀ e ∈ a.edges, (e.src, e.dst) = (sId, fId) := by
          intro e he
          rcases inv.wf.edges_valid e he with ⟨_, h1, h2b⟩
          have hsrc : e.src = sId := by
            rcases hallids e.src h1 with h | h
            · exact h
            · exact absurd h (inv.hNoOut e he)
          have hdst : e.dst = fId := by
            rcases hallids e.dst h2b with h | h
            · exact absurd h (inv.hNoIn e he)
            · exact h
          rw [hsrc, hdst]
        have hN := inv.hPairs
        rw [hedges] at hN
        simp only [List.map_cons, List.nodup_cons] at hN
        apply hN.1
        have he1 : e1 ∈ a.edges := by rw [hedges]; exact List.mem_cons_self _ _
        have he2 : e2 ∈ a.edges := by
          rw [hedges]
          exact List.mem_cons_of_mem _ (List.mem_cons_self _ _)
        rw [hpair e1 he1, hpair e2 he2]
        exact List.mem_cons_self _ _
  · intro e he
    rcases inv.wf.edges_valid e he with ⟨_, h1, h2b⟩
    constructor
    · rcases hallids e.src h1 with h | h
      · exact h
      · exact absurd h (inv.hNoOut e he)
    · rcases hallids e.dst h2b with h | h
      · exact absurd h (inv.hNoIn e he)
      · exact h

/-! ### `copyOf` establishes the elimination invariant (C7) -/

/-- `mapGet` on a cons cell: hit the head key or continue. -/
theorem mapGet_cons (p : Name × Nat) (m : List (Name × Nat)) (k : Name) :
    mapGet (p :: m) k = if (p.1 == k) = true then some p.2 else mapGet m k := by
  unfold mapGet
  by_cases hp : (p.1 == k) = true
  · rw [List.find?_cons_of_pos m (show (fun q : Name × Nat => q.1 == k) p = true from hp),
      if_pos hp]
  · rw [List.find?_cons_of_neg m (show ¬(fun q : Name × Nat => q.1 == k) p = true from hp),
      if_neg hp]

/-- A hit in the front part of an appended map is a hit in the whole. -/
theorem mapGet_append_some (tail : List (Name × Nat)) :
    ∀ {m : List (Name × Nat)} {k : Name} {v : Nat}, mapGet m k = some v →
      mapGet (m ++ tail) k = some v := by
  intro m
  induction m with
  | nil =>
    intro k v h
    unfold mapGet at h
    simp at h
  | cons p m ih =>
    intro k v h
    rw [mapGet_cons] at h
    rw [List.cons_append, mapGet_cons]
    by_cases hp : (p.1 == k) = true
    · rw [if_pos hp] at h
      rw [if_pos hp]
      exact h
    · rw [if_neg hp] at h
      rw [if_neg hp]
      exact ih h

/-- A miss in the front part of an appended map defers to the tail. -/
theorem mapGet_append_none (tail : List (Name × Nat)) :
    ∀ {m : List (Name × Nat)} {k : Name}, mapGet m k = none →
      mapGet (m ++ tail) k = mapGet tail k := by
  intro m
  induction m with
  | nil => intro k _; rfl
  | cons p m ih =>
    intro k h
    rw [mapGet_cons] at h
    rw [List.cons_append, mapGet_cons]
    by_cases hp : (p.1 == k) = true
    · rw [if_pos hp] at h
      exact Option.noConfusion h
    · rw [if_neg hp] at h
      rw [if_neg hp]
      exact ih h

/-- The `forceNew` uniquification loop returns an unbound name unchanged. -/
theorem freshNameAux_of_none (a : Automaton) (fuel : Nat) {nm : Name}
    (h : mapGet a.nameMap nm = none) : a.freshNameAux (fuel + 1) nm = nm := by
  show (match mapGet a.nameMap nm with
    | some _ => a.freshNameAux fuel (nm ++ ['x'])
    | none => nm) = nm
  rw [h]

theorem freshName_of_none {a : Automaton} {nm : Name}
    (h : mapGet a.nameMap nm = none) : a.freshName nm = nm :=
  freshNameAux_of_none a a.maxKeyLen h

/-- `addState` with `forceNew` on an unbound non-empty name appends the
state under exactly that name. -/
theorem addState_fresh {a : Automaton} {nm : Name} (st fi : Bool)
    (hnone : mapGet a.nameMap nm = none) (hnn : nm ≠ []) :
    a.addState nm st fi true =
      (a.nextId,
        { a with
          states := a.states ++ [⟨a.nextId, nm, st, fi, false⟩]
          nameMap := a.nameMap ++ [(nm, a.nextId)]
          nextId := a.nextId + 1 }) := by
  have hfr : a.freshName nm = nm := freshName_of_none hnone
  have hcond : mapGet a.nameMap (if true then a.freshName nm else nm) = none := by
    show mapGet a.nameMap (a.freshName nm) = none
    rw [hfr]
    exact hnone
  rw [addState_new hcond]
  have hie : nm.isEmpty = false := by
    rcases hc : nm with _ | ⟨c, cs⟩
    · exact absurd hc hnn
    · rfl
  simp [hfr, hie]

theorem gaAddEdge_nextId (a : Automaton) (fi ti : Nat) (re : RE) :
    (a.gaAddEdge fi ti re).nextId = a.nextId := by
  unfold Automaton.gaAddEdge
  by_cases h : a.hasEdge fi ti gaSYMBOL = true
  · rw [if_pos h]
  · rw [if_neg h]
    by_cases h2 : gaSYMBOL ∈ a.alphabet
    · rw [if_pos h2]
    · rw [if_neg h2]

/-- Appending one fresh unflagged state preserves the elimination
invariant. -/
theorem GAInv_append_state {sId fId : Nat} {g : Automaton} (inv : GAInv sId fId g)
    {nm : Name} (hnn : nm ≠ []) (hnone : mapGet g.nameMap nm = none) :
    GAInv sId fId
      { g with
        states := g.states ++ [⟨g.nextId, nm, false, false, false⟩]
        nameMap := g.nameMap ++ [(nm, g.nextId)]
        nextId := g.nextId + 1 } := by
  have haddeq := addState_fresh false false hnone hnn
  have hwf1 : WF { g with
      states := g.states ++ [⟨g.nextId, nm, false, false, false⟩]
      nameMap := g.nameMap ++ [(nm, g.nextId)]
      nextId := g.nextId + 1 } := by
    have h := addState_WF inv.wf hnn false false true
    rw [haddeq] at h
    exact h
  refine ⟨hwf1, inv.alpha, ?_, ?_, ?_, inv.hNoIn, inv.hNoOut, inv.hPairs, inv.hSym⟩
  · rcases inv.hS with ⟨t, ht, h⟩
    exact ⟨t, List.mem_append_left _ ht, h⟩
  · rcases inv.hF with ⟨t, ht, h⟩
    exact ⟨t, List.mem_append_left _ ht, h⟩
  · intro t ht h0 h1
    rcases List.mem_append.mp ht with h | h
    · exact inv.hOthers t h h0 h1
    · simp only [List.mem_singleton] at h
      subst h
      exact ⟨rfl, rfl⟩

/-- The two conditional boundary epsilon edges of `copyOf`'s state loop
preserve the invariant and touch only the edge list. -/
theorem copyStep_boundary {g1 : Automaton} (inv1 : GAInv 0 1 g1) (newId : Nat)
    (hmemNew : newId ∈ g1.states.map StateR.id) (hnew0 : newId ≠ 0) (hnew1 : newId ≠ 1)
    (b1 b2 : Bool) :
    GAInv 0 1 (if b2 then
        (if b1 then g1.gaAddEdge 0 newId (RE.mk []) else g1).gaAddEdge newId 1 (RE.mk [])
      else (if b1 then g1.gaAddEdge 0 newId (RE.mk []) else g1)) ∧
      (if b2 then
        (if b1 then g1.gaAddEdge 0 newId (RE.mk []) else g1).gaAddEdge newId 1 (RE.mk [])
      else (if b1 then g1.gaAddEdge 0 newId (RE.mk []) else g1)).states = g1.states ∧
      (if b2 then
        (if b1 then g1.gaAddEdge 0 newId (RE.mk []) else g1).gaAddEdge newId 1 (RE.mk [])
      else (if b1 then g1.gaAddEdge 0 newId (RE.mk []) else g1)).nameMap = g1.nameMap ∧
      (if b2 then
        (if b1 then g1.gaAddEdge 0 newId (RE.mk []) else g1).gaAddEdge newId 1 (RE.mk [])
      else (if b1 then g1.gaAddEdge 0 newId (RE.mk []) else g1)).nextId = g1.nextId := by
  have hmem0 : (0 : Nat) ∈ g1.states.map StateR.id := by
    rcases inv1.hS with ⟨t, ht, hid, _, _⟩
    exact List.mem_map.mpr ⟨t, ht, hid⟩
  have hmem1 : (1 : Nat) ∈ g1.states.map StateR.id := by
    rcases inv1.hF with ⟨t, ht, hid, _, _⟩
    exact List.mem_map.mpr ⟨t, ht, hid⟩
  have inner : GAInv 0 1 (if b1 then g1.gaAddEdge 0 newId (RE.mk []) else g1) ∧
      (if b1 then g1.gaAddEdge 0 newId (RE.mk []) else g1).states = g1.states ∧
      (if b1 then g1.gaAddEdge 0 newId (RE.mk []) else g1).nameMap = g1.nameMap ∧
      (if b1 then g1.gaAddEdge 0 newId (RE.mk []) else g1).nextId = g1.nextId := by
    cases b1 with
    | false =>
      simp only [Bool.false_eq_true, if_false]
      exact ⟨inv1, trivial, trivial, trivial⟩
    | true =>
      rw [if_pos rfl]
      exact ⟨gaAddEdge_GAInv inv1 hmem0 hmemNew hnew0 (by decide) (RE.mk []),
        gaAddEdge_states _ _ _ _, gaAddEdge_nameMap _ _ _ _, gaAddEdge_nextId _ _ _ _⟩
  obtain ⟨inv2, hst2, hnm2, hni2⟩ := inner
  cases b2 with
  | false =>
    simp only [Bool.false_eq_true, if_false]
    exact ⟨inv2, hst2, hnm2, hni2⟩
  | true =>
    rw [if_pos rfl]
    refine ⟨gaAddEdge_GAInv inv2 ?_ ?_ (by decide) hnew1 (RE.mk []), ?_, ?_, ?_⟩
    · rw [hst2]
      exact hmemNew
    · rw [hst2]
      exact hmem1
    · rw [gaAddEdge_states, hst2]
    · rw [gaAddEdge_nameMap, hnm2]
    · rw [gaAddEdge_nextId, hni2]

/-- One pass of `copyOf`'s state loop: the invariant is kept, the fresh
state gets the allocator id, and the map gains exactly its binding. -/
theorem copyStep_spec {g : Automaton} (inv : GAInv 0 1 g) (h2 : 2 ≤ g.nextId)
    {s : StateR} (hnone : mapGet g.nameMap s.name = none) (hnn : s.name ≠ []) :
    GAInv 0 1 (copyStep 0 1 g s) ∧
      (copyStep 0 1 g s).nextId = g.nextId + 1 ∧
      (copyStep 0 1 g s).nameMap = g.nameMap ++ [(s.name, g.nextId)] ∧
      (copyStep 0 1 g s).states.map StateR.id = g.states.map StateR.id ++ [g.nextId] := by
  have haddeq := addState_fresh false false hnone hnn
  set G1 : Automaton := { g with
    states := g.states ++ [⟨g.nextId, s.name, false, false, false⟩]
    nameMap := g.nameMap ++ [(s.name, g.nextId)]
    nextId := g.nextId + 1 } with hG1
  have hinv1 : GAInv 0 1 G1 := by
    rw [hG1]
    exact GAInv_append_state inv hnn hnone
  have hmemNew : g.nextId ∈ G1.states.map StateR.id := by
    rw [hG1]
    exact List.mem_map.mpr ⟨⟨g.nextId, s.name, false, false, false⟩,
      List.mem_append_right _ (List.mem_singleton.mpr rfl), rfl⟩
  have hstep : copyStep 0 1 g s =
      (if s.final then
        (if s.start then G1.gaAddEdge 0 g.nextId (RE.mk []) else G1).gaAddEdge g.nextId 1
          (RE.mk [])
      else (if s.start then G1.gaAddEdge 0 g.nextId (RE.mk []) else G1)) := by
    unfold copyStep
    rw [haddeq]
  obtain ⟨invB, hstB, hnmB, hniB⟩ :=
    copyStep_boundary hinv1 g.nextId hmemNew (by omega) (by omega) s.start s.final
  rw [hstep]
  refine ⟨invB, ?_, ?_, ?_⟩
  · rw [hniB, hG1]
  · rw [hnmB, hG1]
  · rw [hstB, hG1]
    simp

/-- The whole state loop of `copyOf`: invariant kept, old bindings kept,
old ids kept, and every processed state bound to an internal (≥ 2) id. -/
theorem copyStep_fold :
    ∀ (l : List StateR) (g : Automaton), GAInv 0 1 g → 2 ≤ g.nextId →
    (∀ s ∈ l, mapGet g.nameMap s.name = none ∧ s.name ≠ []) →
    (l.map StateR.name).Nodup →
    GAInv 0 1 (l.foldl (copyStep 0 1) g) ∧
      2 ≤ (l.foldl (copyStep 0 1) g).nextId ∧
      (∀ nm id, mapGet g.nameMap nm = some id →
        mapGet (l.foldl (copyStep 0 1) g).nameMap nm = some id) ∧
      (∀ id, id ∈ g.states.map StateR.id →
        id ∈ (l.foldl (copyStep 0 1) g).states.map StateR.id) ∧
      (∀ s ∈ l, ∃ id, mapGet (l.foldl (copyStep 0 1) g).nameMap s.name = some id ∧
        id ∈ (l.foldl (copyStep 0 1) g).states.map StateR.id ∧ 2 ≤ id) := by
  intro l
  induction l with
  | nil =>
    intro g inv h2 _ _
    exact ⟨inv, h2, fun nm id h => h, fun id h => h,
      fun s hs => absurd hs (List.not_mem_nil s)⟩
  | cons s rest ih =>
    intro g inv h2 hl hnodup
    rw [List.map_cons, List.nodup_cons] at hnodup
    have hs0 := hl s (List.mem_cons_self _ _)
    obtain ⟨inv1, hnext1, hmap1, hids1⟩ := copyStep_spec inv h2 hs0.1 hs0.2
    rw [List.foldl_cons]
    set g1 := copyStep 0 1 g s with hg1def
    have hrest : ∀ t ∈ rest, mapGet g1.nameMap t.name = none ∧ t.name ≠ [] := by
      intro t ht
      have htn := hl t (List.mem_cons_of_mem _ ht)
      refine ⟨?_, htn.2⟩
      rw [hmap1, mapGet_append_none _ htn.1, mapGet_cons]
      have hcnd : ¬(((s.name, g.nextId).1 == t.name) = true) := by
        simp only [beq_iff_eq]
        intro he
        exact hnodup.1 (he ▸ List.mem_map_of_mem StateR.name ht)
      rw [if_neg hcnd]
      rfl
    obtain ⟨invR, h2R, hmapR, hidsR, hnamesR⟩ :=
      ih g1 inv1 (by rw [hnext1]; omega) hrest hnodup.2
    refine ⟨invR, h2R, ?_, ?_, ?_⟩
    · intro nm id h
      apply hmapR
      rw [hmap1]
      exact mapGet_append_some _ h
    · intro id h
      apply hidsR
      rw [hids1]
      exact List.mem_append_left _ h
    · intro t ht
      rcases List.mem_cons.mp ht with h | h
      · subst h
        refine ⟨g.nextId, ?_, ?_, h2⟩
        · apply hmapR
          rw [hmap1, mapGet_append_none _ hs0.1, mapGet_cons,
            if_pos (show (((t.name, g.nextId).1 == t.name) = true) by simp)]
        · apply hidsR
          rw [hids1]
          exact List.mem_append_right _ (List.mem_singleton.mpr rfl)
      · exact hnamesR t h

/-- The seed automaton of `copyOf` (boundary states 0 and 1) satisfies the
elimination invariant. -/
theorem copySeed_GAInv (nm : Name) : GAInv 0 1 (copySeed nm) := by
  refine ⟨⟨?_, ?_, ?_, ?_, ?_, ?_, ?_⟩, ?_, ?_, ?_, ?_, ?_, ?_, ?_, ?_⟩
  · show (List.map StateR.id copySeedStates).Nodup
    decide
  · show (List.map StateR.name copySeedStates).Nodup
    decide
  · show (List.map Prod.fst copySeedMap).Nodup
    decide
  · show ∀ p ∈ copySeedMap, ∃ s ∈ copySeedStates, s.name = p.1 ∧ s.id = p.2
    decide
  · show ∀ s ∈ copySeedStates, (s.name, s.id) ∈ copySeedMap
    decide
  · show ∀ e ∈ ([] : List EdgeR), e.sym ∈ ['a', 'b'] ∧
        e.src ∈ List.map StateR.id copySeedStates ∧ e.dst ∈ List.map StateR.id copySeedStates
    decide
  · show ∀ s ∈ copySeedStates, s.id < 2
    decide
  · show gaSYMBOL ∈ ['a', 'b']
    decide
  · show ∃ s ∈ copySeedStates, s.id = 0 ∧ s.start = true ∧ s.final = false
    decide
  · show ∃ s ∈ copySeedStates, s.id = 1 ∧ s.start = false ∧ s.final = true
    decide
  · show ∀ s ∈ copySeedStates, s.id ≠ 0 → s.id ≠ 1 → s.start = false ∧ s.final = false
    decide
  · show ∀ e ∈ ([] : List EdgeR), e.dst ≠ 0
    decide
  · show ∀ e ∈ ([] : List EdgeR), e.src ≠ 1
    decide
  · show (List.map (fun e : EdgeR => (e.src, e.dst)) ([] : List EdgeR)).Nodup
    decide
  · show ∀ e ∈ ([] : List EdgeR), e.sym = gaSYMBOL
    decide

/-- Names other than the two boundary names are unbound in the seed. -/
theorem mapGet_seed_none {nm k : Name} (h1 : k ≠ startName) (h2 : k ≠ finalName) :
    mapGet (copySeed nm).nameMap k = none := by
  show mapGet [(startName, 0), (finalName, 1)] k = none
  have e1 : ¬(((startName, (0 : Nat)).1 == k) = true) := by
    simp only [beq_iff_eq]
    exact fun he => h1 he.symm
  have e2 : ¬(((finalName, (1 : Nat)).1 == k) = true) := by
    simp only [beq_iff_eq]
    exact fun he => h2 he.symm
  rw [mapGet_cons, if_neg e1, mapGet_cons, if_neg e2]
  rfl

/-- The name the edge loop resolves is the name of a state of `aut`. -/
theorem nameOfId_mem {aut : Automaton} (wf : WF aut) {id : Nat}
    (h : id ∈ aut.states.map StateR.id) :
    aut.nameOfId id ∈ aut.states.map StateR.name := by
  rcases List.mem_map.mp h with ⟨t, ht, hid⟩
  have hget : aut.getSt id = some t := by
    have := find?_id_of_mem wf.ids_nodup ht
    rw [hid] at this
    exact this
  unfold Automaton.nameOfId
  rw [hget]
  exact List.mem_map_of_mem StateR.name ht

/-- The edge loop of `copyOf` preserves the elimination invariant: every
endpoint name resolves to an internal state, so the new generalized edges
never touch the boundary the wrong way. -/
theorem copyEdgeStep_fold {aut : Automaton} (wfa : WF aut) :
    ∀ (l : List EdgeR) (g : Automaton), GAInv 0 1 g →
    (∀ nm, nm ∈ aut.states.map StateR.name →
      ∃ id, mapGet g.nameMap nm = some id ∧ id ∈ g.states.map StateR.id ∧ 2 ≤ id) →
    (∀ e ∈ l, e.src ∈ aut.states.map StateR.id ∧ e.dst ∈ aut.states.map StateR.id) →
    GAInv 0 1 (l.foldl (copyEdgeStep aut) g) := by
  intro l
  induction l with
  | nil => intro g inv _ _; exact inv
  | cons e rest ih =>
    intro g inv hres hl
    rw [List.foldl_cons]
    have he := hl e (List.mem_cons_self _ _)
    obtain ⟨fi, hfi, hfim, hfi2⟩ := hres _ (nameOfId_mem wfa he.1)
    obtain ⟨ti, hti, htim, hti2⟩ := hres _ (nameOfId_mem wfa he.2)
    have hstep : copyEdgeStep aut g e = g.gaAddEdge fi ti (RE.mk [e.sym]) := by
      unfold copyEdgeStep Automaton.gaAddEdgeByName
      have h1 : g.getStateByName (aut.nameOfId e.src) = some fi := hfi
      have h2 : g.getStateByName (aut.nameOfId e.dst) = some ti := hti
      rw [h1, h2]
    rw [hstep]
    have inv2 : GAInv 0 1 (g.gaAddEdge fi ti (RE.mk [e.sym])) :=
      gaAddEdge_GAInv inv hfim htim (by omega) (by omega) (RE.mk [e.sym])
    refine ih _ inv2 ?_ (fun e2 he2 => hl e2 (List.mem_cons_of_mem _ he2))
    intro nm hnm
    obtain ⟨id, hmg, hmem, h2i⟩ := hres nm hnm
    refine ⟨id, ?_, ?_, h2i⟩
    · rw [gaAddEdge_nameMap]
      exact hmg
    · rw [gaAddEdge_states]
      exact hmem

/-- `copyOf` on an empty automaton stops at the fresh generalized
automaton. -/
theorem copyOf_empty_eq {aut : Automaton} (h : aut.isEmpty = true) :
    copyOf aut = mkAutomaton (genPrefix ++ aut.name) ['a', 'b'] := by
  simp only [copyOf]
  rw [h]
  rw [if_pos rfl]

/-- `copyOf` on a non-empty automaton is the edge loop after the state
loop on the two-boundary-state seed. -/
theorem copyOf_nonempty_eq {aut : Automaton} (h : aut.isEmpty = false) :
    copyOf aut = aut.edges.foldl (copyEdgeStep aut)
      (aut.states.foldl (copyStep 0 1) (copySeed (genPrefix ++ aut.name))) := by
  simp only [copyOf]
  rw [h]
  simp only [Bool.false_eq_true, if_false]
  rfl

/-- When no state of `aut` is named `start`, `final` or the empty string,
`copyOf` produces an automaton satisfying the elimination invariant with
boundary ids 0 and 1. -/
theorem copyOf_GAInv {aut : Automaton} (wf : WF aut)
    (hnames : ∀ s ∈ aut.states, s.name ≠ startName ∧ s.name ≠ finalName ∧ s.name ≠ [])
    (hne : aut.isEmpty = false) : GAInv 0 1 (copyOf aut) := by
  rw [copyOf_nonempty_eq hne]
  have hseed := copySeed_GAInv (genPrefix ++ aut.name)
  have hl : ∀ s ∈ aut.states,
      mapGet (copySeed (genPrefix ++ aut.name)).nameMap s.name = none ∧ s.name ≠ [] := by
    intro s hs
    obtain ⟨h1, h2, h3⟩ := hnames s hs
    exact ⟨mapGet_seed_none h1 h2, h3⟩
  obtain ⟨inv1, h21, hmap1, hids1, hnames1⟩ :=
    copyStep_fold aut.states _ hseed (Nat.le_refl 2) hl wf.names_nodup
  refine copyEdgeStep_fold wf aut.edges _ inv1 ?_ ?_
  · intro nm hnm
    rcases List.mem_map.mp hnm with ⟨s, hs, hname⟩
    obtain ⟨id, hmg, hmem, h2i⟩ := hnames1 s hs
    exact ⟨id, hname ▸ hmg, hmem, h2i⟩
  · intro e heE
    obtain ⟨_, hsrc, hdst⟩ := wf.edges_valid e heE
    exact ⟨hsrc, hdst⟩

/-- `equivalentRE` on a non-empty automaton whose loop result has no edge
returns the Empty regex. -/
theorem equivalentRE_empty_edges {a : Automaton} (h : a.isEmpty = false)
    (he : (Automaton.equivalentRELoop a.states.length a).edges = []) :
    a.equivalentRE = RE.emptyRE := by
  unfold Automaton.equivalentRE
  rw [h]
  simp only [Bool.false_eq_true, if_false]
  rw [he]
  rfl

/-- `equivalentRE` on a non-empty automaton whose loop result still has an
edge returns the first remaining edge's regex. -/
theorem equivalentRE_cons_edges {a : Automaton} (h : a.isEmpty = false) {e : EdgeR}
    {rest : List EdgeR}
    (he : (Automaton.equivalentRELoop a.states.length a).edges = e :: rest) :
    a.equivalentRE = e.re.getD RE.emptyRE := by
  unfold Automaton.equivalentRE
  rw [h]
  simp only [Bool.false_eq_true, if_false]
  rw [he]
  rfl

/-- An automaton with a state named `start`: `copyOf` then resolves an
edge endpoint to the boundary start state, breaking the claimed shape at
termination of the elimination loop. -/
def autBad : Automaton :=
  ((((mkAutomaton ['B'] ['a', 'b']).addState ['q'] true true false).2.addState
      startName false false false).2.addEdge 0 1 'a')

/-- C7: for every automaton whose state names stay clear of the two
boundary names and the empty string, the state-elimination loop of
`equivalentRE` on `copyOf aut` terminates — each iteration strictly
decreases the state count — at an automaton with at most two states and
at most one edge, between the start and final boundary states; if no edge
remains the Empty regex is returned, otherwise the remaining edge's
regex. -/
theorem equivalentRE_spec {aut : Automaton} (wf : WF aut)
    (hnames : ∀ s ∈ aut.states, s.name ≠ startName ∧ s.name ≠ finalName ∧ s.name ≠ []) :
    (∀ b rs, GAInv 0 1 b → rs ∈ b.states → rs.id ≠ 0 → rs.id ≠ 1 →
      (b.eliminate rs.id).states.length + 1 = b.states.length) ∧
    (Automaton.equivalentRELoop (copyOf aut).states.length (copyOf aut)).states.length ≤ 2 ∧
    (Automaton.equivalentRELoop (copyOf aut).states.length (copyOf aut)).edges.length ≤ 1 ∧
    (∀ e ∈ (Automaton.equivalentRELoop (copyOf aut).states.length (copyOf aut)).edges,
      e.src = 0 ∧ e.dst = 1) ∧
    ((Automaton.equivalentRELoop (copyOf aut).states.length (copyOf aut)).edges = [] →
      (copyOf aut).equivalentRE = RE.emptyRE) ∧
    (∀ e rest,
      (Automaton.equivalentRELoop (copyOf aut).states.length (copyOf aut)).edges = e :: rest →
      rest = [] ∧ (copyOf aut).equivalentRE = e.re.getD RE.emptyRE) := by
  refine ⟨fun b rs hb hm h0 h1 => (eliminate_GAInv hb hm h0 h1).2, ?_⟩
  by_cases hne : aut.isEmpty = true
  · have hcopy := copyOf_empty_eq hne
    rw [hcopy]
    refine ⟨Nat.zero_le 2, Nat.zero_le 1, ?_, ?_, ?_⟩
    · intro e he2
      exact absurd he2 (List.not_mem_nil e)
    · intro _
      rfl
    · intro e rest hER
      exact List.noConfusion (show ([] : List EdgeR) = e :: rest from hER)
  · have hne' : aut.isEmpty = false := by
      rcases h : aut.isEmpty with _ | _
      · rfl
      · exact absurd h hne
    have inv := copyOf_GAInv wf hnames hne'
    obtain ⟨invE, hlenE⟩ :=
      equivalentRELoop_spec (copyOf aut).states.length (copyOf aut) inv (by omega)
    obtain ⟨hedlen, hedsf⟩ := GAInv_final_edges invE hlenE
    have hcne : (copyOf aut).isEmpty = false := by
      rcases inv.hS with ⟨s, hsm, _⟩
      rcases hc : (copyOf aut).states with _ | ⟨t, ts⟩
      · rw [hc] at hsm
        cases hsm
      · unfold Automaton.isEmpty
        rw [hc]
        rfl
    refine ⟨hlenE, hedlen, hedsf, ?_, ?_⟩
    · intro hemp
      exact equivalentRE_empty_edges hcne hemp
    · intro e rest hER
      have hl2 := hedlen
      rw [hER] at hl2
      have hrest : rest = [] := by
        rw [List.length_cons] at hl2
        exact List.eq_nil_of_length_eq_zero (by omega)
      exact ⟨hrest, equivalentRE_cons_edges hcne hER⟩

/-- C7, counterexample to the claim as stated: on `autBad`, whose input
automaton has a state named `start`, the elimination loop of
`equivalentRE` on `copyOf autBad` terminates with TWO edges remaining
(one of them a self-loop on the boundary start state), not exactly
one. -/
theorem equivalentRE_spec_cex :
    (Automaton.equivalentRELoop (copyOf autBad).states.length (copyOf autBad)).states.length
        = 2 ∧
      (Automaton.equivalentRELoop (copyOf autBad).states.length (copyOf autBad)).edges.length
        = 2 := by
  decide

/-- Witness for the amended C7 theorem on the concrete automaton `aC5`. -/
theorem equivalentRE_spec_witness :
    (Automaton.equivalentRELoop (copyOf aC5).states.length (copyOf aC5)).states.length ≤ 2 ∧
      (∀ e ∈ (Automaton.equivalentRELoop (copyOf aC5).states.length (copyOf aC5)).edges,
        e.src = 0 ∧ e.dst = 1) :=
  have h := equivalentRE_spec
    (show WF aC5 from
      ⟨by decide, by decide, by decide, by decide, by decide, by decide, by decide⟩)
    (by decide)
  ⟨h.2.1, h.2.2.2.1⟩

/-! ### `constructFromSignature` (C8) -/

/-- `signature.split('|')` on character lists (JavaScript `String.split`
with a one-character separator: no limit, empty fields kept). -/
def splitBarAux : List Char → List Char → List (List Char)
  | [], acc => [acc.reverse]
  | c :: rest, acc =>
    if c = '|' then acc.reverse :: splitBarAux rest [] else splitBarAux rest (c :: acc)

def splitBar (s : List Char) : List (List Char) := splitBarAux s []

/-- The transition chunk `transitions.substr(d * (i * |Σ| + j), d)`. -/
def sigChunk (d : Nat) (transitions symbols : List Char) (i j : Nat) : List Char :=
  (transitions.drop (d * (i * symbols.length + j))).take d

/-- The edge guard `to[0] !== '-' && fromBase62(to) < numberStates`. -/
def sigGuard (ns d : Nat) (transitions symbols : List Char) (i j : Nat) : Bool :=
  ((sigChunk d transitions symbols i j).headD ' ' != '-') &&
    decide (fromBase62 (sigChunk d transitions symbols i j) < (ns : Int))

def sigName : Name := ['s', 'i', 'g', 'n', 'a', 't', 'u', 'r', 'e', ' ']

/-- The automaton after the state loop of `constructFromSignature`. -/
def sigBase (sig : List Char) : Automaton :=
  let parts := splitBar sig
  let finals := parts.getD 1 []
  let symbols := parts.getD 2 []
  let ns := finals.length
  let d := log62Digits ns
  (List.range ns).foldl
    (fun a i => (a.addState (toBase62 i d) (i == 0) (finals.getD i ' ' == '1') false).2)
    (mkAutomaton (sigName ++ sig) symbols)

/-- All (state index, symbol index) pairs in the edge loop's order. -/
def pairList (n k : Nat) : List (Nat × Nat) :=
  (List.range n).foldr (fun i acc => ((List.range k).map (fun j => (i, j))) ++ acc) []

/-- One guarded `addEdge` of the edge loop.  The source's `addEdge`
resolves both arguments by name; a missing name is a TypeError crash
(`undefined.edgesOut` or `undefined.addEdgeIn`), modelled as
`missingState`. -/
def addSigEdge (ns d : Nat) (transitions symbols : List Char) (a : Automaton)
    (i j : Nat) : Except Err Automaton :=
  if sigGuard ns d transitions symbols i j then
    match a.getStateByName (toBase62 i d),
        a.getStateByName (sigChunk d transitions symbols i j) with
    | some fi, some ti => .ok (a.addEdge fi ti (symbols.getD j ' '))
    | _, _ => .error .missingState
  else .ok a

def sigEdgesLoop (ns d : Nat) (transitions symbols : List Char) :
    List (Nat × Nat) → Automaton → Except Err Automaton
  | [], a => .ok a
  | p :: rest, a =>
    match addSigEdge ns d transitions symbols a p.1 p.2 with
    | .ok a2 => sigEdgesLoop ns d transitions symbols rest a2
    | .error err => .error err

/-- `Automaton.constructFromSignature(signature)`. -/
def constructFromSignature (sig : List Char) : Except Err Automaton :=
  let parts := splitBar sig
  if parts.length != 3 then .error .wrongPartsCount
  else
    let transitions := parts.getD 0 []
    let finals := parts.getD 1 []
    let symbols := parts.getD 2 []
    if transitions.isEmpty || finals.isEmpty || symbols.isEmpty then .error .emptyPart
    else
      let ns := finals.length
      let d := log62Digits ns
      if d * ns * symbols.length != transitions.length then .error .wrongSignatureLength
      else sigEdgesLoop ns d transitions symbols (pairList ns symbols.length) (sigBase sig)

/-- A character is one of the sixty-two digits `0-9A-Za-z`. -/
def isBase62Digit (c : Char) : Bool :=
  ('0' ≤ c && c ≤ '9') || ('A' ≤ c && c ≤ 'Z') || ('a' ≤ c && c ≤ 'z')

/-- `addEdge` never touches the name map. -/
theorem addEdge_nameMap (a : Automaton) (fi ti : Nat) (c : Char) :
    (a.addEdge fi ti c).nameMap = a.nameMap := by
  unfold Automaton.addEdge
  by_cases h : c ∈ a.alphabet
  · rw [if_pos h]
    by_cases h2 : a.hasEdge fi ti c = true
    · rw [if_pos h2]
    · rw [if_neg h2]
  · rw [if_neg h]

/-- Overwriting one key of a JavaScript map leaves lookups of other keys
unchanged. -/
theorem mapGet_mapSet_other {k k' : Name} (hne : k ≠ k') (m : List (Name × Nat)) (v : Nat) :
    mapGet (mapSet m k' v) k = mapGet m k := by
  have hbeq : (k' == k) = false := by
    simp only [beq_eq_false_iff_ne, ne_eq]
    exact fun he => hne he.symm
  unfold mapSet
  by_cases ha : m.any (fun p => p.1 == k') = true
  · rw [if_pos ha]
    clear ha
    induction m with
    | nil => rfl
    | cons p m ih =>
      rw [List.map_cons, mapGet_cons, mapGet_cons]
      by_cases hp : (p.1 == k') = true
      · rw [if_pos hp]
        have hpk : (p.1 == k) = false := by
          have : p.1 = k' := by simpa using hp
          rw [this]
          exact hbeq
        rw [if_neg (show ¬(((k', v).1 == k) = true) by simp [hbeq]),
          if_neg (show ¬((p.1 == k) = true) by simp [hpk])]
        exact ih
      · rw [if_neg hp]
        by_cases hq : (p.1 == k) = true
        · rw [if_pos hq, if_pos hq]
        · rw [if_neg hq, if_neg hq]
          exact ih
  · rw [if_neg ha]
    rcases hk : mapGet m k with _ | v0
    · rw [mapGet_append_none _ hk, mapGet_cons,
        if_neg (show ¬(((k', v).1 == k) = true) by simp [hbeq])]
      rfl
    · rw [mapGet_append_some _ hk]

/-- Overwriting or inserting a key makes its lookup succeed. -/
theorem mapGet_mapSet_self (m : List (Name × Nat)) (k : Name) (v : Nat) :
    mapGet (mapSet m k v) k ≠ none := by
  unfold mapSet
  by_cases ha : m.any (fun p => p.1 == k) = true
  · rw [if_pos ha]
    rcases List.any_eq_true.mp ha with ⟨p, hp, hpk⟩
    clear ha
    induction m with
    | nil => cases hp
    | cons q m ih =>
      rw [List.map_cons, mapGet_cons]
      by_cases hq : (q.1 == k) = true
      · rw [if_pos hq, if_pos (show (((k, v).1 == k) = true) by simp)]
        simp
      · rw [if_neg hq, if_neg (show ¬((q.1 == k) = true) from hq)]
        rcases List.mem_cons.mp hp with h | h
        · rw [h] at hpk
          exact absurd hpk hq
        · exact ih h
  · rw [if_neg ha]
    have hnone : mapGet m k = none := by
      rcases hk : mapGet m k with _ | v0
      · rfl
      · exfalso
        apply ha
        refine List.any_eq_true.mpr ⟨(k, v0), mapGet_some_mem hk, by simp⟩
    rw [mapGet_append_none _ hnone, mapGet_cons, if_pos (show (((k, v).1 == k) = true) by simp)]
    simp

/-- `addState` never removes a name binding. -/
theorem addState_get_mono {a : Automaton} {k : Name} (h : mapGet a.nameMap k ≠ none)
    (nm : Name) (st fi fn : Bool) : mapGet (a.addState nm st fi fn).2.nameMap k ≠ none := by
  rcases hm : mapGet a.nameMap (if fn then a.freshName nm else nm) with _ | id
  · rw [addState_new hm]
    show mapGet (a.nameMap ++ [((if fn then a.freshName nm else nm), a.nextId)]) k ≠ none
    rcases hk : mapGet a.nameMap k with _ | v
    · exact absurd hk h
    · rw [mapGet_append_some _ hk]
      simp
  · rw [addState_old hm]
    exact h

/-- After `addState(nm, ...)` the (effective) name is bound. -/
theorem addState_get_self (a : Automaton) (nm : Name) (st fi : Bool) :
    mapGet (a.addState nm st fi false).2.nameMap nm ≠ none := by
  rcases hm : mapGet a.nameMap (if false then a.freshName nm else nm) with _ | id
  · rw [addState_new hm]
    show mapGet (a.nameMap ++ [(nm, a.nextId)]) nm ≠ none
    have hm' : mapGet a.nameMap nm = none := hm
    rw [mapGet_append_none _ hm', mapGet_cons, if_pos (show (((nm, a.nextId).1 == nm) = true) by simp)]
    simp
  · rw [addState_old hm]
    have hm' : mapGet a.nameMap nm = some id := hm
    rw [hm']
    simp

/-- Name bindings survive the whole state loop. -/
theorem addState_fold_mono (finals : List Char) (d : Nat) :
    ∀ (l : List Nat) (a : Automaton) (k : Name), mapGet a.nameMap k ≠ none →
      mapGet ((l.foldl
        (fun a i => (a.addState (toBase62 i d) (i == 0) (finals.getD i ' ' == '1') false).2)
        a)).nameMap k ≠ none := by
  intro l
  induction l with
  | nil => intro a k h; exact h
  | cons i rest ih =>
    intro a k h
    rw [List.foldl_cons]
    exact ih _ k (addState_get_mono h _ _ _ _)

/-- Every state index processed by the state loop ends up bound under its
fixed-width Base62 name. -/
theorem addState_fold_binds (finals : List Char) (d : Nat) :
    ∀ (l : List Nat) (a : Automaton) (k : Nat), k ∈ l →
      mapGet ((l.foldl
        (fun a i => (a.addState (toBase62 i d) (i == 0) (finals.getD i ' ' == '1') false).2)
        a)).nameMap (toBase62 k d) ≠ none := by
  intro l
  induction l with
  | nil => intro a k hk; exact absurd hk (List.not_mem_nil k)
  | cons i rest ih =>
    intro a k hk
    rw [List.foldl_cons]
    rcases List.mem_cons.mp hk with h | h
    · subst h
      exact addState_fold_mono finals d rest _ _
        (addState_get_self a (toBase62 k d) (k == 0) (finals.getD k ' ' == '1'))
    · exact ih _ k h

/-- Members of `pairList n k` are exactly the in-range index pairs. -/
theorem mem_pairList {n k : Nat} {p : Nat × Nat} (h : p ∈ pairList n k) :
    p.1 < n ∧ p.2 < k := by
  have aux : ∀ (l : List Nat),
      p ∈ l.foldr (fun i acc => ((List.range k).map (fun j => (i, j))) ++ acc) [] →
      p.1 ∈ l ∧ p.2 < k := by
    intro l
    induction l with
    | nil => intro h2; exact absurd h2 (List.not_mem_nil p)
    | cons i rest ih =>
      intro h2
      rcases List.mem_append.mp h2 with h3 | h3
      · rcases List.mem_map.mp h3 with ⟨j, hj, hpj⟩
        subst hpj
        exact ⟨List.mem_cons_self _ _, List.mem_range.mp hj⟩
      · have := ih h3
        exact ⟨List.mem_cons_of_mem _ this.1, this.2⟩
  have := aux (List.range n) h
  exact ⟨List.mem_range.mp this.1, this.2⟩

/-- The edge loop errors exactly when some guard-passing transition chunk
does not resolve to a state name (given that all source names resolve). -/
theorem sigEdgesLoop_isOk_iff (ns d : Nat) (tr sy : List Char) :
    ∀ (l : List (Nat × Nat)) (a : Automaton),
      (∀ p ∈ l, mapGet a.nameMap (toBase62 p.1 d) ≠ none) →
      ((sigEdgesLoop ns d tr sy l a).isOk = false ↔
        ∃ p ∈ l, sigGuard ns d tr sy p.1 p.2 = true ∧
          mapGet a.nameMap (sigChunk d tr sy p.1 p.2) = none) := by
  intro l
  induction l with
  | nil =>
    intro a _
    constructor
    · intro h
      exact Bool.noConfusion h
    · rintro ⟨p, hp, _⟩
      exact absurd hp (List.not_mem_nil p)
  | cons q rest ih =>
    intro a hfrom
    have hfq := hfrom q (List.mem_cons_self _ _)
    show ((match addSigEdge ns d tr sy a q.1 q.2 with
        | Except.ok a2 => sigEdgesLoop ns d tr sy rest a2
        | Except.error err => Except.error err).isOk = false ↔
      ∃ p ∈ q :: rest, sigGuard ns d tr sy p.1 p.2 = true ∧
        mapGet a.nameMap (sigChunk d tr sy p.1 p.2) = none)
    by_cases hg : sigGuard ns d tr sy q.1 q.2 = true
    · rcases hto : mapGet a.nameMap (sigChunk d tr sy q.1 q.2) with _ | ti
      · have hstep : addSigEdge ns d tr sy a q.1 q.2 = .error .missingState := by
          unfold addSigEdge
          rw [if_pos hg]
          rcases hfr : mapGet a.nameMap (toBase62 q.1 d) with _ | fi
          · exact absurd hfr hfq
          · have h1 : a.getStateByName (toBase62 q.1 d) = some fi := hfr
            have h2 : a.getStateByName (sigChunk d tr sy q.1 q.2) = none := hto
            rw [h1, h2]
        rw [hstep]
        constructor
        · intro _
          exact ⟨q, List.mem_cons_self _ _, hg, hto⟩
        · intro _
          rfl
      · rcases hfr : mapGet a.nameMap (toBase62 q.1 d) with _ | fi
        · exact absurd hfr hfq
        · have hstep : addSigEdge ns d tr sy a q.1 q.2 =
              .ok (a.addEdge fi ti (sy.getD q.2 ' ')) := by
            unfold addSigEdge
            rw [if_pos hg]
            have h1 : a.getStateByName (toBase62 q.1 d) = some fi := hfr
            have h2 : a.getStateByName (sigChunk d tr sy q.1 q.2) = some ti := hto
            rw [h1, h2]
          rw [hstep]
          have hnm2 : (a.addEdge fi ti (sy.getD q.2 ' ')).nameMap = a.nameMap :=
            addEdge_nameMap _ _ _ _
          have hfrom2 : ∀ p ∈ rest,
              mapGet (a.addEdge fi ti (sy.getD q.2 ' ')).nameMap (toBase62 p.1 d) ≠ none := by
            intro p hp
            rw [hnm2]
            exact hfrom p (List.mem_cons_of_mem _ hp)
          have hiter := ih (a.addEdge fi ti (sy.getD q.2 ' ')) hfrom2
          rw [hnm2] at hiter
          constructor
          · intro h
            have h2 : (sigEdgesLoop ns d tr sy rest
                (a.addEdge fi ti (sy.getD q.2 ' '))).isOk = false := h
            rcases hiter.mp h2 with ⟨p, hp, hgd, hnone⟩
            exact ⟨p, List.mem_cons_of_mem _ hp, hgd, hnone⟩
          · rintro ⟨p, hp, hgd, hnone⟩
            rcases List.mem_cons.mp hp with h | h
            · subst h
              rw [hto] at hnone
              exact Option.noConfusion hnone
            · exact hiter.mpr ⟨p, h, hgd, hnone⟩
    · have hstep : addSigEdge ns d tr sy a q.1 q.2 = .ok a := by
        unfold addSigEdge
        rw [if_neg hg]
      rw [hstep]
      have hfrom2 : ∀ p ∈ rest, mapGet a.nameMap (toBase62 p.1 d) ≠ none :=
        fun p hp => hfrom p (List.mem_cons_of_mem _ hp)
      have hiter := ih a hfrom2
      constructor
      · intro h
        have h2 : (sigEdgesLoop ns d tr sy rest a).isOk = false := h
        rcases hiter.mp h2 with ⟨p, hp, hgd, hnone⟩
        exact ⟨p, List.mem_cons_of_mem _ hp, hgd, hnone⟩
      · rintro ⟨p, hp, hgd, hnone⟩
        rcases List.mem_cons.mp hp with h | h
        · subst h
          exact absurd hgd hg
        · exact hiter.mpr ⟨p, h, hgd, hnone⟩

/-- C8: `constructFromSignature` errors exactly on a wrong number of
`|`-separated parts, an empty part, a transitions part of the wrong
length, or a guard-passing transition chunk that is not the name of a
state; malformed Base62 digits as such do NOT necessarily raise an error
— a malformed chunk whose (unvalidated) value falls outside the state
range is silently skipped. -/
theorem constructFromSignature_spec (sig : List Char) :
    (constructFromSignature sig).isOk = false ↔
      ((splitBar sig).length ≠ 3 ∨
        ((splitBar sig).getD 0 []).isEmpty = true ∨
        ((splitBar sig).getD 1 []).isEmpty = true ∨
        ((splitBar sig).getD 2 []).isEmpty = true ∨
        log62Digits ((splitBar sig).getD 1 []).length * ((splitBar sig).getD 1 []).length *
            ((splitBar sig).getD 2 []).length ≠ ((splitBar sig).getD 0 []).length ∨
        ∃ p ∈ pairList ((splitBar sig).getD 1 []).length ((splitBar sig).getD 2 []).length,
          sigGuard ((splitBar sig).getD 1 []).length
              (log62Digits ((splitBar sig).getD 1 []).length)
              ((splitBar sig).getD 0 []) ((splitBar sig).getD 2 []) p.1 p.2 = true ∧
            mapGet (sigBase sig).nameMap
              (sigChunk (log62Digits ((splitBar sig).getD 1 []).length)
                ((splitBar sig).getD 0 []) ((splitBar sig).getD 2 []) p.1 p.2) = none) := by
  by_cases h1 : ((splitBar sig).length != 3) = true
  · have hLHS : constructFromSignature sig = .error .wrongPartsCount := by
      simp only [constructFromSignature]
      rw [h1, if_pos rfl]
    rw [hLHS]
    constructor
    · intro _
      exact Or.inl (bne_iff_ne.mp h1)
    · intro _
      rfl
  · have h1f : ((splitBar sig).length != 3) = false := by
      cases hb : (splitBar sig).length != 3
      · rfl
      · exact absurd hb h1
    have h1' : (splitBar sig).length = 3 := by
      simpa using h1f
    by_cases h2 : (((splitBar sig).getD 0 []).isEmpty || ((splitBar sig).getD 1 []).isEmpty
        || ((splitBar sig).getD 2 []).isEmpty) = true
    · have hLHS : constructFromSignature sig = .error .emptyPart := by
        simp only [constructFromSignature]
        rw [h1f]
        simp only [Bool.false_eq_true, if_false]
        rw [h2, if_pos rfl]
      rw [hLHS]
      constructor
      · intro _
        have h2' := h2
        rw [Bool.or_eq_true, Bool.or_eq_true] at h2'
        rcases h2' with (ha | hb) | hc
        · exact Or.inr (Or.inl ha)
        · exact Or.inr (Or.inr (Or.inl hb))
        · exact Or.inr (Or.inr (Or.inr (Or.inl hc)))
      · intro _
        rfl
    · have h2f : (((splitBar sig).getD 0 []).isEmpty || ((splitBar sig).getD 1 []).isEmpty
          || ((splitBar sig).getD 2 []).isEmpty) = false := by
        cases hb : ((splitBar sig).getD 0 []).isEmpty || ((splitBar sig).getD 1 []).isEmpty
            || ((splitBar sig).getD 2 []).isEmpty
        · rfl
        · exact absurd hb h2
      have h2f0 := h2f
      rw [Bool.or_eq_false_iff, Bool.or_eq_false_iff] at h2f
      obtain ⟨⟨h2a, h2b⟩, h2c⟩ := h2f
      by_cases h3 : (log62Digits ((splitBar sig).getD 1 []).length *
          ((splitBar sig).getD 1 []).length * ((splitBar sig).getD 2 []).length
          != ((splitBar sig).getD 0 []).length) = true
      · have hLHS : constructFromSignature sig = .error .wrongSignatureLength := by
          simp only [constructFromSignature]
          rw [h1f]
          simp only [Bool.false_eq_true, if_false]
          rw [h2f0]
          simp only [Bool.false_eq_true, if_false]
          rw [h3, if_pos rfl]
        rw [hLHS]
        constructor
        · intro _
          exact Or.inr (Or.inr (Or.inr (Or.inr (Or.inl (bne_iff_ne.mp h3)))))
        · intro _
          rfl
      · have h3f : (log62Digits ((splitBar sig).getD 1 []).length *
            ((splitBar sig).getD 1 []).length * ((splitBar sig).getD 2 []).length
            != ((splitBar sig).getD 0 []).length) = false := by
          cases hb : log62Digits ((splitBar sig).getD 1 []).length *
              ((splitBar sig).getD 1 []).length * ((splitBar sig).getD 2 []).length
              != ((splitBar sig).getD 0 []).length
          · rfl
          · exact absurd hb h3
        have h3' : log62Digits ((splitBar sig).getD 1 []).length *
            ((splitBar sig).getD 1 []).length * ((splitBar sig).getD 2 []).length
            = ((splitBar sig).getD 0 []).length := by
          simpa using h3f
        have hLHS : constructFromSignature sig =
            sigEdgesLoop ((splitBar sig).getD 1 []).length
              (log62Digits ((splitBar sig).getD 1 []).length)
              ((splitBar sig).getD 0 []) ((splitBar sig).getD 2 [])
              (pairList ((splitBar sig).getD 1 []).length ((splitBar sig).getD 2 []).length)
              (sigBase sig) := by
          simp only [constructFromSignature]
          rw [h1f]
          simp only [Bool.false_eq_true, if_false]
          rw [h2f0]
          simp only [Bool.false_eq_true, if_false]
          rw [h3f]
          simp only [Bool.false_eq_true, if_false]
        rw [hLHS]
        have hfrom : ∀ p ∈ pairList ((splitBar sig).getD 1 []).length
            ((splitBar sig).getD 2 []).length,
            mapGet (sigBase sig).nameMap
              (toBase62 p.1 (log62Digits ((splitBar sig).getD 1 []).length)) ≠ none := by
          intro p hp
          have hp1 : p.1 ∈ List.range ((splitBar sig).getD 1 []).length :=
            List.mem_range.mpr (mem_pairList hp).1
          exact addState_fold_binds ((splitBar sig).getD 1 [])
            (log62Digits ((splitBar sig).getD 1 []).length) _ _ _ hp1
        rw [sigEdgesLoop_isOk_iff ((splitBar sig).getD 1 []).length
          (log62Digits ((splitBar sig).getD 1 []).length) ((splitBar sig).getD 0 [])
          ((splitBar sig).getD 2 [])
          (pairList ((splitBar sig).getD 1 []).length ((splitBar sig).getD 2 []).length)
          (sigBase sig) hfrom]
        constructor
        · intro hx
          exact Or.inr (Or.inr (Or.inr (Or.inr (Or.inr hx))))
        · intro hx
          rcases hx with h | h | h | h | h | h
          · exact absurd h1' h
          · rw [h2a] at h
            exact Bool.noConfusion h
          · rw [h2b] at h
            exact Bool.noConfusion h
          · rw [h2c] at h
            exact Bool.noConfusion h
          · exact absurd h3' h
          · exact h

/-- C8, counterexample to the claim as stated: the signature `}|1|a`
contains a malformed Base62 digit in its transitions part, yet
`constructFromSignature` returns an automaton without error — the
unvalidated `fromBase62` value 64 simply fails the `< numberStates`
guard and the chunk is silently skipped. -/
theorem constructFromSignature_cex :
    (constructFromSignature ['}', '|', '1', '|', 'a']).isOk = true ∧
      (∃ c ∈ sigChunk (log62Digits 1) ['}'] ['a'] 0 0, isBase62Digit c = false) := by
  decide

/-! ### `signatureDFS` error behaviour (C9) -/

/-- On an empty automaton, or one with a start state, `renameStatesDFS`
does not throw. -/
theorem renameStatesDFS_ok (a : Automaton)
    (h : a.states = [] ∨ ∃ s ∈ a.states, s.start = true) :
    ∃ a', a.renameStatesDFS = .ok a' := by
  unfold Automaton.renameStatesDFS
  by_cases he : a.states.isEmpty = true
  · exact ⟨a, by rw [if_pos he]⟩
  · rw [if_neg he]
    rcases h with h | ⟨s, hs, hstart⟩
    · exact absurd (List.isEmpty_iff.mpr h) he
    · have hmem : s.id ∈ a.clearMarks.startIds := by
        unfold Automaton.startIds Automaton.clearMarks
        refine List.mem_map.mpr ⟨{ s with marked := false }, ?_, rfl⟩
        refine List.mem_filter.mpr ⟨List.mem_map.mpr ⟨s, hs, rfl⟩, by simpa using hstart⟩
      show ∃ a',
        (match a.clearMarks.startIds with
          | [] => Except.error Err.noStartStates
          | s0 :: _ =>
            Except.ok (Automaton.dfsRename (log62Digits a.states.length)
              a.clearMarks.states.length (a.clearMarks, 0) s0).1) = Except.ok a'
      rcases hcase : a.clearMarks.startIds with _ | ⟨s0, rest⟩
      · rw [hcase] at hmem
        cases hmem
      · exact ⟨_, rfl⟩

/-- C9, amended: provided the automaton is empty or has at least one
start state, `signatureDFS` does not throw; it first renames the states
in place (the renamed automaton is part of the result), returns
`undefined` (`none`) exactly when the renamed automaton is not
deterministic, and returns a string only for deterministic automata. -/
theorem signatureDFS_spec (a : Automaton)
    (h : a.states = [] ∨ ∃ s ∈ a.states, s.start = true) :
    ∃ a', a.renameStatesDFS = .ok a' ∧
      (a'.isDeterministic = false → a.signatureDFS = .ok (none, a')) ∧
      ∀ p, a.signatureDFS = .ok p →
        (p.1.isSome = true → p.2.isDeterministic = true) ∧ p.2 = a' := by
  rcases renameStatesDFS_ok a h with ⟨a', hr⟩
  have hsig : a.signatureDFS =
      (if (!a'.isDeterministic) = true then Except.ok (none, a')
        else Except.ok (some (Automaton.sigString a'), a')) := by
    unfold Automaton.signatureDFS
    rw [hr]
  refine ⟨a', hr, ?_, ?_⟩
  · intro hnd
    rw [hsig, hnd]
    rfl
  · intro p hp
    rw [hsig] at hp
    rcases hd : a'.isDeterministic with _ | _
    · rw [hd] at hp
      rw [if_pos (show ((!false : Bool) = true) from rfl)] at hp
      cases hp
      exact ⟨(by intro hsome; cases hsome), rfl⟩
    · rw [hd] at hp
      rw [if_neg (show ¬((!true : Bool) = true) by simp)] at hp
      cases hp
      exact ⟨fun _ => hd, rfl⟩

/-- A concrete non-empty automaton without start states for claim C9. -/
def aC9 : Automaton := ((mkAutomaton ['N'] ['a', 'b']).addState ['p'] false false false).2

/-- C9, counterexample to the claim as stated: on a non-empty automaton
with no start state — which is not deterministic — `signatureDFS` throws
(from `renameStatesDFS`) instead of returning `undefined`. -/
theorem signatureDFS_cex :
    aC9.signatureDFS = .error Err.noStartStates ∧ aC9.isDeterministic = false :=
  ⟨rfl, rfl⟩

/-- Witness for the amended C9 theorem on a concrete automaton with a
start state. -/
theorem signatureDFS_spec_witness :
    ∃ a', aC5.renameStatesDFS = .ok a' ∧
      (a'.isDeterministic = false → aC5.signatureDFS = .ok (none, a')) ∧
      ∀ p, aC5.signatureDFS = .ok p →
        (p.1.isSome = true → p.2.isDeterministic = true) ∧ p.2 = a' :=
  signatureDFS_spec aC5 (by decide)

/-- Witness for the amended C6 theorem on a concrete operation sequence
exercising all five operations. -/
theorem mutation_invariant_witness :
    nameInvariant
        (seqResult (mkAutomaton ['A'] ['a', 'b'])
          [Op.addStateOp ['p'] true false false, Op.addStateOp ['q'] false true false,
            Op.addEdgeOp ['p'] ['q'] 'a', Op.renameStateOp ['q'] ['r'],
            Op.deleteEdgeOp ['p'] ['r'] 'a', Op.deleteStateOp ['r']]) = true := by
  exact mutation_invariant (mkAutomaton ['A'] ['a', 'b']) (WF_mkAutomaton _ _)
    [Op.addStateOp ['p'] true false false, Op.addStateOp ['q'] false true false,
      Op.addEdgeOp ['p'] ['q'] 'a', Op.renameStateOp ['q'] ['r'],
      Op.deleteEdgeOp ['p'] ['r'] 'a', Op.deleteStateOp ['r']]
    (seqResult (mkAutomaton ['A'] ['a', 'b'])
      [Op.addStateOp ['p'] true false false, Op.addStateOp ['q'] false true false,
        Op.addEdgeOp ['p'] ['q'] 'a', Op.renameStateOp ['q'] ['r'],
        Op.deleteEdgeOp ['p'] ['r'] 'a', Op.deleteStateOp ['r']])
    (by decide) (by decide)

/-! ### Language semantics: membership in `deltaStar` as reachability -/

/-- Membership after a JavaScript `Set.add`. -/
theorem mem_addUnique (acc : List Nat) (y x : Nat) :
    x ∈ Automaton.addUnique acc y ↔ x ∈ acc ∨ x = y := by
  unfold Automaton.addUnique
  by_cases h : y ∈ acc
  · rw [if_pos h]
    constructor
    · exact fun h2 => Or.inl h2
    · rintro (h2 | h2)
      · exact h2
      · rw [h2]
        exact h
  · rw [if_neg h]
    constructor
    · intro h2
      rcases List.mem_append.mp h2 with h3 | h3
      · exact Or.inl h3
      · simp only [List.mem_singleton] at h3
        exact Or.inr h3
    · rintro (h2 | h2)
      · exact List.mem_append_left _ h2
      · rw [h2]
        exact List.mem_append_right _ (List.mem_singleton.mpr rfl)

theorem mem_foldl_addUnique (l : List Nat) :
    ∀ (acc : List Nat) (x : Nat), x ∈ l.foldl Automaton.addUnique acc ↔ x ∈ acc ∨ x ∈ l := by
  induction l with
  | nil =>
    intro acc x
    simp
  | cons y ys ih =>
    intro acc x
    rw [List.foldl_cons, ih, mem_addUnique]
    constructor
    · rintro ((h | h) | h)
      · exact Or.inl h
      · exact Or.inr (by rw [h]; exact List.mem_cons_self _ _)
      · exact Or.inr (List.mem_cons_of_mem _ h)
    · rintro (h | h)
      · exact Or.inl (Or.inl h)
      · rcases List.mem_cons.mp h with h2 | h2
        · exact Or.inl (Or.inr h2)
        · exact Or.inr h2

theorem nodup_addUnique (acc : List Nat) (y : Nat) (h : acc.Nodup) :
    (Automaton.addUnique acc y).Nodup := by
  unfold Automaton.addUnique
  by_cases hy : y ∈ acc
  · rw [if_pos hy]
    exact h
  · rw [if_neg hy]
    refine List.Nodup.append h (List.nodup_singleton y) ?_
    intro x hx hy2
    simp only [List.mem_singleton] at hy2
    subst hy2
    exact hy hx

theorem nodup_foldl_addUnique (l : List Nat) :
    ∀ (acc : List Nat), acc.Nodup → (l.foldl Automaton.addUnique acc).Nodup := by
  induction l with
  | nil => intro acc h; exact h
  | cons y ys ih =>
    intro acc h
    rw [List.foldl_cons]
    exact ih _ (nodup_addUnique acc y h)

/-- `delta` membership is edge membership (under the alphabet guard). -/
theorem mem_delta_iff {a : Automaton} {x y : Nat} {c : Char} :
    y ∈ a.delta x c ↔ c ∈ a.alphabet ∧ ∃ e ∈ a.edges, e.src = x ∧ e.sym = c ∧ e.dst = y := by
  unfold Automaton.delta
  by_cases h : c ∈ a.alphabet
  · rw [if_pos h]
    constructor
    · intro h2
      have h3 : y ∈ ((a.edges.filter (fun e => e.src == x && e.sym == c)).map
          (fun e => e.dst)).foldl Automaton.addUnique [] := h2
      rcases (mem_foldl_addUnique _ _ _).mp h3 with h4 | h4
      · exact absurd h4 (List.not_mem_nil y)
      · rcases List.mem_map.mp h4 with ⟨e, he, hey⟩
        have hef := List.mem_of_mem_filter he
        have hp := List.of_mem_filter he
        simp only [Bool.and_eq_true, beq_iff_eq] at hp
        exact ⟨h, e, hef, hp.1, hp.2, hey⟩
    · rintro ⟨_, e, he, h1, h2, h3⟩
      show y ∈ ((a.edges.filter (fun e => e.src == x && e.sym == c)).map
        (fun e => e.dst)).foldl Automaton.addUnique []
      refine (mem_foldl_addUnique _ _ _).mpr (Or.inr ?_)
      exact List.mem_map.mpr ⟨e, List.mem_filter.mpr ⟨he, by simp [h1, h2]⟩, h3⟩
  · rw [if_neg h]
    constructor
    · intro h2
      exact absurd h2 (List.not_mem_nil y)
    · rintro ⟨hc, _⟩
      exact absurd hc h

/-- `stepSet` membership. -/
theorem mem_stepSet_iff {a : Automaton} {cur : List Nat} {c : Char} {y : Nat} :
    y ∈ a.stepSet cur c ↔ ∃ x ∈ cur, y ∈ a.delta x c := by
  have aux : ∀ (l : List Nat) (acc : List Nat),
      y ∈ l.foldl (fun acc fromId => (a.delta fromId c).foldl Automaton.addUnique acc) acc ↔
        y ∈ acc ∨ ∃ x ∈ l, y ∈ a.delta x c := by
    intro l
    induction l with
    | nil =>
      intro acc
      simp
    | cons z zs ih =>
      intro acc
      rw [List.foldl_cons, ih, mem_foldl_addUnique]
      constructor
      · rintro ((h | h) | h)
        · exact Or.inl h
        · exact Or.inr ⟨z, List.mem_cons_self _ _, h⟩
        · rcases h with ⟨x, hx, hy⟩
          exact Or.inr ⟨x, List.mem_cons_of_mem _ hx, hy⟩
      · rintro (h | ⟨x, hx, hy⟩)
        · exact Or.inl (Or.inl h)
        · rcases List.mem_cons.mp hx with h2 | h2
          · subst h2
            exact Or.inl (Or.inr hy)
          · exact Or.inr ⟨x, h2, hy⟩
  rw [Automaton.stepSet, aux]
  simp

/-- Reachability along a word: the transitive closure of `delta` the
`deltaStar` iteration computes. -/
inductive Reaches (a : Automaton) : Nat → List Char → Nat → Prop where
  | refl (x : Nat) : Reaches a x [] x
  | step {x y z : Nat} {c : Char} {w : List Char} :
      y ∈ a.delta x c → Reaches a y w z → Reaches a x (c :: w) z

/-- `deltaStar` computes exactly reachability — the early exit on an
empty frontier does not change membership. -/
theorem mem_deltaStar_iff {a : Automaton} :
    ∀ (w : List Char) (cur : List Nat) (z : Nat),
      z ∈ a.deltaStar cur w ↔ ∃ x ∈ cur, Reaches a x w z := by
  intro w
  induction w with
  | nil =>
    intro cur z
    show z ∈ cur ↔ _
    constructor
    · intro h
      exact ⟨z, h, Reaches.refl z⟩
    · rintro ⟨x, hx, hr⟩
      cases hr
      exact hx
  | cons c rest ih =>
    intro cur z
    show z ∈ (if (a.stepSet cur c).isEmpty then [] else a.deltaStar (a.stepSet cur c) rest) ↔ _
    by_cases he : (a.stepSet cur c).isEmpty = true
    · rw [if_pos he]
      have hemp : a.stepSet cur c = [] := by
        rcases hc : a.stepSet cur c with _ | ⟨h0, t0⟩
        · rfl
        · rw [hc] at he
          exact absurd he (by simp [List.isEmpty])
      constructor
      · intro h
        exact absurd h (List.not_mem_nil z)
      · rintro ⟨x, hx, hr⟩
        cases hr with
        | step h1 h2 =>
          have hyS := mem_stepSet_iff.mpr ⟨x, hx, h1⟩
          rw [hemp] at hyS
          exact absurd hyS (List.not_mem_nil _)
    · rw [if_neg he, ih]
      constructor
      · rintro ⟨y, hy, hr⟩
        rcases mem_stepSet_iff.mp hy with ⟨x, hx, hyd⟩
        exact ⟨x, hx, Reaches.step hyd hr⟩
      · rintro ⟨x, hx, hr⟩
        cases hr with
        | step h1 h2 =>
          exact ⟨_, mem_stepSet_iff.mpr ⟨x, hx, h1⟩, h2⟩

/-- `accepts` through reachability. -/
theorem accepts_iff {a : Automaton} (w : List Char) :
    a.accepts w = true ↔ a.isEmpty = false ∧
      ∃ s ∈ a.startIds, ∃ f, Reaches a s w f ∧ a.isFinalId f = true := by
  unfold Automaton.accepts
  by_cases he : a.isEmpty = true
  · rw [if_pos he]
    constructor
    · intro h
      exact Bool.noConfusion h
    · rintro ⟨hne, _⟩
      rw [he] at hne
      exact Bool.noConfusion hne
  · rw [if_neg he]
    have hne : a.isEmpty = false := by
      cases hb : a.isEmpty
      · rfl
      · exact absurd hb he
    rw [List.any_eq_true]
    constructor
    · rintro ⟨f, hf, hfin⟩
      rcases (mem_deltaStar_iff w a.startIds f).mp hf with ⟨s, hs, hr⟩
      exact ⟨hne, s, hs, f, hr, hfin⟩
    · rintro ⟨_, s, hs, f, hr, hfin⟩
      exact ⟨f, (mem_deltaStar_iff w a.startIds f).mpr ⟨s, hs, hr⟩, hfin⟩

/-! ### `union` (C3) -/

def unionOf : Name := ['u', 'n', 'i', 'o', 'n', ' ', 'o', 'f', ' ']

def andStr : Name := [' ', 'a', 'n', 'd', ' ']

/-- `addEdge` called with state names, as `union`, `reverse` and `reduce`
do; a missing name is the source's TypeError crash, modelled as a no-op
kept out of every theorem's domain. -/
def addEdgeByName (a : Automaton) (fn tn : Name) (c : Char) : Automaton :=
  match a.getStateByName fn, a.getStateByName tn with
  | some fi, some ti => a.addEdge fi ti c
  | _, _ => a

/-- The prefixed state name `a.name + ':' + s.name`. -/
def prefName (p nm : Name) : Name := p ++ ':' :: nm

/-- The per-state body of `union`'s state loop. -/
def unionStateStep (p : Name) (u : Automaton) (s : StateR) : Automaton :=
  (u.addState (prefName p s.name) s.start s.final false).2

/-- The per-edge body of `union`'s edge loop. -/
def unionEdgeStep (ai : Automaton) (p : Name) (u : Automaton) (e : EdgeR) : Automaton :=
  addEdgeByName u (prefName p (ai.nameOfId e.src)) (prefName p (ai.nameOfId e.dst)) e.sym

/-- `union(a2)`: a fresh automaton with the DEFAULT alphabet `'ab'` (the
constructor is called without a symbols argument), the states of both
automata under prefixed names, and their edges resolved by prefixed
names. -/
def union (a1 a2 : Automaton) : Automaton :=
  let u := mkAutomaton (unionOf ++ a1.name ++ andStr ++ a2.name) ['a', 'b']
  let u := a1.states.foldl (unionStateStep a1.name) u
  let u := a2.states.foldl (unionStateStep a2.name) u
  let u := a1.edges.foldl (unionEdgeStep a1 a1.name) u
  a2.edges.foldl (unionEdgeStep a2 a2.name) u

/-- A prefixed name is never empty. -/
theorem prefName_ne_nil (p nm : Name) : prefName p nm ≠ [] := by
  unfold prefName
  cases p with
  | nil => exact fun h => List.noConfusion h
  | cons c q => exact fun h => List.noConfusion h

/-- Prefixing with the same prefix is injective in the name. -/
theorem prefName_inj_name {p n1 n2 : Name} (h : prefName p n1 = prefName p n2) :
    n1 = n2 := by
  unfold prefName at h
  have := List.append_cancel_left h
  exact List.tail_eq_of_cons_eq this

/-- Prefixed names with distinct colon-free prefixes differ. -/
theorem prefName_inj_pref {p1 p2 n1 n2 : Name} (hc1 : ':' ∉ p1) (hc2 : ':' ∉ p2)
    (h : prefName p1 n1 = prefName p2 n2) : p1 = p2 := by
  unfold prefName at h
  induction p1 generalizing p2 with
  | nil =>
    cases p2 with
    | nil => rfl
    | cons c q =>
      rw [List.nil_append, List.cons_append] at h
      have hc : ':' = c := (List.cons.injEq _ _ _ _).mp h |>.1
      exact absurd (hc ▸ List.mem_cons_self c q) hc2
  | cons c q ih =>
    cases p2 with
    | nil =>
      rw [List.nil_append, List.cons_append] at h
      have hc : c = ':' := (List.cons.injEq _ _ _ _).mp h |>.1
      exact absurd (hc ▸ List.mem_cons_self c q) hc1
    | cons c2 q2 =>
      rw [List.cons_append, List.cons_append] at h
      obtain ⟨h1, h2⟩ := (List.cons.injEq _ _ _ _).mp h
      have := ih (fun hm => hc1 (List.mem_cons_of_mem _ hm))
        (fun hm => hc2 (List.mem_cons_of_mem _ hm)) h2
      rw [h1, this]

/-- `addEdge` never touches the state list. -/
theorem addEdge_states (a : Automaton) (fi ti : Nat) (c : Char) :
    (a.addEdge fi ti c).states = a.states := by
  unfold Automaton.addEdge
  by_cases h : c ∈ a.alphabet
  · rw [if_pos h]
    by_cases h2 : a.hasEdge fi ti c = true
    · rw [if_pos h2]
    · rw [if_neg h2]
  · rw [if_neg h]

theorem addEdge_alphabet (a : Automaton) (fi ti : Nat) (c : Char) :
    (a.addEdge fi ti c).alphabet = a.alphabet := by
  unfold Automaton.addEdge
  by_cases h : c ∈ a.alphabet
  · rw [if_pos h]
    by_cases h2 : a.hasEdge fi ti c = true
    · rw [if_pos h2]
    · rw [if_neg h2]
  · rw [if_neg h]

/-- Edge membership (by endpoint and symbol) after `addEdge` with a valid
symbol: the old edges plus the new triple. -/
theorem addEdge_mem_iff {a : Automaton} {fi ti : Nat} {c : Char} (hc : c ∈ a.alphabet)
    (x y : Nat) (c2 : Char) :
    (∃ eu ∈ (a.addEdge fi ti c).edges, eu.src = x ∧ eu.dst = y ∧ eu.sym = c2) ↔
      ((∃ eu ∈ a.edges, eu.src = x ∧ eu.dst = y ∧ eu.sym = c2) ∨
        (x = fi ∧ y = ti ∧ c2 = c)) := by
  unfold Automaton.addEdge
  rw [if_pos hc]
  by_cases h2 : a.hasEdge fi ti c = true
  · rw [if_pos h2]
    constructor
    · exact fun h => Or.inl h
    · rintro (h | ⟨hx, hy, hc2⟩)
      · exact h
      · subst hx
        subst hy
        subst hc2
        rcases List.any_eq_true.mp h2 with ⟨e, he, hm⟩
        simp only [Bool.and_eq_true, beq_iff_eq] at hm
        exact ⟨e, he, hm.1.1, hm.2, hm.1.2⟩
  · rw [if_neg h2]
    constructor
    · rintro ⟨eu, heu, hx, hy, hc2⟩
      rcases List.mem_append.mp heu with h | h
      · exact Or.inl ⟨eu, h, hx, hy, hc2⟩
      · simp only [List.mem_singleton] at h
        subst h
        exact Or.inr ⟨hx.symm, hy.symm, hc2.symm⟩
    · rintro (⟨eu, heu, hx, hy, hc2⟩ | ⟨hx, hy, hc2⟩)
      · exact ⟨eu, List.mem_append_left _ heu, hx, hy, hc2⟩
      · exact ⟨⟨fi, ti, c, none⟩, List.mem_append_right _ (List.mem_singleton.mpr rfl),
          hx.symm, hy.symm, hc2.symm⟩

/-- The state loop of `union` for one side: each state is freshly added
with its original flags under its prefixed name. -/
theorem unionState_fold (p : Name) :
    ∀ (l : List StateR) (u : Automaton), WF u →
    (∀ s ∈ l, mapGet u.nameMap (prefName p s.name) = none) →
    ((l.map StateR.name).Nodup) →
    WF (l.foldl (fun u s => (u.addState (prefName p s.name) s.start s.final false).2) u) ∧
    (l.foldl (fun u s => (u.addState (prefName p s.name) s.start s.final false).2) u).edges
      = u.edges ∧
    (l.foldl (fun u s => (u.addState (prefName p s.name) s.start s.final false).2) u).alphabet
      = u.alphabet ∧
    (∀ t ∈ u.states,
      t ∈ (l.foldl (fun u s => (u.addState (prefName p s.name) s.start s.final false).2)
        u).states) ∧
    (∀ nm v, mapGet u.nameMap nm = some v →
      mapGet (l.foldl (fun u s => (u.addState (prefName p s.name) s.start s.final false).2)
        u).nameMap nm = some v) ∧
    (∀ s ∈ l, ∃ t ∈ (l.foldl
        (fun u s => (u.addState (prefName p s.name) s.start s.final false).2) u).states,
      t.name = prefName p s.name ∧ t.start = s.start ∧ t.final = s.final) ∧
    (∀ t ∈ (l.foldl (fun u s => (u.addState (prefName p s.name) s.start s.final false).2)
        u).states,
      t ∈ u.states ∨ ∃ s ∈ l, t.name = prefName p s.name ∧ t.start = s.start ∧
        t.final = s.final) := by
  intro l
  induction l with
  | nil =>
    intro u wf _ _
    exact ⟨wf, rfl, rfl, fun t ht => ht, fun nm v h => h,
      fun s hs => absurd hs (List.not_mem_nil s), fun t ht => Or.inl ht⟩
  | cons s rest ih =>
    intro u wf hl hnd
    rw [List.map_cons, List.nodup_cons] at hnd
    have hs0 := hl s (List.mem_cons_self _ _)
    have hs0' : mapGet u.nameMap (if false then u.freshName (prefName p s.name)
        else prefName p s.name) = none := hs0
    have hie : (prefName p s.name).isEmpty = false := by
      rcases hc : prefName p s.name with _ | ⟨c, cs⟩
      · exact absurd hc (prefName_ne_nil p s.name)
      · rfl
    have haddeq2 : (u.addState (prefName p s.name) s.start s.final false).2 =
        { u with
          states := u.states ++ [⟨u.nextId, prefName p s.name, s.start, s.final, false⟩]
          nameMap := u.nameMap ++ [(prefName p s.name, u.nextId)]
          nextId := u.nextId + 1 } := by
      rw [addState_new hs0']
      simp [hie]
    rw [List.foldl_cons]
    set u1 : Automaton := { u with
      states := u.states ++ [⟨u.nextId, prefName p s.name, s.start, s.final, false⟩]
      nameMap := u.nameMap ++ [(prefName p s.name, u.nextId)]
      nextId := u.nextId + 1 } with hu1
    rw [haddeq2]
    have hwf1 : WF u1 := by
      have h := addState_WF wf (prefName_ne_nil p s.name) s.start s.final false
      rw [haddeq2] at h
      exact h
    have hrest : ∀ s2 ∈ rest, mapGet u1.nameMap (prefName p s2.name) = none := by
      intro s2 hs2
      have h2 := hl s2 (List.mem_cons_of_mem _ hs2)
      rw [hu1]
      show mapGet (u.nameMap ++ [(prefName p s.name, u.nextId)]) (prefName p s2.name) = none
      rw [mapGet_append_none _ h2, mapGet_cons]
      have hne : ¬(((prefName p s.name, u.nextId).1 == prefName p s2.name) = true) := by
        simp only [beq_iff_eq]
        intro he
        exact hnd.1 ((prefName_inj_name he) ▸ List.mem_map_of_mem StateR.name hs2)
      rw [if_neg hne]
      rfl
    obtain ⟨wfR, hedR, halR, hstR, hmapR, hnewR, hcplR⟩ := ih u1 hwf1 hrest hnd.2
    refine ⟨wfR, ?_, ?_, ?_, ?_, ?_, ?_⟩
    · rw [hedR, hu1]
    · rw [halR, hu1]
    · intro t ht
      apply hstR
      rw [hu1]
      exact List.mem_append_left _ ht
    · intro nm v h
      apply hmapR
      rw [hu1]
      show mapGet (u.nameMap ++ [(prefName p s.name, u.nextId)]) nm = some v
      exact mapGet_append_some _ h
    · intro s2 hs2
      rcases List.mem_cons.mp hs2 with h | h
      · subst h
        refine ⟨⟨u.nextId, prefName p s2.name, s2.start, s2.final, false⟩, ?_, rfl, rfl, rfl⟩
        apply hstR
        rw [hu1]
        exact List.mem_append_right _ (List.mem_singleton.mpr rfl)
      · exact hnewR s2 h
    · intro t ht
      rcases hcplR t ht with h | h
      · rw [hu1] at h
        rcases List.mem_append.mp h with h2 | h2
        · exact Or.inl h2
        · simp only [List.mem_singleton] at h2
          subst h2
          exact Or.inr ⟨s, List.mem_cons_self _ _, rfl, rfl, rfl⟩
      · rcases h with ⟨s2, hs2, hp⟩
        exact Or.inr ⟨s2, List.mem_cons_of_mem _ hs2, hp⟩

/-- The edge loop of `union` for one side: every edge resolves through
the prefixed endpoint names; the edge set grows by exactly the resolved
triples. -/
theorem unionEdge_fold (ai : Automaton) (p : Name) :
    ∀ (l : List EdgeR) (u : Automaton), WF u →
    (∀ e ∈ l, e.sym ∈ u.alphabet) →
    (∀ e ∈ l, ∃ fi, mapGet u.nameMap (prefName p (ai.nameOfId e.src)) = some fi ∧
      fi ∈ u.states.map StateR.id) →
    (∀ e ∈ l, ∃ ti, mapGet u.nameMap (prefName p (ai.nameOfId e.dst)) = some ti ∧
      ti ∈ u.states.map StateR.id) →
    WF (l.foldl (fun u e => addEdgeByName u (prefName p (ai.nameOfId e.src))
      (prefName p (ai.nameOfId e.dst)) e.sym) u) ∧
    (l.foldl (fun u e => addEdgeByName u (prefName p (ai.nameOfId e.src))
      (prefName p (ai.nameOfId e.dst)) e.sym) u).states = u.states ∧
    (l.foldl (fun u e => addEdgeByName u (prefName p (ai.nameOfId e.src))
      (prefName p (ai.nameOfId e.dst)) e.sym) u).nameMap = u.nameMap ∧
    (l.foldl (fun u e => addEdgeByName u (prefName p (ai.nameOfId e.src))
      (prefName p (ai.nameOfId e.dst)) e.sym) u).alphabet = u.alphabet ∧
    (∀ x y c,
      (∃ eu ∈ (l.foldl (fun u e => addEdgeByName u (prefName p (ai.nameOfId e.src))
        (prefName p (ai.nameOfId e.dst)) e.sym) u).edges,
          eu.src = x ∧ eu.dst = y ∧ eu.sym = c) ↔
        ((∃ eu ∈ u.edges, eu.src = x ∧ eu.dst = y ∧ eu.sym = c) ∨
          ∃ e ∈ l, e.sym = c ∧ mapGet u.nameMap (prefName p (ai.nameOfId e.src)) = some x ∧
            mapGet u.nameMap (prefName p (ai.nameOfId e.dst)) = some y)) := by
  intro l
  induction l with
  | nil =>
    intro u wf _ _ _
    refine ⟨wf, rfl, rfl, rfl, ?_⟩
    intro x y c
    constructor
    · exact fun h => Or.inl h
    · rintro (h | ⟨e, he, _⟩)
      · exact h
      · exact absurd he (List.not_mem_nil e)
  | cons e rest ih =>
    intro u wf hsym hf hg
    have hsymE := hsym e (List.mem_cons_self _ _)
    obtain ⟨fi, hfi, hfim⟩ := hf e (List.mem_cons_self _ _)
    obtain ⟨ti, hti, htim⟩ := hg e (List.mem_cons_self _ _)
    have hstep : addEdgeByName u (prefName p (ai.nameOfId e.src))
        (prefName p (ai.nameOfId e.dst)) e.sym = u.addEdge fi ti e.sym := by
      unfold addEdgeByName
      have h1 : u.getStateByName (prefName p (ai.nameOfId e.src)) = some fi := hfi
      have h2 : u.getStateByName (prefName p (ai.nameOfId e.dst)) = some ti := hti
      rw [h1, h2]
    rw [List.foldl_cons, hstep]
    have hwf2 : WF (u.addEdge fi ti e.sym) := addEdge_WF wf hfim htim e.sym
    have hst2 := addEdge_states u fi ti e.sym
    have hnm2 := addEdge_nameMap u fi ti e.sym
    have hal2 := addEdge_alphabet u fi ti e.sym
    have hsym2 : ∀ e2 ∈ rest, e2.sym ∈ (u.addEdge fi ti e.sym).alphabet := by
      intro e2 he2
      rw [hal2]
      exact hsym e2 (List.mem_cons_of_mem _ he2)
    have hf2 : ∀ e2 ∈ rest, ∃ x,
        mapGet (u.addEdge fi ti e.sym).nameMap (prefName p (ai.nameOfId e2.src)) = some x ∧
        x ∈ (u.addEdge fi ti e.sym).states.map StateR.id := by
      intro e2 he2
      obtain ⟨x, hx1, hx2⟩ := hf e2 (List.mem_cons_of_mem _ he2)
      exact ⟨x, by rw [hnm2]; exact hx1, by rw [hst2]; exact hx2⟩
    have hg2 : ∀ e2 ∈ rest, ∃ y,
        mapGet (u.addEdge fi ti e.sym).nameMap (prefName p (ai.nameOfId e2.dst)) = some y ∧
        y ∈ (u.addEdge fi ti e.sym).states.map StateR.id := by
      intro e2 he2
      obtain ⟨y, hy1, hy2⟩ := hg e2 (List.mem_cons_of_mem _ he2)
      exact ⟨y, by rw [hnm2]; exact hy1, by rw [hst2]; exact hy2⟩
    obtain ⟨wfR, hstR, hnmR, halR, hmemR⟩ := ih (u.addEdge fi ti e.sym) hwf2 hsym2 hf2 hg2
    refine ⟨wfR, ?_, ?_, ?_, ?_⟩
    · rw [hstR, hst2]
    · rw [hnmR, hnm2]
    · rw [halR, hal2]
    · intro x y c
      rw [hmemR x y c, hnm2, addEdge_mem_iff hsymE x y c]
      constructor
      · rintro ((h | ⟨hx, hy, hc⟩) | ⟨e2, he2, h⟩)
        · exact Or.inl h
        · refine Or.inr ⟨e, List.mem_cons_self _ _, hc.symm, ?_, ?_⟩
          · rw [hfi, hx]
          · rw [hti, hy]
        · exact Or.inr ⟨e2, List.mem_cons_of_mem _ he2, h⟩
      · rintro (h | ⟨e2, he2, hc, hx, hy⟩)
        · exact Or.inl (Or.inl h)
        · rcases List.mem_cons.mp he2 with h2 | h2
          · subst h2
            rw [hfi] at hx
            rw [hti] at hy
            exact Or.inl (Or.inr ⟨(Option.some.inj hx).symm, (Option.some.inj hy).symm,
              hc.symm⟩)
          · exact Or.inr ⟨e2, h2, hc, hx, hy⟩

/-- The name read off an edge endpoint is the endpoint state's name. -/
theorem nameOfId_eq {a : Automaton} (wf : WF a) {s : StateR} (hs : s ∈ a.states) :
    a.nameOfId s.id = s.name := by
  unfold Automaton.nameOfId
  rw [Automaton.getSt_of_mem wf hs]

/-- Structure of the union automaton: well-formed over the default
alphabet, with exactly the flag-preserving prefixed copies of both state
sets, and exactly the resolved copies of both edge sets. -/
theorem union_struct {a1 a2 : Automaton} (wf1 : WF a1) (wf2 : WF a2)
    (hal1 : a1.alphabet = ['a', 'b']) (hal2 : a2.alphabet = ['a', 'b'])
    (hc1 : ':' ∉ a1.name) (hc2 : ':' ∉ a2.name) (hne : a1.name ≠ a2.name) :
    WF (union a1 a2) ∧
    (union a1 a2).alphabet = ['a', 'b'] ∧
    (∀ s ∈ a1.states, ∃ t ∈ (union a1 a2).states,
      t.name = prefName a1.name s.name ∧ t.start = s.start ∧ t.final = s.final) ∧
    (∀ s ∈ a2.states, ∃ t ∈ (union a1 a2).states,
      t.name = prefName a2.name s.name ∧ t.start = s.start ∧ t.final = s.final) ∧
    (∀ t ∈ (union a1 a2).states,
      (∃ s ∈ a1.states, t.name = prefName a1.name s.name ∧ t.start = s.start ∧
        t.final = s.final) ∨
      (∃ s ∈ a2.states, t.name = prefName a2.name s.name ∧ t.start = s.start ∧
        t.final = s.final)) ∧
    (∀ x y c, (∃ eu ∈ (union a1 a2).edges, eu.src = x ∧ eu.dst = y ∧ eu.sym = c) ↔
      ((∃ e ∈ a1.edges, e.sym = c ∧
          mapGet (union a1 a2).nameMap (prefName a1.name (a1.nameOfId e.src)) = some x ∧
          mapGet (union a1 a2).nameMap (prefName a1.name (a1.nameOfId e.dst)) = some y) ∨
        (∃ e ∈ a2.edges, e.sym = c ∧
          mapGet (union a1 a2).nameMap (prefName a2.name (a2.nameOfId e.src)) = some x ∧
          mapGet (union a1 a2).nameMap (prefName a2.name (a2.nameOfId e.dst)) = some y))) := by
  have h0wf := WF_mkAutomaton (unionOf ++ a1.name ++ andStr ++ a2.name) ['a', 'b']
  obtain ⟨wfA, hedA, halA, hstA, hmapA, hnewA, hcplA⟩ :=
    unionState_fold a1.name a1.states
      (mkAutomaton (unionOf ++ a1.name ++ andStr ++ a2.name) ['a', 'b']) h0wf
      (fun s hs => rfl) wf1.names_nodup
  set u0 : Automaton := mkAutomaton (unionOf ++ a1.name ++ andStr ++ a2.name) ['a', 'b']
    with hu0
  set U1 : Automaton := a1.states.foldl (unionStateStep a1.name) u0 with hU1d
  have wfA' : WF U1 := wfA
  have hedA' : U1.edges = u0.edges := hedA
  have halA' : U1.alphabet = u0.alphabet := halA
  have hstA' : ∀ t ∈ u0.states, t ∈ U1.states := hstA
  have hmapA' : ∀ nm v, mapGet u0.nameMap nm = some v → mapGet U1.nameMap nm = some v := hmapA
  have hnewA' : ∀ s ∈ a1.states, ∃ t ∈ U1.states, t.name = prefName a1.name s.name ∧
      t.start = s.start ∧ t.final = s.final := hnewA
  have hcplA' : ∀ t ∈ U1.states, t ∈ u0.states ∨ ∃ s ∈ a1.states,
      t.name = prefName a1.name s.name ∧ t.start = s.start ∧ t.final = s.final := hcplA
  have hWl2 : ∀ s ∈ a2.states, mapGet U1.nameMap (prefName a2.name s.name) = none := by
    intro s hs
    have hnone : ∀ t ∈ U1.states, t.name ≠ prefName a2.name s.name := by
      intro t ht hteq
      rcases hcplA' t ht with h | h
      · exact absurd h (List.not_mem_nil t)
      · rcases h with ⟨s1, hs1, hname, _, _⟩
        rw [hname] at hteq
        exact hne (prefName_inj_pref hc1 hc2 hteq)
    exact (Automaton.getStateByName_eq_none wfA').mpr hnone
  obtain ⟨wfB, hedB, halB, hstB, hmapB, hnewB, hcplB⟩ :=
    unionState_fold a2.name a2.states U1 wfA' hWl2 wf2.names_nodup
  set U2 : Automaton := a2.states.foldl (unionStateStep a2.name) U1 with hU2d
  have wfB' : WF U2 := wfB
  have hedB' : U2.edges = U1.edges := hedB
  have halB' : U2.alphabet = U1.alphabet := halB
  have hstB' : ∀ t ∈ U1.states, t ∈ U2.states := hstB
  have hmapB' : ∀ nm v, mapGet U1.nameMap nm = some v → mapGet U2.nameMap nm = some v := hmapB
  have hnewB' : ∀ s ∈ a2.states, ∃ t ∈ U2.states, t.name = prefName a2.name s.name ∧
      t.start = s.start ∧ t.final = s.final := hnewB
  have hcplB' : ∀ t ∈ U2.states, t ∈ U1.states ∨ ∃ s ∈ a2.states,
      t.name = prefName a2.name s.name ∧ t.start = s.start ∧ t.final = s.final := hcplB
  have hU2ed : U2.edges = ([] : List EdgeR) := by
    rw [hedB', hedA']
    exact rfl
  have hU2al : U2.alphabet = ['a', 'b'] := by
    rw [halB', halA']
    exact rfl
  have hres1 : ∀ id ∈ a1.states.map StateR.id, ∃ v,
      mapGet U2.nameMap (prefName a1.name (a1.nameOfId id)) = some v ∧
      v ∈ U2.states.map StateR.id := by
    intro id hid
    rcases List.mem_map.mp hid with ⟨s, hs, hsid⟩
    subst hsid
    rw [nameOfId_eq wf1 hs]
    obtain ⟨t, ht, htn, _, _⟩ := hnewA' s hs
    have hmg : mapGet U1.nameMap (prefName a1.name s.name) = some t.id :=
      (Automaton.getStateByName_eq_some wfA').mpr ⟨t, ht, htn, rfl⟩
    exact ⟨t.id, hmapB' _ _ hmg, List.mem_map.mpr ⟨t, hstB' t ht, rfl⟩⟩
  have hres2 : ∀ id ∈ a2.states.map StateR.id, ∃ v,
      mapGet U2.nameMap (prefName a2.name (a2.nameOfId id)) = some v ∧
      v ∈ U2.states.map StateR.id := by
    intro id hid
    rcases List.mem_map.mp hid with ⟨s, hs, hsid⟩
    subst hsid
    rw [nameOfId_eq wf2 hs]
    obtain ⟨t, ht, htn, _, _⟩ := hnewB' s hs
    exact ⟨t.id, (Automaton.getStateByName_eq_some wfB').mpr ⟨t, ht, htn, rfl⟩,
      List.mem_map.mpr ⟨t, ht, rfl⟩⟩
  have hsym3 : ∀ e ∈ a1.edges, e.sym ∈ U2.alphabet := by
    intro e he
    rw [hU2al, ← hal1]
    exact (wf1.edges_valid e he).1
  obtain ⟨wfC, hstC, hnmC, halC, hmemC⟩ :=
    unionEdge_fold a1 a1.name a1.edges U2 wfB' hsym3
      (fun e he => hres1 _ (wf1.edges_valid e he).2.1)
      (fun e he => hres1 _ (wf1.edges_valid e he).2.2)
  set U3 : Automaton := a1.edges.foldl (unionEdgeStep a1 a1.name) U2 with hU3d
  have wfC' : WF U3 := wfC
  have hstC' : U3.states = U2.states := hstC
  have hnmC' : U3.nameMap = U2.nameMap := hnmC
  have halC' : U3.alphabet = U2.alphabet := halC
  have hmemC' : ∀ x y c,
      (∃ eu ∈ U3.edges, eu.src = x ∧ eu.dst = y ∧ eu.sym = c) ↔
        ((∃ eu ∈ U2.edges, eu.src = x ∧ eu.dst = y ∧ eu.sym = c) ∨
          ∃ e ∈ a1.edges, e.sym = c ∧
            mapGet U2.nameMap (prefName a1.name (a1.nameOfId e.src)) = some x ∧
            mapGet U2.nameMap (prefName a1.name (a1.nameOfId e.dst)) = some y) := hmemC
  have hsym4 : ∀ e ∈ a2.edges, e.sym ∈ U3.alphabet := by
    intro e he
    rw [halC', hU2al, ← hal2]
    exact (wf2.edges_valid e he).1
  have hf4 : ∀ e ∈ a2.edges, ∃ fi,
      mapGet U3.nameMap (prefName a2.name (a2.nameOfId e.src)) = some fi ∧
      fi ∈ U3.states.map StateR.id := by
    intro e he
    obtain ⟨v, hv1, hv2⟩ := hres2 _ (wf2.edges_valid e he).2.1
    exact ⟨v, by rw [hnmC']; exact hv1, by rw [hstC']; exact hv2⟩
  have hg4 : ∀ e ∈ a2.edges, ∃ ti,
      mapGet U3.nameMap (prefName a2.name (a2.nameOfId e.dst)) = some ti ∧
      ti ∈ U3.states.map StateR.id := by
    intro e he
    obtain ⟨v, hv1, hv2⟩ := hres2 _ (wf2.edges_valid e he).2.2
    exact ⟨v, by rw [hnmC']; exact hv1, by rw [hstC']; exact hv2⟩
  obtain ⟨wfD, hstD, hnmD, halD, hmemD⟩ :=
    unionEdge_fold a2 a2.name a2.edges U3 wfC' hsym4 hf4 hg4
  have hUn : union a1 a2 = a2.edges.foldl (unionEdgeStep a2 a2.name) U3 := rfl
  have wfD' : WF (union a1 a2) := by
    rw [hUn]
    exact wfD
  have hstD' : (union a1 a2).states = U2.states := by
    rw [hUn]
    have h : (a2.edges.foldl (unionEdgeStep a2 a2.name) U3).states = U3.states := hstD
    rw [h, hstC']
  have hnmD' : (union a1 a2).nameMap = U2.nameMap := by
    rw [hUn]
    have h : (a2.edges.foldl (unionEdgeStep a2 a2.name) U3).nameMap = U3.nameMap := hnmD
    rw [h, hnmC']
  have halD' : (union a1 a2).alphabet = ['a', 'b'] := by
    rw [hUn]
    have h : (a2.edges.foldl (unionEdgeStep a2 a2.name) U3).alphabet = U3.alphabet := halD
    rw [h, halC', hU2al]
  have hmemD' : ∀ x y c,
      (∃ eu ∈ (union a1 a2).edges, eu.src = x ∧ eu.dst = y ∧ eu.sym = c) ↔
        ((∃ eu ∈ U3.edges, eu.src = x ∧ eu.dst = y ∧ eu.sym = c) ∨
          ∃ e ∈ a2.edges, e.sym = c ∧
            mapGet U3.nameMap (prefName a2.name (a2.nameOfId e.src)) = some x ∧
            mapGet U3.nameMap (prefName a2.name (a2.nameOfId e.dst)) = some y) := by
    rw [hUn]
    exact hmemD
  refine ⟨wfD', halD', ?_, ?_, ?_, ?_⟩
  · intro s hs
    obtain ⟨t, ht, hp⟩ := hnewA' s hs
    refine ⟨t, ?_, hp⟩
    rw [hstD']
    exact hstB' t ht
  · intro s hs
    obtain ⟨t, ht, hp⟩ := hnewB' s hs
    refine ⟨t, ?_, hp⟩
    rw [hstD']
    exact ht
  · intro t ht
    rw [hstD'] at ht
    rcases hcplB' t ht with h | h
    · rcases hcplA' t h with h2 | h2
      · exact absurd h2 (List.not_mem_nil t)
      · exact Or.inl h2
    · exact Or.inr h
  · intro x y c
    rw [hnmD']
    constructor
    · intro h
      rcases (hmemD' x y c).mp h with h2 | h2
      · rcases (hmemC' x y c).mp h2 with h3 | h3
        · exfalso
          rcases h3 with ⟨eu, heu, _⟩
          rw [hU2ed] at heu
          exact absurd heu (List.not_mem_nil eu)
        · exact Or.inl h3
      · rcases h2 with ⟨e, he, hc, hx, hy⟩
        rw [hnmC'] at hx hy
        exact Or.inr ⟨e, he, hc, hx, hy⟩
    · intro h
      apply (hmemD' x y c).mpr
      rcases h with h2 | h2
      · exact Or.inl ((hmemC' x y c).mpr (Or.inr h2))
      · rcases h2 with ⟨e, he, hc, hx, hy⟩
        rw [← hnmC'] at hx hy
        exact Or.inr ⟨e, he, hc, hx, hy⟩

/-- `startIds` membership. -/
theorem mem_startIds_iff {a : Automaton} {x : Nat} :
    x ∈ a.startIds ↔ ∃ t ∈ a.states, t.start = true ∧ t.id = x := by
  unfold Automaton.startIds
  constructor
  · intro h
    rcases List.mem_map.mp h with ⟨t, ht, hid⟩
    exact ⟨t, List.mem_of_mem_filter ht, by simpa using List.of_mem_filter ht, hid⟩
  · rintro ⟨t, ht, hst, hid⟩
    exact List.mem_map.mpr ⟨t, List.mem_filter.mpr ⟨ht, by simp [hst]⟩, hid⟩

/-- `isFinalId` reads the state's final flag. -/
theorem isFinalId_eq {a : Automaton} (wf : WF a) {t : StateR} (ht : t ∈ a.states) :
    a.isFinalId t.id = t.final := by
  unfold Automaton.isFinalId
  rw [Automaton.getSt_of_mem wf ht]

theorem isEmpty_false_of_mem {a : Automaton} {t : StateR} (ht : t ∈ a.states) :
    a.isEmpty = false := by
  unfold Automaton.isEmpty
  rcases hc : a.states with _ | ⟨t0, l0⟩
  · rw [hc] at ht
    exact absurd ht (List.not_mem_nil t)
  · rfl

/-- A step-wise simulation lifts to reachability along any word. -/
theorem sim_reaches_fwd {a u : Automaton} (R : Nat → Nat → Prop)
    (hd : ∀ x x' c y, R x x' → y ∈ a.delta x c → ∃ y', R y y' ∧ y' ∈ u.delta x' c) :
    ∀ {x w z}, Reaches a x w z → ∀ x', R x x' → ∃ z', R z z' ∧ Reaches u x' w z' := by
  intro x w z hr
  induction hr with
  | refl x0 => exact fun x' hR => ⟨x', hR, Reaches.refl x'⟩
  | step h1 h2 ih =>
    intro x' hR
    obtain ⟨y', hR2, hy'⟩ := hd _ _ _ _ hR h1
    obtain ⟨z', hR3, hr3⟩ := ih y' hR2
    exact ⟨z', hR3, Reaches.step hy' hr3⟩

/-- One side of the union simulates and is simulated by the union
automaton, step by step: the prefixed-name relation between a side state
and a union state is a bisimulation for `delta`. -/
theorem union_side_sim {u a b : Automaton} {p q : Name}
    (wfu : WF u) (wfa : WF a)
    (halu : u.alphabet = ['a', 'b']) (hala : a.alphabet = ['a', 'b'])
    (hdisj : ∀ n1 n2 : Name, prefName p n1 ≠ prefName q n2)
    (hnew : ∀ s ∈ a.states, ∃ t ∈ u.states, t.name = prefName p s.name ∧
      t.start = s.start ∧ t.final = s.final)
    (hedge : ∀ x y c, (∃ eu ∈ u.edges, eu.src = x ∧ eu.dst = y ∧ eu.sym = c) ↔
      ((∃ e ∈ a.edges, e.sym = c ∧
          mapGet u.nameMap (prefName p (a.nameOfId e.src)) = some x ∧
          mapGet u.nameMap (prefName p (a.nameOfId e.dst)) = some y) ∨
        (∃ e ∈ b.edges, e.sym = c ∧
          mapGet u.nameMap (prefName q (b.nameOfId e.src)) = some x ∧
          mapGet u.nameMap (prefName q (b.nameOfId e.dst)) = some y))) :
    (∀ x x' c y, (∃ s ∈ a.states, s.id = x ∧ ∃ t ∈ u.states, t.id = x' ∧
        t.name = prefName p s.name) → y ∈ a.delta x c →
      ∃ y', (∃ s ∈ a.states, s.id = y ∧ ∃ t ∈ u.states, t.id = y' ∧
        t.name = prefName p s.name) ∧ y' ∈ u.delta x' c) ∧
    (∀ x x' c y', (∃ s ∈ a.states, s.id = x ∧ ∃ t ∈ u.states, t.id = x' ∧
        t.name = prefName p s.name) → y' ∈ u.delta x' c →
      ∃ y, (∃ s ∈ a.states, s.id = y ∧ ∃ t ∈ u.states, t.id = y' ∧
        t.name = prefName p s.name) ∧ y ∈ a.delta x c) := by
  constructor
  · rintro x x' c y ⟨s, hs, hsx, t, ht, htx, htn⟩ hy
    rcases mem_delta_iff.mp hy with ⟨hca, e, he, hesrc, hesym, hedst⟩
    have hdstmem : e.dst ∈ a.states.map StateR.id := (wfa.edges_valid e he).2.2
    rcases List.mem_map.mp hdstmem with ⟨s2, hs2, hs2id⟩
    obtain ⟨t2, ht2, ht2n, _, _⟩ := hnew s2 hs2
    have hx : mapGet u.nameMap (prefName p (a.nameOfId e.src)) = some x' := by
      rw [hesrc, ← hsx, nameOfId_eq wfa hs]
      exact (Automaton.getStateByName_eq_some wfu).mpr ⟨t, ht, htn, htx⟩
    have hy2 : mapGet u.nameMap (prefName p (a.nameOfId e.dst)) = some t2.id := by
      rw [← hs2id, nameOfId_eq wfa hs2]
      exact (Automaton.getStateByName_eq_some wfu).mpr ⟨t2, ht2, ht2n, rfl⟩
    refine ⟨t2.id, ⟨s2, hs2, ?_, t2, ht2, rfl, ht2n⟩, ?_⟩
    · rw [hs2id, hedst]
    · refine mem_delta_iff.mpr ⟨?_, ?_⟩
      · rw [halu, ← hala]
        exact hca
      · rcases (hedge x' t2.id c).mpr (Or.inl ⟨e, he, hesym, hx, hy2⟩)
          with ⟨eu, heu, h1, h2, h3⟩
        exact ⟨eu, heu, h1, h3, h2⟩
  · rintro x x' c y' ⟨s, hs, hsx, t, ht, htx, htn⟩ hy'
    rcases mem_delta_iff.mp hy' with ⟨hcu, eu, heu, h1, h2, h3⟩
    rcases (hedge x' y' c).mp ⟨eu, heu, h1, h3, h2⟩ with hcase | hcase
    · rcases hcase with ⟨e, he, hesym, hx, hy⟩
      rcases (Automaton.getStateByName_eq_some wfu).mp hx with ⟨t1, ht1, ht1n, ht1id⟩
      have hteq : t1 = t := state_inj_of_ids wfu ht1 ht (by rw [ht1id, htx])
      have hname : prefName p (a.nameOfId e.src) = prefName p s.name := by
        rw [← ht1n, hteq, htn]
      have hnm2 : a.nameOfId e.src = s.name := prefName_inj_name hname
      have hsrcmem : e.src ∈ a.states.map StateR.id := (wfa.edges_valid e he).2.1
      rcases List.mem_map.mp hsrcmem with ⟨s3, hs3, hs3id⟩
      have hn3 : a.nameOfId e.src = s3.name := by
        rw [← hs3id, nameOfId_eq wfa hs3]
      have hs3s : s3 = s := state_inj_of_names wfa hs3 hs (by rw [← hn3, hnm2])
      have hex : e.src = x := by
        rw [← hs3id, hs3s, hsx]
      have hdstmem := (wfa.edges_valid e he).2.2
      rcases List.mem_map.mp hdstmem with ⟨s4, hs4, hs4id⟩
      rcases (Automaton.getStateByName_eq_some wfu).mp hy with ⟨t4, ht4, ht4n, ht4id⟩
      have ht4n2 : t4.name = prefName p s4.name := by
        rw [ht4n, ← hs4id, nameOfId_eq wfa hs4]
      refine ⟨e.dst, ⟨s4, hs4, hs4id, t4, ht4, ht4id, ht4n2⟩, ?_⟩
      refine mem_delta_iff.mpr ⟨?_, e, he, hex, hesym, rfl⟩
      rw [hala, ← halu]
      exact hcu
    · rcases hcase with ⟨e, he, hesym, hx, hy⟩
      exfalso
      rcases (Automaton.getStateByName_eq_some wfu).mp hx with ⟨t1, ht1, ht1n, ht1id⟩
      have hteq : t1 = t := state_inj_of_ids wfu ht1 ht (by rw [ht1id, htx])
      have hcontra : prefName q (b.nameOfId e.src) = prefName p s.name := by
        rw [← ht1n, hteq, htn]
      exact hdisj s.name (b.nameOfId e.src) hcontra.symm

/-- C3, amended: for well-formed automata over the (default) alphabet
`'ab'` with distinct colon-free names, the union accepts exactly the
union of the two languages.  Without the name conditions the claim fails:
colliding prefixed state names make `addState` drop the second automaton's
state flags. -/
theorem union_accepts {a1 a2 : Automaton} (wf1 : WF a1) (wf2 : WF a2)
    (hal1 : a1.alphabet = ['a', 'b']) (hal2 : a2.alphabet = ['a', 'b'])
    (hc1 : ':' ∉ a1.name) (hc2 : ':' ∉ a2.name) (hne : a1.name ≠ a2.name) (w : List Char) :
    (union a1 a2).accepts w = (a1.accepts w || a2.accepts w) := by
  obtain ⟨wfu, halu, hnew1, hnew2, hcpl, hedge⟩ := union_struct wf1 wf2 hal1 hal2 hc1 hc2 hne
  have hdisj12 : ∀ n1 n2 : Name, prefName a1.name n1 ≠ prefName a2.name n2 := by
    intro n1 n2 h
    exact hne (prefName_inj_pref hc1 hc2 h)
  have hdisj21 : ∀ n1 n2 : Name, prefName a2.name n1 ≠ prefName a1.name n2 := by
    intro n1 n2 h
    exact hne (prefName_inj_pref hc2 hc1 h).symm
  obtain ⟨hd1f, hd1b⟩ := union_side_sim wfu wf1 halu hal1 hdisj12 hnew1 hedge
  have hedge2 : ∀ x y c,
      (∃ eu ∈ (union a1 a2).edges, eu.src = x ∧ eu.dst = y ∧ eu.sym = c) ↔
        ((∃ e ∈ a2.edges, e.sym = c ∧
            mapGet (union a1 a2).nameMap (prefName a2.name (a2.nameOfId e.src)) = some x ∧
            mapGet (union a1 a2).nameMap (prefName a2.name (a2.nameOfId e.dst)) = some y) ∨
          (∃ e ∈ a1.edges, e.sym = c ∧
            mapGet (union a1 a2).nameMap (prefName a1.name (a1.nameOfId e.src)) = some x ∧
            mapGet (union a1 a2).nameMap (prefName a1.name (a1.nameOfId e.dst)) = some y)) := by
    intro x y c
    rw [hedge x y c]
    exact Or.comm
  obtain ⟨hd2f, hd2b⟩ := union_side_sim wfu wf2 halu hal2 hdisj21 hnew2 hedge2
  rw [Bool.eq_iff_iff, Bool.or_eq_true]
  constructor
  · intro hu
    rcases (accepts_iff w).mp hu with ⟨hneU, s', hs', f', hr', hfin'⟩
    rcases mem_startIds_iff.mp hs' with ⟨t, ht, hts, htid⟩
    rcases hcpl t ht with hside | hside
    · rcases hside with ⟨s, hs, hnm, hstf, hfinf⟩
      obtain ⟨z, hRz, hrz⟩ := sim_reaches_fwd
        (fun xu xa => ∃ s0 ∈ a1.states, s0.id = xa ∧ ∃ t0 ∈ (union a1 a2).states,
          t0.id = xu ∧ t0.name = prefName a1.name s0.name)
        (fun xu xa c yu hR hy => hd1b xa xu c yu hR hy) hr' s.id
        ⟨s, hs, rfl, t, ht, htid, hnm⟩
      rcases hRz with ⟨sz, hsz, hszid, tz, htz, htzid, htzn⟩
      obtain ⟨tsz, htsz, htszn, _, htszf⟩ := hnew1 sz hsz
      have htzeq : tz = tsz := state_inj_of_names wfu htz htsz (by rw [htzn, htszn])
      have hfin : a1.isFinalId z = true := by
        have h1 : (union a1 a2).isFinalId f' = tz.final := by
          rw [← htzid]
          exact isFinalId_eq wfu htz
        have h2 : a1.isFinalId z = sz.final := by
          rw [← hszid]
          exact isFinalId_eq wf1 hsz
        rw [h2, ← htszf, ← htzeq, ← h1]
        exact hfin'
      refine Or.inl ((accepts_iff w).mpr ⟨isEmpty_false_of_mem hs, s.id, ?_, z, hrz, hfin⟩)
      refine mem_startIds_iff.mpr ⟨s, hs, ?_, rfl⟩
      rw [← hstf]
      exact hts
    · rcases hside with ⟨s, hs, hnm, hstf, hfinf⟩
      obtain ⟨z, hRz, hrz⟩ := sim_reaches_fwd
        (fun xu xa => ∃ s0 ∈ a2.states, s0.id = xa ∧ ∃ t0 ∈ (union a1 a2).states,
          t0.id = xu ∧ t0.name = prefName a2.name s0.name)
        (fun xu xa c yu hR hy => hd2b xa xu c yu hR hy) hr' s.id
        ⟨s, hs, rfl, t, ht, htid, hnm⟩
      rcases hRz with ⟨sz, hsz, hszid, tz, htz, htzid, htzn⟩
      obtain ⟨tsz, htsz, htszn, _, htszf⟩ := hnew2 sz hsz
      have htzeq : tz = tsz := state_inj_of_names wfu htz htsz (by rw [htzn, htszn])
      have hfin : a2.isFinalId z = true := by
        have h1 : (union a1 a2).isFinalId f' = tz.final := by
          rw [← htzid]
          exact isFinalId_eq wfu htz
        have h2 : a2.isFinalId z = sz.final := by
          rw [← hszid]
          exact isFinalId_eq wf2 hsz
        rw [h2, ← htszf, ← htzeq, ← h1]
        exact hfin'
      refine Or.inr ((accepts_iff w).mpr ⟨isEmpty_false_of_mem hs, s.id, ?_, z, hrz, hfin⟩)
      refine mem_startIds_iff.mpr ⟨s, hs, ?_, rfl⟩
      rw [← hstf]
      exact hts
  · intro hor
    rcases hor with ha | ha
    · rcases (accepts_iff w).mp ha with ⟨hne1, s0, hs0, f, hrf, hfinf⟩
      rcases mem_startIds_iff.mp hs0 with ⟨s, hs, hss, hsid⟩
      obtain ⟨t, ht, htn, hts, htf⟩ := hnew1 s hs
      subst hsid
      obtain ⟨f', hRf, hrf'⟩ := sim_reaches_fwd
        (fun xa xu => ∃ s0 ∈ a1.states, s0.id = xa ∧ ∃ t0 ∈ (union a1 a2).states,
          t0.id = xu ∧ t0.name = prefName a1.name s0.name)
        hd1f hrf t.id ⟨s, hs, rfl, t, ht, rfl, htn⟩
      rcases hRf with ⟨sz, hsz, hszid, tz, htz, htzid, htzn⟩
      obtain ⟨tsz, htsz, htszn, _, htszf⟩ := hnew1 sz hsz
      have htzeq : tz = tsz := state_inj_of_names wfu htz htsz (by rw [htzn, htszn])
      have hfin' : (union a1 a2).isFinalId f' = true := by
        have h1 : (union a1 a2).isFinalId f' = tz.final := by
          rw [← htzid]
          exact isFinalId_eq wfu htz
        have h2 : a1.isFinalId sz.id = sz.final := isFinalId_eq wf1 hsz
        rw [hszid] at h2
        rw [h1, htzeq, htszf, ← h2]
        exact hfinf
      refine (accepts_iff w).mpr ⟨isEmpty_false_of_mem ht, t.id, ?_, f', hrf', hfin'⟩
      refine mem_startIds_iff.mpr ⟨t, ht, ?_, rfl⟩
      rw [hts]
      exact hss
    · rcases (accepts_iff w).mp ha with ⟨hne2, s0, hs0, f, hrf, hfinf⟩
      rcases mem_startIds_iff.mp hs0 with ⟨s, hs, hss, hsid⟩
      obtain ⟨t, ht, htn, hts, htf⟩ := hnew2 s hs
      subst hsid
      obtain ⟨f', hRf, hrf'⟩ := sim_reaches_fwd
        (fun xa xu => ∃ s0 ∈ a2.states, s0.id = xa ∧ ∃ t0 ∈ (union a1 a2).states,
          t0.id = xu ∧ t0.name = prefName a2.name s0.name)
        hd2f hrf t.id ⟨s, hs, rfl, t, ht, rfl, htn⟩
      rcases hRf with ⟨sz, hsz, hszid, tz, htz, htzid, htzn⟩
      obtain ⟨tsz, htsz, htszn, _, htszf⟩ := hnew2 sz hsz
      have htzeq : tz = tsz := state_inj_of_names wfu htz htsz (by rw [htzn, htszn])
      have hfin' : (union a1 a2).isFinalId f' = true := by
        have h1 : (union a1 a2).isFinalId f' = tz.final := by
          rw [← htzid]
          exact isFinalId_eq wfu htz
        have h2 : a2.isFinalId sz.id = sz.final := isFinalId_eq wf2 hsz
        rw [hszid] at h2
        rw [h1, htzeq, htszf, ← h2]
        exact hfinf
      refine (accepts_iff w).mpr ⟨isEmpty_false_of_mem ht, t.id, ?_, f', hrf', hfin'⟩
      refine mem_startIds_iff.mpr ⟨t, ht, ?_, rfl⟩
      rw [hts]
      exact hss

/-- Two concrete automata with distinct colon-free names for the amended
C3 theorem's witness. -/
def aC3W1 : Automaton := ((mkAutomaton ['A'] ['a', 'b']).addState ['x'] true true false).2

def aC3W2 : Automaton := ((mkAutomaton ['B'] ['a', 'b']).addState ['y'] true false false).2

/-- Witness for the amended C3 theorem on two concrete automata. -/
theorem union_accepts_witness :
    (union aC3W1 aC3W2).accepts [] = (aC3W1.accepts [] || aC3W2.accepts []) :=
  union_accepts
    ⟨by decide, by decide, by decide, by decide, by decide, by decide, by decide⟩
    ⟨by decide, by decide, by decide, by decide, by decide, by decide, by decide⟩
    (by decide) (by decide) (by decide) (by decide) (by decide) []

/-- Two automata with the default name `'A'` and a shared state name for
claim C3's counterexample. -/
def aC3L : Automaton := ((mkAutomaton ['A'] ['a', 'b']).addState ['x'] true false false).2

def aC3R : Automaton := ((mkAutomaton ['A'] ['a', 'b']).addState ['x'] true true false).2

/-- C3, counterexample to the claim as stated: two automata over the same
alphabet whose (default) names collide; `addState` with `forceNew` unset
silently drops the second automaton's state flags, so the union rejects
the empty word that the second automaton accepts. -/
theorem union_accepts_cex :
    (union aC3L aC3R).accepts [] = false ∧ aC3R.accepts [] = true ∧
      aC3L.accepts [] = false ∧ aC3L.alphabet = aC3R.alphabet := by
  decide

/-! ### Decimal state names (`String(i)`) and canonical set names -/

/-- A decimal digit character. -/
def decDigit : Nat → Char
  | 0 => '0'
  | 1 => '1'
  | 2 => '2'
  | 3 => '3'
  | 4 => '4'
  | 5 => '5'
  | 6 => '6'
  | 7 => '7'
  | 8 => '8'
  | _ => '9'

def digitVal (c : Char) : Nat := c.toNat - '0'.toNat

/-- The digit loop of JavaScript `String(i)` for naturals, structural in
a fuel argument (`n` itself is enough fuel). -/
def toDecAux : Nat → Nat → List Char
  | 0, _ => []
  | fuel + 1, n => if n = 0 then [] else toDecAux fuel (n / 10) ++ [decDigit (n % 10)]

/-- `String(i)` for a natural number. -/
def toDec (n : Nat) : List Char := if n = 0 then ['0'] else toDecAux n n

def decVal (s : List Char) : Nat := s.foldl (fun acc c => acc * 10 + digitVal c) 0

theorem decVal_append_digit (l : List Char) (c : Char) :
    decVal (l ++ [c]) = decVal l * 10 + digitVal c := by
  unfold decVal
  rw [List.foldl_append]
  rfl

theorem digitVal_decDigit (r : Nat) (h : r < 10) : digitVal (decDigit r) = r := by
  interval_cases r <;> decide

theorem toDecAux_val : ∀ (fuel n : Nat), 0 < n → n ≤ fuel → decVal (toDecAux fuel n) = n := by
  intro fuel
  induction fuel with
  | zero =>
    intro n h1 h2
    omega
  | succ fuel ih =>
    intro n h1 h2
    show decVal (if n = 0 then [] else toDecAux fuel (n / 10) ++ [decDigit (n % 10)]) = n
    rw [if_neg (by omega), decVal_append_digit, digitVal_decDigit (n % 10) (by omega)]
    by_cases h10 : n < 10
    · have hq : n / 10 = 0 := by omega
      rw [hq]
      have h0 : toDecAux fuel 0 = [] := by
        cases fuel
        · rfl
        · rfl
      rw [h0]
      have hdv : decVal [] = 0 := rfl
      rw [hdv]
      omega
    · rw [ih (n / 10) (by omega) (by omega)]
      omega

theorem toDec_val (n : Nat) : decVal (toDec n) = n := by
  unfold toDec
  by_cases h : n = 0
  · rw [if_pos h, h]
    decide
  · rw [if_neg h]
    exact toDecAux_val n n (by omega) (Nat.le_refl n)

/-- `String(i)` is injective. -/
theorem toDec_inj {n m : Nat} (h : toDec n = toDec m) : n = m := by
  rw [← toDec_val n, ← toDec_val m, h]

theorem mem_toDecAux : ∀ (fuel n : Nat), ∀ c ∈ toDecAux fuel n, ∃ r, c = decDigit r := by
  intro fuel
  induction fuel with
  | zero =>
    intro n c hc
    exact absurd hc (List.not_mem_nil c)
  | succ fuel ih =>
    intro n c hc
    have hc2 : c ∈ (if n = 0 then [] else toDecAux fuel (n / 10) ++ [decDigit (n % 10)]) := hc
    by_cases h : n = 0
    · rw [if_pos h] at hc2
      exact absurd hc2 (List.not_mem_nil c)
    · rw [if_neg h] at hc2
      rcases List.mem_append.mp hc2 with h2 | h2
      · exact ih _ c h2
      · simp only [List.mem_singleton] at h2
        exact ⟨n % 10, h2⟩

theorem mem_toDec {n : Nat} {c : Char} (hc : c ∈ toDec n) : ∃ r, c = decDigit r := by
  unfold toDec at hc
  by_cases h : n = 0
  · rw [if_pos h] at hc
    simp only [List.mem_singleton] at hc
    exact ⟨0, hc⟩
  · rw [if_neg h] at hc
    exact mem_toDecAux n n c hc

theorem decDigit_ne_comma (r : Nat) : decDigit r ≠ ',' := by
  rcases r with _ | _ | _ | _ | _ | _ | _ | _ | _ | r <;>
    first
    | decide
    | exact (by decide : ('9' : Char) ≠ ',')

theorem comma_not_mem_toDec (n : Nat) : ',' ∉ toDec n := by
  intro h
  rcases mem_toDec h with ⟨r, hr⟩
  exact decDigit_ne_comma r hr.symm

theorem toDec_ne_nil (n : Nat) : toDec n ≠ [] := by
  unfold toDec
  by_cases h : n = 0
  · rw [if_pos h]
    exact fun h2 => List.noConfusion h2
  · rw [if_neg h]
    rcases n with _ | n
    · exact absurd rfl h
    · show (if (n + 1 : Nat) = 0 then [] else toDecAux n ((n + 1) / 10) ++
        [decDigit ((n + 1) % 10)]) ≠ []
      rw [if_neg h]
      intro h2
      rcases List.append_eq_nil.mp h2 with ⟨_, h3⟩
      exact List.noConfusion h3

/-- Splitting a string at a fixed separator char not occurring in either
front part is injective (shared with the prefixed-name argument). -/
theorem sep_append_inj {sep : Char} : ∀ {p1 p2 n1 n2 : List Char}, sep ∉ p1 → sep ∉ p2 →
    p1 ++ sep :: n1 = p2 ++ sep :: n2 → p1 = p2 ∧ n1 = n2 := by
  intro p1
  induction p1 with
  | nil =>
    intro p2 n1 n2 h1 h2 h
    cases p2 with
    | nil =>
      rw [List.nil_append, List.nil_append] at h
      obtain ⟨_, h3⟩ := (List.cons.injEq _ _ _ _).mp h
      exact ⟨rfl, h3⟩
    | cons c q =>
      rw [List.nil_append, List.cons_append] at h
      obtain ⟨hc, _⟩ := (List.cons.injEq _ _ _ _).mp h
      exfalso
      apply h2
      rw [← hc]
      exact List.mem_cons_self _ _
  | cons c q ih =>
    intro p2 n1 n2 h1 h2 h
    cases p2 with
    | nil =>
      rw [List.nil_append, List.cons_append] at h
      obtain ⟨hc, _⟩ := (List.cons.injEq _ _ _ _).mp h
      exfalso
      apply h1
      rw [hc]
      exact List.mem_cons_self _ _
    | cons c2 q2 =>
      rw [List.cons_append, List.cons_append] at h
      obtain ⟨hc, ht⟩ := (List.cons.injEq _ _ _ _).mp h
      obtain ⟨hq, hn⟩ := ih (fun hm => h1 (List.mem_cons_of_mem _ hm))
        (fun hm => h2 (List.mem_cons_of_mem _ hm)) ht
      exact ⟨by rw [hc, hq], hn⟩

/-- `[...].join(',')`. -/
def joinComma : List Name → Name
  | [] => []
  | [x] => x
  | x :: xs => x ++ ',' :: joinComma xs

/-- `join(',')` is injective on lists of non-empty comma-free strings. -/
theorem joinComma_inj : ∀ {l1 l2 : List Name},
    (∀ x ∈ l1, ',' ∉ x ∧ x ≠ []) → (∀ x ∈ l2, ',' ∉ x ∧ x ≠ []) →
    joinComma l1 = joinComma l2 → l1 = l2 := by
  intro l1
  induction l1 with
  | nil =>
    intro l2 _ h2 h
    cases l2 with
    | nil => rfl
    | cons y ys =>
      exfalso
      cases ys with
      | nil => exact (h2 y (List.mem_cons_self _ _)).2 h.symm
      | cons y2 ys2 =>
        have h3 : ([] : Name) = y ++ ',' :: joinComma (y2 :: ys2) := h
        cases y with
        | nil => exact List.noConfusion h3
        | cons c cs => exact List.noConfusion h3
  | cons x xs ih =>
    intro l2 h1 h2 h
    cases l2 with
    | nil =>
      exfalso
      cases xs with
      | nil => exact (h1 x (List.mem_cons_self _ _)).2 h
      | cons x2 xs2 =>
        have h3 : x ++ ',' :: joinComma (x2 :: xs2) = ([] : Name) := h
        cases x with
        | nil => exact List.noConfusion h3
        | cons c cs => exact List.noConfusion h3
    | cons y ys =>
      cases xs with
      | nil =>
        cases ys with
        | nil =>
          have h3 : x = y := h
          rw [h3]
        | cons y2 ys2 =>
          exfalso
          have h3 : x = y ++ ',' :: joinComma (y2 :: ys2) := h
          have hcm : ',' ∈ x := by
            rw [h3]
            exact List.mem_append_right _ (List.mem_cons_self _ _)
          exact (h1 x (List.mem_cons_self _ _)).1 hcm
      | cons x2 xs2 =>
        cases ys with
        | nil =>
          exfalso
          have h3 : x ++ ',' :: joinComma (x2 :: xs2) = y := h
          have hcm : ',' ∈ y := by
            rw [← h3]
            exact List.mem_append_right _ (List.mem_cons_self _ _)
          exact (h2 y (List.mem_cons_self _ _)).1 hcm
        | cons y2 ys2 =>
          have h3 : x ++ ',' :: joinComma (x2 :: xs2) = y ++ ',' :: joinComma (y2 :: ys2) := h
          obtain ⟨hxy, hrest⟩ := sep_append_inj (h1 x (List.mem_cons_self _ _)).1
            (h2 y (List.mem_cons_self _ _)).1 h3
          have h4 := ih (fun z hz => h1 z (List.mem_cons_of_mem _ hz))
            (fun z hz => h2 z (List.mem_cons_of_mem _ hz)) hrest
          rw [hxy, h4]

/-- Insertion keeps the list a permutation. -/
theorem insSorted_perm {α : Type} (lt : α → α → Bool) (x : α) :
    ∀ l : List α, (insSorted lt x l).Perm (x :: l) := by
  intro l
  induction l with
  | nil => exact List.Perm.refl _
  | cons y ys ih =>
    show (if lt y x then y :: insSorted lt x ys else x :: y :: ys).Perm (x :: y :: ys)
    by_cases h : lt y x = true
    · rw [if_pos h]
      exact (ih.cons y).trans (List.Perm.swap x y ys)
    · rw [if_neg h]

/-- The stable sort is a permutation of its input. -/
theorem stableSortBy_perm {α : Type} (lt : α → α → Bool) :
    ∀ l : List α, (stableSortBy lt l).Perm l := by
  intro l
  induction l with
  | nil => exact List.Perm.refl _
  | cons x xs ih =>
    show (insSorted lt x (stableSortBy lt xs)).Perm (x :: xs)
    exact (insSorted_perm lt x (stableSortBy lt xs)).trans (ih.cons x)

/-- `Set.prototype.name(',')` over a set of state ids: the member names,
sorted, joined with commas. -/
def canonName (a : Automaton) (S : List Nat) : Name :=
  joinComma (stableSortBy ltName (S.map (a.nameOfId)))

/-- For comma-free non-empty state names, equal canonical names mean
equal id sets. -/
theorem canonName_inj {a : Automaton} (wf : WF a)
    (hnc : ∀ s ∈ a.states, ',' ∉ s.name ∧ s.name ≠ [])
    {S1 S2 : List Nat} (hS1 : ∀ x ∈ S1, x ∈ a.states.map StateR.id)
    (hS2 : ∀ x ∈ S2, x ∈ a.states.map StateR.id)
    (h : canonName a S1 = canonName a S2) : ∀ x, x ∈ S1 ↔ x ∈ S2 := by
  have hok : ∀ (S : List Nat), (∀ x ∈ S, x ∈ a.states.map StateR.id) →
      ∀ nm ∈ stableSortBy ltName (S.map (a.nameOfId)), ',' ∉ nm ∧ nm ≠ [] := by
    intro S hS nm hnm
    rw [mem_stableSortBy] at hnm
    rcases List.mem_map.mp hnm with ⟨x, hx, hxn⟩
    rcases List.mem_map.mp (nameOfId_mem wf (hS x hx)) with ⟨s, hs, hsn⟩
    rw [← hxn, ← hsn]
    exact hnc s hs
  have heq : stableSortBy ltName (S1.map (a.nameOfId)) =
      stableSortBy ltName (S2.map (a.nameOfId)) :=
    joinComma_inj (hok S1 hS1) (hok S2 hS2) h
  have hperm : (S1.map (a.nameOfId)).Perm (S2.map (a.nameOfId)) :=
    ((stableSortBy_perm ltName (S1.map (a.nameOfId))).symm.trans
      (heq ▸ stableSortBy_perm ltName (S2.map (a.nameOfId))))
  have hmm : ∀ nm, nm ∈ S1.map (a.nameOfId) ↔ nm ∈ S2.map (a.nameOfId) :=
    fun nm => hperm.mem_iff
  have haux : ∀ (S1 S2 : List Nat), (∀ x ∈ S1, x ∈ a.states.map StateR.id) →
      (∀ x ∈ S2, x ∈ a.states.map StateR.id) →
      (∀ nm, nm ∈ S1.map (a.nameOfId) → nm ∈ S2.map (a.nameOfId)) →
      ∀ x, x ∈ S1 → x ∈ S2 := by
    intro S1 S2 hS1 hS2 hmm x hx
    have h1 : a.nameOfId x ∈ S2.map (a.nameOfId) :=
      hmm _ (List.mem_map_of_mem (a.nameOfId) hx)
    rcases List.mem_map.mp h1 with ⟨x2, hx2, hxn⟩
    rcases List.mem_map.mp (hS1 x hx) with ⟨s, hs, hsid⟩
    rcases List.mem_map.mp (hS2 x2 hx2) with ⟨s2, hs2, hs2id⟩
    have hn1 : a.nameOfId x = s.name := by
      rw [← hsid, nameOfId_eq wf hs]
    have hn2 : a.nameOfId x2 = s2.name := by
      rw [← hs2id, nameOfId_eq wf hs2]
    have hss : s2 = s := state_inj_of_names wf hs2 hs (by rw [← hn2, hxn, hn1])
    have : x2 = x := by
      rw [← hsid, ← hs2id, hss]
    rw [← this]
    exact hx2
  intro x
  exact ⟨haux S1 S2 hS1 hS2 (fun nm h2 => (hmm nm).mp h2) x,
    haux S2 S1 hS2 hS1 (fun nm h2 => (hmm nm).mpr h2) x⟩

/-! ### `Graph.dfs` (the marking traversal of `reduce`) -/

/-- `Graph.dfs(nodes, sources)` from `graph.js`: mark each source, then
recurse into unmarked sinks.  Marks are never reset, and recursion into
an already-marked sink is skipped — on a dirty automaton the traversal
can block.  Structural in a fuel argument; `|states| + 1` is proved
sufficient below. -/
def dfsGo : Nat → Automaton → List Nat → Automaton
  | 0, a, _ => a
  | fuel + 1, a, sources =>
    sources.foldl
      (fun a s =>
        let a2 := a.setMarked s true
        (a2.edges.filter (fun e => e.src == s)).foldl
          (fun a3 e => if a3.markedOf e.dst then a3 else dfsGo fuel a3 [e.dst])
          a2)
      a

/-- The number of unmarked states — the fuel measure of `dfsGo`. -/
def unmarkedCount (a : Automaton) : Nat :=
  (a.states.filter (fun s => !s.marked)).length

/-- `b` differs from `a` only in the `marked` flags of its states. -/
def MarksOnly (a b : Automaton) : Prop :=
  b.name = a.name ∧ b.alphabet = a.alphabet ∧ b.nameMap = a.nameMap ∧
  b.edges = a.edges ∧ b.nextId = a.nextId ∧
  ∃ mk : Nat → Bool, b.states = a.states.map (fun s => { s with marked := mk s.id })

theorem find?_id_map (g : StateR → StateR) (hg : ∀ s, (g s).id = s.id) (x : Nat) :
    ∀ l : List StateR, (l.map g).find? (fun t => t.id == x) =
      (l.find? (fun t => t.id == x)).map g := by
  intro l
  induction l with
  | nil => rfl
  | cons s l ih =>
    rw [List.map_cons]
    show (match ((g s).id == x) with
      | true => some (g s)
      | false => (List.map g l).find? (fun t => t.id == x)) =
      ((match (s.id == x) with
        | true => some s
        | false => l.find? (fun t => t.id == x)).map g)
    rw [hg s]
    by_cases h : (s.id == x) = true
    · rw [h]
      exact rfl
    · have h2 : (s.id == x) = false := by
        rcases hb : (s.id == x) with _ | _
        · rfl
        · exact absurd hb h
      rw [h2]
      exact ih

theorem marksOnly_refl {a : Automaton} (hnodup : (a.states.map StateR.id).Nodup) :
    MarksOnly a a := by
  refine ⟨rfl, rfl, rfl, rfl, rfl, (fun i => a.markedOf i), ?_⟩
  have h : ∀ s ∈ a.states, ({ s with marked := a.markedOf s.id } : StateR) = s := by
    intro s hs
    have hget : a.getSt s.id = some s := find?_id_of_mem hnodup hs
    show ({ s with marked := a.markedOf s.id } : StateR) = s
    unfold Automaton.markedOf
    rw [hget]
  have h2 : a.states.map (fun s => ({ s with marked := a.markedOf s.id } : StateR))
      = a.states.map id := List.map_congr_left h
  rw [show a.states.map (fun s => ({ s with
      marked := (fun i => a.markedOf i) s.id } : StateR)) =
    a.states.map (fun s => ({ s with marked := a.markedOf s.id } : StateR)) from rfl, h2,
    List.map_id]

theorem marksOnly_trans {a b c : Automaton} (h1 : MarksOnly a b) (h2 : MarksOnly b c) :
    MarksOnly a c := by
  obtain ⟨n1, al1, nm1, e1, x1, mk1, s1⟩ := h1
  obtain ⟨n2, al2, nm2, e2, x2, mk2, s2⟩ := h2
  refine ⟨n2.trans n1, al2.trans al1, nm2.trans nm1, e2.trans e1, x2.trans x1, mk2, ?_⟩
  rw [s2, s1, List.map_map]
  rfl

theorem marksOnly_ids {a b : Automaton} (h : MarksOnly a b) :
    b.states.map StateR.id = a.states.map StateR.id := by
  obtain ⟨_, _, _, _, _, mk, hs⟩ := h
  rw [hs, List.map_map]
  rfl

/-- `markedOf` through a marks-only change, on the nose. -/
theorem marksOnly_markedOf {a b : Automaton} (h : MarksOnly a b) (mk : Nat → Bool)
    (hs : b.states = a.states.map (fun s => { s with marked := mk s.id })) (x : Nat) :
    b.markedOf x = match a.getSt x with
      | some _ => mk x
      | none => false := by
  unfold Automaton.markedOf Automaton.getSt
  rw [hs, find?_id_map (fun s => { s with marked := mk s.id }) (fun s => rfl) x]
  rcases hf : a.states.find? (fun t => t.id == x) with _ | s
  · rw [hf]
    exact rfl
  · rw [hf]
    have hid : s.id = x := by
      have aux : ∀ (f : StateR → Bool) (l : List StateR) (q : StateR),
          l.find? f = some q → f q = true := fun _ _ _ h => List.find?_some h
      have := aux _ _ _ hf
      simpa using this
    show ({ s with marked := mk s.id } : StateR).marked = mk x
    rw [show ({ s with marked := mk s.id } : StateR).marked = mk s.id from rfl, hid]

/-- `setMarked` is a marks-only change. -/
theorem marksOnly_setMarked {a : Automaton} (hnodup : (a.states.map StateR.id).Nodup)
    (x : Nat) : MarksOnly a (a.setMarked x true) ∧
      (a.setMarked x true).states = a.states.map
        (fun s => { s with marked := (if s.id == x then true else a.markedOf s.id) }) := by
  have hmap : a.states.map (fun t => if t.id == x then { t with marked := true } else t) =
      a.states.map
        (fun s => { s with marked := (if s.id == x then true else a.markedOf s.id) }) := by
    refine List.map_congr_left ?_
    intro s hs
    by_cases h : (s.id == x) = true
    · rw [if_pos h, if_pos h]
    · rw [if_neg h, if_neg h]
      have hget : a.getSt s.id = some s := find?_id_of_mem hnodup hs
      show s = { s with marked := a.markedOf s.id }
      unfold Automaton.markedOf
      rw [hget]
  constructor
  · exact ⟨rfl, rfl, rfl, rfl, rfl,
      (fun i => if i == x then true else a.markedOf i), hmap⟩
  · exact hmap

theorem markedOf_setMarked_self {a : Automaton} (hnodup : (a.states.map StateR.id).Nodup)
    {x : Nat} (hx : x ∈ a.states.map StateR.id) :
    (a.setMarked x true).markedOf x = true := by
  obtain ⟨hM, hs⟩ := marksOnly_setMarked hnodup x
  rw [marksOnly_markedOf hM (fun i => if i == x then true else a.markedOf i) hs x]
  rcases List.mem_map.mp hx with ⟨s, hsm, hsid⟩
  have hget : a.getSt x = some s := by
    have := find?_id_of_mem hnodup hsm
    rw [hsid] at this
    exact this
  rw [hget]
  show (if (x == x) = true then true else a.markedOf x) = true
  simp

theorem markedOf_setMarked_mono {a : Automaton} (hnodup : (a.states.map StateR.id).Nodup)
    (x : Nat) {y : Nat} (hy : a.markedOf y = true) :
    (a.setMarked x true).markedOf y = true := by
  obtain ⟨hM, hs⟩ := marksOnly_setMarked hnodup x
  rw [marksOnly_markedOf hM (fun i => if i == x then true else a.markedOf i) hs y]
  unfold Automaton.markedOf at hy
  rcases hget : a.getSt y with _ | s
  · rw [hget] at hy
    exact Bool.noConfusion hy
  · rw [hget] at hy
    show (if (y == x) = true then true else a.markedOf y) = true
    by_cases h : (y == x) = true
    · rw [if_pos h]
    · rw [if_neg h]
      unfold Automaton.markedOf
      rw [hget]
      exact hy

/-- An unmarked valid id witnesses a positive unmarked count. -/
theorem unmarkedCount_pos {a : Automaton} (hnodup : (a.states.map StateR.id).Nodup)
    {x : Nat} (hx : x ∈ a.states.map StateR.id) (hm : a.markedOf x = false) :
    0 < unmarkedCount a := by
  rcases List.mem_map.mp hx with ⟨s, hs, hsid⟩
  have hget : a.getSt x = some s := by
    have := find?_id_of_mem hnodup hs
    rw [hsid] at this
    exact this
  have hsm : s.marked = false := by
    unfold Automaton.markedOf at hm
    rw [hget] at hm
    exact hm
  have : s ∈ a.states.filter (fun s => !s.marked) :=
    List.mem_filter.mpr ⟨hs, by rw [hsm]; rfl⟩
  unfold unmarkedCount
  rcases hc : a.states.filter (fun s => !s.marked) with _ | ⟨t, l⟩
  · rw [hc] at this
    exact absurd this (List.not_mem_nil s)
  · rw [hc]
    simp

theorem count_unmarked_map_le (g : StateR → StateR)
    (hg : ∀ s, (g s).marked = false → s.marked = false) :
    ∀ l : List StateR,
      ((l.map g).filter (fun s => !s.marked)).length ≤ (l.filter (fun s => !s.marked)).length := by
  intro l
  induction l with
  | nil => exact Nat.le_refl 0
  | cons s l ih =>
    rw [List.map_cons]
    by_cases h : (g s).marked = false
    · have hs : s.marked = false := hg s h
      rw [List.filter_cons_of_pos (by simp [h]), List.filter_cons_of_pos (by simp [hs])]
      simpa using ih
    · rw [List.filter_cons_of_neg (by simpa using h)]
      by_cases hs : s.marked = false
      · rw [List.filter_cons_of_pos (by simp [hs])]
        exact Nat.le_succ_of_le ih
      · rw [List.filter_cons_of_neg (by simpa using hs)]
        exact ih

theorem count_unmarked_mark_lt (x : Nat) :
    ∀ l : List StateR, (l.map StateR.id).Nodup → ∀ s0, s0 ∈ l → s0.id = x →
      s0.marked = false →
      ((l.map (fun t => if t.id == x then { t with marked := true } else t)).filter
        (fun s => !s.marked)).length < (l.filter (fun s => !s.marked)).length := by
  intro l
  induction l with
  | nil =>
    intro _ s0 hs0
    cases hs0
  | cons t l ih =>
    intro hnodup s0 hs0 hs0id hs0m
    rw [List.map_cons, List.nodup_cons] at hnodup
    rw [List.map_cons]
    by_cases h : (t.id == x) = true
    · have hts : t = s0 := by
        rcases List.mem_cons.mp hs0 with h2 | h2
        · exact h2.symm
        · exfalso
          apply hnodup.1
          have hix : t.id = x := by simpa using h
          rw [hix, ← hs0id]
          exact List.mem_map_of_mem StateR.id h2
      rw [if_pos h]
      rw [List.filter_cons_of_neg (by simp),
        List.filter_cons_of_pos (by rw [← hts] at hs0m; simp [hs0m])]
      have hle := count_unmarked_map_le
        (fun t => if t.id == x then { t with marked := true } else t)
        (fun s hsm => by
          have hsm2 : (if (s.id == x) = true then ({ s with marked := true } : StateR)
              else s).marked = false := hsm
          by_cases h2 : (s.id == x) = true
          · rw [if_pos h2] at hsm2
            exact Bool.noConfusion hsm2
          · rw [if_neg h2] at hsm2
            exact hsm2) l
      simp only [List.length_cons]
      omega
    · have hs0l : s0 ∈ l := by
        rcases List.mem_cons.mp hs0 with h2 | h2
        · exfalso
          rw [h2] at hs0id
          rw [hs0id] at h
          simp at h
        · exact h2
      rw [if_neg h]
      by_cases ht : t.marked = false
      · rw [List.filter_cons_of_pos (by simp [ht]), List.filter_cons_of_pos (by simp [ht])]
        have := ih hnodup.2 s0 hs0l hs0id hs0m
        simp only [List.length_cons]
        omega
      · rw [List.filter_cons_of_neg (by simpa using ht),
          List.filter_cons_of_neg (by simpa using ht)]
        exact ih hnodup.2 s0 hs0l hs0id hs0m

/-- Marking one unmarked valid state strictly decreases the unmarked
count. -/
theorem unmarkedCount_setMarked_lt {a : Automaton} (hnodup : (a.states.map StateR.id).Nodup)
    {x : Nat} (hx : x ∈ a.states.map StateR.id) (hm : a.markedOf x = false) :
    unmarkedCount (a.setMarked x true) < unmarkedCount a := by
  rcases List.mem_map.mp hx with ⟨s0, hs0, hs0id⟩
  have hget : a.getSt x = some s0 := by
    have := find?_id_of_mem hnodup hs0
    rw [hs0id] at this
    exact this
  have hs0m : s0.marked = false := by
    unfold Automaton.markedOf at hm
    rw [hget] at hm
    exact hm
  show ((a.states.map (fun t => if t.id == x then { t with marked := true } else t)).filter
    (fun s => !s.marked)).length < (a.states.filter (fun s => !s.marked)).length
  exact count_unmarked_mark_lt x a.states hnodup s0 hs0 hs0id hs0m

/-- Marking never increases the unmarked count. -/
theorem unmarkedCount_setMarked_le (a : Automaton) (x : Nat) :
    unmarkedCount (a.setMarked x true) ≤ unmarkedCount a := by
  show ((a.states.map (fun t => if t.id == x then { t with marked := true } else t)).filter
    (fun s => !s.marked)).length ≤ (a.states.filter (fun s => !s.marked)).length
  exact count_unmarked_map_le _
    (fun s hsm => by
      by_cases h2 : (s.id == x) = true
      · rw [if_pos h2] at hsm
        exact Bool.noConfusion hsm
      · rw [if_neg h2] at hsm
        exact hsm) a.states

/-- A state marked after `setMarked` was already marked or is the target. -/
theorem markedOf_setMarked_cases {a : Automaton} (hnodup : (a.states.map StateR.id).Nodup)
    {x y : Nat} (h : (a.setMarked x true).markedOf y = true) :
    a.markedOf y = true ∨ y = x := by
  obtain ⟨hM, hs⟩ := marksOnly_setMarked hnodup x
  rw [marksOnly_markedOf hM (fun i => if i == x then true else a.markedOf i) hs y] at h
  rcases hget : a.getSt y with _ | s
  · rw [hget] at h
    exact absurd h (by exact fun hh => Bool.noConfusion hh)
  · rw [hget] at h
    have h2 : (if (y == x) = true then true else a.markedOf y) = true := h
    by_cases hc : (y == x) = true
    · exact Or.inr (by simpa using hc)
    · rw [if_neg hc] at h2
      exact Or.inl h2

/-- On a clean automaton no state is marked. -/
theorem markedOf_of_clean {a : Automaton} (hc : Clean a) (x : Nat) :
    a.markedOf x = false := by
  unfold Automaton.markedOf
  rcases hf : a.getSt x with _ | s
  · exact rfl
  · show s.marked = false
    have hs : s ∈ a.states := List.mem_of_find?_eq_some hf
    exact hc s hs

/-- The body of the edge loop of `Graph.dfs`: skip a marked sink,
otherwise recurse into it. -/
def dfsEdgeStep (fuel : Nat) (a3 : Automaton) (e : EdgeR) : Automaton :=
  if a3.markedOf e.dst then a3 else dfsGo fuel a3 [e.dst]

/-- Processing one source in `Graph.dfs`: mark it, then walk its
out-edges. -/
def dfsSrcStep (fuel : Nat) (a : Automaton) (s : Nat) : Automaton :=
  let a2 := a.setMarked s true
  (a2.edges.filter (fun e => e.src == s)).foldl (dfsEdgeStep fuel) a2

theorem dfsGo_succ (fuel : Nat) (a : Automaton) (sources : List Nat) :
    dfsGo (fuel + 1) a sources = sources.foldl (dfsSrcStep fuel) a := rfl

/-- Precondition of a `dfsGo` call: valid graph data and enough fuel
(the top-level call has spare fuel; every nested call carries a single
yet-unmarked source, so the unmarked count itself bounds the recursion
depth). -/
def DfsPre (a : Automaton) (sources : List Nat) (fuel : Nat) : Prop :=
  (a.states.map StateR.id).Nodup ∧
  (∀ e ∈ a.edges, e.dst ∈ a.states.map StateR.id) ∧
  (unmarkedCount a < fuel ∨
    (unmarkedCount a ≤ fuel ∧ ∃ s0, sources = [s0] ∧ a.markedOf s0 = false ∧
      s0 ∈ a.states.map StateR.id))

/-- What `Graph.dfs` guarantees: only marks change, marks grow, every
valid source ends marked, and every marked state was marked before or has
all its successors marked. -/
def DfsPost (a : Automaton) (sources : List Nat) (r : Automaton) : Prop :=
  MarksOnly a r ∧
  (∀ x, a.markedOf x = true → r.markedOf x = true) ∧
  (∀ s ∈ sources, s ∈ a.states.map StateR.id → r.markedOf s = true) ∧
  (∀ x, r.markedOf x = true → a.markedOf x = true ∨
    ∀ e ∈ a.edges, e.src = x → r.markedOf e.dst = true) ∧
  unmarkedCount r ≤ unmarkedCount a

theorem dfsEdgeFold_post (fuel : Nat)
    (ih : ∀ b t, DfsPre b t fuel → DfsPost b t (dfsGo fuel b t)) :
    ∀ (L : List EdgeR) (acc : Automaton),
      (acc.states.map StateR.id).Nodup →
      (∀ e ∈ acc.edges, e.dst ∈ acc.states.map StateR.id) →
      (∀ e ∈ L, e ∈ acc.edges) →
      unmarkedCount acc ≤ fuel →
      MarksOnly acc (L.foldl (dfsEdgeStep fuel) acc) ∧
      (∀ x, acc.markedOf x = true → (L.foldl (dfsEdgeStep fuel) acc).markedOf x = true) ∧
      (∀ e ∈ L, (L.foldl (dfsEdgeStep fuel) acc).markedOf e.dst = true) ∧
      (∀ x, (L.foldl (dfsEdgeStep fuel) acc).markedOf x = true → acc.markedOf x = true ∨
        ∀ e ∈ acc.edges, e.src = x →
          (L.foldl (dfsEdgeStep fuel) acc).markedOf e.dst = true) ∧
      unmarkedCount (L.foldl (dfsEdgeStep fuel) acc) ≤ unmarkedCount acc := by
  intro L
  induction L with
  | nil =>
    intro acc hnodup hvalid hmem hfc
    refine ⟨marksOnly_refl hnodup, fun x h => h, ?_, ?_, Nat.le_refl _⟩
    · intro e he
      cases he
    · intro x hx
      exact Or.inl hx
  | cons e L ihL =>
    intro acc hnodup hvalid hmem hfc
    rw [List.foldl_cons]
    by_cases hm : acc.markedOf e.dst = true
    · have hstep : dfsEdgeStep fuel acc e = acc := by
        unfold dfsEdgeStep
        rw [if_pos hm]
      rw [hstep]
      obtain ⟨c1, c2, c3, c4, c5⟩ :=
        ihL acc hnodup hvalid (fun e' he' => hmem e' (List.mem_cons_of_mem _ he')) hfc
      refine ⟨c1, c2, ?_, c4, c5⟩
      intro e' he'
      rcases List.mem_cons.mp he' with h | h
      · rw [h]
        exact c2 _ hm
      · exact c3 e' h
    · have hm' : acc.markedOf e.dst = false := by
        simpa using hm
      have hstep : dfsEdgeStep fuel acc e = dfsGo fuel acc [e.dst] := by
        unfold dfsEdgeStep
        rw [if_neg hm]
      rw [hstep]
      have hdval : e.dst ∈ acc.states.map StateR.id :=
        hvalid e (hmem e (List.mem_cons_self _ _))
      obtain ⟨n1, n2, n3, n4, n5⟩ :=
        ih acc [e.dst] ⟨hnodup, hvalid, Or.inr ⟨hfc, e.dst, rfl, hm', hdval⟩⟩
      have hids : (dfsGo fuel acc [e.dst]).states.map StateR.id =
          acc.states.map StateR.id := marksOnly_ids n1
      have hedg : (dfsGo fuel acc [e.dst]).edges = acc.edges := n1.2.2.2.1
      obtain ⟨c1, c2, c3, c4, c5⟩ := ihL (dfsGo fuel acc [e.dst])
        (by rw [hids]; exact hnodup)
        (by rw [hedg, hids]; exact hvalid)
        (by rw [hedg]; exact fun e' he' => hmem e' (List.mem_cons_of_mem _ he'))
        (Nat.le_trans n5 hfc)
      refine ⟨marksOnly_trans n1 c1, fun x hx => c2 x (n2 x hx), ?_, ?_, Nat.le_trans c5 n5⟩
      · intro e' he'
        rcases List.mem_cons.mp he' with h | h
        · rw [h]
          exact c2 _ (n3 e.dst (List.mem_cons_self _ _) hdval)
        · exact c3 e' h
      · intro x hx
        rcases c4 x hx with hA | hB
        · rcases n4 x hA with hC | hD
          · exact Or.inl hC
          · exact Or.inr (fun e' he' hsrc => c2 _ (hD e' he' hsrc))
        · rw [hedg] at hB
          exact Or.inr hB

theorem dfsSrcStep_post (fuel : Nat)
    (ih : ∀ b t, DfsPre b t fuel → DfsPost b t (dfsGo fuel b t))
    (a : Automaton) (s : Nat)
    (hnodup : (a.states.map StateR.id).Nodup)
    (hvalid : ∀ e ∈ a.edges, e.dst ∈ a.states.map StateR.id)
    (hfc : unmarkedCount (a.setMarked s true) ≤ fuel) :
    MarksOnly a (dfsSrcStep fuel a s) ∧
    (∀ x, a.markedOf x = true → (dfsSrcStep fuel a s).markedOf x = true) ∧
    (s ∈ a.states.map StateR.id → (dfsSrcStep fuel a s).markedOf s = true) ∧
    (∀ x, (dfsSrcStep fuel a s).markedOf x = true → a.markedOf x = true ∨
      ∀ e ∈ a.edges, e.src = x → (dfsSrcStep fuel a s).markedOf e.dst = true) ∧
    (∀ e ∈ a.edges, e.src = s → (dfsSrcStep fuel a s).markedOf e.dst = true) ∧
    unmarkedCount (dfsSrcStep fuel a s) ≤ unmarkedCount a := by
  obtain ⟨hM2, hmap2⟩ := marksOnly_setMarked hnodup s
  have hids2 : (a.setMarked s true).states.map StateR.id = a.states.map StateR.id :=
    marksOnly_ids hM2
  have hedg2 : (a.setMarked s true).edges = a.edges := hM2.2.2.2.1
  have hrw : dfsSrcStep fuel a s =
      ((a.setMarked s true).edges.filter (fun e => e.src == s)).foldl (dfsEdgeStep fuel)
        (a.setMarked s true) := rfl
  obtain ⟨c1, c2, c3, c4, c5⟩ := dfsEdgeFold_post fuel ih
    ((a.setMarked s true).edges.filter (fun e => e.src == s)) (a.setMarked s true)
    (by rw [hids2]; exact hnodup)
    (by rw [hedg2, hids2]; exact hvalid)
    (fun e' he' => List.mem_of_mem_filter he')
    hfc
  rw [hrw]
  have hsucc : ∀ e ∈ a.edges, e.src = s →
      (((a.setMarked s true).edges.filter (fun e => e.src == s)).foldl (dfsEdgeStep fuel)
        (a.setMarked s true)).markedOf e.dst = true := by
    intro e he hsrc
    apply c3
    rw [hedg2]
    exact List.mem_filter.mpr ⟨he, by rw [hsrc]; exact beq_self_eq_true s⟩
  refine ⟨marksOnly_trans hM2 c1, ?_, ?_, ?_, hsucc, Nat.le_trans c5 (unmarkedCount_setMarked_le a s)⟩
  · intro x hx
    exact c2 x (markedOf_setMarked_mono hnodup s hx)
  · intro hv
    exact c2 s (markedOf_setMarked_self hnodup hv)
  · intro x hx
    rcases c4 x hx with hA | hB
    · rcases markedOf_setMarked_cases hnodup hA with hC | hD
      · exact Or.inl hC
      · exact Or.inr (by rw [hD]; exact hsucc)
    · rw [hedg2] at hB
      exact Or.inr hB

theorem dfsSrcFold_post (fuel : Nat)
    (ih : ∀ b t, DfsPre b t fuel → DfsPost b t (dfsGo fuel b t)) :
    ∀ (sources : List Nat) (a : Automaton),
      (a.states.map StateR.id).Nodup →
      (∀ e ∈ a.edges, e.dst ∈ a.states.map StateR.id) →
      unmarkedCount a ≤ fuel →
      DfsPost a sources (sources.foldl (dfsSrcStep fuel) a) := by
  intro sources
  induction sources with
  | nil =>
    intro a hnodup hvalid hfc
    refine ⟨marksOnly_refl hnodup, fun x h => h, ?_, ?_, Nat.le_refl _⟩
    · intro s hs
      cases hs
    · intro x hx
      exact Or.inl hx
  | cons s rest ihS =>
    intro a hnodup hvalid hfc
    rw [List.foldl_cons]
    obtain ⟨p1, p2, p3, p4, p5, p6⟩ := dfsSrcStep_post fuel ih a s hnodup hvalid
      (Nat.le_trans (unmarkedCount_setMarked_le a s) hfc)
    have hids : (dfsSrcStep fuel a s).states.map StateR.id = a.states.map StateR.id :=
      marksOnly_ids p1
    have hedg : (dfsSrcStep fuel a s).edges = a.edges := p1.2.2.2.1
    obtain ⟨q1, q2, q3, q4, q5⟩ := ihS (dfsSrcStep fuel a s)
      (by rw [hids]; exact hnodup)
      (by rw [hedg, hids]; exact hvalid)
      (Nat.le_trans p6 hfc)
    refine ⟨marksOnly_trans p1 q1, fun x hx => q2 x (p2 x hx), ?_, ?_, Nat.le_trans q5 p6⟩
    · intro t ht hv
      rcases List.mem_cons.mp ht with h | h
      · rw [h]
        exact q2 s (p3 (h ▸ hv))
      · exact q3 t h (by rw [hids]; exact hv)
    · intro x hx
      rcases q4 x hx with hA | hB
      · rcases p4 x hA with hC | hD
        · exact Or.inl hC
        · exact Or.inr (fun e he hsrc => q2 _ (hD e he hsrc))
      · rw [hedg] at hB
        exact Or.inr hB

/-- The full specification of `Graph.dfs` under a sufficient fuel. -/
theorem dfsGo_post : ∀ (fuel : Nat) (a : Automaton) (sources : List Nat),
    DfsPre a sources fuel → DfsPost a sources (dfsGo fuel a sources) := by
  intro fuel
  induction fuel with
  | zero =>
    rintro a sources ⟨hnodup, hvalid, hfuel⟩
    rcases hfuel with h | ⟨hle, s0, _, hm, hv⟩
    · exact absurd h (Nat.not_lt_zero _)
    · have := unmarkedCount_pos hnodup hv hm
      omega
  | succ fuel ih =>
    rintro a sources ⟨hnodup, hvalid, hfuel⟩
    rw [dfsGo_succ]
    rcases hfuel with h | ⟨hle, s0, hsrc, hm, hv⟩
    · exact dfsSrcFold_post fuel ih sources a hnodup hvalid (Nat.lt_succ_iff.mp h)
    · subst hsrc
      have hlt : unmarkedCount (a.setMarked s0 true) < unmarkedCount a :=
        unmarkedCount_setMarked_lt hnodup hv hm
    -- the singleton fold is one `dfsSrcStep`
      obtain ⟨p1, p2, p3, p4, p5, p6⟩ := dfsSrcStep_post fuel ih a s0 hnodup hvalid
        (by omega)
      have hone : [s0].foldl (dfsSrcStep fuel) a = dfsSrcStep fuel a s0 := rfl
      rw [hone]
      refine ⟨p1, p2, ?_, p4, p6⟩
      intro t ht hvv
      rcases List.mem_cons.mp ht with h | h
      · rw [h]
        exact p3 (h ▸ hvv)
      · cases h

/-- Completeness of the marking on a clean automaton: everything
reachable from a marked state ends marked. -/
theorem dfs_marked_of_reaches {a r : Automaton} {sources : List Nat}
    (hpost : DfsPost a sources r) (hclean : Clean a) :
    ∀ {x w z}, Reaches a x w z → r.markedOf x = true → r.markedOf z = true := by
  intro x w z hr
  induction hr with
  | refl x0 => exact id
  | step hy hrest ihh =>
    intro hx
    rcases hpost.2.2.2.1 _ hx with hA | hsucc
    · rw [markedOf_of_clean hclean] at hA
      exact Bool.noConfusion hA
    · rcases mem_delta_iff.mp hy with ⟨hca, e, he, hesrc, hesym, hedst⟩
      exact ihh (hedst ▸ hsucc e he hesrc)

/-! ### `reverse`, `reduce`, `renameStates` and `makeDeterministic` -/

def reverseOfName : Name := ['r', 'e', 'v', 'e', 'r', 's', 'e', ' ', 'o', 'f', ' ']

def reducedOfName : Name := ['r', 'e', 'd', 'u', 'c', 'e', 'd', ' ', 'o', 'f', ' ']

def dfaSuffix : Name := ['-', 'd', 'f', 'a']

/-- `reverse()`'s state loop body: `ar.addState(s.name, s.final, s.start,
s.tag)` — start and final flags swapped. -/
def revStateStep (ar : Automaton) (s : StateR) : Automaton :=
  (ar.addState s.name s.final s.start false).2

/-- `reverse()`'s edge loop body: `ar.addEdge(e.sink.name, e.source.name,
e.symbol)`. -/
def revEdgeStep (a ar : Automaton) (e : EdgeR) : Automaton :=
  addEdgeByName ar (a.nameOfId e.dst) (a.nameOfId e.src) e.sym

/-- `reverse()`: a fresh automaton over the same alphabet with swapped
flags and reversed edges, endpoints resolved by state name. -/
def reverseOf (a : Automaton) : Automaton :=
  a.edges.foldl (revEdgeStep a)
    (a.states.foldl revStateStep (mkAutomaton (reverseOfName ++ a.name) a.alphabet))

/-- `Graph.dfs(a.states, a.getStartStates())` with the proven-sufficient
fuel `|states| + 1`. -/
def dfsFrom (a : Automaton) : Automaton :=
  dfsGo (a.states.length + 1) a a.startIds

/-- `aRev.getStateByName(nm).marked`; a missing name is the source's
TypeError crash, modelled as `false` and kept out of every theorem's
domain. -/
def revMarked (rm : Automaton) (nm : Name) : Bool :=
  match rm.getStateByName nm with
  | some rid => rm.markedOf rid
  | none => false

/-- `reduce()`'s state filter: `s.marked &&
aRev.getStateByName(s.name).marked`. -/
def keepSt (am rm : Automaton) (s : StateR) : Bool :=
  am.markedOf s.id && revMarked rm s.name

/-- `reduce()`'s state loop body. -/
def reduceStateStep (am rm : Automaton) (ar : Automaton) (s : StateR) : Automaton :=
  if keepSt am rm s then (ar.addState s.name s.start s.final false).2 else ar

/-- `reduce()`'s edge filter: all four endpoint marks. -/
def keepEd (a am rm : Automaton) (e : EdgeR) : Bool :=
  am.markedOf e.src && am.markedOf e.dst &&
    revMarked rm (a.nameOfId e.src) && revMarked rm (a.nameOfId e.dst)

/-- `reduce()`'s edge loop body, resolving endpoints by name. -/
def reduceEdgeStep (a am rm : Automaton) (ar : Automaton) (e : EdgeR) : Automaton :=
  if keepEd a am rm e then addEdgeByName ar (a.nameOfId e.src) (a.nameOfId e.dst) e.sym
  else ar

/-- `reduce()`: early return on no states, no start states or no final
states; otherwise mark forward from the start states, mark the fresh
reversed automaton from its start states, and keep the doubly marked
states and edges (by name) in a fresh automaton. -/
def reduceOf (a : Automaton) : Automaton :=
  if a.states.isEmpty || a.startIds.isEmpty || a.finalIds.isEmpty then
    mkAutomaton (reducedOfName ++ a.name) a.alphabet
  else
    a.edges.foldl (reduceEdgeStep a (dfsFrom a) (dfsFrom (reverseOf a)))
      (a.states.foldl (reduceStateStep (dfsFrom a) (dfsFrom (reverseOf a)))
        (mkAutomaton (reducedOfName ++ a.name) a.alphabet))

/-- The indexed `forEach` of `renameStates()`: rename the `n`-th listed
state (by its id, the snapshot of the state list never changes) to the
decimal string of `n`. -/
def renameFrom : Nat → Automaton → List Nat → Automaton
  | _, acc, [] => acc
  | n, acc, i :: is => renameFrom (n + 1) (acc.renameState i (toDec n)) is

/-- `renameStates()` (no permutation argument): rename the `i`-th state
to `String(i)`. -/
def renameStatesA (a : Automaton) : Automaton :=
  renameFrom 0 a (a.states.map StateR.id)

/-- The per-symbol body of the subset-construction loop: compute
`nfa.deltaStar(current.tag.stateSet, s)`, look its canonical name up in
the DFA, add a fresh state (with its tag and a todo entry) if missing,
then draw the edge. -/
def detSym (nfa : Automaton) (cur : Nat) (S : List Nat)
    (st : Automaton × List (Nat × List Nat) × List Nat) (c : Char) :
    Automaton × List (Nat × List Nat) × List Nat :=
  let S2 := nfa.deltaStar S [c]
  let nm := canonName nfa S2
  match st.1.getStateByName nm with
  | some nid => (st.1.addEdge cur nid c, st.2.1, st.2.2)
  | none =>
    let pr := st.1.addState nm false (S2.any (fun i => nfa.isFinalId i)) false
    (pr.2.addEdge cur pr.1 c, st.2.1 ++ [(pr.1, S2)], st.2.2 ++ [pr.1])

/-- The `tag.stateSet` of a DFA state, kept in a side table. -/
def tagOf (tags : List (Nat × List Nat)) (i : Nat) : List Nat :=
  match tags.find? (fun p => p.1 == i) with
  | some p => p.2
  | none => []

/-- One iteration of the subset-construction while loop: process a todo
state over every alphabet symbol. -/
def detStep (nfa : Automaton) (dfa : Automaton) (tags : List (Nat × List Nat))
    (cur : Nat) : Automaton × List (Nat × List Nat) × List Nat :=
  nfa.alphabet.foldl (detSym nfa cur (tagOf tags cur)) (dfa, tags, [])

/-- The subset-construction while loop, fuelled; `2 ^ |states| + 1` is
proved sufficient below. -/
def detLoop (nfa : Automaton) : Nat → Automaton → List (Nat × List Nat) → List Nat →
    Option Automaton
  | 0, _, _, _ => none
  | fuel + 1, dfa, tags, todo =>
    match todo with
    | [] => some dfa
    | cur :: rest =>
      let st := detStep nfa dfa tags cur
      detLoop nfa fuel st.1 st.2.1 (rest ++ st.2.2)

/-- `makeDeterministic()` (with the default `renameStates = true`): on an
empty automaton return `reduce()`; otherwise reduce and rename, return
the result if already deterministic, else run the subset construction
keyed by canonical state-set names. -/
def makeDeterministic (a : Automaton) : Option Automaton :=
  if a.isEmpty then some (reduceOf a)
  else
    let nfa := renameStatesA (reduceOf a)
    if nfa.isDeterministic then some nfa
    else
      let dfa0 := mkAutomaton (nfa.name ++ dfaSuffix) nfa.alphabet
      let S0 := nfa.startIds
      let pr := dfa0.addState (canonName nfa S0) true (S0.any (fun i => nfa.isFinalId i)) false
      detLoop nfa (2 ^ nfa.states.length + 1) pr.2 [(pr.1, S0)] [pr.1]

/-! ### Positional bookkeeping for states created by `addState` loops -/

/-- The index of the first occurrence of a value in a list. -/
def posOf : List Nat → Nat → Nat
  | [], _ => 0
  | x :: l, y => if x == y then 0 else posOf l y + 1

theorem posOf_lt {y : Nat} : ∀ {l : List Nat}, y ∈ l → posOf l y < l.length := by
  intro l
  induction l with
  | nil =>
    intro h
    cases h
  | cons x l ihl =>
    intro h
    show (if (x == y) = true then 0 else posOf l y + 1) < l.length + 1
    by_cases hx : (x == y) = true
    · rw [if_pos hx]
      exact Nat.succ_pos _
    · rw [if_neg hx]
      have hy : y ∈ l := by
        rcases List.mem_cons.mp h with h2 | h2
        · exact absurd (beq_iff_eq.mpr h2.symm) hx
        · exact h2
      exact Nat.succ_lt_succ (ihl hy)

theorem posOf_get {y : Nat} : ∀ {l : List Nat}, y ∈ l → l[posOf l y]? = some y := by
  intro l
  induction l with
  | nil =>
    intro h
    cases h
  | cons x l ihl =>
    intro h
    show (x :: l)[if (x == y) = true then 0 else posOf l y + 1]? = some y
    by_cases hx : (x == y) = true
    · rw [if_pos hx]
      have hxy : x = y := by simpa using hx
      rw [hxy]
      exact List.getElem?_cons_zero
    · rw [if_neg hx]
      have hy : y ∈ l := by
        rcases List.mem_cons.mp h with h2 | h2
        · exact absurd (beq_iff_eq.mpr h2.symm) hx
        · exact h2
      rw [List.getElem?_cons_succ]
      exact ihl hy

theorem posOf_index : ∀ {l : List Nat}, l.Nodup → ∀ {i x}, l[i]? = some x →
    posOf l x = i := by
  intro l
  induction l with
  | nil =>
    intro _ i x h
    cases i with
    | zero => exact Option.noConfusion h
    | succ j => exact Option.noConfusion h
  | cons a l ihl =>
    intro hnodup i x h
    rw [List.nodup_cons] at hnodup
    cases i with
    | zero =>
      rw [List.getElem?_cons_zero] at h
      have hax : a = x := Option.some.inj h
      show (if (a == x) = true then 0 else posOf l x + 1) = 0
      rw [if_pos (by rw [hax]; exact beq_self_eq_true x)]
    | succ j =>
      rw [List.getElem?_cons_succ] at h
      have hx : x ∈ l := List.getElem?_mem h
      have hax : ¬(a == x) = true := by
        intro hh
        have : a = x := by simpa using hh
        exact hnodup.1 (this ▸ hx)
      show (if (a == x) = true then 0 else posOf l x + 1) = j + 1
      rw [if_neg hax, ihl hnodup.2 h]

/-- The states appended by a run of fresh `addState` calls, ids counting
up from `n`. -/
def buildStates (n : Nat) : List (Name × Bool × Bool) → List StateR
  | [] => []
  | t :: ts => ⟨n, t.1, t.2.1, t.2.2, false⟩ :: buildStates (n + 1) ts

/-- The name-map entries appended by the same run. -/
def buildKeys (n : Nat) : List (Name × Bool × Bool) → List (Name × Nat)
  | [] => []
  | t :: ts => (t.1, n) :: buildKeys (n + 1) ts

theorem buildStates_ids : ∀ (ts : List (Name × Bool × Bool)) (n : Nat),
    (buildStates n ts).map StateR.id = List.range' n ts.length := by
  intro ts
  induction ts with
  | nil =>
    intro n
    rfl
  | cons t ts iht =>
    intro n
    show n :: (buildStates (n + 1) ts).map StateR.id = List.range' n (ts.length + 1)
    rw [iht (n + 1), List.range'_succ]

theorem buildStates_names : ∀ (ts : List (Name × Bool × Bool)) (n : Nat),
    (buildStates n ts).map StateR.name = ts.map Prod.fst := by
  intro ts
  induction ts with
  | nil =>
    intro n
    rfl
  | cons t ts iht =>
    intro n
    show t.1 :: (buildStates (n + 1) ts).map StateR.name = t.1 :: ts.map Prod.fst
    rw [iht (n + 1)]

theorem buildStates_length : ∀ (ts : List (Name × Bool × Bool)) (n : Nat),
    (buildStates n ts).length = ts.length := by
  intro ts
  induction ts with
  | nil =>
    intro n
    rfl
  | cons t ts iht =>
    intro n
    show (buildStates (n + 1) ts).length + 1 = ts.length + 1
    rw [iht (n + 1)]

theorem mem_buildStates_iff : ∀ (ts : List (Name × Bool × Bool)) (n : Nat) (s : StateR),
    s ∈ buildStates n ts ↔
      ∃ i t, ts[i]? = some t ∧ s = ⟨n + i, t.1, t.2.1, t.2.2, false⟩ := by
  intro ts
  induction ts with
  | nil =>
    intro n s
    constructor
    · intro h
      cases h
    · rintro ⟨i, t, ht, _⟩
      cases i with
      | zero => exact Option.noConfusion ht
      | succ j => exact Option.noConfusion ht
  | cons t0 ts iht =>
    intro n s
    constructor
    · intro h
      rcases List.mem_cons.mp h with h2 | h2
      · refine ⟨0, t0, List.getElem?_cons_zero, ?_⟩
        rw [h2]
        exact rfl
      · rcases (iht (n + 1) s).mp h2 with ⟨i, t, ht, hs⟩
        refine ⟨i + 1, t, ?_, ?_⟩
        · rw [List.getElem?_cons_succ]
          exact ht
        · rw [hs]
          have hn : n + 1 + i = n + (i + 1) := by omega
          rw [hn]
    · rintro ⟨i, t, ht, hs⟩
      cases i with
      | zero =>
        rw [List.getElem?_cons_zero] at ht
        have ht0 : t0 = t := Option.some.inj ht
        rw [hs, ← ht0]
        exact List.mem_cons_self _ _
      | succ j =>
        rw [List.getElem?_cons_succ] at ht
        refine List.mem_cons_of_mem _ ((iht (n + 1) s).mpr ⟨j, t, ht, ?_⟩)
        rw [hs]
        have hn : n + 1 + j = n + (j + 1) := by omega
        rw [hn]

theorem buildKeys_mapGet : ∀ (ts : List (Name × Bool × Bool)) (n : Nat),
    (ts.map Prod.fst).Nodup → ∀ {i : Nat} {t : Name × Bool × Bool}, ts[i]? = some t →
      mapGet (buildKeys n ts) t.1 = some (n + i) := by
  intro ts
  induction ts with
  | nil =>
    intro n _ i t h
    cases i with
    | zero => exact Option.noConfusion h
    | succ j => exact Option.noConfusion h
  | cons t0 ts iht =>
    intro n hnodup i t h
    rw [List.map_cons, List.nodup_cons] at hnodup
    cases i with
    | zero =>
      rw [List.getElem?_cons_zero] at h
      have ht0 : t0 = t := Option.some.inj h
      rw [← ht0]
      show mapGet ((t0.1, n) :: buildKeys (n + 1) ts) t0.1 = some (n + 0)
      rw [mapGet_cons]
      rw [if_pos (beq_self_eq_true t0.1)]
      exact rfl
    | succ j =>
      rw [List.getElem?_cons_succ] at h
      have hmem : t.1 ∈ ts.map Prod.fst :=
        List.mem_map_of_mem Prod.fst (List.getElem?_mem h)
      have hne : ¬(t0.1 == t.1) = true := by
        intro hh
        have : t0.1 = t.1 := by simpa using hh
        exact hnodup.1 (this ▸ hmem)
      show mapGet ((t0.1, n) :: buildKeys (n + 1) ts) t.1 = some (n + (j + 1))
      rw [mapGet_cons, if_neg hne, iht (n + 1) hnodup.2 h]
      have hn : n + 1 + j = n + (j + 1) := by omega
      rw [hn]

theorem buildKeys_mapGet_inv : ∀ (ts : List (Name × Bool × Bool)) (n : Nat) {k : Name}
    {v : Nat}, mapGet (buildKeys n ts) k = some v →
      ∃ i t, ts[i]? = some t ∧ t.1 = k ∧ v = n + i := by
  intro ts
  induction ts with
  | nil =>
    intro n k v h
    exact Option.noConfusion h
  | cons t0 ts iht =>
    intro n k v h
    rw [show buildKeys n (t0 :: ts) = (t0.1, n) :: buildKeys (n + 1) ts from rfl,
      mapGet_cons] at h
    by_cases hk : (t0.1 == k) = true
    · rw [if_pos hk] at h
      have hv : n = v := Option.some.inj h
      exact ⟨0, t0, List.getElem?_cons_zero, by simpa using hk, by omega⟩
    · rw [if_neg hk] at h
      rcases iht (n + 1) h with ⟨i, t, ht, htk, hv⟩
      refine ⟨i + 1, t, ?_, htk, by omega⟩
      rw [List.getElem?_cons_succ]
      exact ht

/-- A fresh `addState` call with `forceNew = false` and a non-empty name,
fully evaluated. -/
theorem addState_new' {a : Automaton} {nm : Name} {st fi : Bool}
    (h : mapGet a.nameMap nm = none) (hne : nm ≠ []) :
    a.addState nm st fi false =
      (a.nextId,
        { a with
          states := a.states ++ [⟨a.nextId, nm, st, fi, false⟩]
          nameMap := a.nameMap ++ [(nm, a.nextId)]
          nextId := a.nextId + 1 }) := by
  have hie : nm.isEmpty = false := by
    rcases hh : nm with _ | ⟨c, cs⟩
    · exact absurd hh hne
    · rfl
  unfold Automaton.addState
  simp only [Bool.false_eq_true, if_false]
  rw [h, mapSet_of_not_mem _ h, hie]
  simp only [Bool.false_eq_true, if_false]

/-- The body of a state-copying loop (`addState` with `forceNew`
unset). -/
def addTriple (ar : Automaton) (t : Name × Bool × Bool) : Automaton :=
  (ar.addState t.1 t.2.1 t.2.2 false).2

/-- A run of fresh `addState` calls appends exactly the listed states and
map entries. -/
theorem addTriple_fold : ∀ (l : List (Name × Bool × Bool)) (ar0 : Automaton),
    (∀ t ∈ l, mapGet ar0.nameMap t.1 = none) →
    (l.map Prod.fst).Nodup →
    (∀ t ∈ l, t.1 ≠ []) →
    l.foldl addTriple ar0 =
      { name := ar0.name, alphabet := ar0.alphabet,
        states := ar0.states ++ buildStates ar0.nextId l,
        nameMap := ar0.nameMap ++ buildKeys ar0.nextId l,
        edges := ar0.edges, nextId := ar0.nextId + l.length } := by
  intro l
  induction l with
  | nil =>
    intro ar0 _ _ _
    rw [List.foldl_nil]
    show ar0 = _
    rw [show buildStates ar0.nextId [] = [] from rfl,
      show buildKeys ar0.nextId [] = [] from rfl, List.append_nil, List.append_nil]
    exact rfl
  | cons t l ihl =>
    intro ar0 hfresh hnodup hne
    rw [List.map_cons, List.nodup_cons] at hnodup
    rw [List.foldl_cons]
    have hstep : addTriple ar0 t =
        { ar0 with
          states := ar0.states ++ [⟨ar0.nextId, t.1, t.2.1, t.2.2, false⟩]
          nameMap := ar0.nameMap ++ [(t.1, ar0.nextId)]
          nextId := ar0.nextId + 1 } := by
      show (ar0.addState t.1 t.2.1 t.2.2 false).2 = _
      rw [addState_new' (hfresh t (List.mem_cons_self _ _)) (hne t (List.mem_cons_self _ _))]
    rw [hstep]
    rw [ihl _ ?hf ?hn ?he]
    case hf =>
      intro t' ht'
      show mapGet (ar0.nameMap ++ [(t.1, ar0.nextId)]) t'.1 = none
      rw [mapGet_append_none _ (hfresh t' (List.mem_cons_of_mem _ ht'))]
      have hne2 : ¬(t.1 == t'.1) = true := by
        intro hh
        have : t.1 = t'.1 := by simpa using hh
        exact hnodup.1 (this ▸ List.mem_map_of_mem Prod.fst ht')
      rw [show mapGet [(t.1, ar0.nextId)] t'.1 =
        (if (t.1 == t'.1) = true then some ar0.nextId else none) from mapGet_cons _ _ _,
        if_neg hne2]
    case hn => exact hnodup.2
    case he => exact fun t' ht' => hne t' (List.mem_cons_of_mem _ ht')
    show ({ name := ar0.name
            alphabet := ar0.alphabet
            states := (ar0.states ++ [⟨ar0.nextId, t.1, t.2.1, t.2.2, false⟩]) ++
              buildStates (ar0.nextId + 1) l
            nameMap := (ar0.nameMap ++ [(t.1, ar0.nextId)]) ++ buildKeys (ar0.nextId + 1) l
            edges := ar0.edges
            nextId := ar0.nextId + 1 + l.length } : Automaton) = _
    rw [List.append_assoc, List.append_assoc]
    rw [show [(⟨ar0.nextId, t.1, t.2.1, t.2.2, false⟩ : StateR)] ++
      buildStates (ar0.nextId + 1) l = buildStates ar0.nextId (t :: l) from rfl]
    rw [show [(t.1, ar0.nextId)] ++ buildKeys (ar0.nextId + 1) l =
      buildKeys ar0.nextId (t :: l) from rfl]
    have hlen : ar0.nextId + 1 + l.length = ar0.nextId + (t :: l).length := by
      show ar0.nextId + 1 + l.length = ar0.nextId + (l.length + 1)
      omega
    rw [hlen]

theorem addEdge_name (a : Automaton) (fi ti : Nat) (c : Char) :
    (a.addEdge fi ti c).name = a.name := by
  unfold Automaton.addEdge
  by_cases h : c ∈ a.alphabet
  · rw [if_pos h]
    by_cases h2 : a.hasEdge fi ti c = true
    · rw [if_pos h2]
    · rw [if_neg h2]
  · rw [if_neg h]

theorem addEdge_nextId (a : Automaton) (fi ti : Nat) (c : Char) :
    (a.addEdge fi ti c).nextId = a.nextId := by
  unfold Automaton.addEdge
  by_cases h : c ∈ a.alphabet
  · rw [if_pos h]
    by_cases h2 : a.hasEdge fi ti c = true
    · rw [if_pos h2]
    · rw [if_neg h2]
  · rw [if_neg h]

theorem addEdgeByName_frame (a : Automaton) (fn tn : Name) (c : Char) :
    (addEdgeByName a fn tn c).states = a.states ∧
    (addEdgeByName a fn tn c).alphabet = a.alphabet ∧
    (addEdgeByName a fn tn c).nameMap = a.nameMap ∧
    (addEdgeByName a fn tn c).name = a.name ∧
    (addEdgeByName a fn tn c).nextId = a.nextId := by
  unfold addEdgeByName
  rcases h1 : a.getStateByName fn with _ | fi
  · exact ⟨rfl, rfl, rfl, rfl, rfl⟩
  · rcases h2 : a.getStateByName tn with _ | ti
    · exact ⟨rfl, rfl, rfl, rfl, rfl⟩
    · exact ⟨addEdge_states a fi ti c, addEdge_alphabet a fi ti c,
        addEdge_nameMap a fi ti c, addEdge_name a fi ti c, addEdge_nextId a fi ti c⟩

theorem addEdgeByName_mem {a : Automaton} {fn tn : Name} {fi ti : Nat} {c : Char}
    (hf : a.getStateByName fn = some fi) (ht : a.getStateByName tn = some ti)
    (hc : c ∈ a.alphabet) (x y : Nat) (c2 : Char) :
    (∃ e ∈ (addEdgeByName a fn tn c).edges, e.src = x ∧ e.dst = y ∧ e.sym = c2) ↔
      ((∃ e ∈ a.edges, e.src = x ∧ e.dst = y ∧ e.sym = c2) ∨
        (x = fi ∧ y = ti ∧ c2 = c)) := by
  unfold addEdgeByName
  rw [hf, ht]
  exact addEdge_mem_iff hc x y c2

/-- A loop of `addEdge`-by-name calls whose resolutions all succeed:
everything but `edges` is framed, and an edge triple is present exactly
when it was present before or is one of the resolved additions. -/
theorem edgeNameFold_post (fn tn : EdgeR → Name) (fid tid : EdgeR → Nat) :
    ∀ (l : List EdgeR) (acc : Automaton),
      (∀ e ∈ l, acc.getStateByName (fn e) = some (fid e) ∧
        acc.getStateByName (tn e) = some (tid e) ∧ e.sym ∈ acc.alphabet) →
      (l.foldl (fun ar e => addEdgeByName ar (fn e) (tn e) e.sym) acc).states = acc.states ∧
      (l.foldl (fun ar e => addEdgeByName ar (fn e) (tn e) e.sym) acc).alphabet =
        acc.alphabet ∧
      (l.foldl (fun ar e => addEdgeByName ar (fn e) (tn e) e.sym) acc).nameMap =
        acc.nameMap ∧
      (l.foldl (fun ar e => addEdgeByName ar (fn e) (tn e) e.sym) acc).name = acc.name ∧
      (l.foldl (fun ar e => addEdgeByName ar (fn e) (tn e) e.sym) acc).nextId =
        acc.nextId ∧
      (∀ x y c2,
        (∃ e' ∈ (l.foldl (fun ar e => addEdgeByName ar (fn e) (tn e) e.sym) acc).edges,
          e'.src = x ∧ e'.dst = y ∧ e'.sym = c2) ↔
        ((∃ e' ∈ acc.edges, e'.src = x ∧ e'.dst = y ∧ e'.sym = c2) ∨
          ∃ e ∈ l, x = fid e ∧ y = tid e ∧ c2 = e.sym)) := by
  intro l
  induction l with
  | nil =>
    intro acc _
    refine ⟨rfl, rfl, rfl, rfl, rfl, ?_⟩
    intro x y c2
    constructor
    · exact fun h => Or.inl h
    · rintro (h | ⟨e, he, _⟩)
      · exact h
      · cases he
  | cons e0 l ihl =>
    intro acc hres
    obtain ⟨hf0, ht0, hc0⟩ := hres e0 (List.mem_cons_self _ _)
    rw [List.foldl_cons]
    obtain ⟨hfr1, hfr2, hfr3, hfr4, hfr5⟩ :=
      addEdgeByName_frame acc (fn e0) (tn e0) e0.sym
    obtain ⟨c1, c2, c3, c4, c5, c6⟩ := ihl (addEdgeByName acc (fn e0) (tn e0) e0.sym)
      (fun e he => by
        obtain ⟨hf, ht, hc⟩ := hres e (List.mem_cons_of_mem _ he)
        refine ⟨?_, ?_, ?_⟩
        · show mapGet (addEdgeByName acc (fn e0) (tn e0) e0.sym).nameMap (fn e) = _
          rw [hfr3]
          exact hf
        · show mapGet (addEdgeByName acc (fn e0) (tn e0) e0.sym).nameMap (tn e) = _
          rw [hfr3]
          exact ht
        · rw [hfr2]
          exact hc)
    refine ⟨c1.trans hfr1, c2.trans hfr2, c3.trans hfr3, c4.trans hfr4, c5.trans hfr5, ?_⟩
    intro x y cc
    rw [c6 x y cc, addEdgeByName_mem hf0 ht0 hc0 x y cc]
    constructor
    · rintro ((h | ⟨hx, hy, hcc⟩) | ⟨e, he, hx, hy, hcc⟩)
      · exact Or.inl h
      · exact Or.inr ⟨e0, List.mem_cons_self _ _, hx, hy, hcc⟩
      · exact Or.inr ⟨e, List.mem_cons_of_mem _ he, hx, hy, hcc⟩
    · rintro (h | ⟨e, he, hx, hy, hcc⟩)
      · exact Or.inl (Or.inl h)
      · rcases List.mem_cons.mp he with h2 | h2
        · subst h2
          exact Or.inl (Or.inr ⟨hx, hy, hcc⟩)
        · exact Or.inr ⟨e, h2, hx, hy, hcc⟩

/-- A conditional fold whose test does not look at the accumulator is the
fold over the filtered list. -/
theorem foldl_if_filter {α β : Type} (p : α → Bool) (f : β → α → β) :
    ∀ (l : List α) (b : β),
      l.foldl (fun acc x => if p x then f acc x else acc) b =
        (l.filter p).foldl f b := by
  intro l
  induction l with
  | nil =>
    intro b
    rfl
  | cons x l ihl =>
    intro b
    rw [List.foldl_cons]
    by_cases h : p x = true
    · rw [if_pos h, List.filter_cons_of_pos h, List.foldl_cons]
      exact ihl (f b x)
    · rw [if_neg h, List.filter_cons_of_neg (by simpa using h)]
      exact ihl b

/-! ### Structure of `reverse()` -/

/-- The `(name, start, final)` triples `reverse()` feeds to `addState`
(flags swapped). -/
def revTriples (a : Automaton) : List (Name × Bool × Bool) :=
  a.states.map (fun s => (s.name, s.final, s.start))

/-- The positional id a state of `a` receives in a freshly rebuilt
automaton whose states were added in `a`'s state order. -/
def ridOf (a : Automaton) (sid : Nat) : Nat := posOf (a.states.map StateR.id) sid

theorem mem_getElem? {α : Type} {l : List α} {x : α} (h : x ∈ l) :
    ∃ i : Nat, l[i]? = some x := by
  rcases List.mem_iff_getElem.mp h with ⟨i, hi, hg⟩
  refine ⟨i, ?_⟩
  rw [List.getElem?_eq_getElem hi]
  rw [hg]

theorem ridOf_eq {a : Automaton} (hnodup : (a.states.map StateR.id).Nodup)
    {i : Nat} {s : StateR} (h : a.states[i]? = some s) : ridOf a s.id = i := by
  apply posOf_index hnodup
  rw [List.getElem?_map StateR.id a.states i, h]
  rfl

theorem revTriples_get {a : Automaton} {i : Nat} {s : StateR}
    (h : a.states[i]? = some s) :
    (revTriples a)[i]? = some (s.name, s.final, s.start) := by
  rw [revTriples, List.getElem?_map _ a.states i, h]
  rfl

theorem revTriples_names {a : Automaton} :
    (revTriples a).map Prod.fst = a.states.map StateR.name := by
  rw [revTriples, List.map_map]
  rfl

/-- The automaton `reverse()` has built after its state loop, before any
edge is added. -/
def revSeed (a : Automaton) : Automaton :=
  { name := reverseOfName ++ a.name
    alphabet := a.alphabet
    states := buildStates 0 (revTriples a)
    nameMap := buildKeys 0 (revTriples a)
    edges := []
    nextId := (revTriples a).length }

/-- Name lookup in an automaton whose map is the `buildKeys` of `a`'s
states: each of `a`'s state names is bound to its position. -/
theorem buildKeys_lookup {a : Automaton} (wf : WF a) {b : Automaton}
    (hmap : b.nameMap = buildKeys 0 (revTriples a)) {s : StateR} (hs : s ∈ a.states) :
    b.getStateByName s.name = some (ridOf a s.id) := by
  rcases mem_getElem? hs with ⟨i, hi⟩
  have hnames : ((revTriples a).map Prod.fst).Nodup := by
    rw [revTriples_names]
    exact wf.names_nodup
  have hmg := buildKeys_mapGet (revTriples a) 0 hnames (revTriples_get hi)
  have hmg2 : mapGet (buildKeys 0 (revTriples a)) s.name = some (0 + i) := hmg
  show mapGet b.nameMap s.name = some (ridOf a s.id)
  rw [hmap, hmg2, Nat.zero_add, ridOf_eq wf.ids_nodup hi]

/-- Structure of `reverse()` on a well-formed automaton with non-empty
state names: same alphabet, positionally rebuilt states with swapped
flags, and exactly the reversed edges. -/
theorem reverseOf_struct {a : Automaton} (wf : WF a)
    (hne : ∀ s ∈ a.states, s.name ≠ []) :
    (reverseOf a).alphabet = a.alphabet ∧
    (reverseOf a).states = buildStates 0 (revTriples a) ∧
    (reverseOf a).nameMap = buildKeys 0 (revTriples a) ∧
    (∀ x y c2, (∃ e' ∈ (reverseOf a).edges, e'.src = x ∧ e'.dst = y ∧ e'.sym = c2) ↔
      ∃ e ∈ a.edges, x = ridOf a e.dst ∧ y = ridOf a e.src ∧ c2 = e.sym) := by
  have hnames : ((revTriples a).map Prod.fst).Nodup := by
    rw [revTriples_names]
    exact wf.names_nodup
  have hfold1 : a.states.foldl revStateStep
      (mkAutomaton (reverseOfName ++ a.name) a.alphabet) = revSeed a := by
    have h1 : a.states.foldl revStateStep
        (mkAutomaton (reverseOfName ++ a.name) a.alphabet) =
        (revTriples a).foldl addTriple (mkAutomaton (reverseOfName ++ a.name) a.alphabet) := by
      rw [revTriples, List.foldl_map]
      exact rfl
    rw [h1, addTriple_fold (revTriples a) (mkAutomaton (reverseOfName ++ a.name) a.alphabet)
      (fun t _ => rfl) hnames ?hne2]
    case hne2 =>
      intro t ht
      rcases List.mem_map.mp ht with ⟨s, hs, hst⟩
      rw [← hst]
      exact hne s hs
    show ({ name := reverseOfName ++ a.name
            alphabet := a.alphabet
            states := [] ++ buildStates 0 (revTriples a)
            nameMap := [] ++ buildKeys 0 (revTriples a)
            edges := []
            nextId := 0 + (revTriples a).length } : Automaton) = revSeed a
    unfold revSeed
    rw [List.nil_append, List.nil_append, Nat.zero_add]
  have h2 : reverseOf a = a.edges.foldl (revEdgeStep a) (revSeed a) := by
    unfold reverseOf
    rw [hfold1]
  have hres : ∀ e ∈ a.edges,
      (revSeed a).getStateByName (a.nameOfId e.dst) = some (ridOf a e.dst) ∧
      (revSeed a).getStateByName (a.nameOfId e.src) = some (ridOf a e.src) ∧
      e.sym ∈ (revSeed a).alphabet := by
    intro e he
    obtain ⟨hsym, hsrc, hdst⟩ := wf.edges_valid e he
    rcases List.mem_map.mp hdst with ⟨sd, hsd, hsdid⟩
    rcases List.mem_map.mp hsrc with ⟨ss, hss, hssid⟩
    refine ⟨?_, ?_, hsym⟩
    · rw [← hsdid, nameOfId_eq wf hsd]
      exact buildKeys_lookup wf rfl hsd
    · rw [← hssid, nameOfId_eq wf hss]
      exact buildKeys_lookup wf rfl hss
  obtain ⟨c1, c2, c3, c4, c5, c6⟩ := edgeNameFold_post (fun e => a.nameOfId e.dst)
    (fun e => a.nameOfId e.src) (fun e => ridOf a e.dst) (fun e => ridOf a e.src)
    a.edges (revSeed a) hres
  have hc1 : (a.edges.foldl (revEdgeStep a) (revSeed a)).states =
      (revSeed a).states := c1
  have hc2 : (a.edges.foldl (revEdgeStep a) (revSeed a)).alphabet =
      (revSeed a).alphabet := c2
  have hc3 : (a.edges.foldl (revEdgeStep a) (revSeed a)).nameMap =
      (revSeed a).nameMap := c3
  refine ⟨?_, ?_, ?_, ?_⟩
  · rw [h2, hc2]
    exact rfl
  · rw [h2, hc1]
    exact rfl
  · rw [h2, hc3]
    exact rfl
  · intro x y cc
    rw [h2]
    have hc6 : (∃ e' ∈ (a.edges.foldl (revEdgeStep a) (revSeed a)).edges,
        e'.src = x ∧ e'.dst = y ∧ e'.sym = cc) ↔
        ((∃ e' ∈ (revSeed a).edges, e'.src = x ∧ e'.dst = y ∧ e'.sym = cc) ∨
          ∃ e ∈ a.edges, x = ridOf a e.dst ∧ y = ridOf a e.src ∧ cc = e.sym) := c6 x y cc
    rw [hc6]
    constructor
    · rintro (⟨e', he', _⟩ | h)
      · cases he'
      · exact h
    · intro h
      exact Or.inr h

theorem buildStates_ids_ge : ∀ (ts : List (Name × Bool × Bool)) (n : Nat),
    ∀ s ∈ buildStates n ts, n ≤ s.id := by
  intro ts
  induction ts with
  | nil =>
    intro n s hs
    cases hs
  | cons t ts iht =>
    intro n s hs
    rcases List.mem_cons.mp hs with h | h
    · rw [h]
    · exact Nat.le_trans (Nat.le_succ n) (iht (n + 1) s h)

theorem buildStates_ids_nodup : ∀ (ts : List (Name × Bool × Bool)) (n : Nat),
    ((buildStates n ts).map StateR.id).Nodup := by
  intro ts
  induction ts with
  | nil =>
    intro n
    exact List.nodup_nil
  | cons t ts iht =>
    intro n
    rw [show (buildStates n (t :: ts)).map StateR.id =
      n :: (buildStates (n + 1) ts).map StateR.id from rfl, List.nodup_cons]
    refine ⟨?_, iht (n + 1)⟩
    intro hmem
    rcases List.mem_map.mp hmem with ⟨s, hs, hsid⟩
    have := buildStates_ids_ge ts (n + 1) s hs
    omega

theorem mem_buildStates_id : ∀ (ts : List (Name × Bool × Bool)) (n i : Nat),
    i < ts.length → (n + i) ∈ (buildStates n ts).map StateR.id := by
  intro ts
  induction ts with
  | nil =>
    intro n i h
    exact absurd h (Nat.not_lt_zero i)
  | cons t ts iht =>
    intro n i h
    rw [show (buildStates n (t :: ts)).map StateR.id =
      n :: (buildStates (n + 1) ts).map StateR.id from rfl]
    cases i with
    | zero =>
      rw [Nat.add_zero]
      exact List.mem_cons_self _ _
    | succ j =>
      have hj : j < ts.length := by
        have : (t :: ts).length = ts.length + 1 := rfl
        omega
      have := iht (n + 1) j hj
      have heq : n + 1 + j = n + (j + 1) := by omega
      rw [heq] at this
      exact List.mem_cons_of_mem _ this

/-- Looking up the `i`-th listed name in a `buildKeys` map. -/
theorem buildKeys_lookup' {ts : List (Name × Bool × Bool)}
    (hnames : (ts.map Prod.fst).Nodup) {i : Nat} {t : Name × Bool × Bool}
    (ht : ts[i]? = some t) {b : Automaton} (hmap : b.nameMap = buildKeys 0 ts) :
    b.getStateByName t.1 = some i := by
  have hmg := buildKeys_mapGet ts 0 hnames ht
  show mapGet b.nameMap t.1 = some i
  rw [hmap, hmg, Nat.zero_add]

/-- The reversed automaton is clean: its states were freshly created. -/
theorem reverseOf_clean {a : Automaton} (wf : WF a)
    (hne : ∀ s ∈ a.states, s.name ≠ []) : Clean (reverseOf a) := by
  intro s hs
  rw [(reverseOf_struct wf hne).2.1] at hs
  rcases (mem_buildStates_iff _ _ _).mp hs with ⟨i, t, _, hst⟩
  rw [hst]

theorem reverseOf_nodup {a : Automaton} (wf : WF a)
    (hne : ∀ s ∈ a.states, s.name ≠ []) :
    ((reverseOf a).states.map StateR.id).Nodup := by
  rw [(reverseOf_struct wf hne).2.1]
  exact buildStates_ids_nodup _ 0

theorem ridOf_mem_rev {a : Automaton} (wf : WF a)
    (hne : ∀ s ∈ a.states, s.name ≠ []) {sid : Nat}
    (hsid : sid ∈ a.states.map StateR.id) :
    ridOf a sid ∈ (reverseOf a).states.map StateR.id := by
  rw [(reverseOf_struct wf hne).2.1]
  have hlt : posOf (a.states.map StateR.id) sid < (a.states.map StateR.id).length :=
    posOf_lt hsid
  have hlen : (a.states.map StateR.id).length = (revTriples a).length := by
    rw [revTriples, List.length_map, List.length_map]
  have := mem_buildStates_id (revTriples a) 0 (ridOf a sid) (by rw [← hlen]; exact hlt)
  rw [Nat.zero_add] at this
  exact this

theorem reverseOf_valid {a : Automaton} (wf : WF a)
    (hne : ∀ s ∈ a.states, s.name ≠ []) :
    ∀ e' ∈ (reverseOf a).edges, e'.dst ∈ (reverseOf a).states.map StateR.id := by
  intro e' he'
  have h := ((reverseOf_struct wf hne).2.2.2 e'.src e'.dst e'.sym).mp
    ⟨e', he', rfl, rfl, rfl⟩
  rcases h with ⟨e, he, _, hdst, _⟩
  rw [hdst]
  exact ridOf_mem_rev wf hne (wf.edges_valid e he).2.1

/-- A final state of `a` yields a valid start state of the reverse. -/
theorem reverseOf_start {a : Automaton} (wf : WF a)
    (hne : ∀ s ∈ a.states, s.name ≠ []) {f : StateR} (hf : f ∈ a.states)
    (hfin : f.final = true) :
    ridOf a f.id ∈ (reverseOf a).startIds ∧
      ridOf a f.id ∈ (reverseOf a).states.map StateR.id := by
  rcases mem_getElem? hf with ⟨i, hi⟩
  have hrid : ridOf a f.id = i := ridOf_eq wf.ids_nodup hi
  have ht : (revTriples a)[i]? = some (f.name, f.final, f.start) := revTriples_get hi
  have hmem : (⟨0 + i, f.name, f.final, f.start, false⟩ : StateR) ∈
      buildStates 0 (revTriples a) :=
    (mem_buildStates_iff _ _ _).mpr ⟨i, (f.name, f.final, f.start), ht, rfl⟩
  constructor
  · refine mem_startIds_iff.mpr ⟨⟨0 + i, f.name, f.final, f.start, false⟩, ?_, hfin, ?_⟩
    · rw [(reverseOf_struct wf hne).2.1]
      exact hmem
    · show 0 + i = ridOf a f.id
      rw [Nat.zero_add, hrid]
  · rw [hrid]
    have hlen : (a.states.map StateR.id).length = (revTriples a).length := by
      rw [revTriples, List.length_map, List.length_map]
    have hlt : i < (revTriples a).length := by
      rw [← hrid]
      rw [← hlen]
      exact posOf_lt (List.mem_map_of_mem StateR.id hf)
    rw [(reverseOf_struct wf hne).2.1]
    have := mem_buildStates_id (revTriples a) 0 i hlt
    rw [Nat.zero_add] at this
    exact this

/-- Extending a reachability path by one step at the end. -/
theorem reaches_snoc {u : Automaton} :
    ∀ {p q : Nat} {w : List Char}, Reaches u p w q → ∀ {c : Char} {q2 : Nat},
      q2 ∈ u.delta q c → Reaches u p (w ++ [c]) q2 := by
  intro p q w h
  induction h with
  | refl x =>
    intro c q2 hq
    exact Reaches.step hq (Reaches.refl q2)
  | step h1 h2 ih =>
    intro c q2 hq
    exact Reaches.step h1 (ih hq)

/-- A path in `a` reverses to a path in `reverse()` between the
positional images of its endpoints. -/
theorem reaches_rev {a : Automaton} (wf : WF a)
    (hne : ∀ s ∈ a.states, s.name ≠ []) :
    ∀ {x w z}, Reaches a x w z →
      ∃ w2, Reaches (reverseOf a) (ridOf a z) w2 (ridOf a x) := by
  intro x w z h
  induction h with
  | refl x0 => exact ⟨[], Reaches.refl _⟩
  | step h1 h2 ih =>
    rcases ih with ⟨w2, hw2⟩
    rcases mem_delta_iff.mp h1 with ⟨hca, e, he, hesrc, hesym, hedst⟩
    refine ⟨w2 ++ [e.sym], reaches_snoc hw2 ?_⟩
    refine mem_delta_iff.mpr ⟨?_, ?_⟩
    · rw [(reverseOf_struct wf hne).1]
      exact (wf.edges_valid e he).1
    · rcases ((reverseOf_struct wf hne).2.2.2 (ridOf a e.dst) (ridOf a e.src)
        e.sym).mpr ⟨e, he, rfl, rfl, rfl⟩ with ⟨e2, he2, h1', h2', h3'⟩
      refine ⟨e2, he2, ?_, ?_, ?_⟩
      · rw [h1', hedst]
      · rw [h3']
      · rw [h2', hesrc]

/-- `dfsFrom` satisfies the dfs specification: the top-level call has
spare fuel. -/
theorem dfsFrom_post {a : Automaton} (hnodup : (a.states.map StateR.id).Nodup)
    (hvalid : ∀ e ∈ a.edges, e.dst ∈ a.states.map StateR.id) :
    DfsPost a a.startIds (dfsFrom a) := by
  apply dfsGo_post
  refine ⟨hnodup, hvalid, Or.inl ?_⟩
  have h1 : unmarkedCount a ≤ a.states.length := List.length_filter_le _ _
  omega

/-! ### Structure of `reduce()` -/

/-- The states `reduce()` keeps, in order. -/
def keptOf (a : Automaton) : List StateR :=
  a.states.filter (keepSt (dfsFrom a) (dfsFrom (reverseOf a)))

/-- Their `(name, start, final)` triples. -/
def kTriples (a : Automaton) : List (Name × Bool × Bool) :=
  (keptOf a).map (fun s => (s.name, s.start, s.final))

/-- The positional id a kept state receives in the reduced automaton. -/
def kidOf (a : Automaton) (sid : Nat) : Nat := posOf ((keptOf a).map StateR.id) sid

/-- The reduced automaton after its state loop, before any edge. -/
def redSeed (a : Automaton) : Automaton :=
  { name := reducedOfName ++ a.name
    alphabet := a.alphabet
    states := buildStates 0 (kTriples a)
    nameMap := buildKeys 0 (kTriples a)
    edges := []
    nextId := (kTriples a).length }

theorem keptOf_ids_nodup {a : Automaton} (wf : WF a) :
    ((keptOf a).map StateR.id).Nodup :=
  ((List.filter_sublist a.states).map StateR.id).nodup wf.ids_nodup

theorem kTriples_names {a : Automaton} :
    (kTriples a).map Prod.fst = (keptOf a).map StateR.name := by
  rw [kTriples, List.map_map]
  rfl

theorem kTriples_names_nodup {a : Automaton} (wf : WF a) :
    ((kTriples a).map Prod.fst).Nodup := by
  rw [kTriples_names]
  exact ((List.filter_sublist a.states).map StateR.name).nodup wf.names_nodup

theorem kTriples_get {a : Automaton} {i : Nat} {s : StateR}
    (h : (keptOf a)[i]? = some s) :
    (kTriples a)[i]? = some (s.name, s.start, s.final) := by
  rw [kTriples, List.getElem?_map _ _ i, h]
  rfl

theorem kTriples_get_inv {a : Automaton} {i : Nat} {t : Name × Bool × Bool}
    (h : (kTriples a)[i]? = some t) :
    ∃ s, (keptOf a)[i]? = some s ∧ t = (s.name, s.start, s.final) := by
  rw [kTriples, List.getElem?_map _ _ i] at h
  rcases hk : (keptOf a)[i]? with _ | s
  · rw [hk] at h
    exact Option.noConfusion h
  · rw [hk] at h
    exact ⟨s, rfl, (Option.some.inj h).symm⟩

theorem kidOf_eq {a : Automaton} (wf : WF a) {i : Nat} {s : StateR}
    (h : (keptOf a)[i]? = some s) : kidOf a s.id = i := by
  apply posOf_index (keptOf_ids_nodup wf)
  rw [List.getElem?_map StateR.id _ i, h]
  rfl

/-- Looking a kept state's name up in the reduced automaton's map. -/
theorem kid_lookup {a : Automaton} (wf : WF a) {b : Automaton}
    (hmap : b.nameMap = buildKeys 0 (kTriples a)) {s : StateR} (hs : s ∈ keptOf a) :
    b.getStateByName s.name = some (kidOf a s.id) := by
  rcases mem_getElem? hs with ⟨i, hi⟩
  have h := buildKeys_lookup' (kTriples_names_nodup wf) (kTriples_get hi) hmap
  rw [kidOf_eq wf hi]
  exact h

/-- An edge passes the four-mark filter exactly when both its endpoint
states are kept. -/
theorem keepEd_iff_kept {a : Automaton} (wf : WF a) {e : EdgeR} (he : e ∈ a.edges) :
    keepEd a (dfsFrom a) (dfsFrom (reverseOf a)) e = true ↔
      ∃ ss ∈ keptOf a, ss.id = e.src ∧ ∃ sd ∈ keptOf a, sd.id = e.dst := by
  obtain ⟨hsym, hsrc, hdst⟩ := wf.edges_valid e he
  rcases List.mem_map.mp hsrc with ⟨ss, hss, hssid⟩
  rcases List.mem_map.mp hdst with ⟨sd, hsd, hsdid⟩
  unfold keepEd
  constructor
  · intro h
    simp only [Bool.and_eq_true] at h
    obtain ⟨⟨⟨h1, h2⟩, h3⟩, h4⟩ := h
    refine ⟨ss, ?_, hssid, sd, ?_, hsdid⟩
    · refine List.mem_filter.mpr ⟨hss, ?_⟩
      unfold keepSt
      rw [hssid, h1]
      rw [← hssid, nameOfId_eq wf hss] at h3
      rw [h3]
      exact rfl
    · refine List.mem_filter.mpr ⟨hsd, ?_⟩
      unfold keepSt
      rw [hsdid, h2]
      rw [← hsdid, nameOfId_eq wf hsd] at h4
      rw [h4]
      exact rfl
  · rintro ⟨ss2, hss2, hss2id, sd2, hsd2, hsd2id⟩
    have hss2m : ss2 ∈ a.states := List.mem_of_mem_filter hss2
    have hsd2m : sd2 ∈ a.states := List.mem_of_mem_filter hsd2
    have hks : keepSt (dfsFrom a) (dfsFrom (reverseOf a)) ss2 = true :=
      List.of_mem_filter hss2
    have hkd : keepSt (dfsFrom a) (dfsFrom (reverseOf a)) sd2 = true :=
      List.of_mem_filter hsd2
    unfold keepSt at hks hkd
    simp only [Bool.and_eq_true] at hks hkd
    simp only [Bool.and_eq_true]
    refine ⟨⟨⟨?_, ?_⟩, ?_⟩, ?_⟩
    · rw [← hss2id]
      exact hks.1
    · rw [← hsd2id]
      exact hkd.1
    · rw [← hss2id, nameOfId_eq wf hss2m]
      exact hks.2
    · rw [← hsd2id, nameOfId_eq wf hsd2m]
      exact hkd.2

/-- Structure of `reduce()` when it does not return early. -/
theorem reduceOf_struct {a : Automaton} (wf : WF a)
    (hne : ∀ s ∈ a.states, s.name ≠ [])
    (hcond : (a.states.isEmpty || a.startIds.isEmpty || a.finalIds.isEmpty) = false) :
    (reduceOf a).alphabet = a.alphabet ∧
    (reduceOf a).states = buildStates 0 (kTriples a) ∧
    (reduceOf a).nameMap = buildKeys 0 (kTriples a) ∧
    (∀ x y c2, (∃ e' ∈ (reduceOf a).edges, e'.src = x ∧ e'.dst = y ∧ e'.sym = c2) ↔
      ∃ e ∈ a.edges, keepEd a (dfsFrom a) (dfsFrom (reverseOf a)) e = true ∧
        x = kidOf a e.src ∧ y = kidOf a e.dst ∧ c2 = e.sym) := by
  have hred : reduceOf a =
      a.edges.foldl (reduceEdgeStep a (dfsFrom a) (dfsFrom (reverseOf a)))
        (a.states.foldl (reduceStateStep (dfsFrom a) (dfsFrom (reverseOf a)))
          (mkAutomaton (reducedOfName ++ a.name) a.alphabet)) := by
    unfold reduceOf
    rw [hcond]
    simp only [Bool.false_eq_true, if_false]
  have hfold1 : a.states.foldl (reduceStateStep (dfsFrom a) (dfsFrom (reverseOf a)))
      (mkAutomaton (reducedOfName ++ a.name) a.alphabet) = redSeed a := by
    have h1 : a.states.foldl (reduceStateStep (dfsFrom a) (dfsFrom (reverseOf a)))
        (mkAutomaton (reducedOfName ++ a.name) a.alphabet) =
        (keptOf a).foldl (fun ar s => (ar.addState s.name s.start s.final false).2)
          (mkAutomaton (reducedOfName ++ a.name) a.alphabet) := by
      rw [keptOf, ← @foldl_if_filter StateR Automaton
        (keepSt (dfsFrom a) (dfsFrom (reverseOf a)))
        (fun ar s => (ar.addState s.name s.start s.final false).2) a.states]
      exact rfl
    have h2 : (keptOf a).foldl (fun ar s => (ar.addState s.name s.start s.final false).2)
        (mkAutomaton (reducedOfName ++ a.name) a.alphabet) =
        (kTriples a).foldl addTriple (mkAutomaton (reducedOfName ++ a.name) a.alphabet) := by
      rw [kTriples, List.foldl_map]
      exact rfl
    rw [h1, h2, addTriple_fold (kTriples a) (mkAutomaton (reducedOfName ++ a.name) a.alphabet)
      (fun t _ => rfl) (kTriples_names_nodup wf) ?hne2]
    case hne2 =>
      intro t ht
      rcases List.mem_map.mp ht with ⟨s, hs, hst⟩
      rw [← hst]
      exact hne s (List.mem_of_mem_filter hs)
    show ({ name := reducedOfName ++ a.name
            alphabet := a.alphabet
            states := [] ++ buildStates 0 (kTriples a)
            nameMap := [] ++ buildKeys 0 (kTriples a)
            edges := []
            nextId := 0 + (kTriples a).length } : Automaton) = redSeed a
    unfold redSeed
    rw [List.nil_append, List.nil_append, Nat.zero_add]
  have hred2 : reduceOf a =
      (a.edges.filter (keepEd a (dfsFrom a) (dfsFrom (reverseOf a)))).foldl
        (fun ar e => addEdgeByName ar (a.nameOfId e.src) (a.nameOfId e.dst) e.sym)
        (redSeed a) := by
    rw [hred, hfold1]
    rw [← @foldl_if_filter EdgeR Automaton (keepEd a (dfsFrom a) (dfsFrom (reverseOf a)))
      (fun ar e => addEdgeByName ar (a.nameOfId e.src) (a.nameOfId e.dst) e.sym) a.edges]
    exact rfl
  have hres : ∀ e ∈ a.edges.filter (keepEd a (dfsFrom a) (dfsFrom (reverseOf a))),
      (redSeed a).getStateByName (a.nameOfId e.src) = some (kidOf a e.src) ∧
      (redSeed a).getStateByName (a.nameOfId e.dst) = some (kidOf a e.dst) ∧
      e.sym ∈ (redSeed a).alphabet := by
    intro e he
    have hem : e ∈ a.edges := List.mem_of_mem_filter he
    have hkeep : keepEd a (dfsFrom a) (dfsFrom (reverseOf a)) e = true :=
      List.of_mem_filter he
    rcases (keepEd_iff_kept wf hem).mp hkeep with ⟨ss, hss, hssid, sd, hsd, hsdid⟩
    refine ⟨?_, ?_, (wf.edges_valid e hem).1⟩
    · rw [← hssid, nameOfId_eq wf (List.mem_of_mem_filter hss)]
      exact kid_lookup wf rfl hss
    · rw [← hsdid, nameOfId_eq wf (List.mem_of_mem_filter hsd)]
      exact kid_lookup wf rfl hsd
  obtain ⟨c1, c2, c3, c4, c5, c6⟩ := edgeNameFold_post (fun e => a.nameOfId e.src)
    (fun e => a.nameOfId e.dst) (fun e => kidOf a e.src) (fun e => kidOf a e.dst)
    (a.edges.filter (keepEd a (dfsFrom a) (dfsFrom (reverseOf a)))) (redSeed a) hres
  refine ⟨?_, ?_, ?_, ?_⟩
  · rw [hred2]
    exact c2
  · rw [hred2]
    exact c1
  · rw [hred2]
    exact c3
  · intro x y cc
    rw [hred2]
    rw [c6 x y cc]
    constructor
    · rintro (⟨e', he', _⟩ | ⟨e, he, hx, hy, hcc⟩)
      · cases he'
      · exact ⟨e, List.mem_of_mem_filter he, List.of_mem_filter he, hx, hy, hcc⟩
    · rintro ⟨e, he, hkeep, hx, hy, hcc⟩
      exact Or.inr ⟨e, List.mem_filter.mpr ⟨he, hkeep⟩, hx, hy, hcc⟩

/-! ### Language preservation of `reduce()` -/

theorem bool_eq_of_iff {x y : Bool} (h : x = true ↔ y = true) : x = y := by
  rcases x with _ | _
  · rcases y with _ | _
    · rfl
    · exact absurd (h.mpr rfl) (fun hh => Bool.noConfusion hh)
  · rw [h.mp rfl]

theorem posOf_inj {l : List Nat} {y1 y2 : Nat} (h1 : y1 ∈ l) (h2 : y2 ∈ l)
    (h : posOf l y1 = posOf l y2) : y1 = y2 := by
  have g1 := posOf_get h1
  have g2 := posOf_get h2
  rw [h] at g1
  rw [g2] at g1
  exact (Option.some.inj g1).symm

theorem deltaStar_nil (a : Automaton) : ∀ w, a.deltaStar [] w = []
  | [] => rfl
  | c :: rest => by
    show (if (a.stepSet [] c).isEmpty then [] else a.deltaStar (a.stepSet [] c) rest) = []
    have h : a.stepSet [] c = [] := rfl
    rw [h]
    exact rfl

theorem isFinalId_false_of_no_finals {a : Automaton} (h : a.finalIds = []) (x : Nat) :
    a.isFinalId x = false := by
  unfold Automaton.isFinalId
  rcases hg : a.getSt x with _ | s
  · exact rfl
  · show s.final = false
    rcases hf : s.final with _ | _
    · rfl
    · exfalso
      have hs : s ∈ a.states := List.mem_of_find?_eq_some hg
      have : s.id ∈ a.finalIds := by
        unfold Automaton.finalIds
        exact List.mem_map.mpr ⟨s, List.mem_filter.mpr ⟨hs, by rw [hf]⟩, rfl⟩
      rw [h] at this
      exact absurd this (List.not_mem_nil _)

theorem isFinalId_true_elim {a : Automaton} {f : Nat} (h : a.isFinalId f = true) :
    ∃ fst ∈ a.states, fst.id = f ∧ fst.final = true := by
  unfold Automaton.isFinalId at h
  rcases hg : a.getSt f with _ | s
  · rw [hg] at h
    exact Bool.noConfusion h
  · rw [hg] at h
    have hg2 : a.states.find? (fun t => t.id == f) = some s := hg
    have hs : s ∈ a.states := List.mem_of_find?_eq_some hg2
    have hid := List.find?_some hg2
    exact ⟨s, hs, by simpa using hid, h⟩

theorem buildStates_find? : ∀ (ts : List (Name × Bool × Bool)) (n i : Nat)
    (t : Name × Bool × Bool), ts[i]? = some t →
    (buildStates n ts).find? (fun s => s.id == n + i) =
      some ⟨n + i, t.1, t.2.1, t.2.2, false⟩ := by
  intro ts
  induction ts with
  | nil =>
    intro n i t h
    cases i with
    | zero => exact Option.noConfusion h
    | succ j => exact Option.noConfusion h
  | cons t0 ts iht =>
    intro n i t h
    cases i with
    | zero =>
      rw [List.getElem?_cons_zero] at h
      have ht0 : t0 = t := Option.some.inj h
      subst ht0
      have hb : (n == n + 0) = true := by simp
      show (match (n == n + 0 : Bool) with
        | true => some (⟨n, t0.1, t0.2.1, t0.2.2, false⟩ : StateR)
        | false => (buildStates (n + 1) ts).find? (fun s => s.id == n + 0)) =
        some ⟨n + 0, t0.1, t0.2.1, t0.2.2, false⟩
      rw [hb]
      exact rfl
    | succ j =>
      rw [List.getElem?_cons_succ] at h
      have hb : (n == n + (j + 1)) = false := by
        have hnn : n ≠ n + (j + 1) := by omega
        exact beq_eq_false_iff_ne.mpr hnn
      show (match (n == n + (j + 1) : Bool) with
        | true => some (⟨n, t0.1, t0.2.1, t0.2.2, false⟩ : StateR)
        | false => (buildStates (n + 1) ts).find? (fun s => s.id == n + (j + 1))) =
        some ⟨n + (j + 1), t.1, t.2.1, t.2.2, false⟩
      rw [hb]
      have heq : n + (j + 1) = n + 1 + j := by omega
      rw [heq]
      exact iht (n + 1) j t h

theorem red_getSt {a : Automaton} (wf : WF a) (hne : ∀ s ∈ a.states, s.name ≠ [])
    (hcond : (a.states.isEmpty || a.startIds.isEmpty || a.finalIds.isEmpty) = false)
    {i : Nat} {t : Name × Bool × Bool} (h : (kTriples a)[i]? = some t) :
    (reduceOf a).getSt i = some ⟨i, t.1, t.2.1, t.2.2, false⟩ := by
  unfold Automaton.getSt
  rw [(reduceOf_struct wf hne hcond).2.1]
  have hf := buildStates_find? (kTriples a) 0 i t h
  rw [Nat.zero_add] at hf
  exact hf

theorem red_final {a : Automaton} (wf : WF a) (hne : ∀ s ∈ a.states, s.name ≠ [])
    (hcond : (a.states.isEmpty || a.startIds.isEmpty || a.finalIds.isEmpty) = false)
    {s : StateR} {i : Nat} (hi : (keptOf a)[i]? = some s) :
    (reduceOf a).isFinalId i = s.final := by
  unfold Automaton.isFinalId
  rw [red_getSt wf hne hcond (kTriples_get hi)]

theorem red_startIds {a : Automaton} (wf : WF a) (hne : ∀ s ∈ a.states, s.name ≠ [])
    (hcond : (a.states.isEmpty || a.startIds.isEmpty || a.finalIds.isEmpty) = false)
    {x : Nat} :
    x ∈ (reduceOf a).startIds ↔ ∃ s ∈ keptOf a, s.start = true ∧ x = kidOf a s.id := by
  rw [mem_startIds_iff]
  constructor
  · rintro ⟨t, ht, hst, hid⟩
    rw [(reduceOf_struct wf hne hcond).2.1] at ht
    rcases (mem_buildStates_iff _ _ _).mp ht with ⟨i, tt, htt, hteq⟩
    rcases kTriples_get_inv htt with ⟨s, hsi, hts⟩
    refine ⟨s, List.getElem?_mem hsi, ?_, ?_⟩
    · rw [hteq] at hst
      rw [hts] at hst
      exact hst
    · rw [← hid, hteq, kidOf_eq wf hsi]
      show 0 + i = i
      rw [Nat.zero_add]
  · rintro ⟨s, hs, hst, hx⟩
    rcases mem_getElem? hs with ⟨i, hi⟩
    refine ⟨⟨0 + i, s.name, s.start, s.final, false⟩, ?_, hst, ?_⟩
    · rw [(reduceOf_struct wf hne hcond).2.1]
      exact (mem_buildStates_iff _ _ _).mpr ⟨i, (s.name, s.start, s.final), kTriples_get hi, rfl⟩
    · show 0 + i = x
      rw [Nat.zero_add, hx, kidOf_eq wf hi]

/-- On a clean automaton every `delta` successor of a forward-marked
state is forward-marked. -/
theorem am_succ {a : Automaton} (wf : WF a) (hclean : Clean a) {x y : Nat} {c : Char}
    (hx : (dfsFrom a).markedOf x = true) (hy : y ∈ a.delta x c) :
    (dfsFrom a).markedOf y = true := by
  have hpost := dfsFrom_post wf.ids_nodup (fun e he => (wf.edges_valid e he).2.2)
  rcases hpost.2.2.2.1 x hx with hA | hsucc
  · rw [markedOf_of_clean hclean] at hA
    exact Bool.noConfusion hA
  · rcases mem_delta_iff.mp hy with ⟨_, e, he, hs, _, hd⟩
    exact hd ▸ hsucc e he hs

/-- A state from which a final state is reachable ends marked in the
reversed automaton's traversal, under its own name. -/
theorem revMarked_of_coreach {a : Automaton} (wf : WF a)
    (hne : ∀ s ∈ a.states, s.name ≠ []) {fst : StateR} (hfm : fst ∈ a.states)
    (hff : fst.final = true) {u : Nat} {su : StateR} (hsu : su ∈ a.states)
    (hsuid : su.id = u) {w : List Char} (hr : Reaches a u w fst.id) :
    revMarked (dfsFrom (reverseOf a)) su.name = true := by
  have hrevpost := dfsFrom_post (reverseOf_nodup wf hne) (reverseOf_valid wf hne)
  rcases reaches_rev wf hne hr with ⟨w2, hw2⟩
  obtain ⟨hstart, hvalid⟩ := reverseOf_start wf hne hfm hff
  have hms : (dfsFrom (reverseOf a)).markedOf (ridOf a fst.id) = true :=
    hrevpost.2.2.1 _ hstart hvalid
  have hmu : (dfsFrom (reverseOf a)).markedOf (ridOf a u) = true :=
    dfs_marked_of_reaches hrevpost (reverseOf_clean wf hne) hw2 hms
  unfold revMarked
  have hmap : (dfsFrom (reverseOf a)).nameMap = buildKeys 0 (revTriples a) := by
    rw [hrevpost.1.2.2.1]
    exact (reverseOf_struct wf hne).2.2.1
  rw [buildKeys_lookup wf hmap hsu]
  show (dfsFrom (reverseOf a)).markedOf (ridOf a su.id) = true
  rw [hsuid]
  exact hmu

/-- A path of `a` from a forward-marked state to a final state survives
in the reduced automaton. -/
theorem reduce_path_fwd {a : Automaton} (wf : WF a)
    (hne : ∀ s ∈ a.states, s.name ≠ []) (hclean : Clean a)
    (hcond : (a.states.isEmpty || a.startIds.isEmpty || a.finalIds.isEmpty) = false)
    {fst : StateR} (hfm : fst ∈ a.states) (hff : fst.final = true) :
    ∀ {x w z}, Reaches a x w z → z = fst.id →
      (dfsFrom a).markedOf x = true →
      Reaches (reduceOf a) (kidOf a x) w (kidOf a z) := by
  intro x w z hr
  induction hr with
  | refl x0 =>
    intro _ _
    exact Reaches.refl _
  | step h1 h2 ih =>
    intro hz hxm
    subst hz
    rcases mem_delta_iff.mp h1 with ⟨hca, e, he, hesrc, hesym, hedst⟩
    have hym : (dfsFrom a).markedOf e.dst = true := by
      rw [hedst]
      exact am_succ wf hclean hxm h1
    obtain ⟨hsyma, hsrcv, hdstv⟩ := wf.edges_valid e he
    rcases List.mem_map.mp hsrcv with ⟨ss, hss, hssid⟩
    rcases List.mem_map.mp hdstv with ⟨sd, hsd, hsdid⟩
    have hrevs : revMarked (dfsFrom (reverseOf a)) (a.nameOfId e.src) = true := by
      rw [← hssid, nameOfId_eq wf hss]
      exact revMarked_of_coreach wf hne hfm hff hss (by rw [hssid, hesrc])
        (Reaches.step h1 h2)
    have hrevd : revMarked (dfsFrom (reverseOf a)) (a.nameOfId e.dst) = true := by
      rw [← hsdid, nameOfId_eq wf hsd]
      exact revMarked_of_coreach wf hne hfm hff hsd (by rw [hsdid, hedst]) h2
    have hkeep : keepEd a (dfsFrom a) (dfsFrom (reverseOf a)) e = true := by
      unfold keepEd
      simp only [Bool.and_eq_true]
      refine ⟨⟨⟨?_, hym⟩, hrevs⟩, hrevd⟩
      rw [hesrc]
      exact hxm
    have hstep : kidOf a e.dst ∈ (reduceOf a).delta (kidOf a e.src) e.sym := by
      refine mem_delta_iff.mpr ⟨?_, ?_⟩
      · rw [(reduceOf_struct wf hne hcond).1]
        exact hsyma
      · rcases ((reduceOf_struct wf hne hcond).2.2.2 (kidOf a e.src) (kidOf a e.dst)
          e.sym).mpr ⟨e, he, hkeep, rfl, rfl, rfl⟩ with ⟨e2, he2, h1', h2', h3'⟩
        exact ⟨e2, he2, h1', h3', h2'⟩
    rw [← hedst] at ih
    rw [← hesrc]
    exact Reaches.step (by rw [← hesym]; exact hstep) (ih rfl hym)

/-- `reduce()` preserves the accepted language on a well-formed, clean
automaton with non-empty state names. -/
theorem reduce_accepts {a : Automaton} (wf : WF a)
    (hne : ∀ s ∈ a.states, s.name ≠ []) (hclean : Clean a) (w : List Char) :
    (reduceOf a).accepts w = a.accepts w := by
  rcases hcond : (a.states.isEmpty || a.startIds.isEmpty || a.finalIds.isEmpty) with _ | _
  case false =>
    apply bool_eq_of_iff
    constructor
    · intro hacc
      rcases (accepts_iff w).mp hacc with ⟨hnemp, s', hs', f', hr', hfin'⟩
      obtain ⟨sS, hsSk, hsSstart, hsSid⟩ := (red_startIds wf hne hcond).mp hs'
      have hd : ∀ x x' c y, (∃ s ∈ keptOf a, x = kidOf a s.id ∧ x' = s.id) →
          y ∈ (reduceOf a).delta x c →
          ∃ y', (∃ s ∈ keptOf a, y = kidOf a s.id ∧ y' = s.id) ∧ y' ∈ a.delta x' c := by
        rintro x x' c y ⟨s, hsk, hxk, hx'⟩ hy
        rcases mem_delta_iff.mp hy with ⟨hcal, e', he', h1', h2', h3'⟩
        rcases ((reduceOf_struct wf hne hcond).2.2.2 e'.src e'.dst e'.sym).mp
          ⟨e', he', rfl, rfl, rfl⟩ with ⟨e, he, hkeep, hx2, hy2, hc2⟩
        rcases (keepEd_iff_kept wf he).mp hkeep with ⟨ss, hssk, hssid, sd, hsdk, hsdid⟩
        have hxx : kidOf a s.id = kidOf a ss.id := by
          rw [← hxk, ← h1', hx2, hssid]
        have hsid : s.id = ss.id := posOf_inj
          (List.mem_map_of_mem StateR.id hsk) (List.mem_map_of_mem StateR.id hssk) hxx
        refine ⟨sd.id, ⟨sd, hsdk, ?_, rfl⟩, ?_⟩
        · rw [← h3', hy2, hsdid]
        · refine mem_delta_iff.mpr ⟨?_, e, he, ?_, ?_, ?_⟩
          · rw [(reduceOf_struct wf hne hcond).1] at hcal
            exact hcal
          · rw [← hssid, ← hsid, hx']
          · rw [← hc2, h2']
          · rw [← hsdid]
      obtain ⟨z, hRz, hrz⟩ := sim_reaches_fwd
        (fun x x' => ∃ s ∈ keptOf a, x = kidOf a s.id ∧ x' = s.id) hd hr'
        sS.id ⟨sS, hsSk, hsSid, rfl⟩
      rcases hRz with ⟨sf, hsfk, hfk, hz⟩
      rcases mem_getElem? hsfk with ⟨i, hi⟩
      have hfv : (reduceOf a).isFinalId (kidOf a sf.id) = sf.final := by
        rw [kidOf_eq wf hi]
        exact red_final wf hne hcond hi
      rw [hfk, hfv] at hfin'
      refine (accepts_iff w).mpr
        ⟨isEmpty_false_of_mem (List.mem_of_mem_filter hsfk), sS.id, ?_, z, hrz, ?_⟩
      · exact mem_startIds_iff.mpr ⟨sS, List.mem_of_mem_filter hsSk, hsSstart, rfl⟩
      · rw [hz, isFinalId_eq wf (List.mem_of_mem_filter hsfk)]
        exact hfin'
    · intro hacc
      rcases (accepts_iff w).mp hacc with ⟨hnemp, s0, hs0, f, hr, hfin⟩
      rcases isFinalId_true_elim hfin with ⟨fst, hfm, hfid, hff⟩
      have hapost := dfsFrom_post wf.ids_nodup (fun e he => (wf.edges_valid e he).2.2)
      rcases mem_startIds_iff.mp hs0 with ⟨ss0, hss0, hss0start, hss0id⟩
      have hs0v : s0 ∈ a.states.map StateR.id := by
        rw [← hss0id]
        exact List.mem_map_of_mem StateR.id hss0
      have hs0m : (dfsFrom a).markedOf s0 = true := hapost.2.2.1 s0 hs0 hs0v
      have hpath : Reaches (reduceOf a) (kidOf a s0) w (kidOf a f) :=
        reduce_path_fwd wf hne hclean hcond hfm hff hr hfid.symm hs0m
      have hss0rev : revMarked (dfsFrom (reverseOf a)) ss0.name = true :=
        revMarked_of_coreach wf hne hfm hff hss0 hss0id (by rw [hfid]; exact hr)
      have hss0k : ss0 ∈ keptOf a := by
        refine List.mem_filter.mpr ⟨hss0, ?_⟩
        unfold keepSt
        simp only [Bool.and_eq_true]
        refine ⟨?_, hss0rev⟩
        rw [hss0id]
        exact hs0m
      have hstart : kidOf a s0 ∈ (reduceOf a).startIds := by
        rw [← hss0id]
        exact (red_startIds wf hne hcond).mpr ⟨ss0, hss0k, hss0start, rfl⟩
      have hfk : fst ∈ keptOf a := by
        refine List.mem_filter.mpr ⟨hfm, ?_⟩
        unfold keepSt
        simp only [Bool.and_eq_true]
        constructor
        · rw [hfid]
          exact dfs_marked_of_reaches hapost hclean hr hs0m
        · exact revMarked_of_coreach wf hne hfm hff hfm rfl (Reaches.refl fst.id)
      rcases mem_getElem? hfk with ⟨i, hi⟩
      have hred_nonempty : (reduceOf a).isEmpty = false := by
        have hmem : (⟨0 + i, fst.name, fst.start, fst.final, false⟩ : StateR) ∈
            (reduceOf a).states := by
          rw [(reduceOf_struct wf hne hcond).2.1]
          exact (mem_buildStates_iff _ _ _).mpr ⟨i, _, kTriples_get hi, rfl⟩
        exact isEmpty_false_of_mem hmem
      have hfinr : (reduceOf a).isFinalId (kidOf a f) = true := by
        rw [← hfid, kidOf_eq wf hi, red_final wf hne hcond hi]
        exact hff
      exact (accepts_iff w).mpr ⟨hred_nonempty, kidOf a s0, hstart, kidOf a f, hpath, hfinr⟩
  case true =>
    have hred : reduceOf a = mkAutomaton (reducedOfName ++ a.name) a.alphabet := by
      unfold reduceOf
      rw [hcond]
      exact rfl
    have hL : (mkAutomaton (reducedOfName ++ a.name) a.alphabet).accepts w = false := rfl
    have hR : a.accepts w = false := by
      unfold Automaton.accepts
      by_cases hie : a.isEmpty = true
      · rw [if_pos hie]
      · rw [if_neg hie]
        simp only [Bool.or_eq_true] at hcond
        rcases hcond with (h1 | h2) | h3
        · exact absurd h1 hie
        · have hnil : a.startIds = [] := by
            rcases hk : a.startIds with _ | ⟨k, ks⟩
            · rfl
            · rw [hk] at h2
              exact Bool.noConfusion h2
          rw [hnil, deltaStar_nil]
          rfl
        · have hnil : a.finalIds = [] := by
            rcases hk : a.finalIds with _ | ⟨k, ks⟩
            · rfl
            · rw [hk] at h3
              exact Bool.noConfusion h3
          rcases hb : (a.deltaStar a.startIds w).any (fun id => a.isFinalId id) with _ | _
          · rfl
          · exfalso
            rcases List.any_eq_true.mp hb with ⟨xx, _, hxx⟩
            rw [isFinalId_false_of_no_finals hnil xx] at hxx
            exact Bool.noConfusion hxx
    rw [hred, hL, hR]

/-! ### `renameStates()` -/

/-- A change of state names (and nothing else the acceptance test reads):
same alphabet and edges, states mapped name-wise. -/
theorem accepts_namesOnly {a b : Automaton} (hal : b.alphabet = a.alphabet)
    (hed : b.edges = a.edges) (nf : Nat → Name)
    (hst : b.states = a.states.map (fun s => { s with name := nf s.id }))
    (w : List Char) : b.accepts w = a.accepts w := by
  have hdelta : b.delta = a.delta := by
    funext x c
    unfold Automaton.delta
    rw [hal, hed]
  have hstep : b.stepSet = a.stepSet := by
    funext cur c
    unfold Automaton.stepSet
    rw [hdelta]
  have hds : ∀ w cur, b.deltaStar cur w = a.deltaStar cur w := by
    intro w
    induction w with
    | nil =>
      intro cur
      rfl
    | cons c rest ih =>
      intro cur
      show (if (b.stepSet cur c).isEmpty then [] else b.deltaStar (b.stepSet cur c) rest) =
        (if (a.stepSet cur c).isEmpty then [] else a.deltaStar (a.stepSet cur c) rest)
      rw [hstep, ih]
  have hstart : b.startIds = a.startIds := by
    unfold Automaton.startIds
    rw [hst]
    induction a.states with
    | nil => rfl
    | cons s l ihl =>
      rw [List.map_cons]
      by_cases hs : s.start = true
      · rw [List.filter_cons_of_pos (by simpa using hs), List.filter_cons_of_pos (by simpa using hs),
          List.map_cons, List.map_cons, ihl]
      · rw [List.filter_cons_of_neg (by simpa using hs), List.filter_cons_of_neg (by simpa using hs),
          ihl]
  have hfin : ∀ x, b.isFinalId x = a.isFinalId x := by
    intro x
    unfold Automaton.isFinalId Automaton.getSt
    rw [hst, find?_id_map (fun s => { s with name := nf s.id }) (fun s => rfl) x]
    rcases hf : a.states.find? (fun t => t.id == x) with _ | s
    · rw [hf]
      exact rfl
    · rw [hf]
      exact rfl
  have hie : b.isEmpty = a.isEmpty := by
    unfold Automaton.isEmpty
    rw [hst]
    rcases a.states with _ | ⟨s, l⟩
    · rfl
    · rfl
  have hany : ∀ l : List Nat,
      (l.any fun id => b.isFinalId id) = (l.any fun id => a.isFinalId id) := by
    intro l
    induction l with
    | nil => rfl
    | cons x l ihl =>
      rw [List.any_cons, List.any_cons, hfin x, ihl]
  unfold Automaton.accepts
  rw [hie, hstart, hds, hany]

/-- The indexed rename loop: every listed id gets the decimal name of its
position; ids, flags, edges and alphabet are untouched. -/
theorem renameFrom_spec : ∀ (l : List Nat) (n : Nat) (b : Automaton),
    (b.states.map StateR.id).Nodup → l.Nodup →
    (∀ i ∈ l, i ∈ b.states.map StateR.id) →
    (renameFrom n b l).states = b.states.map
      (fun s => if s.id ∈ l then { s with name := toDec (n + posOf l s.id) } else s) ∧
    (renameFrom n b l).alphabet = b.alphabet ∧
    (renameFrom n b l).edges = b.edges := by
  intro l
  induction l with
  | nil =>
    intro n b _ _ _
    refine ⟨?_, rfl, rfl⟩
    show b.states = _
    have h : ∀ s ∈ b.states,
        s = if s.id ∈ ([] : List Nat) then { s with name := toDec (n + posOf [] s.id) }
          else s := by
      intro s _
      rw [if_neg (List.not_mem_nil s.id)]
    rw [← List.map_congr_left h]
    exact (List.map_id b.states).symm
  | cons i is ihl =>
    intro n b hnodup hlnodup hmem
    rw [List.nodup_cons] at hlnodup
    have hiv : i ∈ b.states.map StateR.id := hmem i (List.mem_cons_self _ _)
    rcases List.mem_map.mp hiv with ⟨si, hsi, hsiid⟩
    have hget : b.getSt i = some si := by
      have h := find?_id_of_mem hnodup hsi
      rw [hsiid] at h
      exact h
    have hstep : b.renameState i (toDec n) =
        { b with
          nameMap := mapSet (mapDelete b.nameMap si.name) (toDec n) i
          states := b.states.map
            (fun t => if t.id == i then { t with name := toDec n } else t) } := by
      unfold Automaton.renameState
      rw [hget]
    have hids2 : ((b.renameState i (toDec n)).states.map StateR.id) =
        b.states.map StateR.id := by
      rw [hstep]
      show (b.states.map (fun t => if t.id == i then { t with name := toDec n } else t)).map
        StateR.id = b.states.map StateR.id
      rw [List.map_map]
      refine List.map_congr_left ?_
      intro s _
      show ((if s.id == i then { s with name := toDec n } else s) : StateR).id = s.id
      by_cases h : (s.id == i) = true
      · rw [if_pos h]
      · rw [if_neg h]
    obtain ⟨c1, c2, c3⟩ := ihl (n + 1) (b.renameState i (toDec n))
      (by rw [hids2]; exact hnodup) hlnodup.2
      (by rw [hids2]; exact fun j hj => hmem j (List.mem_cons_of_mem _ hj))
    refine ⟨?_, ?_, ?_⟩
    · show (renameFrom (n + 1) (b.renameState i (toDec n)) is).states = _
      rw [c1, hstep]
      show (b.states.map (fun t => if t.id == i then { t with name := toDec n } else t)).map
        (fun s => if s.id ∈ is then { s with name := toDec (n + 1 + posOf is s.id) } else s) = _
      rw [List.map_map]
      refine List.map_congr_left ?_
      intro s _
      show (fun s => if s.id ∈ is then { s with name := toDec (n + 1 + posOf is s.id) } else s)
        ((if s.id == i then { s with name := toDec n } else s) : StateR) =
        (if s.id ∈ i :: is then { s with name := toDec (n + posOf (i :: is) s.id) } else s)
      by_cases h : (s.id == i) = true
      · have hsi2 : s.id = i := by simpa using h
        rw [if_pos h]
        simp only []
        rw [if_neg (show s.id ∉ is by rw [hsi2]; exact hlnodup.1),
          if_pos (show s.id ∈ i :: is by rw [hsi2]; exact List.mem_cons_self _ _)]
        have hpos : posOf (i :: is) s.id = 0 := by
          show (if (i == s.id) = true then 0 else posOf is s.id + 1) = 0
          rw [if_pos (by rw [hsi2]; exact beq_self_eq_true i)]
        rw [hpos, Nat.add_zero]
      · have hsi2 : s.id ≠ i := by simpa using h
        rw [if_neg h]
        simp only []
        by_cases h2 : s.id ∈ is
        · rw [if_pos h2, if_pos (List.mem_cons_of_mem _ h2)]
          have hpos : posOf (i :: is) s.id = posOf is s.id + 1 := by
            show (if (i == s.id) = true then 0 else posOf is s.id + 1) = posOf is s.id + 1
            rw [if_neg (by simpa using (fun hh => hsi2 hh.symm))]
          rw [hpos]
          have harith : n + 1 + posOf is s.id = n + (posOf is s.id + 1) := by omega
          rw [harith]
        · rw [if_neg h2, if_neg ?hni]
          case hni =>
            intro hin
            rcases List.mem_cons.mp hin with hh | hh
            · exact hsi2 hh
            · exact h2 hh
    · show (renameFrom (n + 1) (b.renameState i (toDec n)) is).alphabet = _
      rw [c2, hstep]
    · show (renameFrom (n + 1) (b.renameState i (toDec n)) is).edges = _
      rw [c3, hstep]

/-- `renameStates()`: the `i`-th state is renamed to the decimal string
of `i`; nothing else the language or the subset construction reads
changes. -/
theorem renameStatesA_struct {b : Automaton} (hnodup : (b.states.map StateR.id).Nodup) :
    (renameStatesA b).states = b.states.map
      (fun s => { s with name := toDec (posOf (b.states.map StateR.id) s.id) }) ∧
    (renameStatesA b).alphabet = b.alphabet ∧
    (renameStatesA b).edges = b.edges := by
  obtain ⟨c1, c2, c3⟩ := renameFrom_spec (b.states.map StateR.id) 0 b hnodup hnodup
    (fun i hi => hi)
  refine ⟨?_, c2, c3⟩
  rw [show renameStatesA b = renameFrom 0 b (b.states.map StateR.id) from rfl, c1]
  refine List.map_congr_left ?_
  intro s hs
  rw [if_pos (List.mem_map_of_mem StateR.id hs), Nat.zero_add]

/-- `renameStates()` preserves the accepted language. -/
theorem renameStatesA_accepts {b : Automaton} (hnodup : (b.states.map StateR.id).Nodup)
    (w : List Char) : (renameStatesA b).accepts w = b.accepts w := by
  obtain ⟨c1, c2, c3⟩ := renameStatesA_struct hnodup
  exact accepts_namesOnly c2 c3
    (fun j => toDec (posOf (b.states.map StateR.id) j)) c1 w

/-! ### The canonical set name is a function of the id set -/

theorem ltName_total : ∀ (a b : Name), ltName a b = false → ltName b a = false →
    a = b := by
  intro a
  induction a with
  | nil =>
    intro b h1 h2
    cases b with
    | nil => rfl
    | cons d ds => exact Bool.noConfusion h1
  | cons c cs ih =>
    intro b h1 h2
    cases b with
    | nil => exact Bool.noConfusion h2
    | cons d ds =>
      by_cases hcd : c < d
      · exfalso
        have hT : ltName (c :: cs) (d :: ds) = true := by
          show (if c < d then true else if d < c then false else ltName cs ds) = true
          rw [if_pos hcd]
        rw [h1] at hT
        exact Bool.noConfusion hT
      · by_cases hdc : d < c
        · exfalso
          have hT : ltName (d :: ds) (c :: cs) = true := by
            show (if d < c then true else if c < d then false else ltName ds cs) = true
            rw [if_pos hdc]
          rw [h2] at hT
          exact Bool.noConfusion hT
        · have hcd2 : c = d := le_antisymm (not_lt.mp hdc) (not_lt.mp hcd)
          have h1' : ltName cs ds = false := by
            have hE : ltName (c :: cs) (d :: ds) = ltName cs ds := by
              show (if c < d then true else if d < c then false else ltName cs ds) = _
              rw [if_neg hcd, if_neg hdc]
            rw [← hE]
            exact h1
          have h2' : ltName ds cs = false := by
            have hE : ltName (d :: ds) (c :: cs) = ltName ds cs := by
              show (if d < c then true else if c < d then false else ltName ds cs) = _
              rw [if_neg hdc, if_neg hcd]
            rw [← hE]
            exact h2
          rw [hcd2, ih ds h1' h2']

theorem ltName_asymm : ∀ (a b : Name), ltName a b = true → ltName b a = false := by
  intro a
  induction a with
  | nil =>
    intro b h
    cases b with
    | nil => exact Bool.noConfusion h
    | cons d ds => rfl
  | cons c cs ih =>
    intro b h
    cases b with
    | nil => exact Bool.noConfusion h
    | cons d ds =>
      show (if d < c then true else if c < d then false else ltName ds cs) = false
      by_cases hcd : c < d
      · rw [if_neg (asymm hcd), if_pos hcd]
      · by_cases hdc : d < c
        · exfalso
          have hF : ltName (c :: cs) (d :: ds) = false := by
            show (if c < d then true else if d < c then false else ltName cs ds) = false
            rw [if_neg hcd, if_pos hdc]
          rw [h] at hF
          exact Bool.noConfusion hF
        · rw [if_neg hdc, if_neg hcd]
          apply ih
          have hE : ltName (c :: cs) (d :: ds) = ltName cs ds := by
            show (if c < d then true else if d < c then false else ltName cs ds) = _
            rw [if_neg hcd, if_neg hdc]
          rw [← hE]
          exact h

theorem ltName_le_trans : ∀ (a b c : Name), ltName b a = false → ltName c b = false →
    ltName c a = false := by
  intro a
  induction a with
  | nil =>
    intro b c h1 h2
    cases c with
    | nil => rfl
    | cons z zs => rfl
  | cons x xs ih =>
    intro b c h1 h2
    cases b with
    | nil => exact Bool.noConfusion h1
    | cons y ys =>
      cases c with
      | nil => exact Bool.noConfusion h2
      | cons z zs =>
      have hyx : ¬y < x := by
        intro hlt
        have hT : ltName (y :: ys) (x :: xs) = true := by
          show (if y < x then true else if x < y then false else ltName ys xs) = true
          rw [if_pos hlt]
        rw [h1] at hT
        exact Bool.noConfusion hT
      have hzy : ¬z < y := by
        intro hlt
        have hT : ltName (z :: zs) (y :: ys) = true := by
          show (if z < y then true else if y < z then false else ltName zs ys) = true
          rw [if_pos hlt]
        rw [h2] at hT
        exact Bool.noConfusion hT
      have hxy : x ≤ y := not_lt.mp hyx
      have hyz : y ≤ z := not_lt.mp hzy
      have hzx : ¬z < x := not_lt.mpr (le_trans hxy hyz)
      show (if z < x then true else if x < z then false else ltName zs xs) = false
      rw [if_neg hzx]
      by_cases hxz : x < z
      · rw [if_pos hxz]
      · rw [if_neg hxz]
        have hxz2 : x = z := le_antisymm (le_trans hxy hyz) (not_lt.mp hxz)
        have hxy2 : x = y := le_antisymm hxy (by rw [hxz2]; exact hyz)
        apply ih ys zs
        · have hE : ltName (y :: ys) (x :: xs) = ltName ys xs := by
            show (if y < x then true else if x < y then false else ltName ys xs) = _
            rw [if_neg hyx, if_neg (by rw [hxy2]; exact lt_irrefl y)]
          rw [← hE]
          exact h1
        · have hE : ltName (z :: zs) (y :: ys) = ltName zs ys := by
            show (if z < y then true else if y < z then false else ltName zs ys) = _
            rw [if_neg hzy, if_neg (by rw [← hxy2, hxz2]; exact lt_irrefl z)]
          rw [← hE]
          exact h2

theorem insSorted_pairwise (x : Name) : ∀ {l : List Name},
    l.Pairwise (fun a b => ltName b a = false) →
    (insSorted ltName x l).Pairwise (fun a b => ltName b a = false) := by
  intro l
  induction l with
  | nil =>
    intro _
    exact List.pairwise_singleton _ _
  | cons y ys ih =>
    intro hp
    rcases List.pairwise_cons.mp hp with ⟨hy, hys⟩
    show (if ltName y x then y :: insSorted ltName x ys else x :: y :: ys).Pairwise _
    by_cases h : ltName y x = true
    · rw [if_pos h]
      refine List.pairwise_cons.mpr ⟨?_, ih hys⟩
      intro z hz
      rcases mem_insSorted.mp hz with h2 | h2
      · rw [h2]
        exact ltName_asymm y x h
      · exact hy z h2
    · rw [if_neg h]
      have hxy : ltName y x = false := by simpa using h
      refine List.pairwise_cons.mpr ⟨?_, hp⟩
      intro z hz
      rcases List.mem_cons.mp hz with h2 | h2
      · rw [h2]
        exact hxy
      · exact ltName_le_trans x y z hxy (hy z h2)

theorem stableSortBy_pairwise : ∀ l : List Name,
    (stableSortBy ltName l).Pairwise (fun a b => ltName b a = false) := by
  intro l
  induction l with
  | nil => exact List.Pairwise.nil
  | cons x xs ih =>
    show (insSorted ltName x (stableSortBy ltName xs)).Pairwise _
    exact insSorted_pairwise x ih

theorem sorted_eq_of_perm : ∀ {l1 l2 : List Name},
    l1.Pairwise (fun a b => ltName b a = false) →
    l2.Pairwise (fun a b => ltName b a = false) → l1.Perm l2 → l1 = l2 := by
  intro l1 l2 h1 h2 hperm
  haveI : IsAntisymm Name (fun a b => ltName b a = false) :=
    ⟨fun a b ha hb => ltName_total a b hb ha⟩
  exact List.eq_of_perm_of_sorted hperm h1 h2

/-- The canonical set name only depends on the id set (as a multiset). -/
theorem canonName_perm {aut : Automaton} {S1 S2 : List Nat} (h : S1.Perm S2) :
    canonName aut S1 = canonName aut S2 := by
  unfold canonName
  congr 1
  exact sorted_eq_of_perm (stableSortBy_pairwise _) (stableSortBy_pairwise _)
    ((stableSortBy_perm ltName _).trans ((h.map _).trans (stableSortBy_perm ltName _).symm))

theorem nameOfId_eq' {a : Automaton} (hnodup : (a.states.map StateR.id).Nodup)
    {s : StateR} (hs : s ∈ a.states) : a.nameOfId s.id = s.name := by
  unfold Automaton.nameOfId Automaton.getSt
  rw [find?_id_of_mem hnodup hs]

theorem nameOfId_mem' {a : Automaton} (hnodup : (a.states.map StateR.id).Nodup)
    {id : Nat} (hid : id ∈ a.states.map StateR.id) :
    a.nameOfId id ∈ a.states.map StateR.name := by
  rcases List.mem_map.mp hid with ⟨s, hs, hsid⟩
  rw [← hsid, nameOfId_eq' hnodup hs]
  exact List.mem_map_of_mem StateR.name hs

/-- Canonical-name injectivity from the raw distinctness data (the name
map plays no role). -/
theorem canonName_inj2 {a : Automaton} (hids : (a.states.map StateR.id).Nodup)
    (hnames : (a.states.map StateR.name).Nodup)
    (hnc : ∀ s ∈ a.states, ',' ∉ s.name ∧ s.name ≠ [])
    {S1 S2 : List Nat} (hS1 : ∀ x ∈ S1, x ∈ a.states.map StateR.id)
    (hS2 : ∀ x ∈ S2, x ∈ a.states.map StateR.id)
    (h : canonName a S1 = canonName a S2) : ∀ x, x ∈ S1 ↔ x ∈ S2 := by
  have hok : ∀ (S : List Nat), (∀ x ∈ S, x ∈ a.states.map StateR.id) →
      ∀ nm ∈ stableSortBy ltName (S.map (a.nameOfId)), ',' ∉ nm ∧ nm ≠ [] := by
    intro S hS nm hnm
    rw [mem_stableSortBy] at hnm
    rcases List.mem_map.mp hnm with ⟨x, hx, hxn⟩
    rcases List.mem_map.mp (nameOfId_mem' hids (hS x hx)) with ⟨s, hs, hsn⟩
    rw [← hxn, ← hsn]
    exact hnc s hs
  have heq : stableSortBy ltName (S1.map (a.nameOfId)) =
      stableSortBy ltName (S2.map (a.nameOfId)) :=
    joinComma_inj (hok S1 hS1) (hok S2 hS2) h
  have hperm : (S1.map (a.nameOfId)).Perm (S2.map (a.nameOfId)) :=
    ((stableSortBy_perm ltName (S1.map (a.nameOfId))).symm.trans
      (heq ▸ stableSortBy_perm ltName (S2.map (a.nameOfId))))
  have hmm : ∀ nm, nm ∈ S1.map (a.nameOfId) ↔ nm ∈ S2.map (a.nameOfId) :=
    fun nm => hperm.mem_iff
  have haux : ∀ (S1 S2 : List Nat), (∀ x ∈ S1, x ∈ a.states.map StateR.id) →
      (∀ x ∈ S2, x ∈ a.states.map StateR.id) →
      (∀ nm, nm ∈ S1.map (a.nameOfId) → nm ∈ S2.map (a.nameOfId)) →
      ∀ x, x ∈ S1 → x ∈ S2 := by
    intro S1 S2 hS1 hS2 hmm x hx
    have h1 : a.nameOfId x ∈ S2.map (a.nameOfId) :=
      hmm _ (List.mem_map_of_mem (a.nameOfId) hx)
    rcases List.mem_map.mp h1 with ⟨x2, hx2, hxn⟩
    rcases List.mem_map.mp (hS1 x hx) with ⟨s, hs, hsid⟩
    rcases List.mem_map.mp (hS2 x2 hx2) with ⟨s2, hs2, hs2id⟩
    have hn1 : a.nameOfId x = s.name := by
      rw [← hsid, nameOfId_eq' hids hs]
    have hn2 : a.nameOfId x2 = s2.name := by
      rw [← hs2id, nameOfId_eq' hids hs2]
    have hss : s2 = s := List.inj_on_of_nodup_map hnames hs2 hs (by rw [← hn2, hxn, hn1])
    have hxx : x2 = x := by
      rw [← hsid, ← hs2id, hss]
    rw [← hxx]
    exact hx2
  intro x
  exact ⟨haux S1 S2 hS1 hS2 (fun nm h2 => (hmm nm).mp h2) x,
    haux S2 S1 hS2 hS1 (fun nm h2 => (hmm nm).mpr h2) x⟩

/-! ### The subset construction's DFA, positionally -/

/-- The name a `State` ends up with: `addState` rewrites the empty
string. -/
def dispName (nm : Name) : Name := if nm.isEmpty then emptyName else nm

/-- A fresh `addState` call with `forceNew = false`, any name. -/
theorem addState_new2 {a : Automaton} {nm : Name} {st fi : Bool}
    (h : mapGet a.nameMap nm = none) :
    a.addState nm st fi false =
      (a.nextId,
        { a with
          states := a.states ++ [⟨a.nextId, dispName nm, st, fi, false⟩]
          nameMap := a.nameMap ++ [(nm, a.nextId)]
          nextId := a.nextId + 1 }) := by
  unfold Automaton.addState dispName
  simp only [Bool.false_eq_true, if_false]
  rw [h, mapSet_of_not_mem _ h]

/-- The DFA states corresponding to a list of NFA state sets, ids
counting up from `n`; only the state with id `0` is a start state. -/
def dfaStates (nfa : Automaton) : Nat → List (List Nat) → List StateR
  | _, [] => []
  | n, S :: rest =>
    ⟨n, dispName (canonName nfa S), n == 0, S.any (fun i => nfa.isFinalId i), false⟩ ::
      dfaStates nfa (n + 1) rest

/-- The DFA's name-map entries, keyed by the raw canonical names. -/
def dfaKeys (nfa : Automaton) : Nat → List (List Nat) → List (Name × Nat)
  | _, [] => []
  | n, S :: rest => (canonName nfa S, n) :: dfaKeys nfa (n + 1) rest

/-- The side table of `tag.stateSet`s, positionally. -/
def dfaTags : Nat → List (List Nat) → List (Nat × List Nat)
  | _, [] => []
  | n, S :: rest => (n, S) :: dfaTags (n + 1) rest

/-- The `i`-th state set. -/
def tagL (L : List (List Nat)) (i : Nat) : List Nat := (L[i]?).getD []

theorem dfaStates_append (nfa : Automaton) (S : List Nat) :
    ∀ (L : List (List Nat)) (n : Nat), dfaStates nfa n (L ++ [S]) =
      dfaStates nfa n L ++
        [⟨n + L.length, dispName (canonName nfa S), (n + L.length) == 0,
          S.any (fun i => nfa.isFinalId i), false⟩] := by
  intro L
  induction L with
  | nil =>
    intro n
    show dfaStates nfa n [S] = _
    rw [show n + ([] : List (List Nat)).length = n from rfl]
    rfl
  | cons T L ihl =>
    intro n
    show (⟨n, _, _, _, _⟩ : StateR) :: dfaStates nfa (n + 1) (L ++ [S]) = _
    rw [ihl (n + 1)]
    have hn : n + 1 + L.length = n + (L.length + 1) := by omega
    rw [hn]
    rfl

theorem dfaKeys_append (nfa : Automaton) (S : List Nat) :
    ∀ (L : List (List Nat)) (n : Nat), dfaKeys nfa n (L ++ [S]) =
      dfaKeys nfa n L ++ [(canonName nfa S, n + L.length)] := by
  intro L
  induction L with
  | nil =>
    intro n
    show dfaKeys nfa n [S] = _
    rw [show n + ([] : List (List Nat)).length = n from rfl]
    rfl
  | cons T L ihl =>
    intro n
    show (canonName nfa T, n) :: dfaKeys nfa (n + 1) (L ++ [S]) = _
    rw [ihl (n + 1)]
    have hn : n + 1 + L.length = n + (L.length + 1) := by omega
    rw [hn]
    rfl

theorem dfaTags_append (S : List Nat) :
    ∀ (L : List (List Nat)) (n : Nat), dfaTags n (L ++ [S]) =
      dfaTags n L ++ [(n + L.length, S)] := by
  intro L
  induction L with
  | nil =>
    intro n
    show dfaTags n [S] = _
    rw [show n + ([] : List (List Nat)).length = n from rfl]
    rfl
  | cons T L ihl =>
    intro n
    show (n, T) :: dfaTags (n + 1) (L ++ [S]) = _
    rw [ihl (n + 1)]
    have hn : n + 1 + L.length = n + (L.length + 1) := by omega
    rw [hn]
    rfl

theorem dfaTags_find? : ∀ (L : List (List Nat)) (n i : Nat) (S : List Nat),
    L[i]? = some S →
    (dfaTags n L).find? (fun p => p.1 == n + i) = some (n + i, S) := by
  intro L
  induction L with
  | nil =>
    intro n i S h
    cases i with
    | zero => exact Option.noConfusion h
    | succ j => exact Option.noConfusion h
  | cons T L ihl =>
    intro n i S h
    cases i with
    | zero =>
      rw [List.getElem?_cons_zero] at h
      have hT : T = S := Option.some.inj h
      subst hT
      have hb : (n == n + 0) = true := by simp
      show (match (n == n + 0 : Bool) with
        | true => some (n, T)
        | false => (dfaTags (n + 1) L).find? (fun p => p.1 == n + 0)) = some (n + 0, T)
      rw [hb]
      exact rfl
    | succ j =>
      rw [List.getElem?_cons_succ] at h
      have hb : (n == n + (j + 1)) = false := by
        have hnn : n ≠ n + (j + 1) := by omega
        exact beq_eq_false_iff_ne.mpr hnn
      show (match (n == n + (j + 1) : Bool) with
        | true => some (n, T)
        | false => (dfaTags (n + 1) L).find? (fun p => p.1 == n + (j + 1))) =
        some (n + (j + 1), S)
      rw [hb]
      have heq : n + (j + 1) = n + 1 + j := by omega
      rw [heq]
      exact ihl (n + 1) j S h

/-- `tag.stateSet` of a listed DFA state. -/
theorem tagOf_dfaTags {L : List (List Nat)} {i : Nat} {S : List Nat}
    (h : L[i]? = some S) : tagOf (dfaTags 0 L) i = S := by
  unfold tagOf
  have hf := dfaTags_find? L 0 i S h
  rw [Nat.zero_add] at hf
  rw [hf]

theorem tagL_eq {L : List (List Nat)} {i : Nat} {S : List Nat} (h : L[i]? = some S) :
    tagL L i = S := by
  unfold tagL
  rw [h]
  rfl

theorem dfaStates_find? (nfa : Automaton) : ∀ (L : List (List Nat)) (n i : Nat)
    (S : List Nat), L[i]? = some S →
    (dfaStates nfa n L).find? (fun s => s.id == n + i) =
      some ⟨n + i, dispName (canonName nfa S), (n + i) == 0,
        S.any (fun i => nfa.isFinalId i), false⟩ := by
  intro L
  induction L with
  | nil =>
    intro n i S h
    cases i with
    | zero => exact Option.noConfusion h
    | succ j => exact Option.noConfusion h
  | cons T L ihl =>
    intro n i S h
    cases i with
    | zero =>
      rw [List.getElem?_cons_zero] at h
      have hT : T = S := Option.some.inj h
      subst hT
      have hb : (n == n + 0) = true := by simp
      show (match (n == n + 0 : Bool) with
        | true => some (⟨n, dispName (canonName nfa T), n == 0,
            T.any (fun i => nfa.isFinalId i), false⟩ : StateR)
        | false => (dfaStates nfa (n + 1) L).find? (fun s => s.id == n + 0)) =
        some ⟨n + 0, dispName (canonName nfa T), (n + 0) == 0,
          T.any (fun i => nfa.isFinalId i), false⟩
      rw [hb]
      exact rfl
    | succ j =>
      rw [List.getElem?_cons_succ] at h
      have hb : (n == n + (j + 1)) = false := by
        have hnn : n ≠ n + (j + 1) := by omega
        exact beq_eq_false_iff_ne.mpr hnn
      show (match (n == n + (j + 1) : Bool) with
        | true => some (⟨n, dispName (canonName nfa T), n == 0,
            T.any (fun i => nfa.isFinalId i), false⟩ : StateR)
        | false => (dfaStates nfa (n + 1) L).find? (fun s => s.id == n + (j + 1))) =
        some ⟨n + (j + 1), dispName (canonName nfa S), (n + (j + 1)) == 0,
          S.any (fun i => nfa.isFinalId i), false⟩
      rw [hb]
      have heq : n + (j + 1) = n + 1 + j := by omega
      rw [heq]
      exact ihl (n + 1) j S h

theorem dfaStates_length (nfa : Automaton) : ∀ (L : List (List Nat)) (n : Nat),
    (dfaStates nfa n L).length = L.length := by
  intro L
  induction L with
  | nil =>
    intro n
    rfl
  | cons T L ihl =>
    intro n
    show (dfaStates nfa (n + 1) L).length + 1 = L.length + 1
    rw [ihl (n + 1)]

theorem dfaStates_ids_ge (nfa : Automaton) : ∀ (L : List (List Nat)) (n : Nat),
    ∀ s ∈ dfaStates nfa n L, n ≤ s.id := by
  intro L
  induction L with
  | nil =>
    intro n s hs
    cases hs
  | cons T L ihl =>
    intro n s hs
    rcases List.mem_cons.mp hs with h | h
    · rw [h]
    · exact Nat.le_trans (Nat.le_succ n) (ihl (n + 1) s h)

theorem dfaStates_ids_nodup (nfa : Automaton) : ∀ (L : List (List Nat)) (n : Nat),
    ((dfaStates nfa n L).map StateR.id).Nodup := by
  intro L
  induction L with
  | nil =>
    intro n
    exact List.nodup_nil
  | cons T L ihl =>
    intro n
    rw [show (dfaStates nfa n (T :: L)).map StateR.id =
      n :: (dfaStates nfa (n + 1) L).map StateR.id from rfl, List.nodup_cons]
    refine ⟨?_, ihl (n + 1)⟩
    intro hmem
    rcases List.mem_map.mp hmem with ⟨s, hs, hsid⟩
    have := dfaStates_ids_ge nfa L (n + 1) s hs
    omega

theorem dfaStates_no_start (nfa : Automaton) : ∀ (L : List (List Nat)) (n : Nat),
    n ≠ 0 → (dfaStates nfa n L).filter (fun s => s.start) = [] := by
  intro L
  induction L with
  | nil =>
    intro n _
    rfl
  | cons T L ihl =>
    intro n hn
    have hb : (n == 0) = false := beq_eq_false_iff_ne.mpr hn
    show List.filter (fun s => s.start)
      (⟨n, dispName (canonName nfa T), n == 0, T.any (fun i => nfa.isFinalId i), false⟩ ::
        dfaStates nfa (n + 1) L) = []
    rw [List.filter_cons_of_neg (by show ¬((n == 0 : Bool) = true); rw [hb]; exact Bool.noConfusion)]
    exact ihl (n + 1) (by omega)

/-- A DFA built positionally has the single start state `0`. -/
theorem dfaStates_startIds {nfa b : Automaton} {L : List (List Nat)}
    (hst : b.states = dfaStates nfa 0 L) (hne : L ≠ []) : b.startIds = [0] := by
  unfold Automaton.startIds
  rw [hst]
  rcases L with _ | ⟨S, rest⟩
  · exact absurd rfl hne
  · show ((⟨0, dispName (canonName nfa S), (0 == 0 : Bool),
      S.any (fun i => nfa.isFinalId i), false⟩ :: dfaStates nfa 1 rest).filter
        (fun s => s.start)).map StateR.id = [0]
    rw [List.filter_cons_of_pos (by exact rfl), dfaStates_no_start nfa rest 1 (by omega)]
    exact rfl

theorem dfaKeys_mapGet_none (nfa : Automaton) : ∀ (L : List (List Nat)) (n : Nat)
    {nm : Name}, (∀ S ∈ L, canonName nfa S ≠ nm) →
    mapGet (dfaKeys nfa n L) nm = none := by
  intro L
  induction L with
  | nil =>
    intro n nm _
    rfl
  | cons T L ihl =>
    intro n nm hall
    show mapGet ((canonName nfa T, n) :: dfaKeys nfa (n + 1) L) nm = none
    rw [mapGet_cons, if_neg ?hne]
    case hne =>
      intro hh
      exact hall T (List.mem_cons_self _ _) (by simpa using hh)
    exact ihl (n + 1) (fun S hS => hall S (List.mem_cons_of_mem _ hS))

theorem dfaKeys_mapGet (nfa : Automaton) : ∀ (L : List (List Nat)) (n : Nat),
    ((L.map (canonName nfa)).Nodup) → ∀ {i : Nat} {S : List Nat}, L[i]? = some S →
    mapGet (dfaKeys nfa n L) (canonName nfa S) = some (n + i) := by
  intro L
  induction L with
  | nil =>
    intro n _ i S h
    cases i with
    | zero => exact Option.noConfusion h
    | succ j => exact Option.noConfusion h
  | cons T L ihl =>
    intro n hnodup i S h
    rw [List.map_cons, List.nodup_cons] at hnodup
    cases i with
    | zero =>
      rw [List.getElem?_cons_zero] at h
      have hT : T = S := Option.some.inj h
      subst hT
      show mapGet ((canonName nfa T, n) :: dfaKeys nfa (n + 1) L) (canonName nfa T) =
        some (n + 0)
      rw [mapGet_cons, if_pos (beq_self_eq_true _)]
      exact rfl
    | succ j =>
      rw [List.getElem?_cons_succ] at h
      have hmem : canonName nfa S ∈ L.map (canonName nfa) :=
        List.mem_map_of_mem (canonName nfa) (List.getElem?_mem h)
      have hne2 : ¬(canonName nfa T == canonName nfa S) = true := by
        intro hh
        have : canonName nfa T = canonName nfa S := by simpa using hh
        exact hnodup.1 (this ▸ hmem)
      show mapGet ((canonName nfa T, n) :: dfaKeys nfa (n + 1) L) (canonName nfa S) =
        some (n + (j + 1))
      rw [mapGet_cons, if_neg hne2, ihl (n + 1) hnodup.2 h]
      have hn : n + 1 + j = n + (j + 1) := by omega
      rw [hn]

theorem dfaKeys_mapGet_inv (nfa : Automaton) : ∀ (L : List (List Nat)) (n : Nat)
    {nm : Name} {j : Nat}, mapGet (dfaKeys nfa n L) nm = some j →
    ∃ i S, L[i]? = some S ∧ canonName nfa S = nm ∧ j = n + i := by
  intro L
  induction L with
  | nil =>
    intro n nm j h
    exact Option.noConfusion h
  | cons T L ihl =>
    intro n nm j h
    rw [show dfaKeys nfa n (T :: L) = (canonName nfa T, n) :: dfaKeys nfa (n + 1) L
      from rfl, mapGet_cons] at h
    by_cases hk : (canonName nfa T == nm) = true
    · rw [if_pos hk] at h
      exact ⟨0, T, List.getElem?_cons_zero, by simpa using hk,
        by rw [← Option.some.inj h]; omega⟩
    · rw [if_neg hk] at h
      rcases ihl (n + 1) h with ⟨i, S, hS, hnm, hj⟩
      refine ⟨i + 1, S, ?_, hnm, by omega⟩
      rw [List.getElem?_cons_succ]
      exact hS

/-! ### The subset-construction loop invariant -/

/-- What the subset construction needs of its input NFA (after
`reduce().renameStates()`); the possibly corrupted name map plays no
role. -/
structure NfaOk (nfa : Automaton) : Prop where
  ids_nodup : (nfa.states.map StateR.id).Nodup
  names_nodup : (nfa.states.map StateR.name).Nodup
  edges_valid : ∀ e ∈ nfa.edges, e.sym ∈ nfa.alphabet ∧
    e.src ∈ nfa.states.map StateR.id ∧ e.dst ∈ nfa.states.map StateR.id
  names_ok : ∀ s ∈ nfa.states, ',' ∉ s.name ∧ s.name ≠ []
  alpha_nodup : nfa.alphabet.Nodup

/-- Structural invariant of the worklist loop: the DFA is exactly the
positional rebuild of the state-set table `L`, keys are distinct, and
every edge steps between table entries according to `deltaStar` on one
symbol (as id sets). -/
def DetCore (nfa : Automaton) (S0 : List Nat) (dfa : Automaton)
    (tags : List (Nat × List Nat)) (L : List (List Nat)) : Prop :=
  tags = dfaTags 0 L ∧
  dfa.states = dfaStates nfa 0 L ∧
  dfa.nameMap = dfaKeys nfa 0 L ∧
  dfa.nextId = L.length ∧
  dfa.alphabet = nfa.alphabet ∧
  (L.map (canonName nfa)).Nodup ∧
  L.head? = some S0 ∧
  (∀ S ∈ L, S.Nodup ∧ ∀ x ∈ S, x ∈ nfa.states.map StateR.id) ∧
  (dfa.edges.map (fun e => (e.src, e.sym))).Nodup ∧
  (∀ e ∈ dfa.edges, e.sym ∈ nfa.alphabet ∧ e.src < L.length ∧ e.dst < L.length ∧
    (∀ x, x ∈ tagL L e.dst ↔ x ∈ nfa.deltaStar (tagL L e.src) [e.sym]))

/-- Worklist bookkeeping: `T` holds the unprocessed states, `exc` the
state currently in flight. -/
def DetTodo (nfa dfa : Automaton) (L : List (List Nat)) (T exc : List Nat) : Prop :=
  T.Nodup ∧ (∀ i ∈ T, i < L.length) ∧
  (∀ e ∈ dfa.edges, e.src ∉ T) ∧
  (∀ i, i < L.length → i ∉ T → i ∉ exc →
    ∀ c ∈ nfa.alphabet, ∃ e ∈ dfa.edges, e.src = i ∧ e.sym = c)

theorem nodup_snoc {α : Type} {l : List α} (h : l.Nodup) {x : α} (hx : x ∉ l) :
    (l ++ [x]).Nodup := by
  rw [List.nodup_append]
  refine ⟨h, List.nodup_singleton x, ?_⟩
  intro a ha hb
  rw [List.mem_singleton] at hb
  rw [hb] at ha
  exact hx ha

theorem getElem?_lt {α : Type} {l : List α} {i : Nat} {x : α} (h : l[i]? = some x) :
    i < l.length :=
  (List.getElem?_eq_some.mp h).1

theorem stepSet_nodup (a : Automaton) (cur : List Nat) (c : Char) :
    (a.stepSet cur c).Nodup := by
  unfold Automaton.stepSet
  have aux : ∀ (l acc : List Nat), acc.Nodup →
      (l.foldl (fun acc fromId => (a.delta fromId c).foldl Automaton.addUnique acc)
        acc).Nodup := by
    intro l
    induction l with
    | nil =>
      intro acc h
      exact h
    | cons z zs ih =>
      intro acc h
      rw [List.foldl_cons]
      exact ih _ (nodup_foldl_addUnique _ _ h)
  exact aux cur [] List.nodup_nil

theorem stepSet_valid {a : Automaton}
    (hval : ∀ e ∈ a.edges, e.dst ∈ a.states.map StateR.id) (cur : List Nat) (c : Char) :
    ∀ y ∈ a.stepSet cur c, y ∈ a.states.map StateR.id := by
  intro y hy
  rcases mem_stepSet_iff.mp hy with ⟨x, _, hyd⟩
  rcases mem_delta_iff.mp hyd with ⟨_, e, he, _, _, hd⟩
  rw [← hd]
  exact hval e he

theorem deltaStar_single (a : Automaton) (S : List Nat) (c : Char) :
    a.deltaStar S [c] = a.stepSet S c := by
  show (if (a.stepSet S c).isEmpty then [] else a.deltaStar (a.stepSet S c) []) = _
  rcases hs : a.stepSet S c with _ | ⟨y, ys⟩
  · rfl
  · rfl

theorem startIds_nodup {a : Automaton} (hids : (a.states.map StateR.id).Nodup) :
    a.startIds.Nodup := by
  unfold Automaton.startIds
  exact ((List.filter_sublist a.states).map StateR.id).nodup hids

theorem startIds_valid (a : Automaton) : ∀ x ∈ a.startIds, x ∈ a.states.map StateR.id := by
  intro x hx
  rcases mem_startIds_iff.mp hx with ⟨t, ht, _, hid⟩
  rw [← hid]
  exact List.mem_map_of_mem StateR.id ht

/-- The canonical name of a valid id set appears among those of the
sublists of the id list. -/
theorem canonName_mem_sublists {nfa : Automaton}
    (hids : (nfa.states.map StateR.id).Nodup) {S : List Nat} (hS : S.Nodup)
    (hsub : ∀ x ∈ S, x ∈ nfa.states.map StateR.id) :
    canonName nfa S ∈ ((nfa.states.map StateR.id).sublists).map (canonName nfa) := by
  have hfs : List.Sublist ((nfa.states.map StateR.id).filter (fun x => decide (x ∈ S)))
      (nfa.states.map StateR.id) := List.filter_sublist _
  have hfn : ((nfa.states.map StateR.id).filter (fun x => decide (x ∈ S))).Nodup :=
    hfs.nodup hids
  have hmemf : ∀ x, x ∈ (nfa.states.map StateR.id).filter (fun x => decide (x ∈ S)) ↔
      x ∈ S := by
    intro x
    constructor
    · intro hx
      have := List.of_mem_filter hx
      simpa using this
    · intro hx
      exact List.mem_filter.mpr ⟨hsub x hx, by simpa using hx⟩
  have hperm : S.Perm ((nfa.states.map StateR.id).filter (fun x => decide (x ∈ S))) := by
    refine List.Subperm.antisymm ?_ ?_
    · exact hS.subperm (fun x hx => (hmemf x).mpr hx)
    · exact hfn.subperm (fun x hx => (hmemf x).mp hx)
  rw [canonName_perm hperm]
  exact List.mem_map_of_mem (canonName nfa) (List.mem_sublists.mpr hfs)

/-- The table never exceeds `2 ^ |nfa.states|` entries. -/
theorem detL_card {nfa : Automaton} (hids : (nfa.states.map StateR.id).Nodup)
    {L : List (List Nat)} (hkeys : (L.map (canonName nfa)).Nodup)
    (hall : ∀ S ∈ L, S.Nodup ∧ ∀ x ∈ S, x ∈ nfa.states.map StateR.id) :
    L.length ≤ 2 ^ nfa.states.length := by
  have hsubset : ∀ nm ∈ L.map (canonName nfa),
      nm ∈ ((nfa.states.map StateR.id).sublists).map (canonName nfa) := by
    intro nm hnm
    rcases List.mem_map.mp hnm with ⟨S, hS, hSnm⟩
    rw [← hSnm]
    exact canonName_mem_sublists hids (hall S hS).1 (hall S hS).2
  have hsp := (hkeys.subperm hsubset).length_le
  rw [List.length_map, List.length_map, List.length_sublists, List.length_map] at hsp
  exact hsp

theorem range'_snoc (s n : Nat) : List.range' s (n + 1) = List.range' s n ++ [s + n] := by
  simp [List.range'_concat]

theorem tagL_append_left {L : List (List Nat)} {i : Nat} (h : i < L.length)
    (ext : List (List Nat)) : tagL (L ++ ext) i = tagL L i := by
  unfold tagL
  rw [List.getElem?_append_left h]

theorem hasEdge_false_of {a : Automaton} {f : Nat} {c : Char} (t : Nat)
    (h : ∀ e ∈ a.edges, ¬(e.src = f ∧ e.sym = c)) : a.hasEdge f t c = false := by
  rcases hb : a.hasEdge f t c with _ | _
  · rfl
  · exfalso
    rcases List.any_eq_true.mp hb with ⟨e, he, hp⟩
    simp only [Bool.and_eq_true, beq_iff_eq] at hp
    exact h e he ⟨hp.1.1, hp.1.2⟩

theorem addEdge_append {a : Automaton} {f t : Nat} {c : Char} (hc : c ∈ a.alphabet)
    (hne : a.hasEdge f t c = false) :
    a.addEdge f t c = { a with edges := a.edges ++ [⟨f, t, c, none⟩] } := by
  unfold Automaton.addEdge
  rw [if_pos hc, hne]
  exact rfl

theorem detSym_eq (nfa : Automaton) (cur : Nat) (S : List Nat)
    (st : Automaton × List (Nat × List Nat) × List Nat) (c : Char) :
    detSym nfa cur S st c =
      match st.1.getStateByName (canonName nfa (nfa.deltaStar S [c])) with
      | some nid => (st.1.addEdge cur nid c, st.2.1, st.2.2)
      | none =>
        ((st.1.addState (canonName nfa (nfa.deltaStar S [c])) false
            ((nfa.deltaStar S [c]).any (fun i => nfa.isFinalId i)) false).2.addEdge cur
          (st.1.addState (canonName nfa (nfa.deltaStar S [c])) false
            ((nfa.deltaStar S [c]).any (fun i => nfa.isFinalId i)) false).1 c,
         st.2.1 ++ [((st.1.addState (canonName nfa (nfa.deltaStar S [c])) false
            ((nfa.deltaStar S [c]).any (fun i => nfa.isFinalId i)) false).1,
           nfa.deltaStar S [c])],
         st.2.2 ++ [(st.1.addState (canonName nfa (nfa.deltaStar S [c])) false
            ((nfa.deltaStar S [c]).any (fun i => nfa.isFinalId i)) false).1]) := rfl

theorem detSym_hit {nfa : Automaton} {cur : Nat} {S : List Nat}
    {st : Automaton × List (Nat × List Nat) × List Nat} {c : Char} {nid : Nat}
    (h : st.1.getStateByName (canonName nfa (nfa.deltaStar S [c])) = some nid)
    (hc : c ∈ st.1.alphabet)
    (hne : ∀ e ∈ st.1.edges, ¬(e.src = cur ∧ e.sym = c)) :
    detSym nfa cur S st c =
      ({ st.1 with edges := st.1.edges ++ [⟨cur, nid, c, none⟩] }, st.2.1, st.2.2) := by
  rw [detSym_eq, h]
  dsimp only
  rw [addEdge_append hc (hasEdge_false_of nid hne)]

theorem detSym_miss {nfa : Automaton} {cur : Nat} {S : List Nat}
    {st : Automaton × List (Nat × List Nat) × List Nat} {c : Char}
    (h : mapGet st.1.nameMap (canonName nfa (nfa.deltaStar S [c])) = none)
    (hc : c ∈ st.1.alphabet)
    (hne : ∀ e ∈ st.1.edges, ¬(e.src = cur ∧ e.sym = c)) :
    detSym nfa cur S st c =
      ({ st.1 with
          states := st.1.states ++ [⟨st.1.nextId,
            dispName (canonName nfa (nfa.deltaStar S [c])), false,
            (nfa.deltaStar S [c]).any (fun i => nfa.isFinalId i), false⟩]
          nameMap := st.1.nameMap ++ [(canonName nfa (nfa.deltaStar S [c]), st.1.nextId)]
          edges := st.1.edges ++ [⟨cur, st.1.nextId, c, none⟩]
          nextId := st.1.nextId + 1 },
        st.2.1 ++ [(st.1.nextId, nfa.deltaStar S [c])],
        st.2.2 ++ [st.1.nextId]) := by
  have hlook : st.1.getStateByName (canonName nfa (nfa.deltaStar S [c])) = none := h
  rw [detSym_eq, hlook, addState_new2 h]
  dsimp only
  have hc2 : c ∈ ({ st.1 with
      states := st.1.states ++ [⟨st.1.nextId,
        dispName (canonName nfa (nfa.deltaStar S [c])), false,
        (nfa.deltaStar S [c]).any (fun i => nfa.isFinalId i), false⟩]
      nameMap := st.1.nameMap ++ [(canonName nfa (nfa.deltaStar S [c]), st.1.nextId)]
      nextId := st.1.nextId + 1 } : Automaton).alphabet := hc
  have hne2 : ({ st.1 with
      states := st.1.states ++ [⟨st.1.nextId,
        dispName (canonName nfa (nfa.deltaStar S [c])), false,
        (nfa.deltaStar S [c]).any (fun i => nfa.isFinalId i), false⟩]
      nameMap := st.1.nameMap ++ [(canonName nfa (nfa.deltaStar S [c]), st.1.nextId)]
      nextId := st.1.nextId + 1 } : Automaton).hasEdge cur st.1.nextId c = false :=
    hasEdge_false_of st.1.nextId (fun e he hcon => hne e he hcon)
  rw [addEdge_append hc2 hne2]

/-- The invariant carried through one state's alphabet fold: a valid
`DetCore` over some extension of the entry table, the accumulated fresh
ids are exactly the new positions, all new edges leave `cur`, edges out
of `cur` are labelled by processed symbols, and every processed symbol
has its edge. -/
def SymInv (nfa : Automaton) (S0 : List Nat) (L0 : List (List Nat)) (dfa0 : Automaton)
    (cur : Nat) (done : List Char)
    (st : Automaton × List (Nat × List Nat) × List Nat) : Prop :=
  ∃ L : List (List Nat),
    DetCore nfa S0 st.1 st.2.1 L ∧
    (∃ ext : List (List Nat), L = L0 ++ ext) ∧
    st.2.2 = List.range' L0.length (L.length - L0.length) ∧
    (∃ extra : List EdgeR, st.1.edges = dfa0.edges ++ extra ∧ ∀ e ∈ extra, e.src = cur) ∧
    (∀ e ∈ st.1.edges, e.src = cur → e.sym ∈ done) ∧
    (∀ c ∈ done, ∃ e ∈ st.1.edges, e.src = cur ∧ e.sym = c)

theorem detSym_step {nfa : Automaton} (hok : NfaOk nfa) {S0 : List Nat}
    {L0 : List (List Nat)} {dfa0 : Automaton} {cur : Nat} {done : List Char}
    {st : Automaton × List (Nat × List Nat) × List Nat}
    (hinv : SymInv nfa S0 L0 dfa0 cur done st) (hcur : cur < L0.length)
    {c : Char} (hc : c ∈ nfa.alphabet) (hcnew : c ∉ done) :
    SymInv nfa S0 L0 dfa0 cur (done ++ [c]) (detSym nfa cur (tagL L0 cur) st c) := by
  obtain ⟨L, hcore, hLex, hacc, hextra0, hsrcdone, hdone⟩ := hinv
  obtain ⟨ext, hLext⟩ := hLex
  obtain ⟨extra, hedges, hextra⟩ := hextra0
  obtain ⟨htags, hstates, hkeys, hnext, halpha, hknd, hhead, hall, hend, hepost⟩ := hcore
  have hcurL : cur < L.length := by
    rw [hLext, List.length_append]
    omega
  have hL0le : L0.length ≤ L.length := by
    rw [hLext, List.length_append]
    omega
  obtain ⟨S, hS0cur⟩ : ∃ S, L0[cur]? = some S := ⟨_, List.getElem?_eq_getElem hcur⟩
  have hSL : L[cur]? = some S := by
    rw [hLext, List.getElem?_append_left hcur]
    exact hS0cur
  have hSeq : tagL L0 cur = S := tagL_eq hS0cur
  have hSLeq : tagL L cur = S := tagL_eq hSL
  have hLne : L.length ≠ 0 := by
    rcases L with _ | ⟨x, xs⟩
    · cases hhead
    · exact Nat.succ_ne_zero xs.length
  have hS2 : nfa.deltaStar S [c] = nfa.stepSet S c := deltaStar_single nfa S c
  have hS2nd : (nfa.deltaStar S [c]).Nodup := by
    rw [hS2]
    exact stepSet_nodup nfa S c
  have hS2val : ∀ x ∈ nfa.deltaStar S [c], x ∈ nfa.states.map StateR.id := by
    rw [hS2]
    exact stepSet_valid (fun e he => (hok.edges_valid e he).2.2) S c
  have hnec : ∀ e ∈ st.1.edges, ¬(e.src = cur ∧ e.sym = c) := by
    intro e he hcon
    apply hcnew
    rw [← hcon.2]
    exact hsrcdone e he hcon.1
  have hc1 : c ∈ st.1.alphabet := by
    rw [halpha]
    exact hc
  rw [hSeq]
  rcases hlook : st.1.getStateByName (canonName nfa (nfa.deltaStar S [c])) with _ | nid
  · have hmget : mapGet st.1.nameMap (canonName nfa (nfa.deltaStar S [c])) = none := hlook
    have hfresh : canonName nfa (nfa.deltaStar S [c]) ∉ L.map (canonName nfa) := by
      intro hmem
      rcases List.mem_map.mp hmem with ⟨S3, hS3, heq⟩
      rcases mem_getElem? hS3 with ⟨i, hgi⟩
      have hmg := dfaKeys_mapGet nfa L 0 hknd hgi
      rw [heq, ← hkeys, hmget] at hmg
      exact Option.noConfusion hmg
    have hlen2 : (L ++ [nfa.deltaStar S [c]]).length = L.length + 1 := by
      rw [List.length_append]
      exact rfl
    rw [detSym_miss hmget hc1 hnec]
    refine ⟨L ++ [nfa.deltaStar S [c]], ?_,
      ⟨ext ++ [nfa.deltaStar S [c]], by rw [hLext, List.append_assoc]⟩, ?_, ?_, ?_, ?_⟩
    · refine ⟨?_, ?_, ?_, ?_, ?_, ?_, ?_, ?_, ?_, ?_⟩
      · show st.2.1 ++ [(st.1.nextId, nfa.deltaStar S [c])] =
          dfaTags 0 (L ++ [nfa.deltaStar S [c]])
        rw [htags, hnext, dfaTags_append, Nat.zero_add]
      · show st.1.states ++ [⟨st.1.nextId, dispName (canonName nfa (nfa.deltaStar S [c])),
            false, (nfa.deltaStar S [c]).any (fun i => nfa.isFinalId i), false⟩] =
          dfaStates nfa 0 (L ++ [nfa.deltaStar S [c]])
        rw [hstates, hnext, dfaStates_append, Nat.zero_add]
        have hb : (L.length == 0) = false := by
          rw [beq_eq_false_iff_ne]
          exact hLne
        rw [hb]
      · show st.1.nameMap ++ [(canonName nfa (nfa.deltaStar S [c]), st.1.nextId)] =
          dfaKeys nfa 0 (L ++ [nfa.deltaStar S [c]])
        rw [hkeys, hnext, dfaKeys_append, Nat.zero_add]
      · show st.1.nextId + 1 = (L ++ [nfa.deltaStar S [c]]).length
        rw [hnext, hlen2]
      · show st.1.alphabet = nfa.alphabet
        exact halpha
      · rw [List.map_append]
        exact nodup_snoc hknd hfresh
      · show (L ++ [nfa.deltaStar S [c]]).head? = some S0
        rcases L with _ | ⟨x, xs⟩
        · cases hhead
        · exact hhead
      · intro S3 hS3
        rcases List.mem_append.mp hS3 with hm | hm
        · exact hall S3 hm
        · rw [List.mem_singleton] at hm
          rw [hm]
          exact ⟨hS2nd, hS2val⟩
      · show ((st.1.edges ++ [(⟨cur, st.1.nextId, c, none⟩ : EdgeR)]).map
            (fun e => (e.src, e.sym))).Nodup
        rw [List.map_append]
        refine nodup_snoc hend ?_
        intro hmem
        rcases List.mem_map.mp hmem with ⟨e, he, heq⟩
        exact hnec e he ⟨congrArg Prod.fst heq, congrArg Prod.snd heq⟩
      · intro e he
        rcases List.mem_append.mp he with hm | hm
        · obtain ⟨hsym, hsrc, hdst, htg⟩ := hepost e hm
          refine ⟨hsym, ?_, ?_, ?_⟩
          · rw [hlen2]
            omega
          · rw [hlen2]
            omega
          · intro x
            rw [tagL_append_left hsrc, tagL_append_left hdst]
            exact htg x
        · rw [List.mem_singleton] at hm
          rw [hm]
          refine ⟨hc, ?_, ?_, ?_⟩
          · show cur < (L ++ [nfa.deltaStar S [c]]).length
            rw [hlen2]
            omega
          · show st.1.nextId < (L ++ [nfa.deltaStar S [c]]).length
            rw [hlen2, hnext]
            omega
          · intro x
            show x ∈ tagL (L ++ [nfa.deltaStar S [c]]) st.1.nextId ↔
              x ∈ nfa.deltaStar (tagL (L ++ [nfa.deltaStar S [c]]) cur) [c]
            rw [hnext]
            have hg2 : (L ++ [nfa.deltaStar S [c]])[L.length]? =
                some (nfa.deltaStar S [c]) := by simp
            rw [tagL_eq hg2, tagL_append_left hcurL, hSLeq]
    · show st.2.2 ++ [st.1.nextId] =
        List.range' L0.length ((L ++ [nfa.deltaStar S [c]]).length - L0.length)
      rw [hacc, hnext, hlen2]
      have h2 : L.length + 1 - L0.length = (L.length - L0.length) + 1 := by omega
      rw [h2, range'_snoc]
      have h3 : L0.length + (L.length - L0.length) = L.length := by omega
      rw [h3]
    · refine ⟨extra ++ [⟨cur, st.1.nextId, c, none⟩], ?_, ?_⟩
      · show st.1.edges ++ [⟨cur, st.1.nextId, c, none⟩] =
          dfa0.edges ++ (extra ++ [⟨cur, st.1.nextId, c, none⟩])
        rw [hedges, List.append_assoc]
      · intro e he
        rcases List.mem_append.mp he with hm | hm
        · exact hextra e hm
        · rw [List.mem_singleton] at hm
          rw [hm]
    · intro e he hsrc
      rcases List.mem_append.mp he with hm | hm
      · exact List.mem_append_left [c] (hsrcdone e hm hsrc)
      · rw [List.mem_singleton] at hm
        rw [hm]
        exact List.mem_append_right done (List.mem_singleton.mpr rfl)
    · intro c2 hc2m
      rcases List.mem_append.mp hc2m with hm | hm
      · obtain ⟨e, he, hp⟩ := hdone c2 hm
        exact ⟨e, List.mem_append_left _ he, hp⟩
      · rw [List.mem_singleton] at hm
        rw [hm]
        exact ⟨⟨cur, st.1.nextId, c, none⟩,
          List.mem_append_right _ (List.mem_singleton.mpr rfl), rfl, rfl⟩
  · have hmg : mapGet (dfaKeys nfa 0 L) (canonName nfa (nfa.deltaStar S [c])) = some nid := by
      rw [← hkeys]
      exact hlook
    obtain ⟨i, S3, hgi, hcan, hnid⟩ := dfaKeys_mapGet_inv nfa L 0 hmg
    have hilt : i < L.length := getElem?_lt hgi
    have hS3mem : S3 ∈ L := List.getElem?_mem hgi
    rw [detSym_hit hlook hc1 hnec]
    refine ⟨L, ?_, ⟨ext, hLext⟩, hacc, ?_, ?_, ?_⟩
    · refine ⟨htags, hstates, hkeys, hnext, halpha, hknd, hhead, hall, ?_, ?_⟩
      · show ((st.1.edges ++ [(⟨cur, nid, c, none⟩ : EdgeR)]).map
            (fun e => (e.src, e.sym))).Nodup
        rw [List.map_append]
        refine nodup_snoc hend ?_
        intro hmem
        rcases List.mem_map.mp hmem with ⟨e, he, heq⟩
        exact hnec e he ⟨congrArg Prod.fst heq, congrArg Prod.snd heq⟩
      · intro e he
        rcases List.mem_append.mp he with hm | hm
        · exact hepost e hm
        · rw [List.mem_singleton] at hm
          rw [hm]
          refine ⟨hc, hcurL, ?_, ?_⟩
          · show nid < L.length
            rw [hnid, Nat.zero_add]
            exact hilt
          · intro x
            show x ∈ tagL L nid ↔ x ∈ nfa.deltaStar (tagL L cur) [c]
            have hnid2 : nid = i := by rw [hnid, Nat.zero_add]
            rw [hnid2, tagL_eq hgi, hSLeq]
            exact canonName_inj2 hok.ids_nodup hok.names_nodup hok.names_ok
              (hall S3 hS3mem).2 hS2val hcan x
    · refine ⟨extra ++ [⟨cur, nid, c, none⟩], ?_, ?_⟩
      · show st.1.edges ++ [⟨cur, nid, c, none⟩] =
          dfa0.edges ++ (extra ++ [⟨cur, nid, c, none⟩])
        rw [hedges, List.append_assoc]
      · intro e he
        rcases List.mem_append.mp he with hm | hm
        · exact hextra e hm
        · rw [List.mem_singleton] at hm
          rw [hm]
    · intro e he hsrc
      rcases List.mem_append.mp he with hm | hm
      · exact List.mem_append_left [c] (hsrcdone e hm hsrc)
      · rw [List.mem_singleton] at hm
        rw [hm]
        exact List.mem_append_right done (List.mem_singleton.mpr rfl)
    · intro c2 hc2m
      rcases List.mem_append.mp hc2m with hm | hm
      · obtain ⟨e, he, hp⟩ := hdone c2 hm
        exact ⟨e, List.mem_append_left _ he, hp⟩
      · rw [List.mem_singleton] at hm
        rw [hm]
        exact ⟨⟨cur, nid, c, none⟩,
          List.mem_append_right _ (List.mem_singleton.mpr rfl), rfl, rfl⟩

theorem detSymFold {nfa : Automaton} (hok : NfaOk nfa) {S0 : List Nat}
    {L0 : List (List Nat)} {dfa0 : Automaton} {cur : Nat} (hcur : cur < L0.length) :
    ∀ (cs done : List Char) (st : Automaton × List (Nat × List Nat) × List Nat),
      (∀ c ∈ cs, c ∈ nfa.alphabet) → (∀ c ∈ cs, c ∉ done) → cs.Nodup →
      SymInv nfa S0 L0 dfa0 cur done st →
      SymInv nfa S0 L0 dfa0 cur (done ++ cs)
        (cs.foldl (detSym nfa cur (tagL L0 cur)) st) := by
  intro cs
  induction cs with
  | nil =>
    intro done st _ _ _ h
    rw [List.append_nil]
    exact h
  | cons c cs ih =>
    intro done st hal hnd hnodup hinv
    rw [List.foldl_cons]
    have hccs : c ∉ cs := (List.nodup_cons.mp hnodup).1
    have h1 := detSym_step hok hinv hcur (hal c (List.mem_cons_self c cs))
      (hnd c (List.mem_cons_self c cs))
    have hnotin : ∀ c2 ∈ cs, c2 ∉ done ++ [c] := by
      intro c2 hc2 hmem
      rcases List.mem_append.mp hmem with hm | hm
      · exact hnd c2 (List.mem_cons_of_mem c hc2) hm
      · rw [List.mem_singleton] at hm
        rw [hm] at hc2
        exact hccs hc2
    have h2 := ih (done ++ [c]) _ (fun c2 hc2 => hal c2 (List.mem_cons_of_mem c hc2))
      hnotin (List.nodup_cons.mp hnodup).2 h1
    rw [List.append_assoc] at h2
    exact h2

theorem detStep_post {nfa : Automaton} (hok : NfaOk nfa) {S0 : List Nat}
    {dfa : Automaton} {tags : List (Nat × List Nat)} {L0 : List (List Nat)}
    (hcore : DetCore nfa S0 dfa tags L0) {cur : Nat} {rest : List Nat}
    (htodo : DetTodo nfa dfa L0 (cur :: rest) []) :
    ∃ L2 : List (List Nat),
      DetCore nfa S0 (detStep nfa dfa tags cur).1 (detStep nfa dfa tags cur).2.1 L2 ∧
      (∃ ext : List (List Nat), L2 = L0 ++ ext) ∧
      (detStep nfa dfa tags cur).2.2 = List.range' L0.length (L2.length - L0.length) ∧
      DetTodo nfa (detStep nfa dfa tags cur).1 L2 (rest ++ (detStep nfa dfa tags cur).2.2) [] := by
  obtain ⟨hTnd, hTlt, hTedge, hTcomp⟩ := htodo
  have hcore2 := hcore
  obtain ⟨htags, hstates, hkeys, hnext, halpha, hknd, hhead, hall, hend, hepost⟩ := hcore2
  have hcur : cur < L0.length := hTlt cur (List.mem_cons_self cur rest)
  obtain ⟨S, hS0cur⟩ : ∃ S, L0[cur]? = some S := ⟨_, List.getElem?_eq_getElem hcur⟩
  have htag : tagOf tags cur = tagL L0 cur := by
    rw [htags, tagOf_dfaTags hS0cur, tagL_eq hS0cur]
  have hinv0 : SymInv nfa S0 L0 dfa cur [] (dfa, tags, []) := by
    refine ⟨L0, hcore, ⟨[], (List.append_nil L0).symm⟩, ?_, ?_, ?_, ?_⟩
    · have h0 : L0.length - L0.length = 0 := by omega
      rw [h0]
      exact rfl
    · exact ⟨[], (List.append_nil _).symm, fun e he => absurd he (List.not_mem_nil e)⟩
    · intro e he hsrc
      exfalso
      apply hTedge e he
      rw [hsrc]
      exact List.mem_cons_self cur rest
    · intro c2 hc2
      exact absurd hc2 (List.not_mem_nil c2)
  have hfold := detSymFold hok hcur nfa.alphabet [] (dfa, tags, [])
    (fun c2 hc2 => hc2) (fun c2 _ => List.not_mem_nil c2) hok.alpha_nodup hinv0
  have hds : detStep nfa dfa tags cur =
      nfa.alphabet.foldl (detSym nfa cur (tagL L0 cur)) (dfa, tags, []) := by
    unfold detStep
    rw [htag]
  rw [hds]
  rw [List.nil_append] at hfold
  obtain ⟨L2, hcore3, hext2, hacc2, hextra3, hsrc2, hdone2⟩ := hfold
  obtain ⟨extra, hedges2, hextra2⟩ := hextra3
  obtain ⟨ext, hL2ext⟩ := hext2
  have hcore4 := hcore3
  obtain ⟨htags2, hstates2, hkeys2, hnext2, halpha2, hknd2, hhead2, hall2, hend2, hepost2⟩ :=
    hcore4
  have hL0le : L0.length ≤ L2.length := by
    rw [hL2ext, List.length_append]
    omega
  have hrestnd : rest.Nodup := (List.nodup_cons.mp hTnd).2
  have hcurrest : cur ∉ rest := (List.nodup_cons.mp hTnd).1
  refine ⟨L2, hcore3, ⟨ext, hL2ext⟩, hacc2, ?_, ?_, ?_, ?_⟩
  · rw [hacc2, List.nodup_append]
    refine ⟨hrestnd, by simp [List.nodup_range'], ?_⟩
    intro a ha hb
    have ha2 : a < L0.length := hTlt a (List.mem_cons_of_mem cur ha)
    have hb2 : L0.length ≤ a := by
      have := List.mem_range'_1.mp hb
      omega
    omega
  · intro i hi
    rcases List.mem_append.mp hi with hm | hm
    · have := hTlt i (List.mem_cons_of_mem cur hm)
      omega
    · rw [hacc2] at hm
      have := List.mem_range'_1.mp hm
      omega
  · intro e he
    rw [hedges2] at he
    intro hmem
    rcases List.mem_append.mp he with hm | hm
    · rcases List.mem_append.mp hmem with hm2 | hm2
      · exact hTedge e hm (List.mem_cons_of_mem cur hm2)
      · rw [hacc2] at hm2
        have h1 := List.mem_range'_1.mp hm2
        have h2 := (hepost e hm).2.1
        omega
    · have hsrc : e.src = cur := hextra2 e hm
      rcases List.mem_append.mp hmem with hm2 | hm2
      · rw [hsrc] at hm2
        exact hcurrest hm2
      · rw [hacc2, hsrc] at hm2
        have h1 := List.mem_range'_1.mp hm2
        omega
  · intro i hilt hni _ c2 hc2
    by_cases hic : i = cur
    · obtain ⟨e, he, hp1, hp2⟩ := hdone2 c2 hc2
      rw [hic]
      exact ⟨e, he, hp1, hp2⟩
    · by_cases hi0 : i < L0.length
      · have hni2 : i ∉ cur :: rest := by
          intro hmem
          rcases List.mem_cons.mp hmem with hm | hm
          · exact hic hm
          · exact hni (List.mem_append_left _ hm)
        obtain ⟨e, he, hp1, hp2⟩ := hTcomp i hi0 hni2 (List.not_mem_nil i) c2 hc2
        refine ⟨e, ?_, hp1, hp2⟩
        rw [hedges2]
        exact List.mem_append_left extra he
      · exfalso
        apply hni
        apply List.mem_append_right rest
        rw [hacc2]
        apply List.mem_range'_1.mpr
        omega

theorem detLoop_post {nfa : Automaton} (hok : NfaOk nfa) {S0 : List Nat} :
    ∀ (fuel : Nat) (dfa : Automaton) (tags : List (Nat × List Nat)) (todo : List Nat)
      (L : List (List Nat)),
      DetCore nfa S0 dfa tags L → DetTodo nfa dfa L todo [] →
      todo.length + (2 ^ nfa.states.length + 1 - L.length) ≤ fuel →
      ∃ d, detLoop nfa fuel dfa tags todo = some d ∧
        ∃ tags2 L2, DetCore nfa S0 d tags2 L2 ∧ (∃ ext, L2 = L ++ ext) ∧
          (∀ i, i < L2.length → ∀ c ∈ nfa.alphabet, ∃ e ∈ d.edges, e.src = i ∧ e.sym = c) := by
  intro fuel
  induction fuel with
  | zero =>
    intro dfa tags todo L hcore htodo hfuel
    exfalso
    have hcore2 := hcore
    obtain ⟨_, _, _, _, _, hknd, _, hall, _, _⟩ := hcore2
    have hcard := detL_card hok.ids_nodup hknd hall
    omega
  | succ fuel ih =>
    intro dfa tags todo L hcore htodo hfuel
    rcases todo with _ | ⟨cur, rest⟩
    · refine ⟨dfa, rfl, tags, L, hcore, ⟨[], (List.append_nil L).symm⟩, ?_⟩
      obtain ⟨_, _, _, hTcomp⟩ := htodo
      intro i hi c hc
      exact hTcomp i hi (List.not_mem_nil i) (List.not_mem_nil i) c hc
    · obtain ⟨L2, hcore2, ⟨ext1, hext1⟩, hacc2, htodo2⟩ := detStep_post hok hcore htodo
      have hcore3 := hcore2
      obtain ⟨_, _, _, _, _, hknd2, _, hall2, _, _⟩ := hcore3
      have hcard2 := detL_card hok.ids_nodup hknd2 hall2
      have hcore4 := hcore
      obtain ⟨_, _, _, _, _, hknd0, _, hall0, _, _⟩ := hcore4
      have hcard0 := detL_card hok.ids_nodup hknd0 hall0
      have hL0le : L.length ≤ L2.length := by
        rw [hext1, List.length_append]
        omega
      have hlen : (rest ++ (detStep nfa dfa tags cur).2.2).length =
          rest.length + (L2.length - L.length) := by
        rw [List.length_append, hacc2, List.length_range']
      have hfuel2 : (rest ++ (detStep nfa dfa tags cur).2.2).length +
          (2 ^ nfa.states.length + 1 - L2.length) ≤ fuel := by
        rw [hlen]
        have hlc : (cur :: rest).length = rest.length + 1 := rfl
        rw [hlc] at hfuel
        omega
      obtain ⟨d, heq, tags2, L3, hcore5, ⟨ext2, hext2⟩, hcomp⟩ :=
        ih (detStep nfa dfa tags cur).1 (detStep nfa dfa tags cur).2.1
          (rest ++ (detStep nfa dfa tags cur).2.2) L2 hcore2 htodo2 hfuel2
      have hred : detLoop nfa (fuel + 1) dfa tags (cur :: rest) =
          detLoop nfa fuel (detStep nfa dfa tags cur).1 (detStep nfa dfa tags cur).2.1
            (rest ++ (detStep nfa dfa tags cur).2.2) := rfl
      refine ⟨d, ?_, tags2, L3, hcore5, ⟨ext1 ++ ext2, ?_⟩, hcomp⟩
      · rw [hred]
        exact heq
      · rw [hext2, hext1, List.append_assoc]

theorem filter_length_le_one {α β : Type} (f : α → β) :
    ∀ {l : List α}, ((l.map f).Nodup) → ∀ (p : α → Bool) (b : β),
      (∀ e, p e = true → f e = b) → (l.filter p).length ≤ 1 := by
  intro l
  induction l with
  | nil =>
    intro _ p b _
    exact Nat.zero_le 1
  | cons e l ih =>
    intro hnd p b hp
    rw [List.map_cons, List.nodup_cons] at hnd
    by_cases hpe : p e = true
    · rw [List.filter_cons_of_pos hpe]
      have hnil : l.filter p = [] := by
        rcases hfe : l.filter p with _ | ⟨e2, t⟩
        · rfl
        · exfalso
          have he2 : e2 ∈ l.filter p := by
            rw [hfe]
            exact List.mem_cons_self e2 t
          have hmem := List.mem_filter.mp he2
          apply hnd.1
          rw [hp e hpe, ← hp e2 hmem.2]
          exact List.mem_map_of_mem f hmem.1
      rw [hnil]
      exact Nat.le_refl 1
    · rw [List.filter_cons_of_neg hpe]
      exact ih hnd.2 p b hp

theorem eq_singleton_of_length_le {α : Type} {l : List α} {e : α} (h1 : l.length ≤ 1)
    (h2 : e ∈ l) : l = [e] := by
  rcases l with _ | ⟨x, t⟩
  · cases h2
  · rcases t with _ | ⟨y, t2⟩
    · rw [List.mem_singleton] at h2
      rw [h2]
    · exfalso
      rw [List.length_cons, List.length_cons] at h1
      omega

theorem foldl_dedup_length : ∀ (l acc : List Nat),
    (l.foldl (fun acc x => if x ∈ acc then acc else acc ++ [x]) acc).length ≤
      acc.length + l.length := by
  intro l
  induction l with
  | nil =>
    intro acc
    exact Nat.le_add_right acc.length 0
  | cons y ys ih =>
    intro acc
    rw [List.foldl_cons]
    by_cases hy : y ∈ acc
    · rw [if_pos hy]
      have := ih acc
      rw [List.length_cons]
      omega
    · rw [if_neg hy]
      have := ih (acc ++ [y])
      rw [List.length_append] at this
      rw [List.length_cons]
      have h1 : ([y] : List Nat).length = 1 := rfl
      rw [h1] at this
      omega

theorem delta_length_le_one {a : Automaton}
    (hnd : (a.edges.map (fun e => (e.src, e.sym))).Nodup) (x : Nat) (c : Char) :
    (a.delta x c).length ≤ 1 := by
  unfold Automaton.delta
  by_cases hc : c ∈ a.alphabet
  · rw [if_pos hc]
    have hfl : (a.edges.filter (fun e => e.src == x && e.sym == c)).length ≤ 1 := by
      apply filter_length_le_one (fun e => (e.src, e.sym)) hnd _ (x, c)
      intro e hp
      simp only [Bool.and_eq_true, beq_iff_eq] at hp
      rw [hp.1, hp.2]
    have h2 := foldl_dedup_length
      ((a.edges.filter (fun e => e.src == x && e.sym == c)).map (fun e => e.dst)) []
    rw [List.length_map, List.length_nil] at h2
    omega
  · rw [if_neg hc]
    exact Nat.zero_le 1

theorem delta_singleton {a : Automaton}
    (hnd : (a.edges.map (fun e => (e.src, e.sym))).Nodup) {i : Nat} {c : Char}
    (hc : c ∈ a.alphabet) {e : EdgeR} (he : e ∈ a.edges) (h1 : e.src = i)
    (h2 : e.sym = c) : a.delta i c = [e.dst] := by
  unfold Automaton.delta
  rw [if_pos hc]
  have hfil : a.edges.filter (fun e2 => e2.src == i && e2.sym == c) = [e] := by
    apply eq_singleton_of_length_le
    · apply filter_length_le_one (fun e2 => (e2.src, e2.sym)) hnd _ (i, c)
      intro e2 hp
      simp only [Bool.and_eq_true, beq_iff_eq] at hp
      rw [hp.1, hp.2]
    · apply List.mem_filter.mpr
      refine ⟨he, ?_⟩
      rw [h1, h2]
      simp
  rw [hfil]
  show (if e.dst ∈ ([] : List Nat) then ([] : List Nat) else [] ++ [e.dst]) = [e.dst]
  rw [if_neg (List.not_mem_nil e.dst)]
  exact rfl

theorem deltaStar_cons (a : Automaton) (S : List Nat) (c : Char) (w : List Char) :
    a.deltaStar S (c :: w) = a.deltaStar (a.stepSet S c) w := by
  show (if (a.stepSet S c).isEmpty then [] else a.deltaStar (a.stepSet S c) w) = _
  rcases hs : a.stepSet S c with _ | ⟨y, ys⟩
  · exact (deltaStar_nil a w).symm
  · exact rfl

theorem stepSet_congr {a : Automaton} {S S2 : List Nat} (h : ∀ x, x ∈ S ↔ x ∈ S2)
    (c : Char) : ∀ y, y ∈ a.stepSet S c ↔ y ∈ a.stepSet S2 c := by
  intro y
  rw [mem_stepSet_iff, mem_stepSet_iff]
  constructor
  · rintro ⟨x, hx, hy⟩
    exact ⟨x, (h x).mp hx, hy⟩
  · rintro ⟨x, hx, hy⟩
    exact ⟨x, (h x).mpr hx, hy⟩

theorem deltaStar_congr (a : Automaton) : ∀ (w : List Char) {S S2 : List Nat},
    (∀ x, x ∈ S ↔ x ∈ S2) → ∀ y, y ∈ a.deltaStar S w ↔ y ∈ a.deltaStar S2 w := by
  intro w
  induction w with
  | nil =>
    intro S S2 h y
    exact h y
  | cons c rest ih =>
    intro S S2 h y
    rw [deltaStar_cons, deltaStar_cons]
    exact ih (stepSet_congr h c) y

/-- Any automaton satisfying the loop invariant is deterministic. -/
theorem det_of_core {nfa d : Automaton} {tags2 : List (Nat × List Nat)}
    {S0 : List Nat} {L2 : List (List Nat)} (hcore : DetCore nfa S0 d tags2 L2) :
    d.isDeterministic = true := by
  obtain ⟨_, hstates, _, _, _, _, hhead, _, hend, _⟩ := hcore
  have hne : L2 ≠ [] := by
    intro h
    rw [h] at hhead
    cases hhead
  have hst : d.startIds = [0] := dfaStates_startIds hstates hne
  unfold Automaton.isDeterministic
  rw [Bool.and_eq_true]
  refine ⟨?_, ?_⟩
  · rw [hst]
    exact rfl
  · rw [List.all_eq_true]
    intro c _
    rw [List.all_eq_true]
    intro s _
    exact decide_eq_true (delta_length_le_one hend s.id c)

/-- The DFA run from a table state tracks the NFA subset in its tag. -/
theorem dfa_run {nfa d : Automaton} {tags2 : List (Nat × List Nat)} {S0 : List Nat}
    {L2 : List (List Nat)} (hcore : DetCore nfa S0 d tags2 L2)
    (hcomp : ∀ i, i < L2.length → ∀ c ∈ nfa.alphabet, ∃ e ∈ d.edges, e.src = i ∧ e.sym = c) :
    ∀ (w : List Char), (∀ c ∈ w, c ∈ nfa.alphabet) →
      ∀ (i : Nat) (T : List Nat), L2[i]? = some T →
      ∃ j Tj, j < L2.length ∧ L2[j]? = some Tj ∧ d.deltaStar [i] w = [j] ∧
        (∀ x, x ∈ Tj ↔ x ∈ nfa.deltaStar T w) := by
  have hcore2 := hcore
  obtain ⟨_, _, _, _, halpha, _, _, _, hend, hepost⟩ := hcore2
  intro w
  induction w with
  | nil =>
    intro _ i T hT
    exact ⟨i, T, getElem?_lt hT, hT, rfl, fun x => Iff.rfl⟩
  | cons c w ih =>
    intro hw i T hT
    have hilt : i < L2.length := getElem?_lt hT
    have hc : c ∈ nfa.alphabet := hw c (List.mem_cons_self c w)
    obtain ⟨e, he, hsrc, hsym⟩ := hcomp i hilt c hc
    have hcd : c ∈ d.alphabet := by
      rw [halpha]
      exact hc
    have hdelta : d.delta i c = [e.dst] := delta_singleton hend hcd he hsrc hsym
    have hss : d.stepSet [i] c = [e.dst] := by
      show (d.delta i c).foldl Automaton.addUnique [] = [e.dst]
      rw [hdelta]
      show (if e.dst ∈ ([] : List Nat) then ([] : List Nat) else [] ++ [e.dst]) = [e.dst]
      rw [if_neg (List.not_mem_nil e.dst)]
      exact rfl
    obtain ⟨_, _, hdstlt, htag⟩ := hepost e he
    obtain ⟨Td, hTd⟩ : ∃ Td, L2[e.dst]? = some Td := ⟨_, List.getElem?_eq_getElem hdstlt⟩
    obtain ⟨j, Tj, hjlt, hTj, hrun, hiff⟩ :=
      ih (fun c2 hc2 => hw c2 (List.mem_cons_of_mem c hc2)) e.dst Td hTd
    refine ⟨j, Tj, hjlt, hTj, ?_, ?_⟩
    · rw [deltaStar_cons, hss]
      exact hrun
    · intro x
      rw [deltaStar_cons]
      have h1 := hiff x
      have h2 : ∀ y, y ∈ Td ↔ y ∈ nfa.stepSet T c := by
        intro y
        have h3 := htag y
        rw [tagL_eq hTd, hsrc, tagL_eq hT, hsym, deltaStar_single] at h3
        exact h3
      rw [h1]
      exact deltaStar_congr nfa w h2 x

/-- The loop's DFA accepts exactly the NFA language (over the alphabet). -/
theorem det_accepts {nfa d : Automaton} {tags2 : List (Nat × List Nat)}
    {L2 : List (List Nat)} (hcore : DetCore nfa nfa.startIds d tags2 L2)
    (hcomp : ∀ i, i < L2.length → ∀ c ∈ nfa.alphabet, ∃ e ∈ d.edges, e.src = i ∧ e.sym = c)
    (w : List Char) (hw : ∀ c ∈ w, c ∈ nfa.alphabet) :
    d.accepts w = nfa.accepts w := by
  have hcore2 := hcore
  obtain ⟨_, hstates, _, _, _, _, hhead, _, _, _⟩ := hcore2
  have hne : L2 ≠ [] := by
    intro h
    rw [h] at hhead
    cases hhead
  have hT0 : L2[0]? = some nfa.startIds := by
    rcases L2 with _ | ⟨T0, Lr⟩
    · exact absurd rfl hne
    · have hh : T0 = nfa.startIds := Option.some.inj hhead
      rw [List.getElem?_cons_zero, hh]
  obtain ⟨j, Tj, hjlt, hTj, hrun, hiff⟩ :=
    dfa_run hcore hcomp w hw 0 nfa.startIds hT0
  have hst : d.startIds = [0] := dfaStates_startIds hstates hne
  have hie : d.isEmpty = false := by
    unfold Automaton.isEmpty
    rw [hstates]
    rcases L2 with _ | ⟨T0, Lr⟩
    · exact absurd rfl hne
    · exact rfl
  have hda : d.accepts w = d.isFinalId j := by
    unfold Automaton.accepts
    rw [hie, hst, hrun]
    show [j].any (fun id => d.isFinalId id) = d.isFinalId j
    exact Bool.or_false _
  have hfin : d.isFinalId j = Tj.any (fun i => nfa.isFinalId i) := by
    have hfind := dfaStates_find? nfa L2 0 j Tj hTj
    rw [Nat.zero_add] at hfind
    unfold Automaton.isFinalId Automaton.getSt
    rw [hstates, hfind]
    exact rfl
  rcases hemp : nfa.isEmpty with _ | _
  · have hna : nfa.accepts w =
        (nfa.deltaStar nfa.startIds w).any (fun id => nfa.isFinalId id) := by
      unfold Automaton.accepts
      rw [hemp]
      exact rfl
    rw [hda, hfin, hna]
    apply bool_eq_of_iff
    rw [List.any_eq_true, List.any_eq_true]
    constructor
    · rintro ⟨x, hx, hpx⟩
      exact ⟨x, (hiff x).mp hx, hpx⟩
    · rintro ⟨x, hx, hpx⟩
      exact ⟨x, (hiff x).mpr hx, hpx⟩
  · have hna : nfa.accepts w = false := by
      unfold Automaton.accepts
      rw [hemp]
      exact rfl
    have hnf : ∀ x, nfa.isFinalId x = false := by
      intro x
      have hse : nfa.states = [] := by
        rcases hs2 : nfa.states with _ | ⟨s, ss⟩
        · rfl
        · exfalso
          have hf : nfa.isEmpty = false := by
            unfold Automaton.isEmpty
            rw [hs2]
            exact rfl
          rw [hemp] at hf
          exact Bool.noConfusion hf
      unfold Automaton.isFinalId Automaton.getSt
      rw [hse]
      exact rfl
    rw [hda, hfin, hna]
    rcases hany : Tj.any (fun i => nfa.isFinalId i) with _ | _
    · rfl
    · exfalso
      rcases List.any_eq_true.mp hany with ⟨x, _, hpx⟩
      rw [hnf x] at hpx
      exact Bool.noConfusion hpx

/-- The invariant holds on entry to the subset-construction loop. -/
theorem detInit_core {nfa : Automaton} (hok : NfaOk nfa) :
    DetCore nfa nfa.startIds
      ((mkAutomaton (nfa.name ++ dfaSuffix) nfa.alphabet).addState
        (canonName nfa nfa.startIds) true
        (nfa.startIds.any (fun i => nfa.isFinalId i)) false).2
      [(((mkAutomaton (nfa.name ++ dfaSuffix) nfa.alphabet).addState
        (canonName nfa nfa.startIds) true
        (nfa.startIds.any (fun i => nfa.isFinalId i)) false).1, nfa.startIds)]
      [nfa.startIds] := by
  refine ⟨rfl, rfl, rfl, rfl, rfl, List.nodup_singleton _, rfl, ?_, List.nodup_nil, ?_⟩
  · intro S hS
    rw [List.mem_singleton] at hS
    rw [hS]
    exact ⟨startIds_nodup hok.ids_nodup, startIds_valid nfa⟩
  · intro e he
    cases he

theorem detInit_todo {nfa : Automaton} {dfa : Automaton} (hedges : dfa.edges = []) :
    DetTodo nfa dfa [nfa.startIds] [0] [] := by
  refine ⟨List.nodup_singleton 0, ?_, ?_, ?_⟩
  · intro i hi
    rw [List.mem_singleton] at hi
    rw [hi]
    exact Nat.one_pos
  · intro e he
    rw [hedges] at he
    cases he
  · intro i hi hni _ c _
    exfalso
    apply hni
    have h1 : i < 1 := hi
    have h0 : i = 0 := by omega
    rw [h0]
    exact List.mem_singleton.mpr rfl

/-- Running the subset construction with fuel `2 ^ |states| + 1` from the
initial start-set state terminates in a deterministic automaton with the
same language over the alphabet. -/
theorem makeDet_loop_result {nfa : Automaton} (hok : NfaOk nfa) :
    ∃ d, detLoop nfa (2 ^ nfa.states.length + 1)
        ((mkAutomaton (nfa.name ++ dfaSuffix) nfa.alphabet).addState
          (canonName nfa nfa.startIds) true
          (nfa.startIds.any (fun i => nfa.isFinalId i)) false).2
        [(((mkAutomaton (nfa.name ++ dfaSuffix) nfa.alphabet).addState
          (canonName nfa nfa.startIds) true
          (nfa.startIds.any (fun i => nfa.isFinalId i)) false).1, nfa.startIds)]
        [((mkAutomaton (nfa.name ++ dfaSuffix) nfa.alphabet).addState
          (canonName nfa nfa.startIds) true
          (nfa.startIds.any (fun i => nfa.isFinalId i)) false).1] = some d ∧
      d.isDeterministic = true ∧
      ∀ w, (∀ c ∈ w, c ∈ nfa.alphabet) → d.accepts w = nfa.accepts w := by
  have htodo : DetTodo nfa
      ((mkAutomaton (nfa.name ++ dfaSuffix) nfa.alphabet).addState
        (canonName nfa nfa.startIds) true
        (nfa.startIds.any (fun i => nfa.isFinalId i)) false).2
      [nfa.startIds] [0] [] := detInit_todo rfl
  have hfuel : ([0] : List Nat).length +
      (2 ^ nfa.states.length + 1 - ([nfa.startIds] : List (List Nat)).length) ≤
      2 ^ nfa.states.length + 1 := by
    show 1 + (2 ^ nfa.states.length + 1 - 1) ≤ 2 ^ nfa.states.length + 1
    have h2n : 0 < 2 ^ nfa.states.length := Nat.two_pow_pos nfa.states.length
    omega
  obtain ⟨d, heq, tags2, L2, hcore2, _, hcomp⟩ :=
    detLoop_post hok (2 ^ nfa.states.length + 1) _ _ [0] [nfa.startIds]
      (detInit_core hok) htodo hfuel
  exact ⟨d, heq, det_of_core hcore2, fun w hw => det_accepts hcore2 hcomp w hw⟩

theorem makeDeterministic_empty {a : Automaton} (h : a.isEmpty = true) :
    makeDeterministic a = some (reduceOf a) := by
  unfold makeDeterministic
  rw [if_pos h]

theorem makeDeterministic_det_branch {a : Automaton} (h1 : a.isEmpty = false)
    (h2 : (renameStatesA (reduceOf a)).isDeterministic = true) :
    makeDeterministic a = some (renameStatesA (reduceOf a)) := by
  unfold makeDeterministic
  rw [if_neg (by rw [h1]; exact Bool.false_ne_true)]
  dsimp only
  rw [if_pos h2]

theorem makeDeterministic_loop {a : Automaton} (h1 : a.isEmpty = false)
    (h2 : (renameStatesA (reduceOf a)).isDeterministic = false) :
    makeDeterministic a =
      detLoop (renameStatesA (reduceOf a))
        (2 ^ (renameStatesA (reduceOf a)).states.length + 1)
        ((mkAutomaton ((renameStatesA (reduceOf a)).name ++ dfaSuffix)
            (renameStatesA (reduceOf a)).alphabet).addState
          (canonName (renameStatesA (reduceOf a)) (renameStatesA (reduceOf a)).startIds)
          true ((renameStatesA (reduceOf a)).startIds.any
            (fun i => (renameStatesA (reduceOf a)).isFinalId i)) false).2
        [(((mkAutomaton ((renameStatesA (reduceOf a)).name ++ dfaSuffix)
            (renameStatesA (reduceOf a)).alphabet).addState
          (canonName (renameStatesA (reduceOf a)) (renameStatesA (reduceOf a)).startIds)
          true ((renameStatesA (reduceOf a)).startIds.any
            (fun i => (renameStatesA (reduceOf a)).isFinalId i)) false).1,
          (renameStatesA (reduceOf a)).startIds)]
        [((mkAutomaton ((renameStatesA (reduceOf a)).name ++ dfaSuffix)
            (renameStatesA (reduceOf a)).alphabet).addState
          (canonName (renameStatesA (reduceOf a)) (renameStatesA (reduceOf a)).startIds)
          true ((renameStatesA (reduceOf a)).startIds.any
            (fun i => (renameStatesA (reduceOf a)).isFinalId i)) false).1] := by
  unfold makeDeterministic
  rw [if_neg (by rw [h1]; exact Bool.false_ne_true)]
  dsimp only
  rw [if_neg (by rw [h2]; exact Bool.false_ne_true)]

theorem reduceOf_empty_eq {a : Automaton}
    (hcond : (a.states.isEmpty || a.startIds.isEmpty || a.finalIds.isEmpty) = true) :
    reduceOf a = mkAutomaton (reducedOfName ++ a.name) a.alphabet := by
  unfold reduceOf
  rw [hcond]
  exact rfl

theorem reduceOf_ids_nodup {a : Automaton} (wf : WF a)
    (hne : ∀ s ∈ a.states, s.name ≠ []) :
    ((reduceOf a).states.map StateR.id).Nodup := by
  rcases hcond : (a.states.isEmpty || a.startIds.isEmpty || a.finalIds.isEmpty) with _ | _
  · rw [(reduceOf_struct wf hne hcond).2.1]
    exact buildStates_ids_nodup (kTriples a) 0
  · rw [reduceOf_empty_eq hcond]
    exact List.nodup_nil

theorem kidOf_lt {a : Automaton} {x : Nat} (hx : x ∈ (keptOf a).map StateR.id) :
    kidOf a x < (kTriples a).length := by
  unfold kidOf
  have h1 := posOf_lt hx
  rw [List.length_map] at h1
  rw [kTriples, List.length_map]
  exact h1

theorem kidOf_mem_red {a : Automaton} (wf : WF a) (hne : ∀ s ∈ a.states, s.name ≠ [])
    (hcond : (a.states.isEmpty || a.startIds.isEmpty || a.finalIds.isEmpty) = false)
    {x : Nat} (hx : x ∈ (keptOf a).map StateR.id) :
    kidOf a x ∈ (reduceOf a).states.map StateR.id := by
  rw [(reduceOf_struct wf hne hcond).2.1]
  have hm := mem_buildStates_id (kTriples a) 0 (kidOf a x) (kidOf_lt hx)
  rw [Nat.zero_add] at hm
  exact hm

theorem reduceOf_edge_valid {a : Automaton} (wf : WF a)
    (hne : ∀ s ∈ a.states, s.name ≠ []) :
    ∀ e2 ∈ (reduceOf a).edges, e2.sym ∈ (reduceOf a).alphabet ∧
      e2.src ∈ (reduceOf a).states.map StateR.id ∧
      e2.dst ∈ (reduceOf a).states.map StateR.id := by
  rcases hcond : (a.states.isEmpty || a.startIds.isEmpty || a.finalIds.isEmpty) with _ | _
  · intro e2 he2
    obtain ⟨halpha, hstates, hmap, hiff⟩ := reduceOf_struct wf hne hcond
    obtain ⟨e, he, hkeep, hsrc, hdst, hsym⟩ :=
      (hiff e2.src e2.dst e2.sym).mp ⟨e2, he2, rfl, rfl, rfl⟩
    obtain ⟨ss, hssk, hssid, sd, hsdk, hsdid⟩ := (keepEd_iff_kept wf he).mp hkeep
    refine ⟨?_, ?_, ?_⟩
    · rw [halpha, hsym]
      exact (wf.edges_valid e he).1
    · rw [hsrc, ← hssid]
      exact kidOf_mem_red wf hne hcond (List.mem_map_of_mem StateR.id hssk)
    · rw [hdst, ← hsdid]
      exact kidOf_mem_red wf hne hcond (List.mem_map_of_mem StateR.id hsdk)
  · intro e2 he2
    rw [reduceOf_empty_eq hcond] at he2
    cases he2

theorem renameStatesA_names_nodup {b : Automaton}
    (hnodup : (b.states.map StateR.id).Nodup) :
    ((renameStatesA b).states.map StateR.name).Nodup := by
  rw [(renameStatesA_struct hnodup).1, List.map_map]
  have hcomp : (StateR.name ∘ fun (s : StateR) =>
      ({ s with name := toDec (posOf (b.states.map StateR.id) s.id) } : StateR)) =
      fun (s : StateR) => toDec (posOf (b.states.map StateR.id) s.id) := rfl
  rw [hcomp]
  have h2 : b.states.map (fun s => toDec (posOf (b.states.map StateR.id) s.id)) =
      (b.states.map StateR.id).map (fun x => toDec (posOf (b.states.map StateR.id) x)) := by
    rw [List.map_map]
    rfl
  rw [h2]
  apply List.Nodup.map_on ?_ hnodup
  intro x hx y hy hxy
  exact posOf_inj hx hy (toDec_inj hxy)

theorem pipeline_alphabet {a : Automaton} (wf : WF a)
    (hne : ∀ s ∈ a.states, s.name ≠ []) :
    (renameStatesA (reduceOf a)).alphabet = a.alphabet := by
  rw [(renameStatesA_struct (reduceOf_ids_nodup wf hne)).2.1]
  rcases hcond : (a.states.isEmpty || a.startIds.isEmpty || a.finalIds.isEmpty) with _ | _
  · exact (reduceOf_struct wf hne hcond).1
  · rw [reduceOf_empty_eq hcond]
    exact rfl

/-- The automaton handed to the subset construction satisfies everything
the loop proof needs. -/
theorem pipeline_ok {a : Automaton} (wf : WF a) (hne : ∀ s ∈ a.states, s.name ≠ [])
    (hand : a.alphabet.Nodup) : NfaOk (renameStatesA (reduceOf a)) := by
  have hrid : ((reduceOf a).states.map StateR.id).Nodup := reduceOf_ids_nodup wf hne
  obtain ⟨c1, c2, c3⟩ := renameStatesA_struct hrid
  have hfn : (StateR.id ∘ fun (s : StateR) =>
      ({ s with name := toDec (posOf ((reduceOf a).states.map StateR.id) s.id) } : StateR)) =
      StateR.id := rfl
  have hids : ((renameStatesA (reduceOf a)).states.map StateR.id) =
      (reduceOf a).states.map StateR.id := by
    rw [c1, List.map_map, hfn]
  refine ⟨?_, ?_, ?_, ?_, ?_⟩
  · rw [hids]
    exact hrid
  · exact renameStatesA_names_nodup hrid
  · intro e he
    rw [c3] at he
    rw [c2, hids]
    exact reduceOf_edge_valid wf hne e he
  · intro s2 hs2
    rw [c1] at hs2
    rcases List.mem_map.mp hs2 with ⟨s, _, hseq⟩
    rw [← hseq]
    exact ⟨comma_not_mem_toDec _, toDec_ne_nil _⟩
  · rw [pipeline_alphabet wf hne]
    exact hand

/-- `makeDeterministic()` (total on clean well-formed automata) preserves
the language over the input alphabet. -/
theorem makeDeterministic_accepts {a : Automaton} (wf : WF a) (hclean : Clean a)
    (hne : ∀ s ∈ a.states, s.name ≠ []) (hand : a.alphabet.Nodup)
    (w : List Char) (hw : ∀ c ∈ w, c ∈ a.alphabet) :
    ∃ d, makeDeterministic a = some d ∧ d.accepts w = a.accepts w := by
  rcases hemp : a.isEmpty with _ | _
  · have hrid : ((reduceOf a).states.map StateR.id).Nodup := reduceOf_ids_nodup wf hne
    have hacc : (renameStatesA (reduceOf a)).accepts w = a.accepts w := by
      rw [renameStatesA_accepts hrid w, reduce_accepts wf hne hclean w]
    rcases hdet : (renameStatesA (reduceOf a)).isDeterministic with _ | _
    · have hok := pipeline_ok wf hne hand
      obtain ⟨d, heq, _, haccd⟩ := makeDet_loop_result hok
      refine ⟨d, ?_, ?_⟩
      · rw [makeDeterministic_loop hemp hdet]
        exact heq
      · rw [haccd w ?_, hacc]
        intro c hc
        rw [pipeline_alphabet wf hne]
        exact hw c hc
    · exact ⟨_, makeDeterministic_det_branch hemp hdet, hacc⟩
  · refine ⟨reduceOf a, makeDeterministic_empty hemp, ?_⟩
    exact reduce_accepts wf hne hclean w

/-- On a nonempty clean input, `makeDeterministic()` returns a
deterministic automaton. -/
theorem makeDeterministic_isDet {a : Automaton} (wf : WF a)
    (hne : ∀ s ∈ a.states, s.name ≠ []) (hand : a.alphabet.Nodup)
    (hemp : a.isEmpty = false) :
    ∃ d, makeDeterministic a = some d ∧ d.isDeterministic = true := by
  rcases hdet : (renameStatesA (reduceOf a)).isDeterministic with _ | _
  · have hok := pipeline_ok wf hne hand
    obtain ⟨d, heq, hdet2, _⟩ := makeDet_loop_result hok
    refine ⟨d, ?_, hdet2⟩
    rw [makeDeterministic_loop hemp hdet]
    exact heq
  · exact ⟨_, makeDeterministic_det_branch hemp hdet, hdet⟩

/-- The empty automaton over `ab`. -/
def aEmpty : Automaton := mkAutomaton ['E'] ['a', 'b']

/-- A three-state chain `s -a-> m -a-> f` whose middle state carries a
stale traversal mark, as left behind by a previous in-place traversal of
the same object. -/
def aDirty : Automaton :=
  let a := mkAutomaton ['A'] ['a', 'b']
  let p1 := a.addState ['s'] true false false
  let p2 := p1.2.addState ['m'] false false false
  let p3 := p2.2.addState ['f'] false true false
  ((p3.2.addEdge p1.1 p2.1 'a').addEdge p2.1 p3.1 'a').setMarked p2.1 true

/-- The same chain without the stale mark. -/
def aChain : Automaton :=
  let a := mkAutomaton ['A'] ['a', 'b']
  let p1 := a.addState ['s'] true false false
  let p2 := p1.2.addState ['m'] false false false
  let p3 := p2.2.addState ['f'] false true false
  (p3.2.addEdge p1.1 p2.1 'a').addEdge p2.1 p3.1 'a'

/-- C1, counterexample to the claim as stated: on an automaton carrying a
stale traversal mark, `makeDeterministic` (through `reduce`'s depth-first
reachability, which trusts the existing marks) drops the still-reachable
final state, so the word `aa` of the input language is no longer
accepted. -/
theorem makeDeterministic_preserves_cex :
    aDirty.accepts ['a', 'a'] = true ∧
    (∀ c ∈ (['a', 'a'] : List Char), c ∈ aDirty.alphabet) ∧
    (makeDeterministic aDirty).map (fun d => d.accepts ['a', 'a']) = some false := by
  decide

/-- C1 (amended): on a well-formed automaton with cleared traversal
marks, nonempty state names and a duplicate-free alphabet,
`makeDeterministic` succeeds and preserves acceptance of every word over
the alphabet. -/
theorem makeDeterministic_preserves {a : Automaton} (wf : WF a) (hclean : Clean a)
    (hne : ∀ s ∈ a.states, s.name ≠ []) (hand : a.alphabet.Nodup)
    (w : List Char) (hw : ∀ c ∈ w, c ∈ a.alphabet) :
    ∃ d, makeDeterministic a = some d ∧ d.accepts w = a.accepts w :=
  makeDeterministic_accepts wf hclean hne hand w hw

theorem makeDeterministic_preserves_witness :
    ∃ d, makeDeterministic aChain = some d ∧
      d.accepts ['a', 'a'] = aChain.accepts ['a', 'a'] :=
  makeDeterministic_preserves
    ⟨by decide, by decide, by decide, by decide, by decide, by decide, by decide⟩
    (show ∀ s ∈ aChain.states, s.marked = false by decide)
    (by decide) (by decide) ['a', 'a'] (by decide)

/-- C4, counterexample to the claim as stated: on the empty automaton
`makeDeterministic` returns `reduce()`'s empty copy, which has no start
state at all and therefore fails the exactly-one-start-state half of
`isDeterministic`. -/
theorem makeDeterministic_deterministic_cex :
    (makeDeterministic aEmpty).map (fun d => d.isDeterministic) = some false := by
  decide

/-- C4 (amended): on a well-formed automaton with at least one state,
nonempty state names and a duplicate-free alphabet, `makeDeterministic`
returns a deterministic automaton: exactly one start state and at most
one successor per state and symbol. -/
theorem makeDeterministic_deterministic {a : Automaton} (wf : WF a)
    (hne : ∀ s ∈ a.states, s.name ≠ []) (hand : a.alphabet.Nodup)
    (hemp : a.isEmpty = false) :
    ∃ d, makeDeterministic a = some d ∧ d.isDeterministic = true :=
  makeDeterministic_isDet wf hne hand hemp

theorem makeDeterministic_deterministic_witness :
    ∃ d, makeDeterministic aChain = some d ∧ d.isDeterministic = true :=
  makeDeterministic_deterministic
    ⟨by decide, by decide, by decide, by decide, by decide, by decide, by decide⟩
    (by decide) (by decide) (by decide)

end TCS
